import Mathlib

/-!
# RemoteDoc (racer) and livedb-mongo: mutation-to-operation translation

A shallow embedding of `racer/lib/Model/RemoteDoc.js` and of the snapshot
casts of `livedb-mongo/mongo.js`, with the properties stated about them.

JavaScript values are modelled by `JVal`. Numbers are the integers, with the
arithmetic and the decimal text of the integers: these are `+`, `-`, `<` and
`String` of JavaScript on safe integers (size below `2^53`, `isSafeInteger`);
beyond these a JavaScript number rounds, which the integers do not show.
Property access is restricted to own data properties (members of a mapping,
elements of an array): a mapping is given by its own members, the prototype
of an object is not represented, and an assignment under the name `__proto__`
makes no member (`setMember`).
-/

namespace JS

/-- JavaScript values as they occur in snapshots, ops and return values.
A mapping is a list of members in insertion order. -/
inductive JVal where
  | undef : JVal
  | null : JVal
  | bool (b : Bool) : JVal
  | num (n : Int) : JVal
  | str (s : String) : JVal
  | arr (xs : List JVal) : JVal
  | obj (kvs : List (String × JVal)) : JVal

namespace JVal

mutual
/-- Structural equality test on values. -/
def beq : JVal → JVal → Bool
  | undef, undef => true
  | null, null => true
  | bool a, bool b => a == b
  | num a, num b => a == b
  | str a, str b => a == b
  | arr xs, arr ys => beqList xs ys
  | obj xs, obj ys => beqKvs xs ys
  | _, _ => false
/-- Structural equality test on lists of values. -/
def beqList : List JVal → List JVal → Bool
  | [], [] => true
  | x :: xs, y :: ys => beq x y && beqList xs ys
  | _, _ => false
/-- Structural equality test on member lists. -/
def beqKvs : List (String × JVal) → List (String × JVal) → Bool
  | [], [] => true
  | (k, x) :: xs, (l, y) :: ys => k == l && beq x y && beqKvs xs ys
  | _, _ => false
end

mutual
theorem beq_iff : ∀ a b : JVal, beq a b = true ↔ a = b
  | undef, b => by cases b <;> simp [beq]
  | null, b => by cases b <;> simp [beq]
  | bool a, b => by cases b <;> simp [beq]
  | num a, b => by cases b <;> simp [beq]
  | str a, b => by cases b <;> simp [beq]
  | arr xs, b => by cases b <;> simp [beq, beqList_iff xs]
  | obj xs, b => by cases b <;> simp [beq, beqKvs_iff xs]
theorem beqList_iff : ∀ a b : List JVal, beqList a b = true ↔ a = b
  | [], b => by cases b <;> simp [beqList]
  | x :: xs, b => by cases b <;> simp [beqList, beq_iff x, beqList_iff xs]
theorem beqKvs_iff : ∀ a b : List (String × JVal), beqKvs a b = true ↔ a = b
  | [], b => by cases b <;> simp [beqKvs]
  | (k, x) :: xs, b => by
    cases b with
    | nil => simp [beqKvs]
    | cons hd tl =>
      obtain ⟨l, y⟩ := hd
      simp [beqKvs, beq_iff x, beqKvs_iff xs, and_assoc]
end

instance : DecidableEq JVal := fun a b =>
  if h : beq a b = true then isTrue ((beq_iff a b).1 h)
  else isFalse (fun e => h ((beq_iff a b).2 e))

instance : Inhabited JVal := ⟨undef⟩

end JVal

open JVal

/-- JavaScript truthiness: `!v` is its negation. -/
def truthy : JVal → Bool
  | .undef => false
  | .null => false
  | .bool b => b
  | .num n => n != 0
  | .str s => s != ""
  | .arr _ => true
  | .obj _ => true

/-- The test `v == null`, true of `null` and `undefined` only. -/
def isNullish : JVal → Bool
  | .undef => true
  | .null => true
  | _ => false

/-- The test `Array.isArray(v)`. -/
def isArray : JVal → Bool
  | .arr _ => true
  | _ => false

/-- The coercion `(v === void 0) ? null : v`. -/
def nullIfUndef : JVal → JVal
  | .undef => .null
  | v => v

/-- A path segment: a property name or a number. A segment that is a decimal
numeral is a number: `idx`, whether the caller wrote it as `0` or as `'0'`. -/
inductive Segment where
  | key (s : String) : Segment
  | idx (n : Int) : Segment
deriving DecidableEq

abbrev Path := List Segment

/-- The property name a segment denotes. -/
def Segment.name : Segment → String
  | .key s => s
  | .idx n => toString n

/-- Member lookup in a mapping; `undefined` when there is no such member. -/
def assocGet : List (String × JVal) → String → JVal
  | [], _ => undef
  | (k, v) :: rest, name => if k = name then v else assocGet rest name

/-- Member assignment in a mapping: an existing member keeps its place, a new
one goes last. -/
def assocSet : List (String × JVal) → String → JVal → List (String × JVal)
  | [], name, v => [(name, v)]
  | (k, w) :: rest, name, v =>
    if k = name then (k, v) :: rest else (k, w) :: assocSet rest name v

/-- Member removal from a mapping (`delete o[name]`). -/
def assocDel (kvs : List (String × JVal)) (name : String) : List (String × JVal) :=
  kvs.filter fun kv => kv.1 ≠ name

/-- The statement `delete v[name]`; only a mapping has members to delete. -/
def deleteProp : JVal → String → JVal
  | .obj kvs, name => .obj (assocDel kvs name)
  | v, _ => v

/-- Property read `v[s]`, restricted to own data properties: the members of a
mapping and the elements of an array. Everything else reads as `undefined`. -/
def getProp : JVal → Segment → JVal
  | .obj kvs, s => assocGet kvs s.name
  | .arr xs, .idx n => if 0 ≤ n then (xs[n.toNat]?).getD undef else undef
  | _, _ => undef

/-- Property write `c[s] = v` on a mapping or on an array element; writing past
the end of an array leaves holes, which read as `undefined`. -/
def setProp : JVal → Segment → JVal → JVal
  | .obj kvs, s, v => obj (assocSet kvs s.name v)
  | .arr xs, .idx n, v =>
    if 0 ≤ n then
      if n.toNat < xs.length then arr (xs.set n.toNat v)
      else arr (xs ++ List.replicate (n.toNat - xs.length) undef ++ [v])
    else arr xs
  | c, _, _ => c

/-- JavaScript `slice(b, e)` on a sequence, negative arguments counting from
the end. -/
def jsSlice {α : Type} (xs : List α) (b e : Int) : List α :=
  let len : Int := xs.length
  let k : Int := if b < 0 then max (len + b) 0 else min b len
  let fin : Int := if e < 0 then max (len + e) 0 else min e len
  (xs.drop k.toNat).take (fin - k).toNat

/-- The names every plain object inherits from `Object.prototype`; a lookup
`table[key]` with one of these names finds the inherited member, which is
truthy. -/
def objectPrototypeNames : List String :=
  ["constructor", "toString", "toLocaleString", "valueOf", "hasOwnProperty",
   "isPrototypeOf", "propertyIsEnumerable", "__defineGetter__", "__defineSetter__",
   "__lookupGetter__", "__lookupSetter__", "__proto__"]

/-- Whether `table[key]` is truthy for a plain object used as a table whose
own members, all truthy, are `own`. -/
def tableHas (own : List String) (key : String) : Bool :=
  own.contains key || objectPrototypeNames.contains key

/-- What a call comes to: the value it returns, or an exception it throws. -/
inductive Outcome (α : Type) where
  | value (a : α) : Outcome α
  | threw (what : String) : Outcome α
deriving DecidableEq

/-- A value as a variable or a member of an object in the store holds it: a
value kept as data, whose identity plays no part, or a reference to an object
in the store, which an assignment to one of its members changes for every
holder of the reference. -/
inductive HVal where
  | data (v : JVal) : HVal
  | ref (address : Nat) : HVal
deriving DecidableEq

/-- An object in the store: a mapping, with its members in insertion order,
or an array. -/
inductive Cell where
  | mapping (members : List (String × HVal)) : Cell
  | array (elements : List HVal) : Cell
deriving DecidableEq

/-- The store of objects: the object at an address is the cell at that
position. -/
abbrev Heap := List Cell

/-- Member lookup among the members of a mapping in the store. -/
def memberGet : List (String × HVal) → String → HVal
  | [], _ => .data .undef
  | (k, v) :: rest, name => if k = name then v else memberGet rest name

/-- Member assignment among the members of a mapping in the store: an existing
member keeps its place, a new one goes last. -/
def memberSet : List (String × HVal) → String → HVal → List (String × HVal)
  | [], name, v => [(name, v)]
  | (k, w) :: rest, name, v =>
    if k = name then (k, v) :: rest else (k, w) :: memberSet rest name v

/-- Property read on an object in the store, as `getProp` reads a value. -/
def Cell.get : Cell → Segment → HVal
  | .mapping ms, s => memberGet ms s.name
  | .array xs, .idx n => if 0 ≤ n then (xs[n.toNat]?).getD (.data .undef) else .data .undef
  | .array _, .key _ => .data JVal.undef

/-- Property write on an object in the store, as `setProp` writes a value. -/
def Cell.set : Cell → Segment → HVal → Cell
  | .mapping ms, s, v => .mapping (memberSet ms s.name v)
  | .array xs, .idx n, v =>
    if 0 ≤ n then
      if n.toNat < xs.length then .array (xs.set n.toNat v)
      else .array (xs ++ List.replicate (n.toNat - xs.length) (.data .undef) ++ [v])
    else .array xs
  | .array xs, .key _, _ => .array xs

/-- The names a `for (key in object)` loop goes through on an object in the
store. -/
def Cell.keys : Cell → List Segment
  | .mapping ms => ms.map fun kv => .key kv.1
  | .array xs => (List.range xs.length).map fun i => .idx i

/-- A new object: it gets the next free address. -/
def Heap.alloc (h : Heap) (c : Cell) : Heap × Nat :=
  (h ++ [c], h.length)

/-- Property read `x[s]`. -/
def Heap.getProp (h : Heap) (x : HVal) (s : Segment) : HVal :=
  match x with
  | .data v => .data (JS.getProp v s)
  | .ref a =>
    match h[a]? with
    | some c => c.get s
    | none => .data JVal.undef

/-- Property write `o[s] = v` on the object at an address. -/
def Heap.setProp (h : Heap) (a : Nat) (s : Segment) (v : HVal) : Heap :=
  match h[a]? with
  | some c => h.set a (c.set s v)
  | none => h

/-- The names a `for (key in object)` loop goes through on the object at an
address. -/
def Heap.keys (h : Heap) (a : Nat) : List Segment :=
  match h[a]? with
  | some c => c.keys
  | none => []

/-- JavaScript truthiness; every object is truthy. -/
def HVal.truthy : HVal → Bool
  | .data v => JS.truthy v
  | .ref _ => true

/-- The test `x == null`. -/
def HVal.isNullish : HVal → Bool
  | .data v => JS.isNullish v
  | .ref _ => false

/-- The test `Array.isArray(x)`. -/
def Heap.isArray (h : Heap) (x : HVal) : Bool :=
  match x with
  | .data v => JS.isArray v
  | .ref a =>
    match h[a]? with
    | some (.array _) => true
    | _ => false

/-- The address a store value refers to, if it is a reference. -/
def HVal.address : HVal → Option Nat
  | .ref a => some a
  | .data _ => none

/-- The addresses the members of an object refer to. -/
def Cell.refs : Cell → List Nat
  | .mapping ms => ms.filterMap fun kv => kv.2.address
  | .array xs => xs.filterMap fun x => x.address

/-- Every reference held in the store is to an object of the store. -/
def Heap.Closed (h : Heap) : Prop :=
  ∀ c ∈ h, ∀ a ∈ c.refs, a < h.length

instance (h : Heap) : Decidable (Heap.Closed h) := by
  unfold Heap.Closed
  infer_instance

/-- The value a store value stands for, objects read out member by member to
the given depth. -/
def Heap.read (h : Heap) : Nat → HVal → JVal
  | _, .data v => v
  | 0, .ref _ => .undef
  | depth + 1, .ref a =>
    match h[a]? with
    | some (.mapping ms) => .obj (ms.map fun kv => (kv.1, Heap.read h depth kv.2))
    | some (.array xs) => .arr (xs.map fun x => Heap.read h depth x)
    | none => JVal.undef

/-- The test `Number.isSafeInteger(n)` on an integer. A JavaScript number
holds every integer of size below `2^53` exactly and prints it in decimal
digits, and a sum or difference of two such integers that is again of size
below `2^53` is exact; for greater sizes a number rounds (`2^53 + 1` is
`2^53`) and from `10^21` on it prints with an exponent, which the integers
here do not show. -/
def isSafeInteger (n : Int) : Bool :=
  decide (n.natAbs < 2 ^ 53)

end JS

set_option linter.dupNamespace false

namespace RemoteDoc

open JS JS.JVal

/-- Modelled from the spec: `util.isArrayIndex` is not part of the sources at
hand. A segment is an array index when it is numeric: a non-negative integer.
The argument is optional because the code also tests `segments[length - 1]`
of an empty path, which is `undefined`. -/
def isArrayIndex : Option Segment → Bool
  | some (.idx n) => decide (0 ≤ n)
  | _ => false

/-- Modelled from the spec: `util.castSegments` is not part of the sources at
hand. It turns numeric string segments into numbers; paths here hold their
numeric segments as numbers already, so it returns the path as it is. -/
def castSegments (segments : Path) : Path := segments

/-- Modelled from the spec: `util.lookup` is not part of the sources at hand.
It follows the segments from a value, stopping at the first `null` or
`undefined` it meets. -/
def lookup : Path → JVal → JVal
  | [], v => v
  | s :: rest, v => if isNullish v then v else lookup rest (getProp v s)

/-- Modelled from the spec: `util.copy` is not part of the sources at hand. A
copy of an immutable value is that value. -/
def copy (v : JVal) : JVal := v

/-- The segment an expression `segments[i]` or `lastSegment` stands for when
used as a property name or path element: `undefined` is the name
`'undefined'`. -/
def segOr : Option Segment → Segment
  | some s => s
  | none => .key "undefined"

/-- A component of a ShareJS json0 operation, tagged with the constructor
function of RemoteDoc.js that built it; the fields are those the constructor
sets. -/
inductive Op where
  | objectReplace (p : Path) (od oi : JVal)
  | objectInsert (p : Path) (oi : JVal)
  | objectDelete (p : Path) (od : JVal)
  | listReplace (p : Path) (ld li : JVal)
  | listInsert (p : Path) (li : JVal)
  | listRemove (p : Path) (ld : JVal)
  | listMove (p : Path) (lm : JVal)
  | stringInsert (p : Path) (si : JVal)
  | stringRemove (p : Path) (sd : JVal)
  | increment (p : Path) (na : JVal)
deriving DecidableEq

/-- The path `p` of a component. -/
def Op.p : Op → Path
  | .objectReplace p _ _ => p
  | .objectInsert p _ => p
  | .objectDelete p _ => p
  | .listReplace p _ _ => p
  | .listInsert p _ => p
  | .listRemove p _ => p
  | .listMove p _ => p
  | .stringInsert p _ => p
  | .stringRemove p _ => p
  | .increment p _ => p

/-- Whether a component is insert-class: an `ObjectInsert` or a
`ListInsert`. -/
def Op.isInsert : Op → Bool
  | .objectInsert _ _ => true
  | .listInsert _ _ => true
  | _ => false

def ObjectReplaceOp (segments : Path) (before after : JVal) : Op :=
  .objectReplace (castSegments segments) before (nullIfUndef after)

def ObjectInsertOp (segments : Path) (value : JVal) : Op :=
  .objectInsert (castSegments segments) (nullIfUndef value)

def ObjectDeleteOp (segments : Path) (value : JVal) : Op :=
  .objectDelete (castSegments segments) (nullIfUndef value)

def ListReplaceOp (segments : Path) (index : Segment) (before after : JVal) : Op :=
  .listReplace (castSegments (segments ++ [index])) before (nullIfUndef after)

def ListInsertOp (segments : Path) (index : Segment) (value : JVal) : Op :=
  .listInsert (castSegments (segments ++ [index])) (nullIfUndef value)

def ListRemoveOp (segments : Path) (index : Segment) (value : JVal) : Op :=
  .listRemove (castSegments (segments ++ [index])) (nullIfUndef value)

def ListMoveOp (segments : Path) (fromIdx : Segment) (toIdx : JVal) : Op :=
  .listMove (castSegments (segments ++ [fromIdx])) toIdx

def StringInsertOp (segments : Path) (index : Segment) (value : JVal) : Op :=
  .stringInsert (castSegments (segments ++ [index])) value

def StringRemoveOp (segments : Path) (index : Segment) (value : JVal) : Op :=
  .stringRemove (castSegments (segments ++ [index])) value

def IncrementOp (segments : Path) (byNumber : JVal) : Op :=
  .increment (castSegments segments) byNumber

/-- The op built by the inner function of `createInsertOp`'s loop:
`op.push(new ListInsertOp(segments, index++, values[i]))` for each value. -/
def createInsertLoop (segments : Path) : Int → List JVal → List Op
  | _, [] => []
  | index, v :: rest =>
    ListInsertOp segments (.idx index) v :: createInsertLoop segments (index + 1) rest

/-- The function `createInsertOp(segments, index, values)`. -/
def createInsertOp (segments : Path) (index : Int) (values : JVal) : List Op :=
  match values with
  | .arr vs => createInsertLoop segments index vs
  | v => [ListInsertOp segments (.idx index) v]

/-- The op built by `remove`: one `ListRemoveOp` at `index` per element of
`values = arr.slice(index, index + howMany)`. -/
def removeOps (segments : Path) (index : Int) (values : List JVal) : List Op :=
  values.map fun v => ListRemoveOp segments (.idx index) v

/-- The op built by `move`: `howMany` times the same `ListMoveOp`. -/
def moveOps (segments : Path) (fromIdx toIdx howMany : Int) : List Op :=
  List.replicate howMany.toNat
    (ListMoveOp segments
      (.idx (if fromIdx < toIdx then fromIdx else fromIdx + howMany - 1))
      (.num (if fromIdx < toIdx then toIdx + howMany - 1 else toIdx)))

/-- Modelled from the spec: the json0 type, which applies an op to the
snapshot, is not part of the sources at hand. A `ListInsert` puts its value at
the index that ends its path. -/
def listInsertAt (xs : List JVal) (i : Nat) (v : JVal) : List JVal :=
  xs.take i ++ v :: xs.drop i

/-- Modelled from the spec: the json0 type is not part of the sources at hand.
A `ListMove` removes the element at the index that ends its path and
re-inserts it at index `lm` of the shortened list. -/
def listMoveAt (xs : List JVal) (i j : Nat) : List JVal :=
  match xs[i]? with
  | none => xs
  | some e => listInsertAt (xs.eraseIdx i) j e

/-- Modelled from the spec: the json0 type is not part of the sources at hand.
One list component applied to the array it addresses: the position is the last
segment of the component's path; `ListInsert` inserts there, `ListRemove`
takes the element there out, `ListMove` moves it to `lm`. -/
def applyListComponent (xs : List JVal) (c : Op) : List JVal :=
  match c, c.p.getLast? with
  | .listInsert _ li, some (.idx i) => if 0 ≤ i then listInsertAt xs i.toNat li else xs
  | .listRemove _ _, some (.idx i) => if 0 ≤ i then xs.eraseIdx i.toNat else xs
  | .listMove _ (.num j), some (.idx i) =>
    if 0 ≤ i ∧ 0 ≤ j then listMoveAt xs i.toNat j.toNat else xs
  | _, _ => xs

/-- The components of an op applied in order to an array. -/
def applyListOp (xs : List JVal) (op : List Op) : List JVal :=
  op.foldl applyListComponent xs

/-- The atomic block move the spec compares `move` with: the block
`L[from .. from+count)` is removed and re-inserted as a block at index `to`
of the remainder. -/
def blockSplice (L : List JVal) (fromIdx toIdx count : Nat) : List JVal :=
  let block := (L.drop fromIdx).take count
  let rest := L.take fromIdx ++ L.drop (fromIdx + count)
  rest.take toIdx ++ block ++ rest.drop toIdx

/-- What is handed to `shareDoc.submitOp`: an array of components, or (for
an implied op) one component on its own. -/
inductive Submitted where
  | bare (c : Op) : Submitted
  | list (cs : List Op) : Submitted
deriving DecidableEq

/-- The share document's own behaviour, which this module only calls: the
snapshot that results from submitting an op, and the snapshot a newly created
json0 document starts with. -/
structure ShareEnv where
  apply : JVal → Submitted → JVal
  create : JVal → JVal

/-- The state of a RemoteDoc: its id, whether `shareDoc.type` is set,
`shareDoc.snapshot`, and the entry `collectionData[id]` (`undefined` when
there is none). -/
structure State where
  id : String
  typed : Bool
  snapshot : JVal
  collectionData : JVal
deriving DecidableEq

/-- The `TypeError` built by `_arrayApply`: the arguments given to
`_errorMessage`. -/
structure TypeErr where
  what : String
  segments : Path
  value : JVal
deriving DecidableEq

/-- A call a mutator makes on the share document or on its completion
callback `cb`. The flag tells whether `cb` was passed along. -/
inductive Call where
  | create (data : JVal) (cb : Bool) : Call
  | submitOp (op : Submitted) (cb : Bool) : Call
  | del (cb : Bool) : Call
  | callback (err : Option TypeErr) : Call
deriving DecidableEq

/-- What a mutator returns: a value, the length of the array read after the
op was submitted (`before` is its length on entry), or whatever the
completion callback returned; `threw` stands for a mutator that does not
return because an exception is thrown. -/
inductive Ret where
  | val (v : JVal) : Ret
  | lengthAfterSubmit (before : Nat) : Ret
  | ofCallback : Ret
  | threw (what : String) : Ret
deriving DecidableEq

/-- Outcome of a mutator: the state after it, the calls it made in order, and
what it returned. -/
structure Result where
  doc : State
  calls : List Call
  ret : Ret
deriving DecidableEq

/-- The method `_updateCollectionData`. -/
def _updateCollectionData (d : State) : State :=
  let snapshot :=
    match d.snapshot with
    | .obj kvs => setProp (.obj kvs) (.key "id") (.str d.id)
    | v => v
  { d with snapshot := snapshot, collectionData := snapshot }

/-- The call `this.shareDoc.submitOp(op, cb)` and its effect on the snapshot. -/
def submitOp (env : ShareEnv) (d : State) (op : Submitted) (cb : Bool) :
    State × List Call :=
  ({ d with snapshot := env.apply d.snapshot op }, [.submitOp op cb])

/-- The method `get`: `util.lookup(segments, snapshot)`, which returns the
snapshot itself when no segments are given. -/
def get (d : State) (segments : Option Path) : JVal :=
  match segments with
  | none => d.snapshot
  | some p => lookup p d.snapshot

/-- The object `new ImpliedOp(op, value)`. The component `op` was built by
`ListInsertOp(pre, key, root)` when `list` holds and by
`ObjectInsertOp(pre, root)` otherwise; `value` is the innermost container
fabricated so far, and `frames` lists the containers around it, outermost
first, each with the name under which the next one is stored in it. -/
structure ImpliedOp where
  list : Bool
  pre : Path
  key : Segment
  frames : List (JVal × Segment)
  value : JVal
deriving DecidableEq

/-- The outermost fabricated container, with everything stored in it. -/
def ImpliedOp.root (o : ImpliedOp) : JVal :=
  o.frames.foldr (fun f inner => setProp f.1 f.2 inner) o.value

/-- The component `op` of an implied op. -/
def ImpliedOp.op (o : ImpliedOp) : Op :=
  if o.list then ListInsertOp o.pre o.key o.root else ObjectInsertOp o.pre o.root

/-- The assignment `previous.value[lastSegment] = v`. -/
def ImpliedOp.assign (o : ImpliedOp) (lastSegment : Option Segment) (v : JVal) :
    ImpliedOp :=
  { o with value := setProp o.value (segOr lastSegment) v }

/-- What `_createImplied` returns: the node found, or an implied op. -/
inductive Created where
  | node (v : JVal) : Created
  | implied (o : ImpliedOp) : Created
deriving DecidableEq

/-- The container fabricated for a missing segment:
`util.isArrayIndex(nextKey) ? [] : {}`. -/
def emptyFor (nextKey : Segment) : JVal :=
  if isArrayIndex (some nextKey) then .arr [] else .obj []

/-- The `while (nextKey != null)` loop of `_createImplied`. The first list is
what remains of `segments` from `nextKey` on; `i` is the loop variable as it
stands inside the body. -/
def createImpliedLoop (segments : Path) :
    List Segment → Int → JVal → Segment → JVal → Option ImpliedOp → Created
  | [], _, _, _, node, op =>
    match op with
    | some o => .implied o
    | none => .node node
  | nextKey :: rest, i, parent, key, node, op =>
    if !truthy node then
      let value := emptyFor nextKey
      let op1 : ImpliedOp :=
        match op with
        | some o => { o with frames := o.frames ++ [(o.value, key)], value := value }
        | none =>
          if isArray parent then
            { list := true, pre := jsSlice segments 0 (i - 2), key := key,
              frames := [], value := value }
          else
            { list := false, pre := jsSlice segments 0 (i - 1), key := key,
              frames := [], value := value }
      createImpliedLoop segments rest (i + 1) value nextKey (getProp value nextKey) (some op1)
    else
      createImpliedLoop segments rest (i + 1) node nextKey (getProp node nextKey) op

/-- The call `this.shareDoc.create('json0', data, cb)`. -/
def shareCreate (env : ShareEnv) (d : State) (data : JVal) (cb : Bool) :
    State × List Call :=
  ({ d with typed := true, snapshot := env.create data }, [.create data cb])

/-- The opening of `_createImplied`:
`if (!this.shareDoc.type) this.shareDoc.create('json0')`. -/
def ensureCreated (env : ShareEnv) (d : State) : State × List Call :=
  if !d.typed then shareCreate env d .undef false else (d, [])

/-- The method `_createImplied`. -/
def _createImplied (env : ShareEnv) (d : State) (segments : Path) :
    State × List Call × Created :=
  let (d1, calls) := ensureCreated env d
  (d1, calls,
    createImpliedLoop segments segments 1 (.obj [("snapshot", d1.snapshot)])
      (.key "snapshot") d1.snapshot none)

/-- The implied op the loop starts when it first meets a falsy node. -/
def firstImplied (segments : Path) (i : Int) (parent : JVal) (key nextKey : Segment) :
    ImpliedOp :=
  if isArray parent then
    { list := true, pre := jsSlice segments 0 (i - 2), key := key,
      frames := [], value := emptyFor nextKey }
  else
    { list := false, pre := jsSlice segments 0 (i - 1), key := key,
      frames := [], value := emptyFor nextKey }

/-- The implied op after the loop has gone through further segments: each
nests a new container under the current key of the innermost one. -/
def extendImplied (o : ImpliedOp) (key : Segment) : List Segment → ImpliedOp
  | [] => o
  | s :: rest =>
    extendImplied { o with frames := o.frames ++ [(o.value, key)], value := emptyFor s } s rest

/-- The container that holds the first falsy node, met after the loop has
gone through the segments `walked` starting from `node`. -/
def hitParent (parent : JVal) (walked : Path) (node : JVal) : JVal :=
  if walked = [] then parent else lookup walked.dropLast node

/-- Every proper prefix of the path resolves to a truthy value in `v`: no
ancestor is `undefined`, `null`, `false`, `0` or the empty string. -/
def AncestorsTruthy (P : Path) (v : JVal) : Prop :=
  ∀ j, j < P.length → truthy (lookup (P.take j) v) = true

instance (P : Path) (v : JVal) : Decidable (AncestorsTruthy P v) := by
  unfold AncestorsTruthy
  infer_instance

/-- The value the spec describes for an implied insert: a chain of fresh
containers, one per segment, each an empty array when its key is an array
index and an empty mapping otherwise, with the leaf stored under the last
segment in the innermost one. -/
def impliedChain : List Segment → JVal → JVal
  | [], leaf => leaf
  | s :: rest, leaf => setProp (emptyFor s) s (impliedChain rest leaf)

/-- The implied insert op the spec describes for a path whose shortest missing
prefix has length `k`: located at that prefix, a `ListInsert` when the
container holding the prefix is an array and an `ObjectInsert` otherwise,
inserting the chain for the remaining segments. -/
def impliedInsert (P : Path) (snapshot : JVal) (k : Nat) (leaf : JVal) : Op :=
  if 0 < k ∧ isArray (lookup (P.take (k - 1)) snapshot) = true then
    .listInsert (P.take k) (impliedChain (P.drop k) leaf)
  else .objectInsert (P.take k) (impliedChain (P.drop k) leaf)

/-- The op the spec describes for `set` on a path whose ancestors are there:
`ListReplace{p, ld: previous, li: value}` when the final segment is an array
index, `ObjectReplace{p, od: previous, oi: value}` otherwise, an undefined
value being sent as null. -/
def replaceOp (P : Path) (previous value : JVal) : Op :=
  if isArrayIndex P.getLast? = true then .listReplace P previous (nullIfUndef value)
  else .objectReplace P previous (nullIfUndef value)

/-- The insert-class op the spec describes for a first write at a path whose
ancestors are there: `ListInsert{p, li: value}` when the final segment is an
array index, `ObjectInsert{p, oi: value}` otherwise. -/
def insertOp (P : Path) (value : JVal) : Op :=
  if isArrayIndex P.getLast? = true then .listInsert P (nullIfUndef value)
  else .objectInsert P (nullIfUndef value)

/-- The state a mutator leaves after it has submitted one op and refreshed the
collection data. -/
def afterSubmit (env : ShareEnv) (d : State) (op : Submitted) : State :=
  _updateCollectionData (submitOp env d op true).1

/-- The method `set`. -/
def set (env : ShareEnv) (d : State) (segments : Path) (value : JVal) : Result :=
  if segments.length = 0 ∧ d.typed = false then
    let snapshot := copy value
    let snapshot := if truthy snapshot then deleteProp snapshot "id" else snapshot
    let (d1, c1) := shareCreate env d snapshot true
    let d2 := { d1 with snapshot := value }
    ⟨_updateCollectionData d2, c1, .val .undef⟩
  else
    let (d1, c1, previous) := _createImplied env d segments
    let lastSegment := segments.getLast?
    match previous with
    | .implied o =>
      let (d2, c2) := submitOp env d1 (.bare (o.assign lastSegment value).op) true
      ⟨_updateCollectionData d2, c1 ++ c2, .val .undef⟩
    | .node prev =>
      let op :=
        if isArrayIndex lastSegment then
          [ListReplaceOp (jsSlice segments 0 (-1)) (segOr lastSegment) prev value]
        else [ObjectReplaceOp segments prev value]
      let (d2, c2) := submitOp env d1 (.list op) true
      ⟨_updateCollectionData d2, c1 ++ c2, .val prev⟩

/-- Modelled from the spec: `shareDoc.del` is not part of the sources at hand.
Deletion sets the type to null and clears the snapshot. -/
def shareDel (d : State) (cb : Bool) : State × List Call :=
  ({ d with typed := false, snapshot := .undef }, [.del cb])

/-- The method `del`. -/
def del (env : ShareEnv) (d : State) (segments : Path) : Result :=
  if segments.length = 0 then
    let previous := get d none
    let (d1, c1) := shareDel d true
    ⟨{ d1 with collectionData := .undef }, c1, .val previous⟩
  else
    let previous := get d (some segments)
    if previous = .undef then ⟨d, [.callback none], .val .undef⟩
    else
      let op := [ObjectDeleteOp segments previous]
      let (d1, c1) := submitOp env d (.list op) true
      ⟨_updateCollectionData d1, c1, .val previous⟩

mutual
/-- JavaScript `String(v)`. A number is an integer here and is printed in
decimal digits, as JavaScript prints an integer of size below `10^21`. -/
def jsToString : JVal → String
  | .undef => "undefined"
  | .null => "null"
  | .bool b => if b then "true" else "false"
  | .num n => toString n
  | .str s => s
  | .arr xs => jsJoin xs
  | .obj _ => "[object Object]"
/-- JavaScript `xs.join(',')`: `null` and `undefined` elements give the empty
string. -/
def jsJoin : List JVal → String
  | [] => ""
  | x :: rest =>
    (match x with
      | .undef => ""
      | .null => ""
      | v => jsToString v) ++
    (match rest with
      | [] => ""
      | r => "," ++ jsJoin r)
end

/-- The expression `previous + byNumber` for a number `byNumber`: numeric
addition on numbers and booleans, concatenation on strings, arrays and
mappings. (`undefined + n` is NaN, which is not a `JVal`; `increment` adds only
to a value that is neither `null` nor `undefined`.) The sum is that of the
integers, which is the sum JavaScript gives while the operands and the sum are
safe integers (`isSafeInteger`). -/
def jsAdd (previous : JVal) (byNumber : Int) : JVal :=
  match previous with
  | .num m => .num (m + byNumber)
  | .bool b => .num ((if b then 1 else 0) + byNumber)
  | .null => .num byNumber
  | .undef => .undef
  | .str s => .str (s ++ toString byNumber)
  | .arr xs => .str (jsJoin xs ++ toString byNumber)
  | .obj _ => .str ("[object Object]" ++ toString byNumber)

/-- The method `increment`. -/
def increment (env : ShareEnv) (d : State) (segments : Path) (byNumber : Int) : Result :=
  let (d1, c1, previous) := _createImplied env d segments
  match previous with
  | .implied o =>
    let lastSegment := segments.getLast?
    let (d2, c2) := submitOp env d1 (.bare (o.assign lastSegment (.num byNumber)).op) true
    ⟨_updateCollectionData d2, c1 ++ c2, .val (.num byNumber)⟩
  | .node prev =>
    if isNullish prev then
      let lastSegment := segments.getLast?
      let op :=
        if isArrayIndex lastSegment then
          [ListInsertOp (jsSlice segments 0 (-1)) (segOr lastSegment) (.num byNumber)]
        else [ObjectInsertOp segments (.num byNumber)]
      let (d2, c2) := submitOp env d1 (.list op) true
      ⟨_updateCollectionData d2, c1 ++ c2, .val (.num byNumber)⟩
    else
      let op := [IncrementOp segments (.num byNumber)]
      let (d2, c2) := submitOp env d1 (.list op) true
      ⟨_updateCollectionData d2, c1 ++ c2, .val (jsAdd prev byNumber)⟩

/-- The method `_arrayApply`. The inner function `fn(arr, cb)` of each array
mutator submits one op with the callback and returns; it is given here by the
op it builds from the array and by what it returns. -/
def _arrayApply (env : ShareEnv) (d : State) (segments : Path) (fnName : String)
    (fn : List JVal → List Op × Ret) : Result :=
  let (d1, c1, created) := _createImplied env d segments
  let (d2, c2, arr1) :=
    match created with
    | .implied o =>
      let (d', c) := submitOp env d1 (.bare o.op) false
      (d', c, get d' (some segments))
    | .node v => (d1, [], v)
  let (d3, c3, arr2) :=
    if isNullish arr1 then
      let lastSegment := segments.getLast?
      let op :=
        if isArrayIndex lastSegment then
          [ListInsertOp (jsSlice segments 0 (-1)) (segOr lastSegment) (.arr [])]
        else [ObjectInsertOp segments (.arr [])]
      let (d', c) := submitOp env d2 (.list op) false
      (d', c, get d' (some segments))
    else (d2, [], arr1)
  match arr2 with
  | .arr xs =>
    let (op, out) := fn xs
    let (d4, c4) := submitOp env d3 (.list op) true
    ⟨_updateCollectionData d4, c1 ++ c2 ++ c3 ++ c4, out⟩
  | v =>
    ⟨d3, c1 ++ c2 ++ c3 ++ [.callback (some ⟨fnName ++ " on non-array", segments, v⟩)],
      .ofCallback⟩

/-- The method `push`. -/
def push (env : ShareEnv) (d : State) (segments : Path) (value : JVal) : Result :=
  _arrayApply env d segments "push" fun xs =>
    ([ListInsertOp segments (.idx xs.length) value], .lengthAfterSubmit xs.length)

/-- The method `unshift`. -/
def unshift (env : ShareEnv) (d : State) (segments : Path) (value : JVal) : Result :=
  _arrayApply env d segments "unshift" fun xs =>
    ([ListInsertOp segments (.idx 0) value], .lengthAfterSubmit xs.length)

/-- The method `insert`. -/
def insert (env : ShareEnv) (d : State) (segments : Path) (index : Int) (values : JVal) :
    Result :=
  _arrayApply env d segments "insert" fun xs =>
    (createInsertOp segments index values, .lengthAfterSubmit xs.length)

/-- The method `pop`. -/
def pop (env : ShareEnv) (d : State) (segments : Path) : Result :=
  _arrayApply env d segments "pop" fun xs =>
    let index : Int := (xs.length : Int) - 1
    let value := getProp (.arr xs) (.idx index)
    ([ListRemoveOp segments (.idx index) value], .val value)

/-- The method `shift`. -/
def shift (env : ShareEnv) (d : State) (segments : Path) : Result :=
  _arrayApply env d segments "shift" fun xs =>
    let value := getProp (.arr xs) (.idx 0)
    ([ListRemoveOp segments (.idx 0) value], .val value)

/-- The method `remove`. -/
def remove (env : ShareEnv) (d : State) (segments : Path) (index howMany : Int) :
    Result :=
  _arrayApply env d segments "remove" fun xs =>
    let values := jsSlice xs index (index + howMany)
    (removeOps segments index values, .val (.arr values))

/-- The method `move`. -/
def move (env : ShareEnv) (d : State) (segments : Path) (fromIdx toIdx howMany : Int) :
    Result :=
  _arrayApply env d segments "move" fun xs =>
    let values := jsSlice xs fromIdx (fromIdx + howMany)
    (moveOps segments fromIdx toIdx howMany, .val (.arr values))

/-- The method `stringInsert`. -/
def stringInsert (env : ShareEnv) (d : State) (segments : Path) (index : Int)
    (value : JVal) : Result :=
  let (d1, c1, previous) := _createImplied env d segments
  match previous with
  | .implied o =>
    let lastSegment := segments.getLast?
    let (d2, c2) := submitOp env d1 (.bare (o.assign lastSegment value).op) true
    ⟨_updateCollectionData d2, c1 ++ c2, .val .undef⟩
  | .node prev =>
    if isNullish prev then
      let lastSegment := segments.getLast?
      let op :=
        if isArrayIndex lastSegment then
          [ListInsertOp (jsSlice segments 0 (-1)) (segOr lastSegment) value]
        else [ObjectInsertOp segments value]
      let (d2, c2) := submitOp env d1 (.list op) true
      ⟨_updateCollectionData d2, c1 ++ c2, .val prev⟩
    else
      let op := [StringInsertOp segments (.idx index) value]
      let (d2, c2) := submitOp env d1 (.list op) true
      ⟨_updateCollectionData d2, c1 ++ c2, .val prev⟩

/-- The call `previous.slice(index, index + howMany)`: strings and arrays have
a `slice`; on any other value the call throws. A string is sliced by
characters. -/
def sliceOf (previous : JVal) (index howMany : Int) : Option JVal :=
  match previous with
  | .str s => some (.str (String.mk (jsSlice s.data index (index + howMany))))
  | .arr xs => some (.arr (jsSlice xs index (index + howMany)))
  | _ => none

/-- The method `stringRemove`. -/
def stringRemove (env : ShareEnv) (d : State) (segments : Path) (index howMany : Int) :
    Result :=
  let (d1, c1, previous) := _createImplied env d segments
  match previous with
  | .implied _ => ⟨d1, c1, .val .undef⟩
  | .node prev =>
    if isNullish prev then ⟨d1, c1, .val prev⟩
    else
      match sliceOf prev index howMany with
      | none => ⟨d1, c1, .threw "TypeError: previous.slice is not a function"⟩
      | some removed =>
        let op := [StringRemoveOp segments (.idx index) removed]
        let (d2, c2) := submitOp env d1 (.list op) true
        ⟨_updateCollectionData d2, c1 ++ c2, .val prev⟩

/-- A call of one of the seven array mutators, with its arguments. -/
inductive ArrayCall where
  | push (value : JVal) : ArrayCall
  | unshift (value : JVal) : ArrayCall
  | insert (index : Int) (values : JVal) : ArrayCall
  | pop : ArrayCall
  | shift : ArrayCall
  | remove (index howMany : Int) : ArrayCall
  | move (fromIdx toIdx howMany : Int) : ArrayCall

/-- The array mutator a call names, applied. -/
def ArrayCall.run (env : ShareEnv) (d : State) (segments : Path) : ArrayCall → Result
  | .push value => RemoteDoc.push env d segments value
  | .unshift value => RemoteDoc.unshift env d segments value
  | .insert index values => RemoteDoc.insert env d segments index values
  | .pop => RemoteDoc.pop env d segments
  | .shift => RemoteDoc.shift env d segments
  | .remove index howMany => RemoteDoc.remove env d segments index howMany
  | .move fromIdx toIdx howMany => RemoteDoc.move env d segments fromIdx toIdx howMany

/-- The name of the inner function of an array mutator (`fn.name`). -/
def ArrayCall.fnName : ArrayCall → String
  | .push _ => "push"
  | .unshift _ => "unshift"
  | .insert _ _ => "insert"
  | .pop => "pop"
  | .shift => "shift"
  | .remove _ _ => "remove"
  | .move _ _ _ => "move"

/-- Modelled from the spec: the json0 type, which applies an op to the
snapshot, is not part of the sources at hand. One component applied to the
container `elem` and the key its path ends in: an insert or replace stores
the new value, a delete or remove takes the old one out, a move re-inserts
the element at `lm`, an increment adds `na`, and a string insert or remove
splices the string at the index. A component that does not fit the container
leaves it as it is. -/
def json0At (c : Op) (elem : JVal) (key : Segment) : JVal :=
  match c, elem, key with
  | .objectInsert _ oi, .obj kvs, k => setProp (.obj kvs) k oi
  | .objectReplace _ _ oi, .obj kvs, k => setProp (.obj kvs) k oi
  | .objectDelete _ _, .obj kvs, k => deleteProp (.obj kvs) k.name
  | .listInsert _ li, .arr xs, .idx i =>
    if 0 ≤ i then .arr (listInsertAt xs i.toNat li) else .arr xs
  | .listReplace _ _ li, .arr xs, .idx i =>
    if 0 ≤ i ∧ i.toNat < xs.length then .arr (xs.set i.toNat li) else .arr xs
  | .listRemove _ _, .arr xs, .idx i => if 0 ≤ i then .arr (xs.eraseIdx i.toNat) else .arr xs
  | .listMove _ (.num j), .arr xs, .idx i =>
    if 0 ≤ i ∧ 0 ≤ j then .arr (listMoveAt xs i.toNat j.toNat) else .arr xs
  | .increment _ (.num n), e, k =>
    match getProp e k with
    | .num m => setProp e k (.num (m + n))
    | _ => e
  | .stringInsert _ (.str t), .str s, .idx i =>
    if 0 ≤ i then .str (String.mk (s.data.take i.toNat ++ t.data ++ s.data.drop i.toNat))
    else .str s
  | .stringRemove _ (.str t), .str s, .idx i =>
    if 0 ≤ i then
      .str (String.mk (s.data.take i.toNat ++ s.data.drop (i.toNat + t.data.length)))
    else .str s
  | _, e, _ => e

/-- Modelled from the spec: the json0 type is not part of the sources at hand.
The descent along the path of a component, from the container `elem` and the
key `key` to the place the component applies to. -/
def json0Go (c : Op) : JVal → Segment → Path → JVal
  | elem, key, [] => json0At c elem key
  | elem, key, p :: rest => setProp elem key (json0Go c (getProp elem key) p rest)

/-- Modelled from the spec: the json0 type is not part of the sources at hand.
One component applied to a snapshot, which json0 holds as the member `data`
of a container. -/
def json0Component (snapshot : JVal) (c : Op) : JVal :=
  getProp (json0Go c (.obj [("data", snapshot)]) (.key "data") c.p) (.key "data")

/-- Modelled from the spec: the share document of a json0 type is not part of
the sources at hand. A submitted op is applied component by component, and a
document created without data starts with `null`. -/
def json0Env : ShareEnv :=
  { apply := fun snapshot op =>
      match op with
      | .bare c => json0Component snapshot c
      | .list cs => cs.foldl json0Component snapshot
    create := nullIfUndef }

/-- A component of an op as it arrives from the share document: its path and
the fields of the json0 component kinds, `undefined` where the component has
no such field. -/
structure Component where
  p : Path
  oi : JVal := .undef
  od : JVal := .undef
  li : JVal := .undef
  ld : JVal := .undef
  lm : JVal := .undef
  si : JVal := .undef
  sd : JVal := .undef
  na : JVal := .undef
deriving DecidableEq

/-- The fields `_onOp` reads off a component that one of the constructor
functions of RemoteDoc.js built. -/
def Op.component : Op → Component
  | .objectReplace p od oi => { p := p, od := od, oi := oi }
  | .objectInsert p oi => { p := p, oi := oi }
  | .objectDelete p od => { p := p, od := od }
  | .listReplace p ld li => { p := p, ld := ld, li := li }
  | .listInsert p li => { p := p, li := li }
  | .listRemove p ld => { p := p, ld := ld }
  | .listMove p lm => { p := p, lm := lm }
  | .stringInsert p si => { p := p, si := si }
  | .stringRemove p sd => { p := p, sd := sd }
  | .increment p na => { p := p, na := na }

/-- The function `defined`. -/
def defined (value : JVal) : Bool :=
  value != JVal.undef

/-- An event emitted on the model, `model.emit(type, segments, args)`: the
type, the segments, and the members of `args`, the last of which is the pass
object. -/
inductive Event where
  | change (segments : Path) (value previous : JVal) (pass : List (String × JVal)) : Event
  | insert (segments : Path) (index : Segment) (values : List JVal)
      (pass : List (String × JVal)) : Event
  | remove (segments : Path) (index : Segment) (removed : List JVal)
      (pass : List (String × JVal)) : Event
  | move (segments : Path) (fromIdx : Segment) (toIdx : JVal) (howMany : Int)
      (pass : List (String × JVal)) : Event
deriving DecidableEq

/-- The RemoteDoc as its handlers of share events see it: the collection
name, the state of the document, the flag `createdLocally`, and `_pass` of
`this.model`. -/
structure Remote where
  collectionName : String
  doc : State
  createdLocally : Bool
  pass : List (String × JVal)
deriving DecidableEq

/-- Modelled from the spec: `Model.prototype.pass` is not part of the sources
at hand. `model.pass(object)._pass` holds the members of `model._pass` with
those of `object` assigned over them. -/
def mergePass (pass object : List (String × JVal)) : List (String × JVal) :=
  object.foldl (fun out kv => assocSet out kv.1 kv.2) pass

/-- The constructor `RemoteDoc(model, collectionName, id, data)`, given
`_pass` of `model` and the share document that `model._getOrCreateShareDoc`
returns: whether its `type` is set, and its snapshot. -/
def RemoteDoc (pass : List (String × JVal)) (collectionName id : String) (typed : Bool)
    (snapshot : JVal) : Remote :=
  { collectionName := collectionName,
    doc := _updateCollectionData
      { id := id, typed := typed, snapshot := snapshot, collectionData := .undef },
    createdLocally := false,
    pass := mergePass pass [("$remote", .bool true)] }

/-- A segment as a value: a number or a text. -/
def segVal : Segment → JVal
  | .idx n => .num n
  | .key k => .str k

/-- Modelled from the spec: `Model.prototype._get` and the data of the model
are not part of the sources at hand. `model._get(segments)` looks the segments
up in the data of the model, where the collection of the document holds
`collectionData` under the id. With fewer than two segments it yields the
collection or the whole data, a mapping of which no more is known: `none`. -/
def modelGet (r : Remote) (segments : Path) : Option JVal :=
  match segments with
  | _ :: _ :: rest => some (lookup rest r.doc.collectionData)
  | _ => none

/-- The member `length` of a value that is not `undefined`: the length of a
text or of an array, `undefined` for a number, a boolean or a mapping; reading
it from `null` throws (`none`). -/
def lengthOf : JVal → Option JVal
  | .str s => some (.num s.length)
  | .arr xs => some (.num xs.length)
  | .null => none
  | .undef => none
  | _ => some JVal.undef

/-- The sum `index + length` of a segment value and a length: numbers add, a
text is joined with the other operand, and a number plus `undefined` is NaN,
which is not a `JVal` and is given as `undefined`. -/
def jsPlus : JVal → JVal → JVal
  | .num a, .num b => .num (a + b)
  | .str a, v => .str (a ++ jsToString v)
  | _, _ => JVal.undef

/-- The integer `slice` takes an argument for, when the argument is a segment
value or a sum `jsPlus`: a number is taken as it is, a text that is a decimal
integer as that integer, and anything else as 0 (as NaN is). Texts that
JavaScript converts by other rules (fractions, exponents, surrounding blanks)
are not told apart from texts that are no numbers. -/
def toInteger : JVal → Int
  | .num n => n
  | .str s => (s.toInt?).getD 0
  | _ => 0

/-- The call `value.slice(b, e)`, with `e` left out when `none`: texts and
arrays have a `slice`; on any other value the call throws (`none`). A text is
sliced by characters. -/
def sliceVal (value : JVal) (b : Int) (e : Option Int) : Option JVal :=
  match value with
  | .str s => some (.str (String.mk (jsSlice s.data b (e.getD s.data.length))))
  | .arr xs => some (.arr (jsSlice xs b (e.getD xs.length)))
  | _ => none

/-- The number a value converts to under `-`, for numbers, booleans and
`null`. Other values are not converted here (`none`): `undefined`, mappings
and most texts and arrays convert to NaN, which is not a `JVal`, and a text
that spells a number converts to that number (`'5' - 2` is 3). -/
def toNumber : JVal → Option Int
  | .num n => some n
  | .bool b => some (if b then 1 else 0)
  | .null => some 0
  | _ => none

/-- The difference `value - na` for operands that are numbers, booleans or
`null`: the difference of the integers, which is the difference JavaScript
gives while the operands and the difference are safe integers
(`isSafeInteger`). For any other operand the difference is not modelled;
`undefined` stands in its place. -/
def jsSub (value na : JVal) : JVal :=
  match toNumber value, toNumber na with
  | some a, some b => .num (a - b)
  | _, _ => JVal.undef

/-- The `StringInsertOp` branch of `_onOp`, for the segments
`[collectionName, id].concat(item.p)`. -/
def onStringInsertOp (r : Remote) (segments : Path) (index text : JVal) :
    Outcome (List Event) :=
  let segments := jsSlice segments 0 (-1)
  match modelGet r segments with
  | none => .threw "TypeError"
  | some value =>
    match sliceVal value 0 (some (toInteger index)), lengthOf text with
    | some head, some length =>
      match sliceVal value (toInteger (jsPlus index length)) none with
      | some tail =>
        .value [.change segments value (.str (jsToString head ++ jsToString tail))
          (mergePass r.pass
            [("$type", .str "stringInsert"), ("index", index), ("text", text)])]
      | none => .threw "TypeError"
    | _, _ => .threw "TypeError"

/-- The `StringRemoveOp` branch of `_onOp`, for the segments
`[collectionName, id].concat(item.p)`. -/
def onStringRemoveOp (r : Remote) (segments : Path) (index text : JVal) :
    Outcome (List Event) :=
  match lengthOf text with
  | none => .threw "TypeError"
  | some howMany =>
    let segments := jsSlice segments 0 (-1)
    match modelGet r segments with
    | none => .threw "TypeError"
    | some value =>
      match sliceVal value 0 (some (toInteger index)), sliceVal value (toInteger index) none with
      | some head, some tail =>
        .value [.change segments value
          (.str (jsToString head ++ jsToString text ++ jsToString tail))
          (mergePass r.pass
            [("$type", .str "stringRemove"), ("index", index), ("howMany", howMany)])]
      | _, _ => .threw "TypeError"

/-- The method `_onOp`: the events it emits, in order. Reading `op[0].p` of
an op without components throws. -/
def _onOp (r : Remote) (op : List Component) : Outcome (List Event) :=
  match op with
  | [] => .threw "TypeError"
  | item :: _ =>
    let segments : Path := .key r.collectionName :: .key r.doc.id :: item.p
    let last : Segment := segments.getLast (List.cons_ne_nil _ _)
    if defined item.oi || defined item.od then
      .value [.change segments item.oi item.od r.pass]
    else if defined item.li && defined item.ld then
      .value [.change segments item.li item.ld r.pass]
    else if defined item.li then
      .value [.insert (jsSlice segments 0 (-1)) last [item.li] r.pass]
    else if defined item.ld then
      .value [.remove (jsSlice segments 0 (-1)) last [item.ld] r.pass]
    else if defined item.lm then
      .value [.move (jsSlice segments 0 (-1)) last item.lm 1 r.pass]
    else if defined item.si then
      onStringInsertOp r segments (segVal last) item.si
    else if defined item.sd then
      onStringRemoveOp r segments (segVal last) item.sd
    else if defined item.na then
      let value := get r.doc (some item.p)
      .value [.change segments value (jsSub value item.na) r.pass]
    else .value []

/-- The handler of the share document's `op` event. -/
def onShareOp (r : Remote) (op : List Component) (isLocal : Bool) :
    Remote × Outcome (List Event) :=
  if isLocal then (r, .value [])
  else
    let r1 := { r with doc := _updateCollectionData r.doc }
    (r1, _onOp r1 op)

/-- The handler of the share document's `del` event. -/
def onShareDel (r : Remote) (isLocal : Bool) (previous : JVal) : Remote × List Event :=
  if isLocal then (r, [])
  else
    let doc := { r.doc with collectionData := .undef }
    ({ r with doc := doc },
      [.change [.key r.collectionName, .key r.doc.id] .undef previous r.pass])

/-- The handler of the share document's `create` event. -/
def onShareCreate (r : Remote) (isLocal : Bool) : Remote × List Event :=
  if isLocal then ({ r with createdLocally := true }, [])
  else
    let r1 := { r with doc := _updateCollectionData r.doc }
    (r1, [.change [.key r.collectionName, .key r.doc.id] r1.doc.snapshot .undef r1.pass])

/-- The text `onStringInsert` of derby's textDiff.js hands to `replaceText`;
`previous` is a text, or a falsy value, which is taken as the empty text. -/
def onStringInsert (previous : Option String) (index : Int) (text : String) : String :=
  let previous := previous.getD ""
  String.mk (jsSlice previous.data 0 index) ++ text
    ++ String.mk (jsSlice previous.data index previous.data.length)

/-- The text `onStringRemove` of derby's textDiff.js hands to `replaceText`;
`previous` is a text, or a falsy value, which is taken as the empty text. -/
def onStringRemove (previous : Option String) (index howMany : Int) : String :=
  let previous := previous.getD ""
  String.mk (jsSlice previous.data 0 index)
    ++ String.mk (jsSlice previous.data (index + howMany) previous.data.length)

/-- JavaScript `s.charAt(i)`: the character at `i` as a text, and the empty
text when there is none. -/
def charAt (s : String) (i : Int) : String :=
  if i < 0 then ""
  else
    match s.data[i.toNat]? with
    | some c => String.singleton c
    | none => ""

/-- The first loop of `onTextInput`,
`while (previous.charAt(start) === value.charAt(start)) start++`, from the
given `start`: the value of `start` when the loop ends, and `none` when it
has not ended after `fuel` tests. -/
def scanStart (previous value : String) : Nat → Nat → Option Nat
  | 0, _ => none
  | fuel + 1, start =>
    if charAt previous start = charAt value start then
      scanStart previous value fuel (start + 1)
    else some start

/-- The second loop of `onTextInput`, from the given `end`: the value of `end`
when the loop ends, and `none` when it has not ended after `fuel` tests. -/
def scanEnd (previous value : String) (start : Nat) : Nat → Nat → Option Nat
  | 0, _ => none
  | fuel + 1, e =>
    if charAt previous ((previous.length : Int) - 1 - e)
          = charAt value ((value.length : Int) - 1 - e)
        ∧ e + start < previous.length ∧ e + start < value.length then
      scanEnd previous value start fuel (e + 1)
    else some e

/-- A call `onTextInput` makes on the model. -/
inductive TextCall where
  | _stringRemove (segments : Path) (index howMany : Int) : TextCall
  | _stringInsert (segments : Path) (index : Int) (text : String) : TextCall
deriving DecidableEq

/-- The function `onTextInput` of derby's textDiff.js: the calls it makes on
the model, in order, when each of its loops ends within `fuel` tests, and
`none` otherwise. `current` is what `model._get(segments)` returns: a text, or
a falsy value, for which `previous` is the empty text. -/
def onTextInput (fuel : Nat) (current : Option String) (segments : Path) (value : String) :
    Option (List TextCall) :=
  let previous := current.getD ""
  if previous = value then some []
  else
    match scanStart previous value fuel 0 with
    | none => none
    | some start =>
      match scanEnd previous value start fuel 0 with
      | none => none
      | some e =>
        let removes :=
          if previous.length ≠ start + e then
            [TextCall._stringRemove segments start ((previous.length : Int) - start - e)]
          else []
        let inserts :=
          if value.length ≠ start + e then
            [TextCall._stringInsert segments start
              (String.mk (jsSlice value.data start ((value.length : Int) - e)))]
          else []
        some (removes ++ inserts)

/-- The text that results when the calls `onTextInput` made are carried out
on a text one after the other: a `_stringRemove` takes `howMany` characters
out at `index`, as `onStringRemove` does, and a `_stringInsert` puts its text
in at `index`, as `onStringInsert` does. -/
def applyTextCalls (previous : String) (calls : List TextCall) : String :=
  calls.foldl
    (fun text call =>
      match call with
      | ._stringRemove _ index howMany => onStringRemove (some text) index howMany
      | ._stringInsert _ index inserted => onStringInsert (some text) index inserted)
    previous

/-- The object `new ImpliedOp(op, value)` with its containers in the store:
`root` is the address of the container the component `op` inserts, built by
`ListInsertOp(pre, key, root)` when `list` holds and by
`ObjectInsertOp(pre, root)` otherwise, and `value` the address of the
innermost container fabricated so far. -/
structure OnHeap.ImpliedOp where
  list : Bool
  pre : Path
  key : Segment
  root : Nat
  value : Nat
deriving DecidableEq

/-- What `_createImplied` returns when the snapshot is in the store: the node
found, or an implied op. -/
inductive OnHeap.Created where
  | node (v : HVal) : OnHeap.Created
  | implied (o : OnHeap.ImpliedOp) : OnHeap.Created
deriving DecidableEq

/-- The `while (nextKey != null)` loop of `_createImplied` on a snapshot in
the store: `[]` and `{}` make new objects, and `value[key] = ...` writes to the
object `value` refers to. The first list is what remains of `segments` from
`nextKey` on; `i` is the loop variable as it stands inside the body. -/
def OnHeap.createImpliedLoop (segments : Path) :
    List Segment → Int → Heap → HVal → Segment → HVal → Option OnHeap.ImpliedOp →
      Heap × OnHeap.Created
  | [], _, h, _, _, node, op =>
    match op with
    | some o => (h, .implied o)
    | none => (h, .node node)
  | nextKey :: rest, i, h, parent, key, node, op =>
    if !node.truthy then
      let (h1, value) :=
        h.alloc (if isArrayIndex (some nextKey) then Cell.array [] else Cell.mapping [])
      match op with
      | some o =>
        let h2 := h1.setProp o.value key (.ref value)
        OnHeap.createImpliedLoop segments rest (i + 1) h2 (.ref value) nextKey
          (h2.getProp (.ref value) nextKey) (some { o with value := value })
      | none =>
        let o : OnHeap.ImpliedOp :=
          if h1.isArray parent then
            { list := true, pre := jsSlice segments 0 (i - 2), key := key,
              root := value, value := value }
          else
            { list := false, pre := jsSlice segments 0 (i - 1), key := key,
              root := value, value := value }
        OnHeap.createImpliedLoop segments rest (i + 1) h1 (.ref value) nextKey
          (h1.getProp (.ref value) nextKey) (some o)
    else
      OnHeap.createImpliedLoop segments rest (i + 1) h node nextKey (h.getProp node nextKey) op

/-- The method `_createImplied` on a share document whose snapshot is in the
store: the store and `shareDoc.snapshot` after the call, and what the call
returns. `create` is what `shareDoc.create('json0')` does to the store, with
the snapshot it leaves; the share document itself is no array. -/
def OnHeap._createImplied (create : Heap → Heap × HVal) (h : Heap) (typed : Bool)
    (snapshot : HVal) (segments : Path) : Heap × HVal × OnHeap.Created :=
  let (h1, snapshot1) := if !typed then create h else (h, snapshot)
  let r := OnHeap.createImpliedLoop segments segments 1 h1 (.data (.obj [])) (.key "snapshot")
    snapshot1 none
  (r.1, snapshot1, r.2)

/-- Modelled from the spec: `util.lookup` on a snapshot in the store. -/
def OnHeap.lookup (h : Heap) : Path → HVal → HVal
  | [], v => v
  | s :: rest, v => if v.isNullish then v else OnHeap.lookup h rest (h.getProp v s)

/-- Every proper prefix of the path resolves to a truthy value, for a snapshot
in the store. -/
def OnHeap.AncestorsTruthy (h : Heap) (P : Path) (v : HVal) : Prop :=
  ∀ j, j < P.length → (OnHeap.lookup h (P.take j) v).truthy = true

instance (h : Heap) (P : Path) (v : HVal) : Decidable (OnHeap.AncestorsTruthy h P v) := by
  unfold OnHeap.AncestorsTruthy
  infer_instance

/-- A RemoteDoc for evaluating the handlers on concrete inputs: the document
`doc` of the collection `notes`, typed, with the given snapshot. -/
def sampleRemote (snapshot : JVal) : Remote :=
  RemoteDoc [] "notes" "doc" true snapshot

/-- A share document for evaluating the mutators on concrete inputs: a
submitted op leaves the snapshot as it is, and a new document starts with
`null`. -/
def sampleEnv : ShareEnv :=
  { apply := fun snapshot _ => snapshot, create := fun _ => .null }

/-- A typed document with the given snapshot, for concrete inputs. -/
def sampleDoc (snapshot : JVal) : State :=
  { id := "doc", typed := true, snapshot := snapshot, collectionData := .undef }

end RemoteDoc

namespace LiveDbMongo

open JS JS.JVal

/-- The record handed to `castToDoc`: `{data, type, v, m}`. -/
structure SnapshotData where
  data : JVal
  type : JVal
  v : JVal
  m : JVal
deriving DecidableEq

/-- The record `castToSnapshot` returns: `{data, type, v, docName, m}`. -/
structure Snapshot where
  data : JVal
  type : JVal
  v : JVal
  docName : JVal
  m : JVal
deriving DecidableEq

/-- The assignment `out[key] = value` on an object made by `{}` and
assignments. A mapping is given by its own members. An assignment under the
name `__proto__` does not make a member: it goes to the setter `out` inherits
from `Object.prototype`, which replaces the prototype of `out` when the value
is an object or null and does nothing for any other value. The own members
are as they were in both cases; the prototype is not part of a mapping
here. -/
def setMember (out : List (String × JVal)) (key : String) (value : JVal) :
    List (String × JVal) :=
  if key = "__proto__" then out else assocSet out key value

/-- The function `shallowClone` on the members of a mapping: every member is
assigned, in order, to a fresh mapping, which gives the own members of the
clone. A member named `__proto__` is not among them (see `setMember`). -/
def shallowClone (object : List (String × JVal)) : List (String × JVal) :=
  object.foldl (fun out kv => setMember out kv.1 kv.2) []

/-- The function `castToDoc(docName, data)`; the row it returns is a mapping,
given by its members. -/
def castToDoc (docName : String) (data : SnapshotData) : List (String × JVal) :=
  let doc :=
    match data.data with
    | .obj kvs => shallowClone kvs
    | v => [("_data", if v = .undef then .null else v)]
  let doc := assocSet doc "_type" (if truthy data.type then data.type else .null)
  let doc := assocSet doc "_v" data.v
  let doc := assocSet doc "_m" data.m
  assocSet doc "_id" (.str docName)

/-- The function `castToSnapshot(doc)`, on a row read from the store: a
mapping, or nothing (`none`, for which `!doc` holds). -/
def castToSnapshot (doc : Option (List (String × JVal))) : Option Snapshot :=
  match doc with
  | none => none
  | some doc =>
    let type := assocGet doc "_type"
    let v := assocGet doc "_v"
    let docName := assocGet doc "_id"
    let data := assocGet doc "_data"
    let meta := assocGet doc "_m"
    if data = .undef then
      let doc := shallowClone doc
      let doc := assocDel doc "_type"
      let doc := assocDel doc "_v"
      let doc := assocDel doc "_id"
      let doc := assocDel doc "_m"
      some { data := .obj doc, type := type, v := v, docName := docName, m := meta }
    else
      some { data := data, type := type, v := v, docName := docName, m := meta }

/-- A row of a collection: a mapping, given by its members. -/
abbrev Row := List (String × JVal)

/-- A call on the MongoDB driver, as the adapter makes it. -/
inductive Access where
  | findOne (cName : String) (query : JVal) (options : JVal) : Access
  | find (cName : String) (query : JVal) (options : JVal) : Access
  | cursor (method : String) (arg : JVal) : Access
  | count (cName : String) (query : JVal) : Access
  | update (cName : String) (selector : JVal) (doc : Row) : Access
  | save (cName : String) (doc : Row) : Access
  | ensureIndex (cName : String) : Access
  | close : Access
deriving DecidableEq

/-- Modelled from the spec: the MongoDB driver is not part of the sources at
hand. A database handle is the generic document store the adapter persists to:
its collections by name, the error it reports to every callback while the
backend is failing (`none` when it answers), the calls made on it so far,
oldest first, and the error it reports when asked to create an index (`none`
when it creates it). -/
structure Mongo where
  colls : List (String × List Row)
  fault : Option String
  log : List Access
  indexFault : Option String := none
deriving DecidableEq

/-- The rows of a collection; a collection that was never written is empty. -/
def Mongo.rows (m : Mongo) (cName : String) : List Row :=
  (m.colls.lookup cName).getD []

/-- The collections with the rows of one of them replaced. -/
def setRows : List (String × List Row) → String → List Row → List (String × List Row)
  | [], cName, rows => [(cName, rows)]
  | (c, old) :: rest, cName, rows =>
    if c = cName then (c, rows) :: rest else (c, old) :: setRows rest cName rows

/-- The handle after a call was made on it. -/
def Mongo.logged (m : Mongo) (a : Access) : Mongo :=
  { m with log := m.log ++ [a] }

/-- Modelled from the spec: the MongoDB driver is not part of the sources at
hand. An upsert of a whole document by `_id`: the row with that `_id` is
replaced where it stands, and the document is added when there is none. -/
def upsertById : List Row → JVal → Row → List Row
  | [], _, doc => [doc]
  | r :: rest, id, doc =>
    if assocGet r "_id" = id then doc :: rest else r :: upsertById rest id doc

/-- Modelled from the spec: the MongoDB driver is not part of the sources at
hand. `findOne({_id: id})`: the row with that `_id`, if any. -/
def findById (rows : List Row) (id : JVal) : Option Row :=
  rows.find? fun r => assocGet r "_id" = id

/-- Modelled from the spec: the MongoDB driver is not part of the sources at
hand. An inclusion projection keeps `_id` and the members it names. -/
def project (projection : Row) (r : Row) : Row :=
  match projection with
  | [] => r
  | _ => r.filter fun kv => kv.1 = "_id" || (projection.map Prod.fst).contains kv.1

/-- The function `projectionFromFields(fields)`. -/
def projectionFromFields (fields : Row) : Row :=
  let projection := fields.foldl (fun out kv => setMember out kv.1 (.num 1)) []
  let projection := assocSet projection "_v" (.num 1)
  let projection := assocSet projection "_type" (.num 1)
  assocSet projection "_m" (.num 1)

/-- The expression `fields ? projectionFromFields(fields) : {}`; `fields` is a
mapping or null. -/
def projectionOf (fields : Option Row) : Row :=
  match fields with
  | some f => projectionFromFields f
  | none => []

/-- The adapter object: the database handle, the `closed` flag, the own
members of the table `opIndexes`, `allowWhereQuery`, and the handle used for
polling queries when one was given; with it, the errors it has warned about
through `console.warn`. -/
structure Adapter where
  mongo : Mongo
  closed : Bool
  opIndexes : List String
  allowWhereQuery : JVal
  mongoPoll : Option Mongo
  warnings : List String := []
deriving DecidableEq

/-- The argument `options` of the constructor: `mongoPoll`, when given, and
`allowWhereQuery`. -/
structure Options where
  mongoPoll : Option Mongo
  allowWhereQuery : JVal
deriving DecidableEq

/-- The constructor `LiveDbMongo(mongo, options)`. -/
def LiveDbMongo (mongo : Mongo) (options : Option Options) : Adapter :=
  { mongo := mongo,
    closed := false,
    opIndexes := [],
    allowWhereQuery :=
      match options with
      | some o => if truthy o.allowWhereQuery then o.allowWhereQuery else .bool false
      | none => .bool false,
    mongoPoll :=
      match options with
      | some o => o.mongoPoll
      | none => none }

/-- What became of a completion callback: it was never called, the method
threw before calling it, or it was called with an error or with a result. -/
inductive Called (α : Type) where
  | never : Called α
  | threw (what : String) : Called α
  | error (err : String) : Called α
  | ok (result : α) : Called α
deriving DecidableEq

/-- Outcome of an adapter method: the adapter after it and what became of the
callback. -/
structure Step (α : Type) where
  db : Adapter
  out : Called α
deriving DecidableEq

/-- The function `isValidCName`: the name does not end in `_ops` and is not
`system`. -/
def isValidCName (cName : String) : Bool :=
  !("_ops".data.isSuffixOf cName.data) && cName != "system"

/-- The method `_check`: the error string, or nothing. -/
def _check (db : Adapter) (cName : String) : Option String :=
  if db.closed then some "db already closed"
  else if !isValidCName cName then some "Invalid collection name"
  else none

/-- The method `close`. -/
def close (db : Adapter) : Step Unit :=
  if db.closed then ⟨db, .error "db already closed"⟩
  else
    let m := db.mongo.logged .close
    ⟨{ db with mongo := m, closed := true },
      match m.fault with
      | some e => .error e
      | none => .ok ()⟩

/-- The method `getSnapshot`. -/
def getSnapshot (db : Adapter) (cName docName : String) : Step (Option Snapshot) :=
  match _check db cName with
  | some err => ⟨db, .error err⟩
  | none =>
    let m := db.mongo.logged (.findOne cName (.obj [("_id", .str docName)]) (.obj []))
    ⟨{ db with mongo := m },
      match m.fault with
      | some e => .error e
      | none => .ok (castToSnapshot (findById (m.rows cName) (.str docName)))⟩

/-- The method `getSnapshotProjected`. -/
def getSnapshotProjected (db : Adapter) (cName docName : String) (fields : Row) :
    Step (Option Snapshot) :=
  match _check db cName with
  | some err => ⟨db, .error err⟩
  | none =>
    let projection := projectionFromFields fields
    let m := db.mongo.logged
      (.findOne cName (.obj [("_id", .str docName)]) (.obj projection))
    ⟨{ db with mongo := m },
      match m.fault with
      | some e => .error e
      | none =>
        .ok (castToSnapshot ((findById (m.rows cName) (.str docName)).map (project projection)))⟩

/-- The method `writeSnapshot`. -/
def writeSnapshot (db : Adapter) (cName docName : String) (data : SnapshotData) :
    Step Unit :=
  match _check db cName with
  | some err => ⟨db, .error err⟩
  | none =>
    let doc := castToDoc docName data
    let m := db.mongo.logged (.update cName (.obj [("_id", .str docName)]) doc)
    match m.fault with
    | some e => ⟨{ db with mongo := m }, .error e⟩
    | none =>
      let rows := upsertById (m.rows cName) (.str docName) doc
      ⟨{ db with mongo := { m with colls := setRows m.colls cName rows } }, .ok ()⟩

/-- What an iterator given to `async.each` reported for one item: nothing
(its callback was never called), completion, or an error. -/
inductive Reported where
  | never : Reported
  | done : Reported
  | failed (err : String) : Reported
deriving DecidableEq

/-- The error an iterator reported, if it reported one. -/
def Reported.failure : Reported → Option String
  | .failed e => some e
  | _ => none

/-- Modelled from the spec: the async library is not part of the sources at
hand. `async.each(items, iterator, callback)` runs the iterator on every item;
the completion callback is called at once for no items, with the first error
an iterator reports, and with no error once every iterator has reported
completion; it is not called while an iterator has not reported. What the
iterator returns is ignored. -/
def asyncEach (reports : List Reported) : Called Unit :=
  if reports.isEmpty then .ok ()
  else
    match reports.findSome? Reported.failure with
    | some e => .error e
    | none => if reports.all (fun r => r == .done) then .ok () else .never

/-- The results object of `bulkGetSnapshot`: per collection name, the
snapshots by document name. -/
abbrev BulkResults := List (String × List (String × Snapshot))

/-- The member assignment `table[name] = value` on a table kept as a list. -/
def tableSet {β : Type} : List (String × β) → String → β → List (String × β)
  | [], name, v => [(name, v)]
  | (k, w) :: rest, name, v =>
    if k = name then (k, v) :: rest else (k, w) :: tableSet rest name v

/-- Modelled from the spec: the MongoDB driver is not part of the sources at
hand. `find({_id: {$in: docNames}})`: the rows whose `_id` is one of the
names. -/
def findByIds (rows : List Row) (docNames : JVal) : List Row :=
  match docNames with
  | .arr names => rows.filter fun r => names.contains (assocGet r "_id")
  | _ => []

/-- The iterator `getSnapshots(cName, callback)` of `bulkGetSnapshot`, on the
handle and the results gathered so far. -/
def getSnapshots (requests : List (String × JVal)) (acc : Mongo × BulkResults × List Reported)
    (cName : String) : Mongo × BulkResults × List Reported :=
  if !isValidCName cName then (acc.1, acc.2.1, acc.2.2 ++ [.never])
  else
    let results := tableSet acc.2.1 cName []
    let docNames := assocGet requests cName
    let m := acc.1.logged
      (.find cName (.obj [("_id", .obj [("$in", docNames)])]) (.obj []))
    match m.fault with
    | some e => (m, results, acc.2.2 ++ [.failed e])
    | none =>
      let data := (findByIds (m.rows cName) docNames).filterMap fun r => castToSnapshot (some r)
      let cResult := data.foldl
        (fun out snap => tableSet out (RemoteDoc.jsToString snap.docName) snap) []
      (m, tableSet results cName cResult, acc.2.2 ++ [.done])

/-- The method `bulkGetSnapshot`; `requests` maps collection names to arrays
of document names. -/
def bulkGetSnapshot (db : Adapter) (requests : List (String × JVal)) : Step BulkResults :=
  if db.closed then ⟨db, .error "db already closed"⟩
  else
    let acc := (requests.map Prod.fst).foldl (getSnapshots requests) (db.mongo, [], [])
    ⟨{ db with mongo := acc.1 },
      match asyncEach acc.2.2 with
      | .ok _ => .ok acc.2.1
      | .error e => .error e
      | .threw w => .threw w
      | .never => .never⟩

/-- The method `getOplogCollectionName`. -/
def getOplogCollectionName (cName : String) : String :=
  cName ++ "_ops"

/-- The warnings after the callback of `ensureIndex` ran: an error it is
given is warned about, and nothing else is done with it. -/
def warned (warnings : List String) (error : Option String) : List String :=
  match error with
  | some e => warnings ++ [e]
  | none => warnings

/-- The method `_opCollection`: the name of the op collection, and the adapter
after the index was asked for when `opIndexes[cName]` was not set. -/
def _opCollection (db : Adapter) (cName : String) : Adapter × String :=
  let collection := getOplogCollectionName cName
  if !tableHas db.opIndexes cName then
    ({ db with mongo := db.mongo.logged (.ensureIndex collection),
               opIndexes := db.opIndexes ++ [cName],
               warnings := warned db.warnings db.mongo.indexFault }, collection)
  else (db, collection)

/-- The method `writeOp`. -/
def writeOp (db : Adapter) (cName docName : String) (opData : Row) : Step Unit :=
  if isNullish (assocGet opData "v") then ⟨db, .threw "AssertionError"⟩
  else
    match _check db cName with
    | some err => ⟨db, .error err⟩
    | none =>
      let data := shallowClone opData
      let data := assocSet data "_id"
        (.str (docName ++ " v" ++ RemoteDoc.jsToString (assocGet opData "v")))
      let data := assocSet data "name" (.str docName)
      let (db1, collection) := _opCollection db cName
      let m := db1.mongo.logged (.save collection data)
      match m.fault with
      | some e => ⟨{ db1 with mongo := m }, .error e⟩
      | none =>
        let rows := upsertById (m.rows collection) (assocGet data "_id") data
        ⟨{ db1 with mongo := { m with colls := setRows m.colls collection rows } }, .ok ()⟩

/-- The number a value is, if it is one. -/
def numOf : JVal → Option Int
  | .num n => some n
  | _ => none

/-- The version an op row carries in its member `v`, if it is a number. -/
def vOf (r : Row) : Option Int :=
  numOf (assocGet r "v")

/-- Modelled from the spec: the MongoDB driver is not part of the sources at
hand. The order a sort on `v` uses: numbers by value, and a `v` that is not a
number below every number (as for an absent or null `v`). -/
def vLt : Option Int → Option Int → Bool
  | none, some _ => true
  | some a, some b => decide (a < b)
  | _, _ => false

/-- Modelled from the spec: the MongoDB driver is not part of the sources at
hand. `findOne({name: docName}, {sort: {v: -1}})`: of the rows with that name,
the one with the greatest `v`. -/
def findLastOp (rows : List Row) (docName : String) : Option Row :=
  (rows.filter fun r => assocGet r "name" = .str docName).foldl
    (fun best r =>
      match best with
      | none => some r
      | some b => if vLt (vOf b) (vOf r) then some r else some b)
    none

/-- The method `getVersion`. -/
def getVersion (db : Adapter) (cName docName : String) : Step JVal :=
  match _check db cName with
  | some err => ⟨db, .error err⟩
  | none =>
    let (db1, collection) := _opCollection db cName
    let m := db1.mongo.logged
      (.findOne collection (.obj [("name", .str docName)])
        (.obj [("sort", .obj [("v", .num (-1))])]))
    match m.fault with
    | some e => ⟨{ db1 with mongo := m }, .error e⟩
    | none =>
      match findLastOp (m.rows collection) docName with
      | none =>
        let m2 := m.logged
          (.findOne cName (.obj [("_id", .str docName)]) (.obj [("_v", .num 1)]))
        ⟨{ db1 with mongo := m2 },
          match m2.fault with
          | some e => .error e
          | none =>
            match (findById (m2.rows cName) (.str docName)).map (project [("_v", .num 1)]) with
            | some doc => .ok (assocGet doc "_v")
            | none => .ok (.num 0)⟩
      | some data => ⟨{ db1 with mongo := m }, .ok (RemoteDoc.jsAdd (assocGet data "v") 1)⟩

/-- Modelled from the spec: the MongoDB driver is not part of the sources at
hand. Insertion of a row into rows sorted by ascending `v`, before the first
row that is not below it. -/
def insertByV (r : Row) : List Row → List Row
  | [] => [r]
  | x :: xs => if vLt (vOf x) (vOf r) then x :: insertByV r xs else r :: x :: xs

/-- Modelled from the spec: the MongoDB driver is not part of the sources at
hand. The rows sorted by ascending `v` (`{sort: {v: 1}}`). -/
def sortByV (rows : List Row) : List Row :=
  rows.foldr insertByV []

/-- Modelled from the spec: the MongoDB driver is not part of the sources at
hand. Whether the `v` of a row matches `{$gte: start}`, with `$lt: end` added
when `end` is given; only a number compares with the bounds. -/
def vInRange (start : Int) (endV : JVal) (r : Row) : Bool :=
  match vOf r with
  | none => false
  | some n =>
    decide (start ≤ n) &&
      (if isNullish endV then true
       else
        match endV with
        | .num e => decide (n < e)
        | _ => false)

/-- Modelled from the spec: the MongoDB driver is not part of the sources at
hand. Whether a row matches `{name: docName, v: query}` for the query
`getOps` builds from `start` and `end`. -/
def opInRange (docName : String) (start : Int) (endV : JVal) (r : Row) : Bool :=
  assocGet r "name" = .str docName && vInRange start endV r

/-- The method `getOps`. -/
def getOps (db : Adapter) (cName docName : String) (start : Int) (endV : JVal) :
    Step (List Row) :=
  match _check db cName with
  | some err => ⟨db, .error err⟩
  | none =>
    let query : JVal :=
      if isNullish endV then .obj [("$gte", .num start)]
      else .obj [("$gte", .num start), ("$lt", endV)]
    let (db1, collection) := _opCollection db cName
    let m := db1.mongo.logged
      (.find collection (.obj [("name", .str docName), ("v", query)])
        (.obj [("sort", .obj [("v", .num 1)])]))
    ⟨{ db1 with mongo := m },
      match m.fault with
      | some e => .error e
      | none =>
        let data := sortByV ((m.rows collection).filter (opInRange docName start endV))
        .ok (data.map fun r => assocDel (assocDel r "_id") "name")⟩

/-- The own members of the table `metaOperators`. -/
def metaOperators : List String :=
  ["$comment", "$explain", "$hint", "$maxScan", "$max", "$min", "$orderby", "$returnKey",
   "$showDiskLoc", "$snapshot", "$count"]

/-- The own members of the table `cursorOperators`, with the cursor method
each one names. -/
def cursorOperators : List (String × String) :=
  [("$limit", "limit"), ("$skip", "skip")]

/-- The test `metaOperators[key] || cursorOperators[key]`. -/
def isOperatorKey (key : String) : Bool :=
  tableHas metaOperators key || tableHas (cursorOperators.map Prod.fst) key

/-- The function `shallowClone` on any value: the enumerable members of a
mapping, the elements of an array under their indices, the characters of a
string under theirs; other values have none. -/
def shallowCloneVal : JVal → Row
  | .obj kvs => shallowClone kvs
  | .arr xs => (List.range xs.length).zip xs |>.map fun p => (toString p.1, p.2)
  | .str s =>
    (List.range s.data.length).zip s.data |>.map fun p => (toString p.1, .str (String.mk [p.2]))
  | _ => []

/-- The assignment `query.$query[key] = value`. -/
def setInFilter (query : Row) (key : String) (value : JVal) : Row :=
  match assocGet query "$query" with
  | .obj filter => assocSet query "$query" (.obj (assocSet filter key value))
  | _ => query

/-- The statement `delete query.$query[key]`. -/
def deleteInFilter (query : Row) (key : String) : Row :=
  match assocGet query "$query" with
  | .obj filter => assocSet query "$query" (.obj (assocDel filter key))
  | _ => query

/-- The function `normalizeQuery`: the own members of the query it returns,
with the own members of the filter as `$query`. The query and the filter are
made by `{}` or by `shallowClone`, so an assignment under the name
`__proto__` makes no member of them (see `setMember`); the test
`metaOperators[key] || cursorOperators[key]` finds that name, as it finds
every name a plain object inherits. -/
def normalizeQuery (inputQuery : Row) : Row :=
  let query : Row :=
    if truthy (assocGet inputQuery "$query") then
      let query := shallowClone inputQuery
      assocSet query "$query" (.obj (shallowCloneVal (assocGet query "$query")))
    else
      (inputQuery.map Prod.fst).foldl
        (fun query key =>
          if isOperatorKey key then setMember query key (assocGet inputQuery key)
          else setInFilter query key (assocGet inputQuery key))
        [("$query", .obj [])]
  if !truthy (getProp (assocGet query "$query") (.key "_type")) then
    setInFilter query "_type" (.obj [("$ne", .null)])
  else query

/-- The method `checkQuery`: the error string, or nothing. -/
def checkQuery (db : Adapter) (query : Row) : Option String :=
  if !truthy db.allowWhereQuery &&
      !isNullish (getProp (assocGet query "$query") (.key "$where")) then
    some "Illegal $where query"
  else none

/-- The function `extractCursorMethods`: the pairs of method and argument, and
the query without the members taken out. The method is `none` when
`cursorOperators[key]` is an inherited member, which names no cursor
method. -/
def extractCursorMethods (query : Row) : List (Option String × JVal) × Row :=
  (query.map Prod.fst).foldl
    (fun acc key =>
      if tableHas (cursorOperators.map Prod.fst) key then
        (acc.1 ++ [(cursorOperators.lookup key, assocGet acc.2 key)], assocDel acc.2 key)
      else acc)
    ([], query)

/-- What a query method passes to its callback: `{results: [], extra: count}`
for a count query, the snapshots otherwise. -/
inductive QueryResult where
  | counted (extra : JVal) : QueryResult
  | results (snapshots : List Snapshot) : QueryResult
deriving DecidableEq

/-- The driver's evaluation of the queries the adapter only passes on: the
count of the rows that match a filter, the rows a query finds under a
projection and cursor methods, and the row `findOne` finds. -/
structure Driver where
  count : List Row → JVal → JVal
  find : List Row → Row → Row → List (String × JVal) → List Row
  findOne : List Row → Row → Row → Option Row

/-- The loop over `cursorMethods` in `_query`: each `cursor[method](arg)` is a
call on the driver; a method that is no cursor method makes the call throw. -/
def applyCursorMethods (m : Mongo) :
    List (Option String × JVal) → List (String × JVal) → Except String (Mongo × List (String × JVal))
  | [], applied => .ok (m, applied)
  | (none, _) :: _, _ => .error "TypeError: cursor[method] is not a function"
  | (some method, arg) :: rest, applied =>
    applyCursorMethods (m.logged (.cursor method arg)) rest (applied ++ [(method, arg)])

/-- The method `_query`, on the handle it is given. -/
def _query (driver : Driver) (mongo : Mongo) (cName : String) (query : Row)
    (fields : Option Row) : Mongo × Called QueryResult :=
  if truthy (assocGet query "$count") then
    let query := assocDel query "$count"
    let filter := if truthy (assocGet query "$query") then assocGet query "$query" else .obj []
    let m := mongo.logged (.count cName filter)
    match m.fault with
    | some e => (m, .error e)
    | none => (m, .ok (.counted (driver.count (m.rows cName) filter)))
  else
    let (cursorMethods, query) := extractCursorMethods query
    let projection := projectionOf fields
    let m := mongo.logged (.find cName (.obj query) (.obj projection))
    match m.fault with
    | some e => (m, .error e)
    | none =>
      match applyCursorMethods m cursorMethods [] with
      | .error what => (m, .threw what)
      | .ok (m2, applied) =>
        let rows := driver.find (m2.rows cName) query projection applied
        (m2, .ok (.results (rows.filterMap fun r => castToSnapshot (some r))))

/-- The arguments `opts, callback` of `queryProjected`: options with their
`mode` and a callback, or, in the call form of livedb up to 0.2.8, the
callback alone in the place of `opts`. -/
inductive QueryOpts where
  | given (mode : JVal) : QueryOpts
  | callbackOnly : QueryOpts
deriving DecidableEq

/-- The method `queryProjected`. The check is made before the callback is
taken from the place of `opts`, so in the older call form a failed check calls
`undefined`. The delay before a polling query is not modelled: the adapter is
taken to be in the same state when the timer fires. -/
def queryProjected (driver : Driver) (db : Adapter) (cName : String) (fields : Option Row)
    (inputQuery : Row) (opts : QueryOpts) : Step QueryResult :=
  match _check db cName with
  | some err =>
    match opts with
    | .given _ => ⟨db, .error err⟩
    | .callbackOnly => ⟨db, .threw "TypeError: undefined is not a function"⟩
  | none =>
    let mode : JVal :=
      match opts with
      | .given mode => mode
      | .callbackOnly => .undef
    let query := normalizeQuery inputQuery
    match checkQuery db query with
    | some err => ⟨db, .error err⟩
    | none =>
      match (if mode = .str "poll" then db.mongoPoll else none) with
      | some poll =>
        if db.closed then ⟨db, .error "db already closed"⟩
        else
          let r := _query driver poll cName query fields
          ⟨{ db with mongoPoll := some r.1 }, r.2⟩
      | none =>
        let r := _query driver db.mongo cName query fields
        ⟨{ db with mongo := r.1 }, r.2⟩

/-- The method `query`. -/
def query (driver : Driver) (db : Adapter) (cName : String) (inputQuery : Row)
    (opts : QueryOpts) : Step QueryResult :=
  queryProjected driver db cName none inputQuery opts

/-- The method `queryDocProjected`. -/
def queryDocProjected (driver : Driver) (db : Adapter) (cName docName : String)
    (fields : Option Row) (inputQuery : Row) : Step (Option Snapshot) :=
  match _check db cName with
  | some err => ⟨db, .error err⟩
  | none =>
    let query := normalizeQuery inputQuery
    match checkQuery db query with
    | some err => ⟨db, .error err⟩
    | none =>
      let queryId := getProp (assocGet query "$query") (.key "_id")
      let query :=
        if truthy queryId then
          setInFilter (deleteInFilter query "_id") "$and"
            (.arr [.obj [("_id", .str docName)], .obj [("_id", queryId)]])
        else setInFilter query "_id" (.str docName)
      let projection := projectionOf fields
      match db.mongoPoll with
      | some poll =>
        if db.closed then ⟨db, .error "db already closed"⟩
        else
          let m := poll.logged (.findOne cName (.obj query) (.obj projection))
          ⟨{ db with mongoPoll := some m },
            match m.fault with
            | some e => .error e
            | none => .ok (castToSnapshot (driver.findOne (m.rows cName) query projection))⟩
      | none =>
        let m := db.mongo.logged (.findOne cName (.obj query) (.obj projection))
        ⟨{ db with mongo := m },
          match m.fault with
          | some e => .error e
          | none => .ok (castToSnapshot (driver.findOne (m.rows cName) query projection))⟩

/-- The method `queryDoc`. -/
def queryDoc (driver : Driver) (db : Adapter) (cName docName : String) (inputQuery : Row) :
    Step (Option Snapshot) :=
  queryDocProjected driver db cName docName none inputQuery

/-- The method `willOpMakeDocMatchQuery`: always `null`. -/
def willOpMakeDocMatchQuery (_currentStatus _query _op : JVal) : JVal :=
  .null

/-- The method `queryNeedsPollMode`; the query is given by its own members,
which are data. The call `query.hasOwnProperty(name)` finds an own member
named `hasOwnProperty` before the inherited function, and calling a member
that is no function throws. -/
def queryNeedsPollMode (_index : JVal) (query : Row) : Outcome Bool :=
  if (query.map Prod.fst).contains "hasOwnProperty" then .threw "TypeError"
  else
    .value ((query.map Prod.fst).contains "$orderby" ||
      (query.map Prod.fst).contains "$limit" ||
      (query.map Prod.fst).contains "$skip" ||
      (query.map Prod.fst).contains "$count")

mutual
/-- Whether a value has a member named `$where`, at any depth. -/
def mentionsWhere : JVal → Bool
  | .arr xs => mentionsWhereList xs
  | .obj kvs => mentionsWhereMembers kvs
  | _ => false
/-- Whether an element of a list has a member named `$where`, at any
depth. -/
def mentionsWhereList : List JVal → Bool
  | [] => false
  | x :: xs => mentionsWhere x || mentionsWhereList xs
/-- Whether one of the members is named `$where` or has such a member, at any
depth. -/
def mentionsWhereMembers : List (String × JVal) → Bool
  | [] => false
  | (k, v) :: rest => k == "$where" || mentionsWhere v || mentionsWhereMembers rest
end

/-- The query a call on the driver hands to the store, for the calls that
hand one. -/
def Access.query : Access → Option JVal
  | .findOne _ query _ => some query
  | .find _ query _ => some query
  | .count _ query => some query
  | _ => none

/-- The assignment `out[key] = value` on the object at an address, made by
`{}` and assignments: a write to that object, except under the name
`__proto__`, which makes no member (see `setMember`). -/
def OnHeap.setMember (h : Heap) (out : Nat) (key : Segment) (value : HVal) : Heap :=
  if key.name = "__proto__" then h else h.setProp out key value

/-- The function `shallowClone` on a value of the store: `out` is a new
object, and each `out[key] = object[key]` writes to it. For a value kept as
data the members written are those `shallowClone` gives for that value. -/
def OnHeap.shallowClone (h : Heap) (object : HVal) : Heap × Nat :=
  match object with
  | .data v => h.alloc (.mapping ((shallowCloneVal v).map fun kv => (kv.1, HVal.data kv.2)))
  | .ref a =>
    let out := h.alloc (.mapping [])
    ((h.keys a).foldl (fun h2 key => OnHeap.setMember h2 out.2 key (h2.getProp (.ref a) key))
      out.1, out.2)

/-- The statement `query.$query[key] = value` on the query object at an
address: a write to the object its member `$query` refers to. -/
def OnHeap.setInFilter (h : Heap) (query : Nat) (key : Segment) (value : HVal) : Heap :=
  match h.getProp (.ref query) (.key "$query") with
  | .ref filter => h.setProp filter key value
  | .data _ => h

/-- The first statement of `normalizeQuery` on the query object at an address,
which makes `query`: the store after it and the address of `query`. -/
def OnHeap.boxQuery (h : Heap) (inputQuery : Nat) : Heap × Nat :=
  if (h.getProp (.ref inputQuery) (.key "$query")).truthy then
    let query := OnHeap.shallowClone h (.ref inputQuery)
    let filter := OnHeap.shallowClone query.1 (query.1.getProp (.ref query.2) (.key "$query"))
    (filter.1.setProp query.2 (.key "$query") (.ref filter.2), query.2)
  else
    let filter := h.alloc (.mapping [])
    let query := filter.1.alloc (.mapping [("$query", .ref filter.2)])
    ((h.keys inputQuery).foldl
      (fun h2 key =>
        if isOperatorKey key.name then
          OnHeap.setMember h2 query.2 key (h2.getProp (.ref inputQuery) key)
        else OnHeap.setInFilter h2 query.2 key (h2.getProp (.ref inputQuery) key))
      query.1, query.2)

/-- The function `normalizeQuery` on the query object at an address: the store
after the call and the address of the object it returns. -/
def OnHeap.normalizeQuery (h : Heap) (inputQuery : Nat) : Heap × Nat :=
  let query := OnHeap.boxQuery h inputQuery
  if !(query.1.getProp (query.1.getProp (.ref query.2) (.key "$query")) (.key "_type")).truthy
  then
    let ne := query.1.alloc (.mapping [("$ne", .data .null)])
    (OnHeap.setInFilter ne.1 query.2 (.key "_type") (.ref ne.2), query.2)
  else query

/-- The `_type` member of the filter the caller gave: of `$query` when the
query has a truthy `$query` member, of the query itself otherwise. -/
def callerType (inputQuery : Row) : JVal :=
  if truthy (assocGet inputQuery "$query") then
    getProp (assocGet inputQuery "$query") (.key "_type")
  else assocGet inputQuery "_type"

/-- A call on the op log of a collection: `writeOp`, `getVersion` or `getOps`
with its arguments. -/
inductive OpCall where
  | writeOp (cName docName : String) (opData : Row) : OpCall
  | getVersion (cName docName : String) : OpCall
  | getOps (cName docName : String) (start : Int) (endV : JVal) : OpCall
deriving DecidableEq

/-- The collection name a call is made with. -/
def OpCall.cName : OpCall → String
  | .writeOp c _ _ => c
  | .getVersion c _ => c
  | .getOps c _ _ _ => c

/-- The adapter after a call. -/
def OpCall.run (db : Adapter) : OpCall → Adapter
  | .writeOp c d opData => (LiveDbMongo.writeOp db c d opData).db
  | .getVersion c d => (LiveDbMongo.getVersion db c d).db
  | .getOps c d start endV => (LiveDbMongo.getOps db c d start endV).db

/-- The adapter after a sequence of calls. -/
def runCalls (db : Adapter) (calls : List OpCall) : Adapter :=
  calls.foldl OpCall.run db

/-- Whether a call on an open adapter gets as far as `_opCollection`: the
collection name is valid and, for `writeOp`, `opData.v` is neither null nor
undefined. -/
def OpCall.reaches : OpCall → Bool
  | .writeOp c _ opData => !isNullish (assocGet opData "v") && isValidCName c
  | .getVersion c _ => isValidCName c
  | .getOps c _ _ _ => isValidCName c

/-- The collection a call on the driver reads or writes; a request for an
index, a cursor method and `close` read and write none. -/
def Access.collection : Access → Option String
  | .findOne c _ _ => some c
  | .find c _ _ => some c
  | .count c _ => some c
  | .update c _ _ => some c
  | .save c _ => some c
  | _ => none

/-- Every call in the log on the op collection of a collection, other than
one named like a member of `Object.prototype`, comes after a request for the
index of that op collection. -/
def IndexedFirst (log : List Access) : Prop :=
  ∀ (pre : List Access) (a : Access) (post : List Access) (c : String),
    log = pre ++ a :: post → a.collection = some (getOplogCollectionName c) →
    c ∉ objectPrototypeNames → Access.ensureIndex (getOplogCollectionName c) ∈ pre

/-- The index requests of an adapter on which the calls `done` were made since
it was constructed: it is open, `opIndexes` holds the names the calls got to
the op collection with, other than names of members of `Object.prototype`;
the index of an op collection was requested once for a name in `opIndexes` and
never for another name; and every call on an op collection comes after the
request. -/
def IndexInv (db : Adapter) (done : List OpCall) : Prop :=
  db.closed = false
  ∧ (∀ c, c ∈ db.opIndexes ↔
      c ∉ objectPrototypeNames ∧ ∃ call ∈ done, call.cName = c ∧ call.reaches = true)
  ∧ (∀ c, db.mongo.log.count (.ensureIndex (getOplogCollectionName c))
      = if c ∈ db.opIndexes then 1 else 0)
  ∧ IndexedFirst db.mongo.log

/-- The adapter over a handle that reports the given error when asked to
create an index. -/
def withIndexFault (db : Adapter) (error : Option String) : Adapter :=
  { db with mongo := { db.mongo with indexFault := error } }

/-- The logged ops of a document: the rows of the op collection that carry
its name. -/
def loggedOps (m : Mongo) (cName docName : String) : List Row :=
  (m.rows (getOplogCollectionName cName)).filter fun r => assocGet r "name" = .str docName

/-- The snapshot row of a document, if there is one. -/
def snapshotRow (m : Mongo) (cName docName : String) : Option Row :=
  findById (m.rows cName) (.str docName)

/-- The row `writeOp` saves for an op: the members of `opData`, with `_id`
set to `docName + ' v' + opData.v` and `name` to the document name. -/
def opRow (docName : String) (opData : Row) : Row :=
  assocSet
    (assocSet (shallowClone opData) "_id"
      (.str (docName ++ " v" ++ RemoteDoc.jsToString (assocGet opData "v"))))
    "name" (.str docName)

/-- Whether a row of an op collection is keyed as `writeOp` keys it: `name` is
a string and `_id` is `name + ' v' + v`. -/
def opRowKeyed (r : Row) : Bool :=
  match assocGet r "name" with
  | .str name => assocGet r "_id" = .str (name ++ " v" ++ RemoteDoc.jsToString (assocGet r "v"))
  | _ => false

/-- The logged ops of a document carry safe integers as `v`. -/
def SafeVersions (m : Mongo) (cName docName : String) : Prop :=
  ∀ r ∈ loggedOps m cName docName, (vOf r).map isSafeInteger = some true

instance (m : Mongo) (cName docName : String) : Decidable (SafeVersions m cName docName) := by
  unfold SafeVersions
  infer_instance

/-- The op collection of `cName` holds only rows keyed as `writeOp` keys
them, each with a safe integer as `v`. -/
def OpLogKeyed (m : Mongo) (cName : String) : Prop :=
  ∀ r ∈ m.rows (getOplogCollectionName cName),
    opRowKeyed r = true ∧ (vOf r).map isSafeInteger = some true

instance (m : Mongo) (cName : String) : Decidable (OpLogKeyed m cName) := by
  unfold OpLogKeyed
  infer_instance

/-- A use of the store, seen from one document: a commit of an op for the
document at the version `getVersion` passes for it, or a `writeOp` or a
`writeSnapshot` for another document. -/
inductive LogStep where
  | commit (opData : Row) : LogStep
  | otherOp (cName docName : String) (opData : Row) : LogStep
  | otherSnapshot (cName docName : String) (data : SnapshotData) : LogStep
deriving DecidableEq

/-- The adapter after a use of the store. A commit asks for the version and
writes the op with that version as `v`. -/
def LogStep.run (cName docName : String) (db : Adapter) : LogStep → Adapter
  | .commit opData =>
    match (getVersion db cName docName).out with
    | .ok v => (writeOp (getVersion db cName docName).db cName docName (assocSet opData "v" v)).db
    | _ => (getVersion db cName docName).db
  | .otherOp c d opData => (writeOp db c d opData).db
  | .otherSnapshot c d data => (writeSnapshot db c d data).db

/-- The adapter after a sequence of uses of the store. -/
def runSteps (cName docName : String) (db : Adapter) (steps : List LogStep) : Adapter :=
  steps.foldl (LogStep.run cName docName) db

/-- The uses the sequence is made of: op data names each member once, an op
for another document carries a safe integer as `v`, and another document
differs in the collection or in the name. -/
def LogStep.Admitted (cName docName : String) : LogStep → Prop
  | .commit opData => (opData.map Prod.fst).Nodup
  | .otherOp c d opData =>
    ¬ (c = cName ∧ d = docName) ∧ (opData.map Prod.fst).Nodup
      ∧ (vOf opData).map isSafeInteger = some true
  | .otherSnapshot c d _ => ¬ (c = cName ∧ d = docName)

instance (cName docName : String) (s : LogStep) : Decidable (s.Admitted cName docName) := by
  cases s <;> unfold LogStep.Admitted <;> infer_instance

/-- The number of commits in a sequence of uses. -/
def commits (steps : List LogStep) : Nat :=
  (steps.filter fun s => match s with
    | .commit _ => true
    | _ => false).length

/-- The unique index `_opCollection` asks for on `{name: 1, v: 1}`: no two
rows of the op collection agree in both `name` and `v`. -/
def OpIndexUnique (m : Mongo) (cName : String) : Prop :=
  (m.rows (getOplogCollectionName cName)).Pairwise fun a b =>
    ¬ (assocGet a "name" = assocGet b "name" ∧ assocGet a "v" = assocGet b "v")

instance (m : Mongo) (cName : String) : Decidable (OpIndexUnique m cName) := by
  unfold OpIndexUnique
  infer_instance

/-- What `getOps` strips from a row: the members `_id` and `name`. -/
def stripOp (r : Row) : Row :=
  assocDel (assocDel r "_id") "name"

/-- The op collection of `cName` holds only rows keyed as `writeOp` keys
them, no two of them under the same `_id`. -/
def OpLogUniqueKeys (m : Mongo) (cName : String) : Prop :=
  (∀ r ∈ m.rows (getOplogCollectionName cName), opRowKeyed r = true)
    ∧ ((m.rows (getOplogCollectionName cName)).map fun r => assocGet r "_id").Nodup

instance (m : Mongo) (cName : String) : Decidable (OpLogUniqueKeys m cName) := by
  unfold OpLogUniqueKeys
  infer_instance

/-- The adapter after a sequence of `writeOp` calls, each given by its
collection name, document name and op data. -/
def writeOps (db : Adapter) (ws : List (String × String × Row)) : Adapter :=
  ws.foldl (fun db w => (writeOp db w.1 w.2.1 w.2.2).db) db

/-- A store that answers, with no collections. -/
def emptyStore : Mongo :=
  { colls := [], fault := none, log := [] }

/-- A sample store: the snapshot of `fred` in `users` at version 2, and the
two ops that led to it. -/
def sampleStore : Mongo :=
  { colls :=
      [("users",
        [[("name", .str "Fred"), ("_type", .str "json0"), ("_v", .num 2), ("_m", .null),
          ("_id", .str "fred")]]),
       ("users_ops",
        [[("create", .obj [("type", .str "json0"), ("data", .obj [])]), ("v", .num 0),
          ("_id", .str "fred v0"), ("name", .str "fred")],
         [("op", .arr [.obj [("p", .arr [.str "name"]), ("oi", .str "Fred")]]), ("v", .num 1),
          ("_id", .str "fred v1"), ("name", .str "fred")]])],
    fault := none,
    log := [] }

/-- A driver for evaluating the query methods on concrete inputs: it counts
and finds every row, and finds the first row. -/
def sampleDriver : Driver :=
  { count := fun rows _ => .num rows.length,
    find := fun rows _ _ _ => rows,
    findOne := fun rows _ _ => rows.head? }

/-- An adapter made over the sample store. -/
def sampleAdapter : Adapter :=
  LiveDbMongo sampleStore none

end LiveDbMongo

/-! ## Lemmas -/
open JS JS.JVal RemoteDoc
namespace RemoteDoc

theorem listMoveAt_append (X Y P Q : List JVal) (e : JVal) (h : X ++ Y = P ++ Q) :
    listMoveAt (X ++ e :: Y) X.length P.length = P ++ e :: Q := by
  unfold listMoveAt listInsertAt
  have h1 : (X ++ e :: Y)[X.length]? = some e := by
    rw [List.getElem?_append_right (le_refl _)]; simp
  have h2 : (X ++ e :: Y).eraseIdx X.length = X ++ Y := by
    rw [List.eraseIdx_append_of_length_le (le_refl _)]
    simp
  rw [h1]
  simp only [h2, h]
  simp

theorem applyListComponent_move (segments : Path) (xs : List JVal) (i j : Nat) :
    applyListComponent xs (ListMoveOp segments (.idx (i : Int)) (.num (j : Int)))
      = listMoveAt xs i j := by
  simp [applyListComponent, ListMoveOp, castSegments, Op.p]

theorem applyListOp_replicate (xs : List JVal) (c : Op) (n : Nat) :
    applyListOp xs (List.replicate n c) = (fun ys => applyListComponent ys c)^[n] xs := by
  induction n generalizing xs with
  | zero => rfl
  | succ n ih =>
    simp only [List.replicate_succ, Function.iterate_succ, Function.comp]
    exact ih _

/-- Moving the head of the block behind it, once per element of the block. -/
theorem iterate_move_forward (A C D : List JVal) (B1 B2 : List JVal) (j : Nat)
    (hj : j + 1 = A.length + B1.length + C.length + B2.length) :
    (fun ys => listMoveAt ys A.length j)^[B1.length] (A ++ B1 ++ C ++ B2 ++ D)
      = A ++ C ++ B2 ++ B1 ++ D := by
  induction B1 generalizing B2 with
  | nil => simp
  | cons b B1 ih =>
    simp only [List.length_cons, Function.iterate_succ, Function.comp]
    have hstep : listMoveAt (A ++ b :: B1 ++ C ++ B2 ++ D) A.length j
        = A ++ B1 ++ C ++ (B2 ++ [b]) ++ D := by
      have hlen : j = (A ++ B1 ++ C ++ B2).length := by
        simp only [List.length_append, List.length_cons] at hj ⊢
        omega
      have := listMoveAt_append A (B1 ++ C ++ B2 ++ D) (A ++ B1 ++ C ++ B2) D b (by simp)
      rw [← hlen] at this
      simpa using this
    rw [hstep, ih (B2 ++ [b])]
    · simp
    · simp only [List.length_append, List.length_cons, List.length_nil] at hj ⊢
      omega

theorem iterate_move_backward (A C D : List JVal) (B1 B2 : List JVal) (i : Nat)
    (hi : i + 1 = A.length + B2.length + C.length + B1.length) :
    (fun ys => listMoveAt ys i A.length)^[B1.length] (A ++ B2 ++ C ++ B1 ++ D)
      = A ++ B1 ++ B2 ++ C ++ D := by
  induction B1 using List.reverseRecOn generalizing B2 with
  | nil => simp
  | append_singleton B1 b ih =>
    simp only [List.length_append, List.length_cons, List.length_nil, Function.iterate_succ, Function.comp]
    have hstep : listMoveAt (A ++ B2 ++ C ++ (B1 ++ [b]) ++ D) i A.length
        = A ++ (b :: B2) ++ C ++ B1 ++ D := by
      have hlen : i = (A ++ B2 ++ C ++ B1).length := by
        simp only [List.length_append, List.length_cons, List.length_nil] at hi ⊢
        omega
      have := listMoveAt_append (A ++ B2 ++ C ++ B1) D A (B2 ++ C ++ B1 ++ D) b (by simp)
      rw [← hlen] at this
      simpa using this
    rw [hstep, ih (b :: B2)]
    · simp
    · simp only [List.length_append, List.length_cons, List.length_nil] at hi ⊢
      omega

theorem blockSplice_forward (A B C D : List JVal) :
    blockSplice (A ++ B ++ C ++ D) A.length (A.length + C.length) B.length
      = A ++ C ++ B ++ D := by
  have d1 : (A ++ B ++ C ++ D).drop A.length = B ++ (C ++ D) := by
    rw [List.append_assoc, List.append_assoc]; exact List.drop_left' rfl
  have d2 : (A ++ B ++ C ++ D).take A.length = A := by
    rw [List.append_assoc, List.append_assoc]; exact List.take_left' rfl
  have d3 : (A ++ B ++ C ++ D).drop (A.length + B.length) = C ++ D := by
    rw [List.append_assoc]; exact List.drop_left' (by simp)
  have d4 : (A ++ (C ++ D)).take (A.length + C.length) = A ++ C := by
    rw [← List.append_assoc]; exact List.take_left' (by simp)
  have d5 : (A ++ (C ++ D)).drop (A.length + C.length) = D := by
    rw [← List.append_assoc]; exact List.drop_left' (by simp)
  simp only [blockSplice, d1, d2, d3, d4, d5, List.take_left' rfl]

theorem blockSplice_backward (A B C D : List JVal) :
    blockSplice (A ++ C ++ B ++ D) (A.length + C.length) A.length B.length
      = A ++ B ++ C ++ D := by
  have d1 : (A ++ C ++ B ++ D).drop (A.length + C.length) = B ++ D := by
    rw [List.append_assoc]; exact List.drop_left' (by simp)
  have d2 : (A ++ C ++ B ++ D).take (A.length + C.length) = A ++ C := by
    rw [List.append_assoc]; exact List.take_left' (by simp)
  have d3 : (A ++ C ++ B ++ D).drop (A.length + C.length + B.length) = D :=
    List.drop_left' (by simp [Nat.add_assoc])
  have d4 : (A ++ C ++ D).take A.length = A := by
    rw [List.append_assoc]; exact List.take_left' rfl
  have d5 : (A ++ C ++ D).drop A.length = C ++ D := by
    rw [List.append_assoc]; exact List.drop_left' rfl
  simp only [blockSplice, d1, d2, d3, d4, d5, List.take_left' rfl]
  simp

theorem split_four (L : List JVal) (a b c : Nat) (h : a + b + c ≤ L.length) :
    ∃ A B C D, L = A ++ B ++ C ++ D ∧ A.length = a ∧ B.length = b ∧ C.length = c := by
  refine ⟨L.take a, (L.drop a).take b, (L.drop (a + b)).take c, L.drop (a + b + c), ?_, ?_, ?_, ?_⟩
  · have e1 : L.drop (a + b) = (L.drop a).drop b := by
      rw [List.drop_drop, Nat.add_comm]
    have e2 : L.drop (a + b + c) = ((L.drop a).drop b).drop c := by
      rw [List.drop_drop, List.drop_drop]; congr 1; omega
    rw [e2, e1, List.append_assoc, List.append_assoc, List.take_append_drop,
      List.take_append_drop, List.take_append_drop]
  · simp; omega
  · simp; omega
  · simp; omega

theorem move_ops_eq_block (segments : Path) (L : List JVal) (f t c : Nat)
    (hc : 1 ≤ c) (hf : f + c ≤ L.length) (ht : t + c ≤ L.length) :
    applyListOp L (moveOps segments (f : Int) (t : Int) (c : Int)) = blockSplice L f t c := by
  unfold moveOps
  rw [applyListOp_replicate, Int.toNat_ofNat]
  by_cases hlt : f < t
  · have hlt2 : (f : Int) < (t : Int) := by exact_mod_cast hlt
    have hcast : (t : Int) + (c : Int) - 1 = ((t + c - 1 : Nat) : Int) := by omega
    simp only [hlt2, if_true, hcast, applyListComponent_move]
    obtain ⟨A, B, C, D, rfl, hA, hB, hC⟩ := split_four L f c (t - f) (by omega)
    have ht2 : t = A.length + C.length := by omega
    subst hA
    subst hB
    rw [ht2, blockSplice_forward]
    have := iterate_move_forward A C D B [] (A.length + C.length + B.length - 1) (by simp; omega)
    simpa using this
  · have hlt2 : ¬ ((f : Int) < (t : Int)) := by exact_mod_cast hlt
    have hcast : (f : Int) + (c : Int) - 1 = ((f + c - 1 : Nat) : Int) := by omega
    simp only [hlt2, if_false, hcast, applyListComponent_move]
    obtain ⟨A, C, B, D, rfl, hA, hC, hB⟩ := split_four L t (f - t) c (by omega)
    have hf2 : f = A.length + C.length := by omega
    subst hA
    subst hB
    rw [hf2, blockSplice_backward]
    have := iterate_move_backward A C D B [] (A.length + C.length + B.length - 1) (by simp; omega)
    simpa using this

theorem isNullish_of_truthy {v : JVal} (h : truthy v = true) : isNullish v = false := by
  cases v <;> simp_all [truthy, isNullish]

theorem lookup_cons_of_truthy {v : JVal} (s : Segment) (rest : Path) (h : truthy v = true) :
    lookup (s :: rest) v = lookup rest (getProp v s) := by
  simp [lookup, isNullish_of_truthy h]

theorem AncestorsTruthy.head {s : Segment} {rest : Path} {v : JVal}
    (h : AncestorsTruthy (s :: rest) v) : truthy v = true := by
  have := h 0 (by simp)
  simpa [lookup] using this

theorem AncestorsTruthy.tail {s : Segment} {rest : Path} {v : JVal}
    (h : AncestorsTruthy (s :: rest) v) : AncestorsTruthy rest (getProp v s) := by
  intro j hj
  have := h (j + 1) (by simpa using hj)
  rw [List.take_succ_cons, lookup_cons_of_truthy _ _ h.head] at this
  exact this

theorem createImpliedLoop_node (segments : Path) :
    ∀ (rest : Path) (i : Int) (parent : JVal) (key : Segment) (node : JVal),
      AncestorsTruthy rest node →
      createImpliedLoop segments rest i parent key node none = .node (lookup rest node)
  | [], _, _, _, _, _ => by simp [createImpliedLoop, lookup]
  | s :: rest, i, parent, key, node, h => by
    rw [createImpliedLoop]
    simp only [h.head, Bool.not_true, Bool.false_eq_true, if_false]
    rw [createImpliedLoop_node segments rest _ _ _ _ h.tail, lookup_cons_of_truthy _ _ h.head]

theorem ensureCreated_typed (env : ShareEnv) (d : State) (ht : d.typed = true) :
    ensureCreated env d = (d, []) := by
  simp [ensureCreated, ht]

theorem createImplied_node (env : ShareEnv) (d : State) (segments : Path)
    (h : AncestorsTruthy segments (ensureCreated env d).1.snapshot) :
    _createImplied env d segments
      = ((ensureCreated env d).1, (ensureCreated env d).2,
          .node (lookup segments (ensureCreated env d).1.snapshot)) := by
  simp only [_createImplied]
  rw [createImpliedLoop_node segments segments _ _ _ _ h]

/-- A value that is present at the end of a path has containers all the way. -/
theorem ancestorsTruthy_of_lookup :
    ∀ (P : Path) (v : JVal), isNullish (lookup P v) = false → AncestorsTruthy P v
  | [], _, _ => by intro j hj; simp at hj
  | s :: rest, v, h => by
    have hv : truthy v = true := by
      cases v <;> simp_all [lookup, isNullish, truthy, getProp]
      all_goals (cases rest <;> simp_all [lookup, isNullish])
    rw [lookup_cons_of_truthy _ _ hv] at h
    have ih := ancestorsTruthy_of_lookup rest (getProp v s) h
    intro j hj
    cases j with
    | zero => simpa [lookup] using hv
    | succ j =>
      rw [List.take_succ_cons, lookup_cons_of_truthy _ _ hv]
      exact ih j (by simpa using hj)

theorem getProp_emptyFor (s t : Segment) : getProp (emptyFor s) t = .undef := by
  unfold emptyFor
  split
  · cases t <;> simp [getProp]
  · cases t <;> simp [getProp, assocGet]

theorem createImpliedLoop_some (segments : Path) :
    ∀ (rest : Path) (i : Int) (parent : JVal) (key : Segment) (node : JVal) (o : ImpliedOp),
      truthy node = false →
      createImpliedLoop segments rest i parent key node (some o)
        = .implied (extendImplied o key rest)
  | [], _, _, _, _, _, _ => by simp [createImpliedLoop, extendImplied]
  | s :: rest, i, parent, key, node, o, h => by
    rw [createImpliedLoop]
    simp only [h, Bool.not_false, if_true, extendImplied]
    exact createImpliedLoop_some segments rest _ _ _ _ _ (by rw [getProp_emptyFor]; rfl)

theorem createImpliedLoop_hit (segments : Path) (s : Segment) (rest : Path) (i : Int)
    (parent : JVal) (key : Segment) (node : JVal) (h : truthy node = false) :
    createImpliedLoop segments (s :: rest) i parent key node none
      = .implied (extendImplied (firstImplied segments i parent key s) s rest) := by
  rw [createImpliedLoop]
  simp only [h, Bool.not_false, if_true]
  rw [createImpliedLoop_some segments rest _ _ _ _ _ (by rw [getProp_emptyFor]; rfl)]
  unfold firstImplied
  split <;> rfl

theorem createImpliedLoop_walk_hit (segments : Path) (s : Segment) (tail : Path) :
    ∀ (walked : Path) (i : Int) (parent : JVal) (key : Segment) (node : JVal),
      AncestorsTruthy walked node → truthy (lookup walked node) = false →
      createImpliedLoop segments (walked ++ s :: tail) i parent key node none
        = .implied (extendImplied
            (firstImplied segments (i + walked.length) (hitParent parent walked node)
              (walked.getLast?.getD key) s) s tail)
  | [], i, parent, key, node, _, hf => by
    simp only [lookup] at hf
    simpa [hitParent] using createImpliedLoop_hit segments s tail i parent key node hf
  | w :: walked, i, parent, key, node, ht, hf => by
    have hnode : truthy node = true := by
      have := ht 0 (by simp)
      simpa [lookup] using this
    have htail : AncestorsTruthy walked (getProp node w) := by
      intro j hj
      have := ht (j + 1) (by simpa using hj)
      rw [List.take_succ_cons, lookup_cons_of_truthy _ _ hnode] at this
      exact this
    rw [lookup_cons_of_truthy _ _ hnode] at hf
    rw [List.cons_append, createImpliedLoop]
    simp only [hnode, Bool.not_true, Bool.false_eq_true, if_false]
    rw [createImpliedLoop_walk_hit segments s tail walked _ _ _ _ htail hf]
    have e1 : hitParent node walked (getProp node w) = hitParent parent (w :: walked) node := by
      unfold hitParent
      cases walked with
      | nil => simp [lookup]
      | cons x xs =>
        simp only [List.dropLast_cons₂, if_false, reduceCtorEq]
        rw [lookup_cons_of_truthy _ _ hnode]
    have e2 : walked.getLast?.getD w = (w :: walked).getLast?.getD key := by
      cases walked with
      | nil => simp
      | cons x xs =>
        have hy : (x :: xs).getLast? = some ((x :: xs).getLast (by simp)) :=
          List.getLast?_eq_getLast _ _
        simp only [List.getLast?_cons_cons, hy, Option.getD_some]
    have e3 : i + 1 + (walked.length : Int) = i + ((w :: walked).length : Int) := by
      simp only [List.length_cons]; push_cast; ring
    rw [e1, e2, e3]

theorem extendImplied_list (o : ImpliedOp) (key : Segment) (rest : Path) :
    (extendImplied o key rest).list = o.list ∧ (extendImplied o key rest).pre = o.pre
      ∧ (extendImplied o key rest).key = o.key := by
  induction rest generalizing o key with
  | nil => simp [extendImplied]
  | cons s rest ih => simp [extendImplied, ih]

theorem root_extend_assign (rest : Path) :
    ∀ (o : ImpliedOp) (key : Segment) (v : JVal),
      ((extendImplied o key rest).assign (key :: rest).getLast? v).root
        = o.frames.foldr (fun f inner => setProp f.1 f.2 inner)
            (setProp o.value key (impliedChain rest v)) := by
  induction rest with
  | nil =>
    intro o key v
    simp [extendImplied, ImpliedOp.assign, ImpliedOp.root, segOr, impliedChain]
  | cons s rest ih =>
    intro o key v
    rw [extendImplied, List.getLast?_cons_cons, ih]
    simp [impliedChain]

theorem getProp_setProp_emptyFor (s : Segment) (x : JVal) :
    getProp (setProp (emptyFor s) s x) s = x := by
  unfold emptyFor
  cases s with
  | key k => simp [isArrayIndex, setProp, getProp, assocSet, assocGet]
  | idx n =>
    by_cases hn : 0 ≤ n
    · simp [isArrayIndex, hn, setProp, getProp]
    · simp [isArrayIndex, hn, setProp, getProp, assocSet, assocGet]

theorem isNullish_setProp_emptyFor (s : Segment) (x : JVal) :
    isNullish (setProp (emptyFor s) s x) = false := by
  unfold emptyFor
  cases s with
  | key k => simp [isArrayIndex, setProp, isNullish]
  | idx n =>
    by_cases hn : 0 ≤ n
    · simp [isArrayIndex, hn, setProp, isNullish]
    · simp [isArrayIndex, hn, setProp, isNullish]

theorem nullIfUndef_setProp_emptyFor (s : Segment) (x : JVal) :
    nullIfUndef (setProp (emptyFor s) s x) = setProp (emptyFor s) s x := by
  unfold emptyFor
  cases s with
  | key k => simp [isArrayIndex, setProp, nullIfUndef]
  | idx n =>
    by_cases hn : 0 ≤ n
    · simp [isArrayIndex, hn, setProp, nullIfUndef]
    · simp [isArrayIndex, hn, setProp, nullIfUndef]

theorem lookup_impliedChain (rest : Path) (v : JVal) :
    lookup rest (impliedChain rest v) = v := by
  induction rest with
  | nil => rfl
  | cons s rest ih =>
    simp only [impliedChain, lookup, isNullish_setProp_emptyFor, Bool.false_eq_true, if_false,
      getProp_setProp_emptyFor, ih]

theorem jsSlice_zero_nat {α : Type} (xs : List α) (n : Nat) :
    jsSlice xs 0 (n : Int) = xs.take n := by
  unfold jsSlice
  have h1 : ¬ ((n : Int) < 0) := by omega
  simp only [lt_self_iff_false, if_false, h1]
  have h2 : min (0 : Int) (xs.length : Int) = 0 := by omega
  rw [h2]
  simp only [Int.toNat_zero, List.drop_zero, sub_zero]
  by_cases h : n ≤ xs.length
  · have : min (n : Int) (xs.length : Int) = n := by omega
    rw [this, Int.toNat_ofNat]
  · have : min (n : Int) (xs.length : Int) = xs.length := by omega
    rw [this, Int.toNat_ofNat, List.take_of_length_le (le_refl _), List.take_of_length_le (by omega)]

theorem jsSlice_dropLast {α : Type} (xs : List α) :
    jsSlice xs 0 (-1) = xs.dropLast := by
  unfold jsSlice
  have h2 : min (0 : Int) (xs.length : Int) = 0 := by omega
  simp only [lt_self_iff_false, if_false, h2, Int.toNat_zero, List.drop_zero, sub_zero]
  have h3 : ((-1 : Int) < 0) := by omega
  simp only [h3, if_true]
  rw [List.dropLast_eq_take]
  congr 1
  omega

theorem dropLast_append_segOr (P : Path) (hne : P ≠ []) :
    jsSlice P 0 (-1) ++ [segOr P.getLast?] = P := by
  rw [jsSlice_dropLast]
  have h : P.getLast? = some (P.getLast hne) := List.getLast?_eq_getLast _ _
  rw [h]
  simp [segOr, List.dropLast_append_getLast]

theorem set_replaces_aux (env : ShareEnv) (d : State) (P : Path) (value : JVal)
    (ht : d.typed = true) (hne : P ≠ []) (hanc : AncestorsTruthy P d.snapshot) :
    set env d P value =
      ⟨afterSubmit env d (.list [replaceOp P (lookup P d.snapshot) value]),
        [.submitOp (.list [replaceOp P (lookup P d.snapshot) value]) true],
        .val (lookup P d.snapshot)⟩ := by
  have hlen : ¬ (P.length = 0 ∧ d.typed = false) := by
    intro h; exact hne (List.length_eq_zero.mp h.1)
  have hanc' : AncestorsTruthy P (ensureCreated env d).1.snapshot := by
    rw [ensureCreated_typed env d ht]; exact hanc
  unfold set
  rw [if_neg hlen, createImplied_node env d P hanc', ensureCreated_typed env d ht]
  by_cases hidx : isArrayIndex P.getLast? = true
  · simp [hidx, submitOp, afterSubmit, replaceOp, ListReplaceOp, castSegments,
      dropLast_append_segOr P hne]
  · simp [hidx, submitOp, afterSubmit, replaceOp, ObjectReplaceOp, castSegments]

theorem assign_op_extend (P : Path) (i : Int) (parent : JVal) (key s : Segment)
    (tail : Path) (leaf : JVal) :
    ((extendImplied (firstImplied P i parent key s) s tail).assign
        (s :: tail).getLast? leaf).op
      = if isArray parent = true
        then Op.listInsert (jsSlice P 0 (i - 2) ++ [key]) (impliedChain (s :: tail) leaf)
        else Op.objectInsert (jsSlice P 0 (i - 1)) (impliedChain (s :: tail) leaf) := by
  have hroot := root_extend_assign tail (firstImplied P i parent key s) s leaf
  have hf := extendImplied_list (firstImplied P i parent key s) s tail
  unfold ImpliedOp.op
  rw [hroot]
  have h1 : ((extendImplied (firstImplied P i parent key s) s tail).assign
      (s :: tail).getLast? leaf).list = (firstImplied P i parent key s).list := hf.1
  have h2 : ((extendImplied (firstImplied P i parent key s) s tail).assign
      (s :: tail).getLast? leaf).pre = (firstImplied P i parent key s).pre := hf.2.1
  have h3 : ((extendImplied (firstImplied P i parent key s) s tail).assign
      (s :: tail).getLast? leaf).key = (firstImplied P i parent key s).key := hf.2.2
  rw [h1, h2, h3]
  unfold firstImplied
  by_cases hp : isArray parent = true
  · simp [hp, ListInsertOp, castSegments, impliedChain, nullIfUndef_setProp_emptyFor]
  · simp [hp, ObjectInsertOp, castSegments, impliedChain, nullIfUndef_setProp_emptyFor]

theorem createImplied_implied (env : ShareEnv) (d : State) (P : Path) (k : Nat)
    (hk : k < P.length)
    (hmiss : truthy (lookup (P.take k) (ensureCreated env d).1.snapshot) = false)
    (hshort : ∀ j, j < k → truthy (lookup (P.take j) (ensureCreated env d).1.snapshot) = true) :
    ∃ o, _createImplied env d P
          = ((ensureCreated env d).1, (ensureCreated env d).2, .implied o)
      ∧ ∀ leaf, (o.assign P.getLast? leaf).op
          = impliedInsert P (ensureCreated env d).1.snapshot k leaf := by
  generalize hsnap : (ensureCreated env d).1.snapshot = snap at hmiss hshort
  obtain ⟨s, tail, hdrop⟩ : ∃ s tail, P.drop k = s :: tail :=
    ⟨P[k], P.drop (k + 1), List.drop_eq_getElem_cons hk⟩
  have hP : P.take k ++ s :: tail = P := by
    rw [← hdrop, List.take_append_drop]
  have hwl : (P.take k).length = k := by simp; omega
  have hanc : AncestorsTruthy (P.take k) snap := by
    intro j hj
    rw [hwl] at hj
    rw [List.take_take, min_eq_left (le_of_lt hj)]
    exact hshort j hj
  have hloop := createImpliedLoop_walk_hit P s tail (P.take k) 1
    (.obj [("snapshot", snap)]) (.key "snapshot") snap hanc hmiss
  rw [hP] at hloop
  refine ⟨extendImplied
        (firstImplied P (1 + ((P.take k).length : Int))
          (hitParent (.obj [("snapshot", snap)]) (P.take k) snap)
          ((P.take k).getLast?.getD (.key "snapshot")) s)
        s tail, ?_, ?_⟩
  · simp only [_createImplied, hsnap]
    rw [hloop]
  · intro leaf
    have hlast : P.getLast? = (s :: tail).getLast? := by
      have := congrArg List.getLast? hP
      rw [List.getLast?_append_of_ne_nil _ (by simp)] at this
      exact this.symm
    rw [hlast, assign_op_extend, hwl, ← hdrop]
    unfold impliedInsert hitParent
    cases k with
    | zero =>
      have e : jsSlice P 0 0 = [] := by
        have := jsSlice_zero_nat P 0
        simpa using this
      simp [isArray, e]
    | succ k =>
      have hne : P.take (k + 1) ≠ [] := by
        intro h
        have := congrArg List.length h
        rw [hwl] at this
        simp at this
      have hdl : (P.take (k + 1)).dropLast = P.take k := by
        rw [List.dropLast_take hk]; rfl
      have e1 : jsSlice P 0 ((1 : Int) + ((k + 1 : Nat) : Int) - 2) = P.take k := by
        have : (1 : Int) + ((k + 1 : Nat) : Int) - 2 = ((k : Nat) : Int) := by omega
        rw [this, jsSlice_zero_nat]
      have e2 : jsSlice P 0 ((1 : Int) + ((k + 1 : Nat) : Int) - 1) = P.take (k + 1) := by
        have : (1 : Int) + ((k + 1 : Nat) : Int) - 1 = ((k + 1 : Nat) : Int) := by omega
        rw [this, jsSlice_zero_nat]
      have e3 : P.take k ++ [(P.take (k + 1)).getLast?.getD (.key "snapshot")]
          = P.take (k + 1) := by
        rw [List.getLast?_eq_getLast _ hne, Option.getD_some, ← hdl,
          List.dropLast_append_getLast]
      simp only [hne, if_false, hdl, e1, e2, e3, Nat.add_sub_cancel, Nat.succ_pos, true_and]

theorem set_implied_aux (env : ShareEnv) (d : State) (P : Path) (value : JVal) (k : Nat)
    (hk : k < P.length)
    (hmiss : truthy (lookup (P.take k) (ensureCreated env d).1.snapshot) = false)
    (hshort : ∀ j, j < k → truthy (lookup (P.take j) (ensureCreated env d).1.snapshot) = true) :
    set env d P value =
      ⟨afterSubmit env (ensureCreated env d).1
          (.bare (impliedInsert P (ensureCreated env d).1.snapshot k value)),
        (ensureCreated env d).2 ++
          [.submitOp (.bare (impliedInsert P (ensureCreated env d).1.snapshot k value)) true],
        .val .undef⟩ := by
  have hlen : ¬ (P.length = 0 ∧ d.typed = false) := by
    intro h; omega
  obtain ⟨o, ho, hop⟩ := createImplied_implied env d P k hk hmiss hshort
  unfold set
  rw [if_neg hlen, ho]
  simp [hop, submitOp, afterSubmit]

theorem increment_implied_aux (env : ShareEnv) (d : State) (P : Path) (byNumber : Int)
    (k : Nat) (hk : k < P.length)
    (hmiss : truthy (lookup (P.take k) (ensureCreated env d).1.snapshot) = false)
    (hshort : ∀ j, j < k → truthy (lookup (P.take j) (ensureCreated env d).1.snapshot) = true) :
    increment env d P byNumber =
      ⟨afterSubmit env (ensureCreated env d).1
          (.bare (impliedInsert P (ensureCreated env d).1.snapshot k (.num byNumber))),
        (ensureCreated env d).2 ++
          [.submitOp
            (.bare (impliedInsert P (ensureCreated env d).1.snapshot k (.num byNumber))) true],
        .val (.num byNumber)⟩ := by
  obtain ⟨o, ho, hop⟩ := createImplied_implied env d P k hk hmiss hshort
  unfold increment
  rw [ho]
  simp [hop, submitOp, afterSubmit]

theorem insertAt_eq (P : Path) (v : JVal) :
    (if isArrayIndex P.getLast? = true
      then [ListInsertOp (jsSlice P 0 (-1)) (segOr P.getLast?) v]
      else [ObjectInsertOp P v]) = [insertOp P v] := by
  unfold insertOp
  by_cases hidx : isArrayIndex P.getLast? = true
  · have hne : P ≠ [] := by
      intro h; subst h; simp [isArrayIndex] at hidx
    simp [hidx, ListInsertOp, castSegments, dropLast_append_segOr P hne]
  · simp [hidx, ObjectInsertOp, castSegments]

theorem increment_absent_aux (env : ShareEnv) (d : State) (P : Path) (byNumber : Int)
    (hanc : AncestorsTruthy P (ensureCreated env d).1.snapshot)
    (habs : isNullish (lookup P (ensureCreated env d).1.snapshot) = true) :
    increment env d P byNumber =
      ⟨afterSubmit env (ensureCreated env d).1 (.list [insertOp P (.num byNumber)]),
        (ensureCreated env d).2 ++ [.submitOp (.list [insertOp P (.num byNumber)]) true],
        .val (.num byNumber)⟩ := by
  unfold increment
  rw [createImplied_node env d P hanc]
  simp only [habs, if_true, insertAt_eq]
  simp [submitOp, afterSubmit]

theorem increment_present_aux (env : ShareEnv) (d : State) (P : Path) (byNumber : Int)
    (hpres : isNullish (lookup P (ensureCreated env d).1.snapshot) = false) :
    increment env d P byNumber =
      ⟨afterSubmit env (ensureCreated env d).1 (.list [.increment P (.num byNumber)]),
        (ensureCreated env d).2 ++ [.submitOp (.list [.increment P (.num byNumber)]) true],
        .val (jsAdd (lookup P (ensureCreated env d).1.snapshot) byNumber)⟩ := by
  unfold increment
  rw [createImplied_node env d P (ancestorsTruthy_of_lookup P _ hpres)]
  simp [hpres, submitOp, afterSubmit, IncrementOp, castSegments]

theorem del_absent_aux (env : ShareEnv) (d : State) (P : Path) (hne : P ≠ [])
    (h : lookup P d.snapshot = .undef) :
    del env d P = ⟨d, [.callback none], .val .undef⟩ := by
  have hlen : ¬ (P.length = 0) := fun h0 => hne (List.length_eq_zero.mp h0)
  simp [del, hlen, get, h]

theorem del_present_aux (env : ShareEnv) (d : State) (P : Path) (hne : P ≠ [])
    (h : lookup P d.snapshot ≠ .undef) :
    del env d P =
      ⟨afterSubmit env d (.list [.objectDelete P (lookup P d.snapshot)]),
        [.submitOp (.list [.objectDelete P (lookup P d.snapshot)]) true],
        .val (lookup P d.snapshot)⟩ := by
  have hlen : ¬ (P.length = 0) := fun h0 => hne (List.length_eq_zero.mp h0)
  have hn : nullIfUndef (lookup P d.snapshot) = lookup P d.snapshot := by
    cases hv : lookup P d.snapshot <;> simp_all [nullIfUndef]
  simp [del, hlen, get, h, submitOp, afterSubmit, ObjectDeleteOp, castSegments, hn]

theorem arrayApply_nonarray (env : ShareEnv) (d : State) (P : Path) (fnName : String)
    (fn : List JVal → List Op × Ret) (ht : d.typed = true)
    (hpres : isNullish (lookup P d.snapshot) = false)
    (hna : isArray (lookup P d.snapshot) = false) :
    _arrayApply env d P fnName fn =
      ⟨d, [.callback (some ⟨fnName ++ " on non-array", P, lookup P d.snapshot⟩)],
        .ofCallback⟩ := by
  have hanc : AncestorsTruthy P (ensureCreated env d).1.snapshot := by
    rw [ensureCreated_typed env d ht]; exact ancestorsTruthy_of_lookup P _ hpres
  unfold _arrayApply
  rw [createImplied_node env d P hanc, ensureCreated_typed env d ht]
  simp only [hpres, Bool.false_eq_true, if_false, List.append_nil, List.nil_append]
  cases hv : lookup P d.snapshot <;> simp_all [isArray]

theorem arrayApply_array (env : ShareEnv) (d : State) (P : Path) (fnName : String)
    (fn : List JVal → List Op × Ret) (xs : List JVal) (ht : d.typed = true)
    (harr : lookup P d.snapshot = .arr xs) :
    _arrayApply env d P fnName fn =
      ⟨afterSubmit env d (.list (fn xs).1), [.submitOp (.list (fn xs).1) true], (fn xs).2⟩ := by
  have hpres : isNullish (lookup P d.snapshot) = false := by rw [harr]; rfl
  have hanc : AncestorsTruthy P (ensureCreated env d).1.snapshot := by
    rw [ensureCreated_typed env d ht]; exact ancestorsTruthy_of_lookup P _ hpres
  unfold _arrayApply
  rw [createImplied_node env d P hanc, ensureCreated_typed env d ht]
  simp [harr, isNullish, submitOp, afterSubmit]

theorem applyListComponent_insert (P : Path) (xs : List JVal) (i : Nat) (v : JVal) :
    applyListComponent xs (.listInsert (P ++ [.idx (i : Int)]) v) = listInsertAt xs i v := by
  simp [applyListComponent, Op.p]

theorem applyListComponent_remove (P : Path) (xs : List JVal) (i : Nat) (v : JVal) :
    applyListComponent xs (.listRemove (P ++ [.idx (i : Int)]) v) = xs.eraseIdx i := by
  simp [applyListComponent, Op.p]

theorem createInsertLoop_getElem? (P : Path) :
    ∀ (vs : List JVal) (i : Int) (k : Nat) (v : JVal), vs[k]? = some v →
      (createInsertLoop P i vs)[k]?
        = some (.listInsert (P ++ [.idx (i + k)]) (nullIfUndef v))
  | [], _, _, _, h => by simp at h
  | w :: vs, i, 0, v, h => by
    simp only [List.getElem?_cons_zero, Option.some.injEq] at h
    simp [createInsertLoop, ListInsertOp, castSegments, h]
  | w :: vs, i, k + 1, v, h => by
    simp only [List.getElem?_cons_succ] at h
    have := createInsertLoop_getElem? P vs (i + 1) k v h
    have e : i + 1 + (k : Int) = i + ((k + 1 : Nat) : Int) := by push_cast; omega
    rw [e] at this
    simp only [createInsertLoop, List.getElem?_cons_succ, this]

theorem createInsertLoop_length (P : Path) :
    ∀ (vs : List JVal) (i : Int), (createInsertLoop P i vs).length = vs.length
  | [], _ => rfl
  | w :: vs, i => by simp [createInsertLoop, createInsertLoop_length P vs]

theorem applyListOp_createInsertLoop (P : Path) :
    ∀ (vs : List JVal) (L : List JVal) (j : Nat), j ≤ L.length →
      applyListOp L (createInsertLoop P (j : Int) vs)
        = L.take j ++ vs.map nullIfUndef ++ L.drop j
  | [], L, j, _ => by simp [createInsertLoop, applyListOp]
  | w :: vs, L, j, hj => by
    have hstep : applyListOp L (createInsertLoop P (j : Int) (w :: vs))
        = applyListOp (listInsertAt L j (nullIfUndef w))
            (createInsertLoop P ((j + 1 : Nat) : Int) vs) := by
      simp only [createInsertLoop, applyListOp, List.foldl_cons, ListInsertOp, castSegments,
        applyListComponent_insert]
      rfl
    rw [hstep, applyListOp_createInsertLoop P vs _ (j + 1) (by simp [listInsertAt]; omega)]
    have hl : (L.take j).length = j := by simp; omega
    have e1 : (listInsertAt L j (nullIfUndef w)).take (j + 1)
        = L.take j ++ [nullIfUndef w] := by
      unfold listInsertAt
      have : L.take j ++ nullIfUndef w :: L.drop j
          = (L.take j ++ [nullIfUndef w]) ++ L.drop j := by simp
      rw [this]
      exact List.take_left' (by simp; omega)
    have e2 : (listInsertAt L j (nullIfUndef w)).drop (j + 1) = L.drop j := by
      unfold listInsertAt
      have : L.take j ++ nullIfUndef w :: L.drop j
          = (L.take j ++ [nullIfUndef w]) ++ L.drop j := by simp
      rw [this]
      exact List.drop_left' (by simp; omega)
    rw [e1, e2]
    simp

theorem applyListOp_removes (P : Path) (i : Nat) (f : JVal → JVal) :
    ∀ (ws : List JVal) (L : List JVal), i + ws.length ≤ L.length →
      applyListOp L (ws.map fun v => Op.listRemove (P ++ [.idx (i : Int)]) (f v))
        = L.take i ++ L.drop (i + ws.length)
  | [], L, _ => by simp [applyListOp]
  | w :: ws, L, h => by
    simp only [List.length_cons] at h
    simp only [List.map_cons, applyListOp, List.foldl_cons, applyListComponent_remove]
    have ih := applyListOp_removes P i f ws (L.eraseIdx i)
      (by rw [List.length_eraseIdx]; split <;> omega)
    unfold applyListOp at ih
    rw [ih, List.eraseIdx_eq_take_drop_succ]
    have hl : (L.take i).length = i := by simp; omega
    rw [List.take_left' hl, List.drop_append_eq_append_drop, hl]
    have : List.drop (i + ws.length) (L.take i) = [] := by
      apply List.drop_eq_nil_of_le; omega
    rw [this, List.drop_drop]
    simp only [List.nil_append, List.length_cons]
    congr 2
    omega

theorem jsSlice_nat {α : Type} (L : List α) (i c : Nat) (hi : i ≤ L.length) :
    jsSlice L (i : Int) ((i : Int) + (c : Int)) = (L.drop i).take c := by
  unfold jsSlice
  have h1 : ¬ ((i : Int) < 0) := by omega
  have h2 : ¬ ((i : Int) + (c : Int) < 0) := by omega
  have h3 : min (i : Int) (L.length : Int) = i := by omega
  simp only [h1, h2, if_false, h3, Int.toNat_ofNat]
  by_cases hc : i + c ≤ L.length
  · have : min ((i : Int) + (c : Int)) (L.length : Int) - (i : Int) = (c : Int) := by omega
    rw [this, Int.toNat_ofNat]
  · have : min ((i : Int) + (c : Int)) (L.length : Int) - (i : Int)
        = ((L.length - i : Nat) : Int) := by omega
    rw [this, Int.toNat_ofNat, List.take_of_length_le (by simp),
      List.take_of_length_le (by simp; omega)]

end RemoteDoc

namespace LiveDbMongo

open JS JS.JVal

theorem assocSet_of_not_mem (kvs : List (String × JVal)) (name : String) (v : JVal)
    (h : name ∉ kvs.map Prod.fst) : assocSet kvs name v = kvs ++ [(name, v)] := by
  induction kvs with
  | nil => rfl
  | cons kv rest ih =>
    obtain ⟨k, w⟩ := kv
    simp only [List.map_cons, List.mem_cons, not_or] at h
    have hk : ¬ (k = name) := fun e => h.1 e.symm
    simp [assocSet, hk, ih h.2]

theorem assocGet_of_not_mem (kvs : List (String × JVal)) (name : String)
    (h : name ∉ kvs.map Prod.fst) : assocGet kvs name = .undef := by
  induction kvs with
  | nil => rfl
  | cons kv rest ih =>
    obtain ⟨k, w⟩ := kv
    simp only [List.map_cons, List.mem_cons, not_or] at h
    have hk : ¬ (k = name) := fun e => h.1 e.symm
    simp [assocGet, hk, ih h.2]

theorem assocGet_append_of_not_mem (a b : List (String × JVal)) (name : String)
    (h : name ∉ a.map Prod.fst) : assocGet (a ++ b) name = assocGet b name := by
  induction a with
  | nil => rfl
  | cons kv rest ih =>
    obtain ⟨k, w⟩ := kv
    simp only [List.map_cons, List.mem_cons, not_or] at h
    have hk : ¬ (k = name) := fun e => h.1 e.symm
    simp [assocGet, hk, ih h.2]

theorem foldl_assocSet (kvs : List (String × JVal)) :
    ∀ acc : List (String × JVal), (kvs.map Prod.fst).Nodup →
      (∀ k, k ∈ kvs.map Prod.fst → k ∉ acc.map Prod.fst) →
      kvs.foldl (fun out kv => assocSet out kv.1 kv.2) acc = acc ++ kvs := by
  induction kvs with
  | nil => intro acc _ _; simp
  | cons kv rest ih =>
    intro acc hnd hdis
    obtain ⟨k, w⟩ := kv
    simp only [List.map_cons, List.nodup_cons] at hnd
    have hk : k ∉ acc.map Prod.fst := hdis k (by simp)
    simp only [List.foldl_cons, assocSet_of_not_mem acc k w hk]
    rw [ih (acc ++ [(k, w)]) hnd.2]
    · simp
    · intro k' hk'
      simp only [List.map_append, List.map_cons, List.map_nil, List.mem_append,
        List.mem_singleton, not_or]
      refine ⟨hdis k' (by simp [hk']), ?_⟩
      intro e
      subst e
      exact hnd.1 hk'

theorem foldl_setMember (kvs : List (String × JVal)) :
    ∀ acc : List (String × JVal), (kvs.map Prod.fst).Nodup →
      (∀ k, k ∈ kvs.map Prod.fst → k ∉ acc.map Prod.fst) →
      kvs.foldl (fun out kv => setMember out kv.1 kv.2) acc = acc ++ assocDel kvs "__proto__" := by
  induction kvs with
  | nil => intro acc _ _; simp [assocDel]
  | cons kv rest ih =>
    intro acc hnd hdis
    obtain ⟨k, w⟩ := kv
    simp only [List.map_cons, List.nodup_cons] at hnd
    have hk : k ∉ acc.map Prod.fst := hdis k (by simp)
    by_cases hp : k = "__proto__"
    · have hstep : setMember acc k w = acc := by simp [setMember, hp]
      simp only [List.foldl_cons, hstep]
      rw [ih acc hnd.2 (fun k' hk' => hdis k' (by simp [hk']))]
      simp [assocDel, hp]
    · have hstep : setMember acc k w = acc ++ [(k, w)] := by
        simp only [setMember, hp, if_false]
        exact assocSet_of_not_mem acc k w hk
      simp only [List.foldl_cons, hstep]
      rw [ih (acc ++ [(k, w)]) hnd.2]
      · simp [assocDel, hp]
      · intro k' hk'
        simp only [List.map_append, List.map_cons, List.map_nil, List.mem_append,
          List.mem_singleton, not_or]
        refine ⟨hdis k' (by simp [hk']), ?_⟩
        intro e
        subst e
        exact hnd.1 hk'

/-- The own members of the clone of a mapping: its members other than
`__proto__`. -/
theorem shallowClone_assocDel (kvs : List (String × JVal)) (h : (kvs.map Prod.fst).Nodup) :
    shallowClone kvs = assocDel kvs "__proto__" := by
  unfold shallowClone
  rw [foldl_setMember kvs [] h (by simp)]
  simp

theorem assocDel_append (a b : List (String × JVal)) (name : String) :
    assocDel (a ++ b) name = assocDel a name ++ assocDel b name := by
  simp [assocDel]

theorem assocDel_of_not_mem (kvs : List (String × JVal)) (name : String)
    (h : name ∉ kvs.map Prod.fst) : assocDel kvs name = kvs := by
  unfold assocDel
  rw [List.filter_eq_self]
  intro kv hkv
  simp only [ne_eq, decide_not, Bool.not_eq_true', decide_eq_false_iff_not]
  intro e
  exact h (by rw [← e]; exact List.mem_map_of_mem _ hkv)

theorem shallowClone_eq (kvs : List (String × JVal)) (h : (kvs.map Prod.fst).Nodup)
    (hp : "__proto__" ∉ kvs.map Prod.fst) : shallowClone kvs = kvs := by
  rw [shallowClone_assocDel kvs h, assocDel_of_not_mem kvs _ hp]

/-- The members a row has besides the promoted or boxed data. -/
theorem castToDoc_obj (docName : String) (r : SnapshotData) (kvs : List (String × JVal))
    (hd : r.data = .obj kvs) (hnd : (kvs.map Prod.fst).Nodup)
    (h1 : "_type" ∉ kvs.map Prod.fst) (h2 : "_v" ∉ kvs.map Prod.fst)
    (h3 : "_m" ∉ kvs.map Prod.fst) (h4 : "_id" ∉ kvs.map Prod.fst)
    (hp : "__proto__" ∉ kvs.map Prod.fst) :
    castToDoc docName r =
      kvs ++ [("_type", if truthy r.type = true then r.type else .null), ("_v", r.v),
        ("_m", r.m), ("_id", .str docName)] := by
  unfold castToDoc
  simp only [hd, shallowClone_eq kvs hnd hp]
  rw [assocSet_of_not_mem kvs _ _ h1]
  rw [assocSet_of_not_mem _ "_v" _ (by simp [h2])]
  rw [assocSet_of_not_mem _ "_m" _ (by simp [h3])]
  rw [assocSet_of_not_mem _ "_id" _ (by simp [h4])]
  simp

theorem castToDoc_boxed (docName : String) (r : SnapshotData)
    (hd : ∀ kvs, r.data ≠ .obj kvs) :
    castToDoc docName r =
      [("_data", if r.data = .undef then .null else r.data),
        ("_type", if truthy r.type = true then r.type else .null), ("_v", r.v),
        ("_m", r.m), ("_id", .str docName)] := by
  unfold castToDoc
  cases hv : r.data <;> simp_all [assocSet]

theorem castToSnapshot_castToDoc_obj (docName : String) (r : SnapshotData)
    (kvs : List (String × JVal)) (hd : r.data = .obj kvs) (hnd : (kvs.map Prod.fst).Nodup)
    (h0 : "_data" ∉ kvs.map Prod.fst)
    (h1 : "_type" ∉ kvs.map Prod.fst) (h2 : "_v" ∉ kvs.map Prod.fst)
    (h3 : "_m" ∉ kvs.map Prod.fst) (h4 : "_id" ∉ kvs.map Prod.fst)
    (hp : "__proto__" ∉ kvs.map Prod.fst) :
    castToSnapshot (some (castToDoc docName r)) =
      some { data := .obj kvs, type := if truthy r.type = true then r.type else .null,
             v := r.v, docName := .str docName, m := r.m } := by
  rw [castToDoc_obj docName r kvs hd hnd h1 h2 h3 h4 hp]
  have hp' : "__proto__" ∉ (kvs ++ [("_type", if truthy r.type = true then r.type
      else JVal.null), ("_v", r.v), ("_m", r.m), ("_id", JVal.str docName)]).map Prod.fst := by
    simp only [List.map_append, List.map_cons, List.map_nil, List.mem_append, not_or]
    exact ⟨hp, by decide⟩
  have hnd' : ((kvs ++ [("_type", if truthy r.type = true then r.type else JVal.null),
      ("_v", r.v), ("_m", r.m), ("_id", JVal.str docName)]).map Prod.fst).Nodup := by
    simp only [List.map_append, List.map_cons, List.map_nil]
    rw [List.nodup_append]
    refine ⟨hnd, by decide, ?_⟩
    intro a ha hb
    simp only [List.mem_cons, List.mem_singleton, List.not_mem_nil, or_false] at hb
    rcases hb with rfl | rfl | rfl | rfl
    · exact h1 ha
    · exact h2 ha
    · exact h3 ha
    · exact h4 ha
  unfold castToSnapshot
  simp only [assocGet_append_of_not_mem _ _ _ h0, assocGet_append_of_not_mem _ _ _ h1,
    assocGet_append_of_not_mem _ _ _ h2, assocGet_append_of_not_mem _ _ _ h3,
    assocGet_append_of_not_mem _ _ _ h4, shallowClone_eq _ hnd' hp', assocDel_append,
    assocDel_of_not_mem _ _ h1, assocDel_of_not_mem _ _ h2, assocDel_of_not_mem _ _ h3,
    assocDel_of_not_mem _ _ h4]
  simp [assocGet, assocDel]

theorem castToSnapshot_castToDoc_boxed (docName : String) (r : SnapshotData)
    (hd : ∀ kvs, r.data ≠ .obj kvs) (hu : r.data ≠ .undef) :
    castToSnapshot (some (castToDoc docName r)) =
      some { data := r.data, type := if truthy r.type = true then r.type else .null,
             v := r.v, docName := .str docName, m := r.m } := by
  rw [castToDoc_boxed docName r hd]
  simp [castToSnapshot, assocGet, hu]

end LiveDbMongo

open JS JS.JVal RemoteDoc
namespace RemoteDoc

theorem ensureCreated_untyped (env : ShareEnv) (d : State) (ht : d.typed = false) :
    ensureCreated env d
      = ({ d with typed := true, snapshot := env.create .undef }, [.create .undef false]) := by
  simp [ensureCreated, ht, shareCreate]

theorem stringInsert_implied_aux (env : ShareEnv) (d : State) (P : Path) (index : Int)
    (value : JVal) (k : Nat) (hk : k < P.length)
    (hmiss : truthy (lookup (P.take k) (ensureCreated env d).1.snapshot) = false)
    (hshort : ∀ j, j < k → truthy (lookup (P.take j) (ensureCreated env d).1.snapshot) = true) :
    stringInsert env d P index value =
      ⟨afterSubmit env (ensureCreated env d).1
          (.bare (impliedInsert P (ensureCreated env d).1.snapshot k value)),
        (ensureCreated env d).2 ++
          [.submitOp (.bare (impliedInsert P (ensureCreated env d).1.snapshot k value)) true],
        .val .undef⟩ := by
  obtain ⟨o, ho, hop⟩ := createImplied_implied env d P k hk hmiss hshort
  unfold stringInsert
  rw [ho]
  simp [hop, submitOp, afterSubmit]

theorem stringRemove_implied_aux (env : ShareEnv) (d : State) (P : Path) (index howMany : Int)
    (k : Nat) (hk : k < P.length)
    (hmiss : truthy (lookup (P.take k) (ensureCreated env d).1.snapshot) = false)
    (hshort : ∀ j, j < k → truthy (lookup (P.take j) (ensureCreated env d).1.snapshot) = true) :
    stringRemove env d P index howMany
      = ⟨(ensureCreated env d).1, (ensureCreated env d).2, .val .undef⟩ := by
  obtain ⟨o, ho, _⟩ := createImplied_implied env d P k hk hmiss hshort
  unfold stringRemove
  rw [ho]

theorem stringRemove_absent_aux (env : ShareEnv) (d : State) (P : Path) (index howMany : Int)
    (hanc : AncestorsTruthy P (ensureCreated env d).1.snapshot)
    (habs : isNullish (lookup P (ensureCreated env d).1.snapshot) = true) :
    stringRemove env d P index howMany
      = ⟨(ensureCreated env d).1, (ensureCreated env d).2,
          .val (lookup P (ensureCreated env d).1.snapshot)⟩ := by
  unfold stringRemove
  rw [createImplied_node env d P hanc]
  simp [habs]

theorem stringInsert_present_aux (env : ShareEnv) (d : State) (P : Path) (index : Int)
    (value : JVal) (hpres : isNullish (lookup P (ensureCreated env d).1.snapshot) = false) :
    stringInsert env d P index value =
      ⟨afterSubmit env (ensureCreated env d).1
          (.list [.stringInsert (P ++ [.idx index]) value]),
        (ensureCreated env d).2 ++
          [.submitOp (.list [.stringInsert (P ++ [.idx index]) value]) true],
        .val (lookup P (ensureCreated env d).1.snapshot)⟩ := by
  unfold stringInsert
  rw [createImplied_node env d P (ancestorsTruthy_of_lookup P _ hpres)]
  simp [hpres, submitOp, afterSubmit, StringInsertOp, castSegments]

theorem stringRemove_present_aux (env : ShareEnv) (d : State) (P : Path) (index howMany : Int)
    (removed : JVal)
    (hpres : isNullish (lookup P (ensureCreated env d).1.snapshot) = false)
    (hslice : sliceOf (lookup P (ensureCreated env d).1.snapshot) index howMany = some removed) :
    stringRemove env d P index howMany =
      ⟨afterSubmit env (ensureCreated env d).1
          (.list [.stringRemove (P ++ [.idx index]) removed]),
        (ensureCreated env d).2 ++
          [.submitOp (.list [.stringRemove (P ++ [.idx index]) removed]) true],
        .val (lookup P (ensureCreated env d).1.snapshot)⟩ := by
  unfold stringRemove
  rw [createImplied_node env d P (ancestorsTruthy_of_lookup P _ hpres)]
  simp [hpres, hslice, submitOp, afterSubmit, StringRemoveOp, castSegments]

/-- The calls `insert` makes on a document that does not exist yet, when the
share document applies the two implied inserts. -/
theorem insert_fresh_aux (env : ShareEnv) (d : State) (seg : String) (index : Int)
    (values : JVal) (ht : d.typed = false)
    (h0 : truthy (env.create .undef) = false)
    (h1 : isNullish (lookup [.key seg]
        (env.apply (env.create .undef) (.bare (.objectInsert [] (.obj []))))) = true)
    (h2 : ∃ xs, lookup [.key seg]
        (env.apply (env.apply (env.create .undef) (.bare (.objectInsert [] (.obj []))))
          (.list [.objectInsert [.key seg] (.arr [])])) = .arr xs) :
    (insert env d [.key seg] index values).calls =
      [.create .undef false,
       .submitOp (.bare (.objectInsert [] (.obj []))) false,
       .submitOp (.list [.objectInsert [.key seg] (.arr [])]) false,
       .submitOp (.list (createInsertOp [.key seg] index values)) true] := by
  obtain ⟨xs, h2⟩ := h2
  have hloop : createImpliedLoop [.key seg] [.key seg] 1
      (.obj [("snapshot", env.create .undef)]) (.key "snapshot") (env.create .undef) none
      = .implied (firstImplied [.key seg] 1 (.obj [("snapshot", env.create .undef)])
          (.key "snapshot") (.key seg)) := by
    rw [createImpliedLoop_hit _ _ _ _ _ _ _ h0]
    rfl
  unfold insert _arrayApply _createImplied
  rw [ensureCreated_untyped env d ht]
  simp only [hloop]
  simp [firstImplied, isArray, ImpliedOp.op, ImpliedOp.root, ObjectInsertOp, castSegments,
    emptyFor, isArrayIndex, nullIfUndef, submitOp, get, h1, h2, jsSlice]

end RemoteDoc

open JS JS.JVal
namespace LiveDbMongo

theorem rows_logged (m : Mongo) (a : Access) (c : String) : (m.logged a).rows c = m.rows c := rfl

theorem fault_logged (m : Mongo) (a : Access) : (m.logged a).fault = m.fault := rfl

theorem colls_logged (m : Mongo) (a : Access) : (m.logged a).colls = m.colls := rfl

theorem lookup_setRows_same (colls : List (String × List Row)) (c : String) (rows : List Row) :
    (setRows colls c rows).lookup c = some rows := by
  induction colls with
  | nil => simp [setRows, List.lookup]
  | cons hd tl ih =>
    obtain ⟨c0, old⟩ := hd
    by_cases h : c0 = c
    · subst h; simp [setRows, List.lookup]
    · have h' : (c == c0) = false := by
        simp only [beq_eq_false_iff_ne, ne_eq]; exact fun e => h e.symm
      simp [setRows, h, List.lookup, h', ih]

theorem lookup_setRows_other (colls : List (String × List Row)) (c c' : String)
    (rows : List Row) (hne : c' ≠ c) :
    (setRows colls c rows).lookup c' = colls.lookup c' := by
  induction colls with
  | nil =>
    have h' : (c' == c) = false := by simpa using hne
    simp [setRows, List.lookup, h']
  | cons hd tl ih =>
    obtain ⟨c0, old⟩ := hd
    by_cases h : c0 = c
    · subst h
      have h' : (c' == c0) = false := by simpa using hne
      simp [setRows, List.lookup, h']
    · by_cases h2 : c' = c0
      · subst h2; simp [setRows, h, List.lookup]
      · have h' : (c' == c0) = false := by simpa using h2
        simp [setRows, h, List.lookup, h', ih]

theorem rows_setRows_same (colls : List (String × List Row)) (c : String) (rows : List Row)
    (f : Option String) (l : List Access) (x : Option String) :
    ({ colls := setRows colls c rows, fault := f, log := l, indexFault := x } : Mongo).rows c
      = rows := by
  simp [Mongo.rows, lookup_setRows_same]

theorem rows_setRows_other (colls : List (String × List Row)) (c c' : String)
    (rows : List Row) (f f' : Option String) (l l' : List Access) (x x' : Option String)
    (hne : c' ≠ c) :
    ({ colls := setRows colls c rows, fault := f, log := l, indexFault := x } : Mongo).rows c'
      = ({ colls := colls, fault := f', log := l', indexFault := x' } : Mongo).rows c' := by
  simp [Mongo.rows, lookup_setRows_other _ _ _ _ hne]

theorem assocGet_assocSet_same (kvs : Row) (k : String) (v : JVal) :
    assocGet (assocSet kvs k v) k = v := by
  induction kvs with
  | nil => simp [assocSet, assocGet]
  | cons hd tl ih =>
    obtain ⟨k0, w⟩ := hd
    by_cases h : k0 = k
    · simp [assocSet, assocGet, h]
    · simp [assocSet, assocGet, h, ih]

theorem assocGet_assocSet_ne (kvs : Row) (k k' : String) (v : JVal) (hne : k' ≠ k) :
    assocGet (assocSet kvs k v) k' = assocGet kvs k' := by
  induction kvs with
  | nil =>
    have : ¬ (k = k') := fun e => hne e.symm
    simp [assocSet, assocGet, this]
  | cons hd tl ih =>
    obtain ⟨k0, w⟩ := hd
    by_cases h : k0 = k
    · subst h
      have : ¬ (k0 = k') := fun e => hne e.symm
      simp [assocSet, assocGet, this]
    · by_cases h2 : k0 = k'
      · subst h2
        simp [assocSet, assocGet, h]
      · simp [assocSet, assocGet, h, h2, ih]

theorem assocGet_setMember_ne (kvs : Row) (k k' : String) (v : JVal) (hne : k' ≠ k) :
    assocGet (setMember kvs k v) k' = assocGet kvs k' := by
  unfold setMember
  split
  · rfl
  · exact assocGet_assocSet_ne kvs k k' v hne

theorem assocGet_filter (kvs : Row) (p : String × JVal → Bool) (k : String)
    (hp : ∀ v, p (k, v) = true) : assocGet (kvs.filter p) k = assocGet kvs k := by
  induction kvs with
  | nil => rfl
  | cons hd tl ih =>
    obtain ⟨k0, w⟩ := hd
    by_cases h : k0 = k
    · subst h; simp [List.filter, hp, assocGet]
    · cases hpk : p (k0, w) <;> simp [List.filter, hpk, assocGet, h, ih]

theorem assocGet_assocDel_ne (kvs : Row) (k k' : String) (hne : k' ≠ k) :
    assocGet (assocDel kvs k) k' = assocGet kvs k' := by
  unfold assocDel
  apply assocGet_filter
  intro v
  simpa using hne

theorem opCollection_snd (db : Adapter) (c : String) :
    (_opCollection db c).2 = getOplogCollectionName c := by
  unfold _opCollection; split <;> rfl

theorem opCollection_rows (db : Adapter) (c c' : String) :
    (_opCollection db c).1.mongo.rows c' = db.mongo.rows c' := by
  unfold _opCollection; split <;> rfl

theorem opCollection_colls (db : Adapter) (c : String) :
    (_opCollection db c).1.mongo.colls = db.mongo.colls := by
  unfold _opCollection; split <;> rfl

theorem opCollection_fault (db : Adapter) (c : String) :
    (_opCollection db c).1.mongo.fault = db.mongo.fault := by
  unfold _opCollection; split <;> rfl

theorem opCollection_closed (db : Adapter) (c : String) :
    (_opCollection db c).1.closed = db.closed := by
  unfold _opCollection; split <;> rfl

theorem check_open_valid (db : Adapter) (c : String) (ho : db.closed = false)
    (hv : isValidCName c = true) : _check db c = none := by
  simp [_check, ho, hv]

theorem assocGet_project_v (row : Row) :
    assocGet (project [("_v", .num 1)] row) "_v" = assocGet row "_v" := by
  unfold project
  apply assocGet_filter
  intro v
  simp

theorem vLt_below_aux (r y b : Option Int) (h1 : vLt r y = false) (h2 : vLt b y = true) :
    vLt r b = false := by
  cases b <;> cases r <;> cases y <;> simp_all [vLt]
  omega

theorem vLt_chain_aux (r b y : Option Int) (h1 : vLt r b = false) (h2 : vLt b y = false) :
    vLt r y = false := by
  cases b <;> cases r <;> cases y <;> simp_all [vLt]
  omega

theorem vLt_irrefl (a : Option Int) : vLt a a = false := by
  cases a <;> simp [vLt]

/-- The step of the search for the row with the greatest `v`. -/
theorem lastOp_fold_some (l : List Row) (b : Row) :
    ∃ r, l.foldl (fun best r =>
        match best with
        | none => some r
        | some b => if vLt (vOf b) (vOf r) then some r else some b) (some b) = some r ∧
      (r = b ∨ r ∈ l) ∧ vLt (vOf r) (vOf b) = false ∧ ∀ x ∈ l, vLt (vOf r) (vOf x) = false := by
  induction l generalizing b with
  | nil => exact ⟨b, rfl, Or.inl rfl, vLt_irrefl _, fun x hx => by cases hx⟩
  | cons y ys ih =>
    simp only [List.foldl_cons]
    by_cases h : vLt (vOf b) (vOf y) = true
    · simp only [h, if_true]
      obtain ⟨r, hr, hmem, hb, hall⟩ := ih y
      refine ⟨r, hr, ?_, ?_, ?_⟩
      · rcases hmem with e | e
        · exact Or.inr (e ▸ List.mem_cons_self _ _)
        · exact Or.inr (List.mem_cons_of_mem _ e)
      · exact vLt_below_aux _ _ _ hb h
      · intro x hx
        rcases List.mem_cons.mp hx with e | e
        · exact e ▸ hb
        · exact hall x e
    · have h' : vLt (vOf b) (vOf y) = false := by simpa using h
      simp only [h', Bool.false_eq_true, if_false]
      obtain ⟨r, hr, hmem, hb, hall⟩ := ih b
      refine ⟨r, hr, ?_, hb, ?_⟩
      · rcases hmem with e | e
        · exact Or.inl e
        · exact Or.inr (List.mem_cons_of_mem _ e)
      · intro x hx
        rcases List.mem_cons.mp hx with e | e
        · rw [e]
          exact vLt_chain_aux _ _ _ hb h'
        · exact hall x e

theorem findLastOp_nil (rows : List Row) (d : String)
    (h : (rows.filter fun r => assocGet r "name" = .str d) = []) : findLastOp rows d = none := by
  simp [findLastOp, h]

theorem findLastOp_some (rows : List Row) (d : String)
    (h : (rows.filter fun r => assocGet r "name" = .str d) ≠ []) :
    ∃ r, findLastOp rows d = some r ∧
      r ∈ (rows.filter fun r => assocGet r "name" = .str d) ∧
      ∀ x ∈ (rows.filter fun r => assocGet r "name" = .str d), vLt (vOf r) (vOf x) = false := by
  unfold findLastOp
  cases hl : (rows.filter fun r => assocGet r "name" = .str d) with
  | nil => exact absurd hl h
  | cons b l =>
    simp only [List.foldl_cons]
    obtain ⟨r, hr, hmem, hb, hall⟩ := lastOp_fold_some l b
    refine ⟨r, hr, ?_, ?_⟩
    · rcases hmem with e | e
      · exact e ▸ List.mem_cons_self _ _
      · exact List.mem_cons_of_mem _ e
    · intro x hx
      rcases List.mem_cons.mp hx with e | e
      · exact e ▸ hb
      · exact hall x e

/-- What `getVersion` passes on, on an open adapter over a store that answers. -/
theorem getVersion_out (db : Adapter) (c d : String) (ho : db.closed = false)
    (hv : isValidCName c = true) (hf : db.mongo.fault = none) :
    (getVersion db c d).out =
      match findLastOp (db.mongo.rows (getOplogCollectionName c)) d with
      | some data => .ok (RemoteDoc.jsAdd (assocGet data "v") 1)
      | none =>
        match findById (db.mongo.rows c) (.str d) with
        | some doc => .ok (assocGet doc "_v")
        | none => .ok (.num 0) := by
  have hfault := opCollection_fault db c
  have hrows := opCollection_rows db c
  have hsnd := opCollection_snd db c
  unfold getVersion
  rw [check_open_valid db c ho hv]
  rcases hoc : _opCollection db c with ⟨db1, coll⟩
  rw [hoc] at hfault hrows hsnd
  simp only at hfault hrows hsnd
  subst hsnd
  simp only [fault_logged, rows_logged, hfault, hf, hrows]
  cases findLastOp (db.mongo.rows (getOplogCollectionName c)) d with
  | some data => rfl
  | none =>
    simp only
    cases findById (db.mongo.rows c) (.str d) with
    | none => rfl
    | some doc => simp [assocGet_project_v]

theorem getVersion_rows (db : Adapter) (c d c' : String) :
    (getVersion db c d).db.mongo.rows c' = db.mongo.rows c' := by
  have hrows := opCollection_rows db c c'
  unfold getVersion
  cases _check db c with
  | some e => rfl
  | none =>
    rcases hoc : _opCollection db c with ⟨db1, coll⟩
    rw [hoc] at hrows
    simp only at hrows ⊢
    split
    · exact hrows
    · split <;> exact hrows

theorem getVersion_fault (db : Adapter) (c d : String) :
    (getVersion db c d).db.mongo.fault = db.mongo.fault := by
  have hfault := opCollection_fault db c
  unfold getVersion
  cases _check db c with
  | some e => rfl
  | none =>
    rcases hoc : _opCollection db c with ⟨db1, coll⟩
    rw [hoc] at hfault
    simp only at hfault ⊢
    split
    · exact hfault
    · split <;> exact hfault

theorem getVersion_closed (db : Adapter) (c d : String) :
    (getVersion db c d).db.closed = db.closed := by
  have hclosed := opCollection_closed db c
  unfold getVersion
  cases _check db c with
  | some e => rfl
  | none =>
    rcases hoc : _opCollection db c with ⟨db1, coll⟩
    rw [hoc] at hclosed
    simp only at hclosed ⊢
    split
    · exact hclosed
    · split <;> exact hclosed

theorem opRow_id (d : String) (op : Row) :
    assocGet (opRow d op) "_id"
      = .str (d ++ " v" ++ RemoteDoc.jsToString (assocGet op "v")) := by
  unfold opRow
  rw [assocGet_assocSet_ne _ _ _ _ (by decide), assocGet_assocSet_same]

theorem opRow_name (d : String) (op : Row) : assocGet (opRow d op) "name" = .str d := by
  unfold opRow
  rw [assocGet_assocSet_same]

theorem opRow_v (d : String) (op : Row) (hnd : (op.map Prod.fst).Nodup) :
    assocGet (opRow d op) "v" = assocGet op "v" := by
  unfold opRow
  rw [assocGet_assocSet_ne _ _ _ _ (by decide), assocGet_assocSet_ne _ _ _ _ (by decide),
    shallowClone_assocDel op hnd, assocGet_assocDel_ne _ _ _ (by decide)]

theorem opRow_keyed (d : String) (op : Row) (hnd : (op.map Prod.fst).Nodup) :
    opRowKeyed (opRow d op) = true := by
  unfold opRowKeyed
  rw [opRow_name, opRow_id, opRow_v d op hnd]
  simp

/-- What a successful `writeOp` leaves in the store. -/
theorem writeOp_rows (db : Adapter) (c d : String) (op : Row) (ho : db.closed = false)
    (hv : isValidCName c = true) (hf : db.mongo.fault = none)
    (hnn : isNullish (assocGet op "v") = false) (c' : String) :
    (writeOp db c d op).db.mongo.rows c' =
      if c' = getOplogCollectionName c then
        upsertById (db.mongo.rows (getOplogCollectionName c)) (assocGet (opRow d op) "_id")
          (opRow d op)
      else db.mongo.rows c' := by
  have hfault := opCollection_fault db c
  have hrows := opCollection_rows db c
  have hsnd := opCollection_snd db c
  unfold writeOp
  rw [if_neg (by simp [hnn]), check_open_valid db c ho hv]
  rcases hoc : _opCollection db c with ⟨db1, coll⟩
  rw [hoc] at hfault hrows hsnd
  simp only at hfault hrows hsnd
  subst hsnd
  simp only [fault_logged, rows_logged, hfault, hf]
  by_cases hc : c' = getOplogCollectionName c
  · subst hc
    rw [if_pos rfl, rows_setRows_same, hrows]
    rfl
  · rw [if_neg hc, rows_setRows_other _ _ _ _ _ db1.mongo.fault _ db1.mongo.log _ db1.mongo.indexFault hc]
    exact hrows c'

theorem writeOp_out (db : Adapter) (c d : String) (op : Row) (ho : db.closed = false)
    (hv : isValidCName c = true) (hf : db.mongo.fault = none)
    (hnn : isNullish (assocGet op "v") = false) :
    (writeOp db c d op).out = .ok () := by
  have hfault := opCollection_fault db c
  unfold writeOp
  rw [if_neg (by simp [hnn]), check_open_valid db c ho hv]
  rcases hoc : _opCollection db c with ⟨db1, coll⟩
  rw [hoc] at hfault
  simp only at hfault
  simp only [fault_logged, hfault, hf]

theorem writeOp_fault (db : Adapter) (c d : String) (op : Row) :
    (writeOp db c d op).db.mongo.fault = db.mongo.fault := by
  have hfault := opCollection_fault db c
  unfold writeOp
  split
  · rfl
  · cases _check db c with
    | some e => rfl
    | none =>
      rcases hoc : _opCollection db c with ⟨db1, coll⟩
      rw [hoc] at hfault
      simp only at hfault ⊢
      split <;> exact hfault

theorem writeOp_closed (db : Adapter) (c d : String) (op : Row) :
    (writeOp db c d op).db.closed = db.closed := by
  have hclosed := opCollection_closed db c
  unfold writeOp
  split
  · rfl
  · cases _check db c with
    | some e => rfl
    | none =>
      rcases hoc : _opCollection db c with ⟨db1, coll⟩
      rw [hoc] at hclosed
      simp only at hclosed ⊢
      split <;> exact hclosed

theorem mem_upsertById (rows : List Row) (id : JVal) (doc x : Row)
    (h : x ∈ upsertById rows id doc) : x = doc ∨ x ∈ rows := by
  induction rows with
  | nil =>
    simp only [upsertById, List.mem_singleton] at h
    exact Or.inl h
  | cons r rest ih =>
    unfold upsertById at h
    split at h
    · rcases List.mem_cons.mp h with e | e
      · exact Or.inl e
      · exact Or.inr (List.mem_cons_of_mem _ e)
    · rcases List.mem_cons.mp h with e | e
      · exact Or.inr (e ▸ List.mem_cons_self _ _)
      · rcases ih e with e2 | e2
        · exact Or.inl e2
        · exact Or.inr (List.mem_cons_of_mem _ e2)

theorem self_mem_upsertById (rows : List Row) (id : JVal) (doc : Row) :
    doc ∈ upsertById rows id doc := by
  induction rows with
  | nil => simp [upsertById]
  | cons r rest ih =>
    unfold upsertById
    split
    · exact List.mem_cons_self _ _
    · exact List.mem_cons_of_mem _ ih

/-- An upsert under a key that no row passing a test carries, of a document
that fails the test, leaves the rows that pass the test as they are. -/
theorem filter_upsertById_other (rows : List Row) (id : JVal) (doc : Row) (p : Row → Bool)
    (hdoc : p doc = false) (hrows : ∀ r ∈ rows, assocGet r "_id" = id → p r = false) :
    (upsertById rows id doc).filter p = rows.filter p := by
  induction rows with
  | nil => simp [upsertById, List.filter, hdoc]
  | cons r rest ih =>
    have ih' := ih fun x hx => hrows x (List.mem_cons_of_mem _ hx)
    unfold upsertById
    split
    · next hid =>
      have hr := hrows r (List.mem_cons_self _ _) hid
      simp [List.filter, hdoc, hr]
    · cases hp : p r <;> simp [List.filter, hp, ih']

theorem findById_upsertById_same (rows : List Row) (id : JVal) (doc : Row)
    (hdoc : assocGet doc "_id" = id) : findById (upsertById rows id doc) id = some doc := by
  induction rows with
  | nil => simp [upsertById, findById, List.find?, hdoc]
  | cons r rest ih =>
    unfold upsertById
    split
    · simp [findById, List.find?, hdoc]
    · next hne =>
      unfold findById at ih ⊢
      simp [List.find?, hne, ih]

theorem findById_upsertById_other (rows : List Row) (id id' : JVal) (doc : Row)
    (hdoc : assocGet doc "_id" = id) (hne : id' ≠ id) :
    findById (upsertById rows id doc) id' = findById rows id' := by
  induction rows with
  | nil =>
    have : ¬ (assocGet doc "_id" = id') := by rw [hdoc]; exact fun e => hne e.symm
    simp [upsertById, findById, List.find?, this]
  | cons r rest ih =>
    unfold upsertById
    split
    · next hid =>
      have h1 : ¬ (assocGet doc "_id" = id') := by rw [hdoc]; exact fun e => hne e.symm
      have h2 : ¬ (assocGet r "_id" = id') := by rw [hid]; exact fun e => hne e.symm
      simp [findById, List.find?, h1, h2]
    · unfold findById at ih ⊢
      by_cases h : assocGet r "_id" = id'
      · simp [List.find?, h]
      · simp [List.find?, h, ih]

theorem upsertById_idem (rows : List Row) (id : JVal) (doc : Row)
    (hdoc : assocGet doc "_id" = id) :
    upsertById (upsertById rows id doc) id doc = upsertById rows id doc := by
  induction rows with
  | nil => simp [upsertById, hdoc]
  | cons r rest ih =>
    by_cases h : assocGet r "_id" = id
    · simp [upsertById, h, hdoc]
    · simp [upsertById, h, ih]

theorem upsertById_length_of_mem (rows : List Row) (id : JVal) (doc : Row)
    (h : ∃ r ∈ rows, assocGet r "_id" = id) :
    (upsertById rows id doc).length = rows.length := by
  induction rows with
  | nil => obtain ⟨r, hr, _⟩ := h; cases hr
  | cons r rest ih =>
    by_cases hid : assocGet r "_id" = id
    · simp [upsertById, hid]
    · obtain ⟨x, hx, hxid⟩ := h
      rcases List.mem_cons.mp hx with e | e
      · exact absurd (e ▸ hxid) hid
      · simp [upsertById, hid, ih ⟨x, e, hxid⟩]

theorem setRows_setRows (colls : List (String × List Row)) (c : String) (r1 r2 : List Row) :
    setRows (setRows colls c r1) c r2 = setRows colls c r2 := by
  induction colls with
  | nil => simp [setRows]
  | cons hd tl ih =>
    obtain ⟨c0, old⟩ := hd
    by_cases h : c0 = c
    · simp [setRows, h]
    · simp [setRows, h, ih]

theorem ite_ne_aux (c : Prop) [Decidable c] (a b x : Char) (ha : a ≠ x) (hb : b ≠ x) :
    (if c then a else b) ≠ x := by
  split <;> assumption

theorem digitChar_ne_v (k : Nat) : Nat.digitChar k ≠ 'v' := by
  unfold Nat.digitChar
  repeat (apply ite_ne_aux _ _ _ _ (by decide))
  decide

theorem toDigitsCore_no_v (fuel n : Nat) (ds : List Char) (h : 'v' ∉ ds) :
    'v' ∉ Nat.toDigitsCore 10 fuel n ds := by
  induction fuel generalizing n ds with
  | zero => simpa [Nat.toDigitsCore] using h
  | succ f ih =>
    unfold Nat.toDigitsCore
    have hcons : 'v' ∉ Nat.digitChar (n % 10) :: ds := by
      intro hm
      rcases List.mem_cons.mp hm with e | e
      · exact digitChar_ne_v _ e.symm
      · exact h e
    simp only
    split
    · exact hcons
    · exact ih _ _ hcons

theorem natRepr_no_v (n : Nat) : 'v' ∉ (toString n).data := by
  show 'v' ∉ (Nat.repr n).data
  unfold Nat.repr Nat.toDigits
  simp only [List.asString]
  exact toDigitsCore_no_v _ _ _ (by simp)

theorem intToString_no_v (n : Int) : 'v' ∉ (toString n).data := by
  cases n with
  | ofNat m => exact natRepr_no_v m
  | negSucc m =>
    show 'v' ∉ ("-" ++ toString (m + 1)).data
    rw [String.data_append]
    intro hm
    rcases List.mem_append.mp hm with e | e
    · revert e; decide
    · exact natRepr_no_v _ e

/-- Two texts that end in `v` and a tail without `v` agree only when their
parts before that `v` agree. -/
theorem split_at_last_v (a b x y : List Char) (hx : 'v' ∉ x) (hy : 'v' ∉ y)
    (h : a ++ 'v' :: x = b ++ 'v' :: y) : a = b := by
  induction a generalizing b with
  | nil =>
    cases b with
    | nil => rfl
    | cons c cs =>
      simp only [List.nil_append, List.cons_append, List.cons.injEq] at h
      obtain ⟨hc, hrest⟩ := h
      exact absurd (hrest ▸ (List.mem_append_right cs (List.mem_cons_self _ _))) hx
  | cons c cs ih =>
    cases b with
    | nil =>
      simp only [List.nil_append, List.cons_append, List.cons.injEq] at h
      obtain ⟨hc, hrest⟩ := h
      exact absurd (hrest ▸ (List.mem_append_right cs (List.mem_cons_self _ _))) hy
    | cons e es =>
      simp only [List.cons_append, List.cons.injEq] at h
      obtain ⟨hc, hrest⟩ := h
      rw [hc, ih es hrest]

/-- The keys of ops of different documents differ when the versions are
numbers. -/
theorem opKey_ne (d d' : String) (n n' : Int) (hne : d ≠ d') :
    d ++ " v" ++ toString n ≠ d' ++ " v" ++ toString n' := by
  intro h
  have hdata := congrArg String.data h
  simp only [String.data_append] at hdata
  have h1 : (d.data ++ [' ']) ++ 'v' :: (toString n).data
      = (d'.data ++ [' ']) ++ 'v' :: (toString n').data := by
    simpa using hdata
  have h2 := split_at_last_v _ _ _ _ (intToString_no_v n) (intToString_no_v n') h1
  have h3 : d.data = d'.data := List.append_cancel_right h2
  exact hne (String.ext h3)

theorem oplogName_injective (c c' : String)
    (h : getOplogCollectionName c = getOplogCollectionName c') : c = c' := by
  unfold getOplogCollectionName at h
  have hdata := congrArg String.data h
  simp only [String.data_append] at hdata
  exact String.ext (List.append_cancel_right hdata)

theorem valid_ne_oplogName (c x : String) (hv : isValidCName c = true) :
    c ≠ getOplogCollectionName x := by
  intro h
  subst h
  unfold isValidCName getOplogCollectionName at hv
  simp only [Bool.and_eq_true, Bool.not_eq_true', String.data_append] at hv
  have hs : ("_ops".data).isSuffixOf (x.data ++ "_ops".data) = true := by
    rw [List.isSuffixOf_iff_suffix]
    exact List.suffix_append _ _
  rw [hs] at hv
  exact absurd hv.1 (by decide)

/-- A name is taken as valid unless it ends in `_ops` or is `system`. -/
theorem isValidCName_iff (c : String) :
    isValidCName c = false ↔ (∃ p : String, c = p ++ "_ops") ∨ c = "system" := by
  unfold isValidCName
  constructor
  · intro h
    simp only [Bool.and_eq_false_iff, Bool.not_eq_false', bne_eq_false_iff_eq] at h
    rcases h with h | h
    · left
      rw [List.isSuffixOf_iff_suffix] at h
      obtain ⟨t, ht⟩ := h
      refine ⟨String.mk t, String.ext ?_⟩
      rw [String.data_append]
      exact ht.symm
    · exact Or.inr h
  · intro h
    simp only [Bool.and_eq_false_iff, Bool.not_eq_false', bne_eq_false_iff_eq]
    rcases h with ⟨p, hp⟩ | h
    · left
      rw [List.isSuffixOf_iff_suffix, hp, String.data_append]
      exact List.suffix_append _ _
    · exact Or.inr h

theorem assocSet_keys (kvs : Row) (k : String) (v : JVal) :
    (assocSet kvs k v).map Prod.fst
      = if k ∈ kvs.map Prod.fst then kvs.map Prod.fst else kvs.map Prod.fst ++ [k] := by
  induction kvs with
  | nil => simp [assocSet]
  | cons hd tl ih =>
    obtain ⟨k0, w⟩ := hd
    by_cases h : k0 = k
    · subst h; simp [assocSet]
    · have h' : ¬ (k = k0) := fun e => h e.symm
      by_cases hm : k ∈ tl.map Prod.fst
      · simp only [assocSet, h, if_false, List.map_cons, ih, hm, if_true, List.mem_cons, or_true]
      · simp only [assocSet, h, if_false, List.map_cons, ih, hm, List.mem_cons, h', or_self,
          List.cons_append]

theorem assocSet_keys_nodup (kvs : Row) (k : String) (v : JVal)
    (h : (kvs.map Prod.fst).Nodup) : ((assocSet kvs k v).map Prod.fst).Nodup := by
  rw [assocSet_keys]
  split
  · exact h
  · next hm =>
    rw [List.nodup_append]
    refine ⟨h, List.nodup_singleton _, ?_⟩
    intro a ha hb
    rw [List.mem_singleton] at hb
    exact hm (hb ▸ ha)

theorem getVersion_out_congr (db db' : Adapter) (c d : String)
    (ho : db.closed = false) (ho' : db'.closed = false) (hv : isValidCName c = true)
    (hf : db.mongo.fault = none) (hf' : db'.mongo.fault = none)
    (hlog : loggedOps db'.mongo c d = loggedOps db.mongo c d)
    (hsnap : snapshotRow db'.mongo c d = snapshotRow db.mongo c d) :
    (getVersion db' c d).out = (getVersion db c d).out := by
  rw [getVersion_out db c d ho hv hf, getVersion_out db' c d ho' hv hf']
  unfold loggedOps at hlog
  unfold snapshotRow at hsnap
  unfold findLastOp
  rw [hlog, hsnap]

theorem writeOp_db_of_check (db : Adapter) (c d : String) (op : Row) (e : String)
    (h : _check db c = some e) : (writeOp db c d op).db = db := by
  unfold writeOp
  split
  · rfl
  · rw [h]

theorem castToDoc_id (d : String) (data : SnapshotData) :
    assocGet (castToDoc d data) "_id" = .str d := by
  unfold castToDoc
  simp only [assocGet_assocSet_same]

theorem castToDoc_v (d : String) (data : SnapshotData) :
    assocGet (castToDoc d data) "_v" = data.v := by
  unfold castToDoc
  simp only
  rw [assocGet_assocSet_ne _ _ _ _ (by decide), assocGet_assocSet_ne _ _ _ _ (by decide),
    assocGet_assocSet_same]

theorem castToDoc_type (d : String) (data : SnapshotData) :
    assocGet (castToDoc d data) "_type" = if truthy data.type then data.type else .null := by
  unfold castToDoc
  simp only
  rw [assocGet_assocSet_ne _ _ _ _ (by decide), assocGet_assocSet_ne _ _ _ _ (by decide),
    assocGet_assocSet_ne _ _ _ _ (by decide), assocGet_assocSet_same]

theorem writeSnapshot_db_of_check (db : Adapter) (c d : String) (data : SnapshotData)
    (e : String) (h : _check db c = some e) : (writeSnapshot db c d data).db = db := by
  unfold writeSnapshot
  rw [h]

theorem writeSnapshot_rows (db : Adapter) (c d : String) (data : SnapshotData)
    (ho : db.closed = false) (hv : isValidCName c = true) (hf : db.mongo.fault = none)
    (c' : String) :
    (writeSnapshot db c d data).db.mongo.rows c' =
      if c' = c then upsertById (db.mongo.rows c) (.str d) (castToDoc d data)
      else db.mongo.rows c' := by
  unfold writeSnapshot
  rw [check_open_valid db c ho hv]
  simp only [fault_logged, hf]
  by_cases hc : c' = c
  · subst hc
    rw [if_pos rfl, rows_setRows_same]
    rfl
  · rw [if_neg hc, rows_setRows_other _ _ _ _ _ db.mongo.fault _ db.mongo.log _ db.mongo.indexFault hc]
    rfl

theorem writeSnapshot_out (db : Adapter) (c d : String) (data : SnapshotData)
    (ho : db.closed = false) (hv : isValidCName c = true) (hf : db.mongo.fault = none) :
    (writeSnapshot db c d data).out = .ok () := by
  unfold writeSnapshot
  rw [check_open_valid db c ho hv]
  simp only [fault_logged, hf]

theorem writeSnapshot_fault (db : Adapter) (c d : String) (data : SnapshotData) :
    (writeSnapshot db c d data).db.mongo.fault = db.mongo.fault := by
  unfold writeSnapshot
  cases _check db c with
  | some e => rfl
  | none =>
    simp only
    split <;> rfl

theorem writeSnapshot_closed (db : Adapter) (c d : String) (data : SnapshotData) :
    (writeSnapshot db c d data).db.closed = db.closed := by
  unfold writeSnapshot
  cases _check db c with
  | some e => rfl
  | none =>
    simp only
    split <;> rfl

theorem check_cases (db : Adapter) (c : String) (ho : db.closed = false) :
    (isValidCName c = true ∧ _check db c = none)
      ∨ (isValidCName c = false ∧ _check db c = some "Invalid collection name") := by
  cases hv : isValidCName c
  · right; simp [_check, ho, hv]
  · left; simp [_check, ho, hv]

/-- After an op was written for a document at the version `getVersion` passed,
`getVersion` passes that version plus 1. -/
theorem writeOp_advances_aux (db : Adapter) (c d : String) (n : Int) (op : Row)
    (ho : db.closed = false) (hv : isValidCName c = true) (hf : db.mongo.fault = none)
    (hnum : ∀ r ∈ loggedOps db.mongo c d, (vOf r).isSome = true)
    (hcur : (getVersion db c d).out = .ok (.num n))
    (hnd : (op.map Prod.fst).Nodup) (hvn : assocGet op "v" = .num n) :
    (getVersion (writeOp db c d op).db c d).out = .ok (.num (n + 1)) := by
  have hnn : isNullish (assocGet op "v") = false := by rw [hvn]; rfl
  have ho' : (writeOp db c d op).db.closed = false := by rw [writeOp_closed]; exact ho
  have hf' : (writeOp db c d op).db.mongo.fault = none := by rw [writeOp_fault]; exact hf
  rw [getVersion_out _ c d ho' hv hf', writeOp_rows db c d op ho hv hf hnn, if_pos rfl]
  have hrowv : vOf (opRow d op) = some n := by
    unfold vOf
    rw [opRow_v d op hnd, hvn]
    rfl
  have hne : ((upsertById (db.mongo.rows (getOplogCollectionName c))
      (assocGet (opRow d op) "_id") (opRow d op)).filter
        fun r => assocGet r "name" = .str d) ≠ [] := by
    intro hnil
    have hm : opRow d op ∈ (upsertById (db.mongo.rows (getOplogCollectionName c))
        (assocGet (opRow d op) "_id") (opRow d op)).filter
          fun r => assocGet r "name" = .str d := by
      rw [List.mem_filter]
      exact ⟨self_mem_upsertById _ _ _, by simp [opRow_name]⟩
    rw [hnil] at hm
    cases hm
  obtain ⟨r, hr, hmem, hmax⟩ := findLastOp_some _ d hne
  rw [hr]
  simp only
  have hge := hmax (opRow d op) (by
    rw [List.mem_filter]
    exact ⟨self_mem_upsertById _ _ _, by simp [opRow_name]⟩)
  rw [List.mem_filter] at hmem
  rcases mem_upsertById _ _ _ _ hmem.1 with e | e
  · rw [e, opRow_v d op hnd, hvn]
    rfl
  · exfalso
    have hrlog : r ∈ loggedOps db.mongo c d := by
      unfold loggedOps
      rw [List.mem_filter]
      exact ⟨e, hmem.2⟩
    have hold : loggedOps db.mongo c d ≠ [] := fun h => by rw [h] at hrlog; cases hrlog
    obtain ⟨top, htop, htmem, htmax⟩ := findLastOp_some _ d hold
    rw [getVersion_out db c d ho hv hf, htop] at hcur
    simp only at hcur
    have hts := hnum top htmem
    have hrs := hnum r hrlog
    have hle := htmax r hrlog
    cases htv : assocGet top "v" with
    | num m =>
      rw [htv] at hcur
      simp only [RemoteDoc.jsAdd, Called.ok.injEq, JVal.num.injEq] at hcur
      cases hrv : assocGet r "v" with
      | num k =>
        simp only [vOf, htv, hrv, numOf, vLt, decide_eq_false_iff_not, not_lt] at hle
        rw [hrowv] at hge
        simp only [vOf, hrv, numOf, vLt, decide_eq_false_iff_not, not_lt] at hge
        omega
      | _ => simp [vOf, hrv, numOf] at hrs
    | _ => simp [vOf, htv, numOf] at hts

theorem vOf_num (r : Row) (h : (vOf r).isSome = true) : ∃ k, assocGet r "v" = .num k := by
  unfold vOf at h
  cases hv : assocGet r "v" with
  | num k => exact ⟨k, rfl⟩
  | _ => simp [hv, numOf] at h

theorem loggedOps_congr (m m' : Mongo) (c d : String)
    (h : m'.rows (getOplogCollectionName c) = m.rows (getOplogCollectionName c)) :
    loggedOps m' c d = loggedOps m c d := by
  unfold loggedOps
  rw [h]

theorem snapshotRow_congr (m m' : Mongo) (c d : String) (h : m'.rows c = m.rows c) :
    snapshotRow m' c d = snapshotRow m c d := by
  unfold snapshotRow
  rw [h]

theorem opLogKeyed_congr (m m' : Mongo) (c : String)
    (h : m'.rows (getOplogCollectionName c) = m.rows (getOplogCollectionName c))
    (hk : OpLogKeyed m c) : OpLogKeyed m' c := by
  unfold OpLogKeyed at hk ⊢
  rw [h]
  exact hk

theorem safe_isSome (o : Option Int) (h : o.map isSafeInteger = some true) :
    o.isSome = true := by
  cases o with
  | none => cases h
  | some k => rfl

theorem safe_num (r : Row) (h : (vOf r).map isSafeInteger = some true) :
    ∃ k, assocGet r "v" = .num k ∧ isSafeInteger k = true := by
  unfold vOf at h
  cases hv : assocGet r "v" with
  | num k =>
    rw [hv] at h
    simp only [numOf, Option.map_some', Option.some.injEq] at h
    exact ⟨k, rfl, h⟩
  | _ => rw [hv] at h; cases h

theorem isSafeInteger_iff (n : Int) :
    isSafeInteger n = true ↔ -(2 ^ 53 : Int) < n ∧ n < 2 ^ 53 := by
  unfold isSafeInteger
  rw [decide_eq_true_iff]
  constructor
  · intro h
    omega
  · intro h
    omega

/-- A `writeOp` for another document leaves the logged ops of a document as
they are. -/
theorem writeOp_loggedOps_other (db : Adapter) (c d c' d' : String) (op : Row)
    (ho : db.closed = false) (hf : db.mongo.fault = none) (hk : OpLogKeyed db.mongo c)
    (hne : ¬ (c' = c ∧ d' = d)) (hnum : (vOf op).isSome = true) :
    loggedOps (writeOp db c' d' op).db.mongo c d = loggedOps db.mongo c d := by
  rcases check_cases db c' ho with ⟨hv', _⟩ | ⟨_, hbad⟩
  · obtain ⟨k, hvk⟩ := vOf_num op hnum
    have hnn : isNullish (assocGet op "v") = false := by rw [hvk]; rfl
    unfold loggedOps
    rw [writeOp_rows db c' d' op ho hv' hf hnn]
    split
    · next hc =>
      have hcc : c = c' := oplogName_injective _ _ hc
      subst hcc
      have hd : d' ≠ d := fun e => hne ⟨rfl, e⟩
      apply filter_upsertById_other
      · rw [opRow_name]
        simp only [decide_eq_false_iff_not, JVal.str.injEq]
        exact hd
      · intro r hr hid
        obtain ⟨hkey, hsafer⟩ := hk r hr
        obtain ⟨j, hvj⟩ := vOf_num r (safe_isSome _ hsafer)
        unfold opRowKeyed at hkey
        cases hname : assocGet r "name" with
        | str name =>
          simp only [decide_eq_false_iff_not, JVal.str.injEq]
          intro hnd
          subst hnd
          rw [hname] at hkey
          simp only [decide_eq_true_eq] at hkey
          rw [hid, opRow_id, hvj, hvk] at hkey
          simp only [RemoteDoc.jsToString, JVal.str.injEq] at hkey
          exact opKey_ne d' name k j hd hkey
        | _ => simp
    · rfl
  · rw [writeOp_db_of_check db c' d' op _ hbad]

theorem writeOp_snapshotRow (db : Adapter) (c d c' d' : String) (op : Row)
    (ho : db.closed = false) (hv : isValidCName c = true) (hf : db.mongo.fault = none) :
    snapshotRow (writeOp db c' d' op).db.mongo c d = snapshotRow db.mongo c d := by
  rcases check_cases db c' ho with ⟨hv', _⟩ | ⟨_, hbad⟩
  · cases hnn : isNullish (assocGet op "v")
    · apply snapshotRow_congr
      rw [writeOp_rows db c' d' op ho hv' hf hnn, if_neg (valid_ne_oplogName c c' hv)]
    · have : (writeOp db c' d' op).db = db := by
        unfold writeOp
        rw [if_pos hnn]
      rw [this]
  · rw [writeOp_db_of_check db c' d' op _ hbad]

theorem writeOp_keeps_keyed (db : Adapter) (c c' d' : String) (op : Row)
    (ho : db.closed = false) (hf : db.mongo.fault = none) (hk : OpLogKeyed db.mongo c)
    (hnd : (op.map Prod.fst).Nodup) (hsafe : (vOf op).map isSafeInteger = some true) :
    OpLogKeyed (writeOp db c' d' op).db.mongo c := by
  have hnum : (vOf op).isSome = true := safe_isSome _ hsafe
  rcases check_cases db c' ho with ⟨hv', _⟩ | ⟨_, hbad⟩
  · obtain ⟨k, hvk⟩ := vOf_num op hnum
    have hnn : isNullish (assocGet op "v") = false := by rw [hvk]; rfl
    unfold OpLogKeyed
    rw [writeOp_rows db c' d' op ho hv' hf hnn]
    split
    · next hc =>
      intro r hr
      rcases mem_upsertById _ _ _ _ hr with e | e
      · subst e
        refine ⟨opRow_keyed d' op hnd, ?_⟩
        unfold vOf at hsafe ⊢
        rw [opRow_v d' op hnd]
        exact hsafe
      · rw [← hc] at e
        exact hk r e
    · exact hk
  · rw [writeOp_db_of_check db c' d' op _ hbad]
    exact hk

theorem writeSnapshot_loggedOps (db : Adapter) (c c' d' : String) (data : SnapshotData)
    (ho : db.closed = false) (hf : db.mongo.fault = none) :
    (writeSnapshot db c' d' data).db.mongo.rows (getOplogCollectionName c)
      = db.mongo.rows (getOplogCollectionName c) := by
  rcases check_cases db c' ho with ⟨hv', _⟩ | ⟨_, hbad⟩
  · rw [writeSnapshot_rows db c' d' data ho hv' hf,
      if_neg (fun e => valid_ne_oplogName c' c hv' e.symm)]
  · rw [writeSnapshot_db_of_check db c' d' data _ hbad]

theorem writeSnapshot_snapshotRow_other (db : Adapter) (c d c' d' : String)
    (data : SnapshotData) (ho : db.closed = false) (hf : db.mongo.fault = none)
    (hne : ¬ (c' = c ∧ d' = d)) :
    snapshotRow (writeSnapshot db c' d' data).db.mongo c d = snapshotRow db.mongo c d := by
  rcases check_cases db c' ho with ⟨hv', _⟩ | ⟨_, hbad⟩
  · unfold snapshotRow
    rw [writeSnapshot_rows db c' d' data ho hv' hf]
    split
    · next hc =>
      subst hc
      have hd : d' ≠ d := fun e => hne ⟨rfl, e⟩
      apply findById_upsertById_other _ _ _ _ (castToDoc_id d' data)
      simp only [ne_eq, JVal.str.injEq]
      exact fun e => hd e.symm
    · rfl
  · rw [writeSnapshot_db_of_check db c' d' data _ hbad]

/-- A use of the store that the sequence admits keeps the adapter open, the
store answering and the op collection keyed, and moves the version of the
document by one for a commit and not at all otherwise. -/
theorem run_admitted_aux (db : Adapter) (c d : String) (n : Int) (s : LogStep)
    (hv : isValidCName c = true) (ho : db.closed = false) (hf : db.mongo.fault = none)
    (hk : OpLogKeyed db.mongo c) (hcur : (getVersion db c d).out = .ok (.num n))
    (hn : isSafeInteger n = true) (hs : s.Admitted c d) :
    (s.run c d db).closed = false ∧ (s.run c d db).mongo.fault = none
      ∧ OpLogKeyed (s.run c d db).mongo c
      ∧ (getVersion (s.run c d db) c d).out = .ok (.num (n + commits [s])) := by
  cases s with
  | commit opData =>
    have hnd : (opData.map Prod.fst).Nodup := hs
    have ho1 : (getVersion db c d).db.closed = false := by rw [getVersion_closed]; exact ho
    have hf1 : (getVersion db c d).db.mongo.fault = none := by rw [getVersion_fault]; exact hf
    have hk1 : OpLogKeyed (getVersion db c d).db.mongo c :=
      opLogKeyed_congr _ _ c (getVersion_rows db c d _) hk
    have hcur1 : (getVersion (getVersion db c d).db c d).out = .ok (.num n) := by
      rw [getVersion_out_congr db _ c d ho ho1 hv hf hf1
        (loggedOps_congr _ _ c d (getVersion_rows db c d _))
        (snapshotRow_congr _ _ c d (getVersion_rows db c d _))]
      exact hcur
    have hnd1 : ((assocSet opData "v" (.num n)).map Prod.fst).Nodup :=
      assocSet_keys_nodup _ _ _ hnd
    have hv1 : assocGet (assocSet opData "v" (.num n)) "v" = .num n := assocGet_assocSet_same _ _ _
    have hnum1 : (vOf (assocSet opData "v" (.num n))).map isSafeInteger = some true := by
      unfold vOf; rw [hv1]; simp [numOf, hn]
    have hrun : LogStep.run c d db (.commit opData)
        = (writeOp (getVersion db c d).db c d (assocSet opData "v" (.num n))).db := by
      unfold LogStep.run
      rw [hcur]
    rw [hrun]
    refine ⟨by rw [writeOp_closed]; exact ho1, by rw [writeOp_fault]; exact hf1,
      writeOp_keeps_keyed _ c c d _ ho1 hf1 hk1 hnd1 hnum1, ?_⟩
    have := writeOp_advances_aux _ c d n _ ho1 hv hf1
      (fun r hr => safe_isSome _ (hk1 r (List.mem_of_mem_filter hr)).2) hcur1 hnd1 hv1
    rw [this]
    rfl
  | otherOp c' d' opData =>
    obtain ⟨hne, hnd, hsafe⟩ := hs
    have hnum : (vOf opData).isSome = true := safe_isSome _ hsafe
    have ho1 : (writeOp db c' d' opData).db.closed = false := by rw [writeOp_closed]; exact ho
    have hf1 : (writeOp db c' d' opData).db.mongo.fault = none := by
      rw [writeOp_fault]; exact hf
    refine ⟨ho1, hf1, writeOp_keeps_keyed db c c' d' opData ho hf hk hnd hsafe, ?_⟩
    show (getVersion (writeOp db c' d' opData).db c d).out = _
    rw [getVersion_out_congr db _ c d ho ho1 hv hf hf1
      (writeOp_loggedOps_other db c d c' d' opData ho hf hk hne hnum)
      (writeOp_snapshotRow db c d c' d' opData ho hv hf), hcur]
    simp [commits]
  | otherSnapshot c' d' data =>
    have hne : ¬ (c' = c ∧ d' = d) := hs
    have ho1 : (writeSnapshot db c' d' data).db.closed = false := by
      rw [writeSnapshot_closed]; exact ho
    have hf1 : (writeSnapshot db c' d' data).db.mongo.fault = none := by
      rw [writeSnapshot_fault]; exact hf
    refine ⟨ho1, hf1,
      opLogKeyed_congr _ _ c (writeSnapshot_loggedOps db c c' d' data ho hf) hk, ?_⟩
    show (getVersion (writeSnapshot db c' d' data).db c d).out = _
    rw [getVersion_out_congr db _ c d ho ho1 hv hf hf1
      (loggedOps_congr _ _ c d (writeSnapshot_loggedOps db c c' d' data ho hf))
      (writeSnapshot_snapshotRow_other db c d c' d' data ho hf hne), hcur]
    simp [commits]

theorem commits_cons (s : LogStep) (steps : List LogStep) :
    commits (s :: steps) = commits [s] + commits steps := by
  cases s <;> simp [commits, List.filter]
  omega

theorem runSteps_version_aux (steps : List LogStep) (db : Adapter) (c d : String) (n : Int)
    (hv : isValidCName c = true) (ho : db.closed = false) (hf : db.mongo.fault = none)
    (hk : OpLogKeyed db.mongo c) (hcur : (getVersion db c d).out = .ok (.num n))
    (hlow : -(2 ^ 53 : Int) < n) (hhigh : n + commits steps < 2 ^ 53)
    (hs : ∀ s ∈ steps, s.Admitted c d) :
    (getVersion (runSteps c d db steps) c d).out = .ok (.num (n + commits steps)) := by
  induction steps generalizing db n with
  | nil => simpa [runSteps, commits] using hcur
  | cons s rest ih =>
    rw [commits_cons s rest] at hhigh
    push_cast at hhigh
    have hn : isSafeInteger n = true := by
      rw [isSafeInteger_iff]
      constructor
      · exact hlow
      · omega
    obtain ⟨ho1, hf1, hk1, hcur1⟩ :=
      run_admitted_aux db c d n s hv ho hf hk hcur hn (hs s (List.mem_cons_self _ _))
    have := ih (s.run c d db) (n + commits [s]) ho1 hf1 hk1 hcur1 (by omega) (by omega)
      (fun x hx => hs x (List.mem_cons_of_mem _ hx))
    unfold runSteps at this ⊢
    rw [List.foldl_cons, this, commits_cons s rest]
    push_cast
    rw [add_assoc]

theorem assocGet_assocDel_same (kvs : Row) (k : String) : assocGet (assocDel kvs k) k = .undef := by
  apply assocGet_of_not_mem
  unfold assocDel
  intro hm
  obtain ⟨kv, hkv, hk⟩ := List.mem_map.mp hm
  have := (List.mem_filter.mp hkv).2
  simp only [ne_eq, decide_not, Bool.not_eq_true', decide_eq_false_iff_not] at this
  exact this hk

theorem stripOp_get (r : Row) (k : String) (h1 : k ≠ "_id") (h2 : k ≠ "name") :
    assocGet (stripOp r) k = assocGet r k := by
  unfold stripOp
  rw [assocGet_assocDel_ne _ _ _ h2, assocGet_assocDel_ne _ _ _ h1]

theorem stripOp_id (r : Row) : assocGet (stripOp r) "_id" = .undef := by
  unfold stripOp
  rw [assocGet_assocDel_ne _ _ _ (by decide), assocGet_assocDel_same]

theorem stripOp_name (r : Row) : assocGet (stripOp r) "name" = .undef := by
  unfold stripOp
  rw [assocGet_assocDel_same]

theorem insertByV_eq (r : Row) (xs : List Row) :
    insertByV r xs = List.orderedInsert (fun a b => vLt (vOf b) (vOf a) = false) r xs := by
  induction xs with
  | nil => rfl
  | cons x rest ih =>
    unfold insertByV
    rw [List.orderedInsert]
    cases h : vLt (vOf x) (vOf r)
    · simp
    · simp [ih]

theorem sortByV_eq (rows : List Row) :
    sortByV rows = List.insertionSort (fun a b => vLt (vOf b) (vOf a) = false) rows := by
  unfold sortByV
  induction rows with
  | nil => rfl
  | cons x rest ih =>
    rw [List.foldr_cons, ih, insertByV_eq]
    rfl

theorem sortByV_perm (rows : List Row) : (sortByV rows).Perm rows := by
  rw [sortByV_eq]
  exact List.perm_insertionSort _ _

theorem sortByV_sorted (rows : List Row) :
    (sortByV rows).Pairwise fun a b => vLt (vOf b) (vOf a) = false := by
  rw [sortByV_eq]
  haveI : IsTotal Row (fun a b => vLt (vOf b) (vOf a) = false) :=
    ⟨fun a b => by
      cases ha : vOf a <;> cases hb : vOf b <;> simp [vLt]
      omega⟩
  haveI : IsTrans Row (fun a b => vLt (vOf b) (vOf a) = false) :=
    ⟨fun a b c hab hbc => vLt_chain_aux _ _ _ hbc hab⟩
  exact List.sorted_insertionSort _ _

/-- What `getOps` passes on, on an open adapter over a store that answers. -/
theorem getOps_out (db : Adapter) (c d : String) (start : Int) (endV : JVal)
    (ho : db.closed = false) (hv : isValidCName c = true) (hf : db.mongo.fault = none) :
    (getOps db c d start endV).out =
      .ok ((sortByV ((db.mongo.rows (getOplogCollectionName c)).filter
        (opInRange d start endV))).map stripOp) := by
  have hfault := opCollection_fault db c
  have hrows := opCollection_rows db c
  have hsnd := opCollection_snd db c
  unfold getOps
  rw [check_open_valid db c ho hv]
  rcases hoc : _opCollection db c with ⟨db1, coll⟩
  rw [hoc] at hfault hrows hsnd
  simp only at hfault hrows hsnd
  subst hsnd
  simp only [fault_logged, rows_logged, hfault, hf, hrows]
  rfl

/-- The rows `getOps` finds are the logged ops of the document whose `v` is a
number in the range. -/
theorem filter_opInRange (rows : List Row) (d : String) (start : Int) (endV : JVal) :
    rows.filter (opInRange d start endV)
      = (rows.filter fun r => assocGet r "name" = .str d).filter (vInRange start endV) := by
  rw [List.filter_filter]
  apply List.filter_congr
  intro r _
  unfold opInRange
  exact Bool.and_comm _ _

theorem vInRange_iff (start : Int) (endV : JVal)
    (hend : isNullish endV = true ∨ ∃ e, endV = .num e) (r : Row) :
    vInRange start endV r = true ↔
      ∃ n, assocGet r "v" = .num n ∧ start ≤ n ∧ ∀ e, endV = .num e → n < e := by
  unfold vInRange
  constructor
  · intro h
    cases hv : vOf r with
    | none => simp [hv] at h
    | some n =>
      have hn : assocGet r "v" = .num n := by
        obtain ⟨k, hk⟩ := vOf_num r (by rw [hv]; rfl)
        simp only [vOf, hk, numOf, Option.some.injEq] at hv
        rw [hk, hv]
      simp only [hv, Bool.and_eq_true, decide_eq_true_eq] at h
      refine ⟨n, hn, h.1, ?_⟩
      intro e he
      have h2 := h.2
      subst he
      simpa [isNullish] using h2
  · rintro ⟨n, hn, hs, he⟩
    have hv : vOf r = some n := by simp [vOf, hn, numOf]
    simp only [hv, Bool.and_eq_true, decide_eq_true_eq]
    refine ⟨hs, ?_⟩
    rcases hend with hnull | ⟨e, hee⟩
    · simp [hnull]
    · subst hee
      simpa [isNullish] using he e rfl

theorem vInRange_num (start : Int) (endV : JVal) (r : Row) (h : vInRange start endV r = true) :
    (vOf r).isSome = true := by
  unfold vInRange at h
  cases hv : vOf r with
  | none => simp [hv] at h
  | some n => rfl

/-- Rows sorted by `v`, all with numbers as `v` and no two with the same `v`,
are in strictly ascending order of `v`. -/
theorem strict_of_sorted (l : List Row)
    (hs : l.Pairwise fun a b => vLt (vOf b) (vOf a) = false)
    (hnum : ∀ r ∈ l, (vOf r).isSome = true)
    (hne : l.Pairwise fun a b => assocGet a "v" ≠ assocGet b "v") :
    l.Pairwise fun a b => ∃ x y, assocGet a "v" = .num x ∧ assocGet b "v" = .num y ∧ x < y := by
  have h := (List.Pairwise.and hs hne)
  rw [List.Pairwise.and_mem] at h
  refine h.imp ?_
  intro a b hab
  obtain ⟨ha, hb, hle, hdiff⟩ := hab
  obtain ⟨x, hx⟩ := vOf_num a (hnum a ha)
  obtain ⟨y, hy⟩ := vOf_num b (hnum b hb)
  refine ⟨x, y, hx, hy, ?_⟩
  simp only [vOf, hx, hy, numOf, vLt, decide_eq_false_iff_not, not_lt] at hle
  rw [hx, hy] at hdiff
  have : x ≠ y := fun e => hdiff (by rw [e])
  omega

/-- Under the unique index the logged ops of one document differ in `v`. -/
theorem loggedOps_distinct (m : Mongo) (c d : String) (hu : OpIndexUnique m c) :
    (loggedOps m c d).Pairwise fun a b => assocGet a "v" ≠ assocGet b "v" := by
  unfold loggedOps
  unfold OpIndexUnique at hu
  have h := List.Pairwise.filter (fun r => decide (assocGet r "name" = .str d)) hu
  rw [List.Pairwise.and_mem] at h
  refine h.imp ?_
  intro a b hab
  obtain ⟨ha, hb, hne⟩ := hab
  have hna := (List.mem_filter.mp ha).2
  have hnb := (List.mem_filter.mp hb).2
  simp only [decide_eq_true_eq] at hna hnb
  intro hv
  exact hne ⟨by rw [hna, hnb], hv⟩

theorem upsertById_ids (rows : List Row) (id : JVal) (doc : Row)
    (hdoc : assocGet doc "_id" = id) :
    (upsertById rows id doc).map (fun r => assocGet r "_id")
      = if id ∈ rows.map (fun r => assocGet r "_id") then rows.map (fun r => assocGet r "_id")
        else rows.map (fun r => assocGet r "_id") ++ [id] := by
  induction rows with
  | nil => simp [upsertById, hdoc]
  | cons r rest ih =>
    by_cases h : assocGet r "_id" = id
    · simp [upsertById, h, hdoc]
    · have h' : ¬ (id = assocGet r "_id") := fun e => h e.symm
      by_cases hm : id ∈ rest.map (fun r => assocGet r "_id")
      · simp only [upsertById, h, if_false, List.map_cons, ih, hm, if_true, List.mem_cons,
          or_true]
      · simp only [upsertById, h, if_false, List.map_cons, ih, hm, List.mem_cons, h', or_self,
          List.cons_append]

theorem upsertById_ids_nodup (rows : List Row) (id : JVal) (doc : Row)
    (hdoc : assocGet doc "_id" = id)
    (h : (rows.map fun r => assocGet r "_id").Nodup) :
    ((upsertById rows id doc).map fun r => assocGet r "_id").Nodup := by
  rw [upsertById_ids rows id doc hdoc]
  split
  · exact h
  · next hm =>
    rw [List.nodup_append]
    refine ⟨h, List.nodup_singleton _, ?_⟩
    intro a ha hb
    rw [List.mem_singleton] at hb
    exact hm (hb ▸ ha)

/-- The store after `writeOp`: either as before, or with the op row put into
the op collection under its key. -/
theorem writeOp_rows_cases (db : Adapter) (c d : String) (op : Row)
    (ho : db.closed = false) (hf : db.mongo.fault = none) :
    (∀ x, (writeOp db c d op).db.mongo.rows x = db.mongo.rows x)
    ∨ (∀ x, (writeOp db c d op).db.mongo.rows x =
        if x = getOplogCollectionName c then
          upsertById (db.mongo.rows (getOplogCollectionName c)) (assocGet (opRow d op) "_id")
            (opRow d op)
        else db.mongo.rows x) := by
  rcases check_cases db c ho with ⟨hv, _⟩ | ⟨_, hbad⟩
  · cases hnn : isNullish (assocGet op "v")
    · exact Or.inr fun x => writeOp_rows db c d op ho hv hf hnn x
    · left
      intro x
      have : (writeOp db c d op).db = db := by
        unfold writeOp
        rw [if_pos hnn]
      rw [this]
  · left
    intro x
    rw [writeOp_db_of_check db c d op _ hbad]

theorem writeOp_keeps_unique (db : Adapter) (c c' d' : String) (op : Row)
    (ho : db.closed = false) (hf : db.mongo.fault = none) (hk : OpLogUniqueKeys db.mongo c)
    (hnd : (op.map Prod.fst).Nodup) :
    OpLogUniqueKeys (writeOp db c' d' op).db.mongo c := by
  unfold OpLogUniqueKeys at hk ⊢
  rcases writeOp_rows_cases db c' d' op ho hf with h | h
  · rw [h]
    exact hk
  · rw [h]
    split
    · next hc =>
      rw [← hc]
      refine ⟨?_, upsertById_ids_nodup _ _ _ rfl hk.2⟩
      intro r hr
      rcases mem_upsertById _ _ _ _ hr with e | e
      · rw [e]
        exact opRow_keyed d' op hnd
      · exact hk.1 r e
    · exact hk

theorem writeOps_keeps_unique (ws : List (String × String × Row)) (db : Adapter) (c : String)
    (ho : db.closed = false) (hf : db.mongo.fault = none) (hk : OpLogUniqueKeys db.mongo c)
    (hnd : ∀ w ∈ ws, (w.2.2.map Prod.fst).Nodup) :
    (writeOps db ws).closed = false ∧ (writeOps db ws).mongo.fault = none
      ∧ OpLogUniqueKeys (writeOps db ws).mongo c := by
  induction ws generalizing db with
  | nil => exact ⟨ho, hf, hk⟩
  | cons w rest ih =>
    unfold writeOps
    rw [List.foldl_cons]
    exact ih (writeOp db w.1 w.2.1 w.2.2).db (by rw [writeOp_closed]; exact ho)
      (by rw [writeOp_fault]; exact hf)
      (writeOp_keeps_unique db c w.1 w.2.1 w.2.2 ho hf hk (hnd w (List.mem_cons_self _ _)))
      (fun x hx => hnd x (List.mem_cons_of_mem _ hx))

/-- Rows keyed by name and `v`, no two under one key, honour the unique index
on name and `v`. -/
theorem unique_of_keys (m : Mongo) (c : String) (hk : OpLogUniqueKeys m c) :
    OpIndexUnique m c := by
  unfold OpIndexUnique
  obtain ⟨hkeyed, hnodup⟩ := hk
  have hp : (m.rows (getOplogCollectionName c)).Pairwise
      fun a b => assocGet a "_id" ≠ assocGet b "_id" := by
    have := hnodup
    unfold List.Nodup at this
    rw [List.pairwise_map] at this
    exact this
  rw [List.Pairwise.and_mem] at hp
  refine hp.imp ?_
  intro a b hab
  obtain ⟨ha, hb, hne⟩ := hab
  rintro ⟨hname, hv⟩
  apply hne
  have hka := hkeyed a ha
  have hkb := hkeyed b hb
  unfold opRowKeyed at hka hkb
  cases hna : assocGet a "name" with
  | str na =>
    rw [hna] at hka hname
    rw [← hname] at hkb
    simp only [decide_eq_true_eq] at hka hkb
    rw [hka, hkb, hv]
  | _ => rw [hna] at hka; simp at hka

/-- Under the unique index, `getOps` passes ops no two of which carry the same
`v`. -/
theorem getOps_distinct_aux (db : Adapter) (c d : String) (start : Int) (endV : JVal)
    (ho : db.closed = false) (hv : isValidCName c = true) (hf : db.mongo.fault = none)
    (hu : OpIndexUnique db.mongo c) :
    ∃ ops, (getOps db c d start endV).out = .ok ops
      ∧ ops.Pairwise fun a b => assocGet a "v" ≠ assocGet b "v" := by
  refine ⟨_, getOps_out db c d start endV ho hv hf, ?_⟩
  rw [List.pairwise_map]
  have hperm := sortByV_perm ((db.mongo.rows (getOplogCollectionName c)).filter
    (opInRange d start endV))
  have hd := loggedOps_distinct db.mongo c d hu
  unfold loggedOps at hd
  have hfl := List.Pairwise.filter (vInRange start endV) hd
  rw [← filter_opInRange] at hfl
  have := (hperm.pairwise_iff (fun h => Ne.symm h)).mpr hfl
  refine this.imp ?_
  intro a b hab
  rw [stripOp_get a "v" (by decide) (by decide), stripOp_get b "v" (by decide) (by decide)]
  exact hab

/-- What `writeOp` leaves of the collections. -/
theorem writeOp_colls (db : Adapter) (c d : String) (op : Row) :
    (writeOp db c d op).db.mongo.colls =
      if isNullish (assocGet op "v") = false ∧ _check db c = none ∧ db.mongo.fault = none then
        setRows db.mongo.colls (getOplogCollectionName c)
          (upsertById (db.mongo.rows (getOplogCollectionName c))
            (assocGet (opRow d op) "_id") (opRow d op))
      else db.mongo.colls := by
  have hfault := opCollection_fault db c
  have hrows := opCollection_rows db c
  have hcolls := opCollection_colls db c
  have hsnd := opCollection_snd db c
  cases hnn : isNullish (assocGet op "v")
  · cases hch : _check db c with
    | some e =>
      rw [if_neg (by simp), writeOp_db_of_check db c d op e hch]
    | none =>
      unfold writeOp
      rw [if_neg (by simp [hnn]), hch]
      rcases hoc : _opCollection db c with ⟨db1, coll⟩
      rw [hoc] at hfault hrows hsnd hcolls
      simp only at hfault hrows hsnd hcolls
      subst hsnd
      simp only [fault_logged, rows_logged, colls_logged, hfault]
      cases hf : db.mongo.fault with
      | some e =>
        rw [if_neg (by simp)]
        simp only [colls_logged]
        exact hcolls
      | none =>
        rw [if_pos ⟨trivial, trivial, rfl⟩]
        simp only
        rw [hcolls, hrows]
        rfl
  · rw [if_neg (by simp)]
    unfold writeOp
    rw [if_pos hnn]

theorem check_writeOp (db : Adapter) (c d x : String) (op : Row) :
    _check (writeOp db c d op).db x = _check db x := by
  unfold _check
  rw [writeOp_closed]

/-- Writing an op a second time leaves the collections as the first write
left them. -/
theorem writeOp_twice_aux (db : Adapter) (c d : String) (op : Row) :
    (writeOp (writeOp db c d op).db c d op).db.mongo.colls
      = (writeOp db c d op).db.mongo.colls := by
  rw [writeOp_colls (writeOp db c d op).db c d op, check_writeOp, writeOp_fault]
  split
  · next h =>
    have h1 := writeOp_colls db c d op
    rw [if_pos h] at h1
    have hrows : (writeOp db c d op).db.mongo.rows (getOplogCollectionName c)
        = upsertById (db.mongo.rows (getOplogCollectionName c))
            (assocGet (opRow d op) "_id") (opRow d op) := by
      unfold Mongo.rows
      rw [h1, lookup_setRows_same]
      rfl
    rw [hrows, upsertById_idem _ _ _ rfl, h1, setRows_setRows]
  · rfl

/-- The reports the iterator of `bulkGetSnapshot` leaves over a store that
answers: completion for a valid name, nothing for an invalid one. -/
theorem getSnapshots_reports (requests : List (String × JVal)) (names : List String)
    (acc : Mongo × BulkResults × List Reported) (hf : acc.1.fault = none) :
    (names.foldl (getSnapshots requests) acc).1.fault = none
    ∧ (names.foldl (getSnapshots requests) acc).2.2
        = acc.2.2 ++ names.map fun c => if isValidCName c then Reported.done else Reported.never := by
  induction names generalizing acc with
  | nil => simp [hf]
  | cons c rest ih =>
    rw [List.foldl_cons]
    cases hv : isValidCName c
    · have hstep : getSnapshots requests acc c = (acc.1, acc.2.1, acc.2.2 ++ [.never]) := by
        unfold getSnapshots
        simp [hv]
      obtain ⟨h1, h2⟩ := ih (getSnapshots requests acc c) (by rw [hstep]; exact hf)
      refine ⟨h1, ?_⟩
      rw [h2, hstep]
      simp [hv]
    · have hstep : (getSnapshots requests acc c).1.fault = none
          ∧ (getSnapshots requests acc c).2.2 = acc.2.2 ++ [.done] := by
        unfold getSnapshots
        simp [hv, fault_logged, hf]
      obtain ⟨h1, h2⟩ := ih (getSnapshots requests acc c) hstep.1
      refine ⟨h1, ?_⟩
      rw [h2, hstep.2]
      simp [hv]

theorem asyncEach_never (reports : List Reported)
    (hall : ∀ r ∈ reports, r = .done ∨ r = .never) (hn : Reported.never ∈ reports) :
    asyncEach reports = .never := by
  unfold asyncEach
  have hne : reports.isEmpty = false := by
    cases reports with
    | nil => cases hn
    | cons a l => rfl
  have hnone : reports.findSome? Reported.failure = none := by
    rw [List.findSome?_eq_none_iff]
    intro r hr
    rcases hall r hr with e | e <;> rw [e] <;> rfl
  have hnot : reports.all (fun r => r == .done) = false := by
    rw [List.all_eq_false]
    exact ⟨.never, hn, by decide⟩
  rw [hne, hnone, hnot]
  rfl

theorem contains_iff_aux (l : List String) (k : String) : l.contains k = true ↔ k ∈ l := by
  simp

theorem isOperatorKey_iff (k : String) :
    isOperatorKey k = true ↔
      k ∈ metaOperators ∨ k ∈ cursorOperators.map Prod.fst ∨ k ∈ objectPrototypeNames := by
  unfold isOperatorKey tableHas
  simp only [Bool.or_eq_true, contains_iff_aux]
  tauto

theorem assocGet_of_mem (kvs : Row) (k : String) (v : JVal) (hnd : (kvs.map Prod.fst).Nodup)
    (hm : (k, v) ∈ kvs) : assocGet kvs k = v := by
  induction kvs with
  | nil => cases hm
  | cons hd tl ih =>
    obtain ⟨k0, w⟩ := hd
    simp only [List.map_cons, List.nodup_cons] at hnd
    rcases List.mem_cons.mp hm with e | e
    · cases e
      simp [assocGet]
    · have hne : k0 ≠ k := by
        intro h
        apply hnd.1
        rw [h]
        exact List.mem_map.mpr ⟨(k, v), e, rfl⟩
      simp [assocGet, hne, ih hnd.2 e]

theorem mem_assocSet_of_ne (kvs : Row) (k k' : String) (v w : JVal) (hne : k ≠ k')
    (hm : (k, v) ∈ kvs) : (k, v) ∈ assocSet kvs k' w := by
  induction kvs with
  | nil => cases hm
  | cons hd tl ih =>
    obtain ⟨k0, u⟩ := hd
    unfold assocSet
    split
    · next h0 =>
      rcases List.mem_cons.mp hm with e | e
      · cases e
        exact absurd h0 hne
      · exact List.mem_cons_of_mem _ e
    · rcases List.mem_cons.mp hm with e | e
      · rw [e]
        exact List.mem_cons_self _ _
      · exact List.mem_cons_of_mem _ (ih e)

/-- The loop of `normalizeQuery` over member names not yet seen: operators go
to the top level, the other members into the filter, each after the members
already there. -/
theorem normalize_loop (input : Row) (ks : List String) (F O : Row)
    (hnd : ks.Nodup) (hq : "$query" ∉ ks) (hqO : "$query" ∉ O.map Prod.fst)
    (hF : ∀ k ∈ ks, k ∉ F.map Prod.fst) (hO : ∀ k ∈ ks, k ∉ O.map Prod.fst)
    (hp : "__proto__" ∉ ks) :
    ks.foldl
        (fun query key =>
          if isOperatorKey key then setMember query key (assocGet input key)
          else setInFilter query key (assocGet input key))
        (("$query", .obj F) :: O)
      = ("$query", .obj (F ++ (ks.filter fun k => !isOperatorKey k).map
            fun k => (k, assocGet input k)))
        :: (O ++ (ks.filter fun k => isOperatorKey k).map fun k => (k, assocGet input k)) := by
  induction ks generalizing F O with
  | nil => simp
  | cons k rest ih =>
    rw [List.foldl_cons]
    have hk : k ≠ "$query" := fun e => hq (e ▸ List.mem_cons_self _ _)
    have hk' : ¬ ("$query" = k) := fun e => hk e.symm
    rw [List.nodup_cons] at hnd
    have hq' : "$query" ∉ rest := fun h => hq (List.mem_cons_of_mem _ h)
    have hp' : "__proto__" ∉ rest := fun h => hp (List.mem_cons_of_mem _ h)
    have hkp : ¬ (k = "__proto__") := fun e => hp (e ▸ List.mem_cons_self _ _)
    cases hop : isOperatorKey k
    · have hstep : setInFilter (("$query", .obj F) :: O) k (assocGet input k)
          = ("$query", .obj (F ++ [(k, assocGet input k)])) :: O := by
        unfold setInFilter
        simp only [assocGet, if_true, assocSet]
        rw [assocSet_of_not_mem F k _ (hF k (List.mem_cons_self _ _))]
      simp only [Bool.false_eq_true, if_false]
      rw [hstep, ih (F ++ [(k, assocGet input k)]) O hnd.2 hq' hqO ?_
        (fun x hx => hO x (List.mem_cons_of_mem _ hx)) hp']
      · simp [List.filter, hop]
      · intro x hx
        simp only [List.map_append, List.map_cons, List.map_nil, List.mem_append,
          List.mem_singleton, not_or]
        exact ⟨hF x (List.mem_cons_of_mem _ hx), fun e => hnd.1 (e ▸ hx)⟩
    · have hstep : setMember (("$query", .obj F) :: O) k (assocGet input k)
          = ("$query", .obj F) :: (O ++ [(k, assocGet input k)]) := by
        simp only [setMember, hkp, assocSet, hk', if_false]
        rw [assocSet_of_not_mem O k _ (hO k (List.mem_cons_self _ _))]
      simp only [if_true]
      rw [hstep, ih F (O ++ [(k, assocGet input k)]) hnd.2 hq' ?_
        (fun x hx => hF x (List.mem_cons_of_mem _ hx)) ?_ hp']
      · simp [List.filter, hop]
      · simp only [List.map_append, List.map_cons, List.map_nil, List.mem_append,
          List.mem_singleton, not_or]
        exact ⟨hqO, hk'⟩
      · intro x hx
        simp only [List.map_append, List.map_cons, List.map_nil, List.mem_append,
          List.mem_singleton, not_or]
        exact ⟨hO x (List.mem_cons_of_mem _ hx), fun e => hnd.1 (e ▸ hx)⟩

theorem filter_keys_eq (input : Row) (p : String → Bool) (hnd : (input.map Prod.fst).Nodup) :
    ((input.map Prod.fst).filter p).map (fun k => (k, assocGet input k))
      = input.filter fun kv => p kv.1 := by
  have h : ∀ (l : Row), (∀ kv ∈ l, kv ∈ input) →
      ((l.map Prod.fst).filter p).map (fun k => (k, assocGet input k))
        = l.filter fun kv => p kv.1 := by
    intro l
    induction l with
    | nil => intro _; rfl
    | cons hd tl ih =>
      intro hsub
      obtain ⟨k, v⟩ := hd
      have hv : assocGet input k = v :=
        assocGet_of_mem input k v hnd (hsub _ (List.mem_cons_self _ _))
      have ih' := ih fun kv hkv => hsub kv (List.mem_cons_of_mem _ hkv)
      cases hp : p k
      · simp [List.filter, hp, ih']
      · simp [List.filter, hp, ih', hv]
  exact h input fun _ hkv => hkv

/-- The value of `normalizeQuery` on a flat query: the members that are not
operators make up the filter, with `_type` set to `{$ne: null}` unless it is
truthy, and the operators follow at the top level. -/
theorem normalizeQuery_flat (input : Row) (hnd : (input.map Prod.fst).Nodup)
    (hq : "$query" ∉ input.map Prod.fst) (hp : "__proto__" ∉ input.map Prod.fst) :
    normalizeQuery input =
      ("$query", .obj
        (if truthy (assocGet (input.filter fun kv => !isOperatorKey kv.1) "_type") then
          input.filter fun kv => !isOperatorKey kv.1
        else assocSet (input.filter fun kv => !isOperatorKey kv.1) "_type"
          (.obj [("$ne", .null)])))
        :: input.filter fun kv => isOperatorKey kv.1 := by
  unfold normalizeQuery
  have hflat : truthy (assocGet input "$query") = false := by
    rw [assocGet_of_not_mem input "$query" hq]
    rfl
  simp only [hflat, Bool.false_eq_true, if_false]
  rw [normalize_loop input (input.map Prod.fst) [] [] hnd hq (by simp) (by simp) (by simp) hp]
  simp only [List.nil_append]
  rw [filter_keys_eq input (fun k => !isOperatorKey k) hnd,
    filter_keys_eq input (fun k => isOperatorKey k) hnd]
  simp only [assocGet, if_true, getProp, Segment.name]
  cases ht : truthy (assocGet (input.filter fun kv => !isOperatorKey kv.1) "_type")
  · simp [setInFilter, assocGet, assocSet]
  · simp

theorem mem_assocSet_keys (kvs : Row) (n : String) (v : JVal) (k : String) :
    k ∈ (assocSet kvs n v).map Prod.fst ↔ k ∈ kvs.map Prod.fst ∨ k = n := by
  rw [assocSet_keys]
  split
  · next h =>
    constructor
    · exact Or.inl
    · rintro (h1 | h1)
      · exact h1
      · rw [h1]; exact h
  · simp

theorem castToDoc_keys (docName : String) (r : SnapshotData) (kvs : Row)
    (hd : r.data = .obj kvs) (hnd : (kvs.map Prod.fst).Nodup)
    (hp : "__proto__" ∉ kvs.map Prod.fst) (k : String) :
    k ∈ (castToDoc docName r).map Prod.fst
      ↔ k ∈ kvs.map Prod.fst ∨ k ∈ ["_type", "_v", "_m", "_id"] := by
  unfold castToDoc
  simp only [hd, shallowClone_eq kvs hnd hp, mem_assocSet_keys, List.mem_cons, List.mem_singleton,
    List.mem_nil_iff, or_false]
  tauto

/-- The calls `bulkGetSnapshot` makes on the store are finds on valid
collection names. -/
theorem getSnapshots_log (requests : List (String × JVal)) (names : List String)
    (acc : Mongo × BulkResults × List Reported) :
    ∃ added, (names.foldl (getSnapshots requests) acc).1.log = acc.1.log ++ added
      ∧ ∀ a ∈ added, ∃ c, a.collection = some c ∧ isValidCName c = true := by
  induction names generalizing acc with
  | nil => exact ⟨[], by simp, fun a h => by cases h⟩
  | cons c rest ih =>
    rw [List.foldl_cons]
    obtain ⟨added, hlog, hall⟩ := ih (getSnapshots requests acc c)
    cases hv : isValidCName c
    · have hstep : (getSnapshots requests acc c).1 = acc.1 := by
        unfold getSnapshots
        simp [hv]
      rw [hstep] at hlog
      exact ⟨added, hlog, hall⟩
    · have hstep : (getSnapshots requests acc c).1.log
          = acc.1.log ++ [.find c (.obj [("_id", .obj [("$in", assocGet requests c)])])
              (.obj [])] := by
        unfold getSnapshots
        simp only [hv, Bool.not_true, Bool.false_eq_true, if_false]
        split <;> rfl
      rw [hstep] at hlog
      refine ⟨Access.find c (.obj [("_id", .obj [("$in", assocGet requests c)])]) (.obj [])
        :: added, by rw [hlog]; simp, ?_⟩
      intro a ha
      rcases List.mem_cons.mp ha with e | e
      · exact ⟨c, by rw [e]; rfl, hv⟩
      · exact hall a e

theorem isValidCName_oplog (c : String) : isValidCName (getOplogCollectionName c) = false := by
  cases h : isValidCName (getOplogCollectionName c)
  · rfl
  · exact absurd rfl (valid_ne_oplogName _ c h)

theorem check_oplog (db : Adapter) (c : String) :
    ∃ e, _check db (getOplogCollectionName c) = some e := by
  unfold _check
  cases db.closed
  · simp [isValidCName_oplog]
  · simp

/-- The loop of `normalizeQuery` keeps the member `$query` a mapping. -/
theorem normalize_loop_obj (input : Row) (ks : List String) (q : Row)
    (hq : ∃ F, assocGet q "$query" = .obj F) :
    ∃ F, assocGet (ks.foldl
        (fun query key =>
          if isOperatorKey key then setMember query key (assocGet input key)
          else setInFilter query key (assocGet input key)) q) "$query" = .obj F := by
  induction ks generalizing q with
  | nil => exact hq
  | cons k rest ih =>
    rw [List.foldl_cons]
    apply ih
    obtain ⟨F, hF⟩ := hq
    cases hop : isOperatorKey k
    · simp only [Bool.false_eq_true, if_false]
      unfold setInFilter
      rw [hF]
      exact ⟨_, assocGet_assocSet_same _ _ _⟩
    · simp only [if_true]
      have hk : "$query" ≠ k := by
        intro e
        rw [← e] at hop
        revert hop
        decide
      rw [assocGet_setMember_ne _ _ _ _ hk]
      exact ⟨F, hF⟩

theorem setInFilter_obj (q : Row) (k : String) (v : JVal)
    (hq : ∃ F, assocGet q "$query" = .obj F) :
    ∃ F, assocGet (setInFilter q k v) "$query" = .obj F := by
  obtain ⟨F, hF⟩ := hq
  unfold setInFilter
  rw [hF]
  exact ⟨_, assocGet_assocSet_same _ _ _⟩

theorem addType_obj (q : Row) (hq : ∃ F, assocGet q "$query" = .obj F) :
    ∃ F, assocGet
      (if !truthy (getProp (assocGet q "$query") (.key "_type")) then
        setInFilter q "_type" (.obj [("$ne", .null)])
      else q) "$query" = .obj F := by
  split
  · exact setInFilter_obj _ _ _ hq
  · exact hq

/-- The query `normalizeQuery` returns always has a mapping as `$query`. -/
theorem normalizeQuery_filter_obj (input : Row) :
    ∃ F, assocGet (normalizeQuery input) "$query" = .obj F := by
  unfold normalizeQuery
  have hbase : ∃ F, assocGet
      (if truthy (assocGet input "$query") then
        assocSet (shallowClone input) "$query"
          (.obj (shallowCloneVal (assocGet (shallowClone input) "$query")))
      else
        (input.map Prod.fst).foldl
          (fun query key =>
            if isOperatorKey key then setMember query key (assocGet input key)
            else setInFilter query key (assocGet input key))
          [("$query", .obj [])]) "$query" = .obj F := by
    split
    · exact ⟨_, assocGet_assocSet_same _ _ _⟩
    · exact normalize_loop_obj input _ _ ⟨[], rfl⟩
  exact addType_obj _ hbase

theorem digitChar_ne_underscore (k : Nat) : Nat.digitChar k ≠ '_' := by
  unfold Nat.digitChar
  repeat (apply ite_ne_aux _ _ _ _ (by decide))
  decide

theorem toDigitsCore_no_underscore (fuel n : Nat) (ds : List Char) (h : '_' ∉ ds) :
    '_' ∉ Nat.toDigitsCore 10 fuel n ds := by
  induction fuel generalizing n ds with
  | zero => simpa [Nat.toDigitsCore] using h
  | succ f ih =>
    unfold Nat.toDigitsCore
    have hcons : '_' ∉ Nat.digitChar (n % 10) :: ds := by
      intro hm
      rcases List.mem_cons.mp hm with e | e
      · exact digitChar_ne_underscore _ e.symm
      · exact h e
    simp only
    split
    · exact hcons
    · exact ih _ _ hcons

theorem natRepr_ne_type (n : Nat) : toString n ≠ "_type" := by
  intro h
  have hno : '_' ∉ (toString n).data := by
    show '_' ∉ (Nat.repr n).data
    unfold Nat.repr Nat.toDigits
    simp only [List.asString]
    exact toDigitsCore_no_underscore _ _ _ (by simp)
  rw [h] at hno
  exact hno (by decide)

/-- The members of a clone of an array or of a text are named by numbers, so
none of them is `_type`. -/
theorem assocGet_indexed_type {α : Type} (xs : List α) (f : α → JVal) (ns : List Nat) :
    assocGet ((ns.zip xs).map fun p => (toString p.1, f p.2)) "_type" = .undef := by
  apply assocGet_of_not_mem
  intro hm
  obtain ⟨kv, hkv, hk⟩ := List.mem_map.mp hm
  obtain ⟨p, _, hp⟩ := List.mem_map.mp hkv
  rw [← hp] at hk
  exact natRepr_ne_type p.1 hk

theorem shallowCloneVal_type (v : JVal)
    (hnd : ∀ kvs, v = .obj kvs → (kvs.map Prod.fst).Nodup) :
    assocGet (shallowCloneVal v) "_type" = getProp v (.key "_type") := by
  cases v with
  | obj kvs =>
    show assocGet (shallowClone kvs) "_type" = _
    rw [shallowClone_assocDel kvs (hnd kvs rfl), assocGet_assocDel_ne _ _ _ (by decide)]
    rfl
  | arr xs =>
    show assocGet (((List.range xs.length).zip xs).map fun p => (toString p.1, p.2)) "_type" = _
    rw [assocGet_indexed_type xs (fun x => x)]
    rfl
  | str s =>
    show assocGet (((List.range s.data.length).zip s.data).map
      fun p => (toString p.1, JVal.str (String.mk [p.2]))) "_type" = _
    rw [assocGet_indexed_type s.data (fun c => .str (String.mk [c]))]
    rfl
  | undef => rfl
  | null => rfl
  | bool b => rfl
  | num n => rfl

/-- The loop of `normalizeQuery` over member names not yet seen, also when one
of them is `$query`. -/
theorem normalize_loop_any (input : Row) (ks : List String) (F O : Row)
    (hnd : ks.Nodup)
    (hF : ∀ k ∈ ks, k ∉ F.map Prod.fst) (hO : ∀ k ∈ ks, k ∉ O.map Prod.fst) :
    ks.foldl
        (fun query key =>
          if isOperatorKey key then setMember query key (assocGet input key)
          else setInFilter query key (assocGet input key))
        (("$query", .obj F) :: O)
      = ("$query", .obj (F ++ (ks.filter fun k => !isOperatorKey k).map
            fun k => (k, assocGet input k)))
        :: (O ++ (ks.filter fun k => isOperatorKey k && k != "__proto__").map
            fun k => (k, assocGet input k)) := by
  induction ks generalizing F O with
  | nil => simp
  | cons k rest ih =>
    rw [List.foldl_cons]
    rw [List.nodup_cons] at hnd
    cases hop : isOperatorKey k
    · have hstep : setInFilter (("$query", .obj F) :: O) k (assocGet input k)
          = ("$query", .obj (F ++ [(k, assocGet input k)])) :: O := by
        unfold setInFilter
        simp only [assocGet, if_true, assocSet]
        rw [assocSet_of_not_mem F k _ (hF k (List.mem_cons_self _ _))]
      simp only [Bool.false_eq_true, if_false]
      rw [hstep, ih (F ++ [(k, assocGet input k)]) O hnd.2]
      · simp [List.filter, hop]
      · intro x hx
        simp only [List.map_append, List.map_cons, List.map_nil, List.mem_append,
          List.mem_singleton, not_or]
        exact ⟨hF x (List.mem_cons_of_mem _ hx), fun e => hnd.1 (e ▸ hx)⟩
      · exact fun x hx => hO x (List.mem_cons_of_mem _ hx)
    · have hk' : ¬ ("$query" = k) := by
        intro e
        rw [← e] at hop
        revert hop
        decide
      simp only [if_true]
      by_cases hp : k = "__proto__"
      · have hstep : setMember (("$query", .obj F) :: O) k (assocGet input k)
            = ("$query", .obj F) :: O := by
          simp [setMember, hp]
        rw [hstep, ih F O hnd.2 (fun x hx => hF x (List.mem_cons_of_mem _ hx))
          (fun x hx => hO x (List.mem_cons_of_mem _ hx))]
        subst hp
        simp [List.filter, hop]
      · have hstep : setMember (("$query", .obj F) :: O) k (assocGet input k)
            = ("$query", .obj F) :: (O ++ [(k, assocGet input k)]) := by
          simp only [setMember, hp, assocSet, hk', if_false]
          rw [assocSet_of_not_mem O k _ (hO k (List.mem_cons_self _ _))]
        have hb : (k != "__proto__") = true := by simpa using hp
        rw [hstep, ih F (O ++ [(k, assocGet input k)]) hnd.2
          (fun x hx => hF x (List.mem_cons_of_mem _ hx))]
        · simp [List.filter, hop, hb]
        · intro x hx
          simp only [List.map_append, List.map_cons, List.map_nil, List.mem_append,
            List.mem_singleton, not_or]
          exact ⟨hO x (List.mem_cons_of_mem _ hx), fun e => hnd.1 (e ▸ hx)⟩

/-- The `_type` of the filter `normalizeQuery` returns: that of the filter the
caller gave when it is truthy, `{$ne: null}` otherwise. -/
theorem normalizeQuery_type_aux (input : Row) (hnd : (input.map Prod.fst).Nodup)
    (hnd2 : ∀ kvs, assocGet input "$query" = .obj kvs → (kvs.map Prod.fst).Nodup) :
    ∃ F, assocGet (normalizeQuery input) "$query" = .obj F
      ∧ assocGet F "_type"
        = if truthy (callerType input) then callerType input else .obj [("$ne", .null)] := by
  have hfinish : ∀ (q : Row) (F0 : Row), assocGet q "$query" = .obj F0 →
      assocGet F0 "_type" = callerType input →
      ∃ F, assocGet
        (if !truthy (getProp (assocGet q "$query") (.key "_type")) then
          setInFilter q "_type" (.obj [("$ne", .null)])
        else q) "$query" = .obj F
        ∧ assocGet F "_type"
          = if truthy (callerType input) then callerType input else .obj [("$ne", .null)] := by
    intro q F0 hq ht
    rw [hq]
    simp only [getProp, Segment.name, ht]
    cases hc : truthy (callerType input)
    · simp only [Bool.not_false, if_true, Bool.false_eq_true, if_false]
      unfold setInFilter
      rw [hq]
      exact ⟨_, assocGet_assocSet_same _ _ _, assocGet_assocSet_same _ _ _⟩
    · simp only [Bool.not_true, Bool.false_eq_true, if_false, if_true]
      exact ⟨F0, hq, ht⟩
  unfold normalizeQuery
  cases hb : truthy (assocGet input "$query")
  · simp only [Bool.false_eq_true, if_false]
    rw [normalize_loop_any input (input.map Prod.fst) [] [] hnd (by simp) (by simp)]
    simp only [List.nil_append]
    rw [filter_keys_eq input (fun k => !isOperatorKey k) hnd,
      filter_keys_eq input (fun k => isOperatorKey k && k != "__proto__") hnd]
    apply hfinish _ (input.filter fun kv => !isOperatorKey kv.1)
    · simp [assocGet]
    · unfold callerType
      rw [hb]
      simp only [Bool.false_eq_true, if_false]
      apply assocGet_filter
      intro v
      show (!isOperatorKey "_type") = true
      decide
  · simp only [if_true]
    rw [shallowClone_assocDel input hnd, assocGet_assocDel_ne _ _ _ (by decide)]
    apply hfinish _ (shallowCloneVal (assocGet input "$query"))
    · exact assocGet_assocSet_same _ _ _
    · unfold callerType
      rw [hb]
      simp only [if_true]
      exact shallowCloneVal_type _ hnd2

theorem opCollection_log (db : Adapter) (c : String) :
    (_opCollection db c).1.mongo.log
      = db.mongo.log ++
        (if tableHas db.opIndexes c then [] else [.ensureIndex (getOplogCollectionName c)]) := by
  unfold _opCollection
  cases h : tableHas db.opIndexes c <;> simp [Mongo.logged]

theorem opCollection_opIndexes (db : Adapter) (c : String) :
    (_opCollection db c).1.opIndexes
      = if tableHas db.opIndexes c then db.opIndexes else db.opIndexes ++ [c] := by
  unfold _opCollection
  cases h : tableHas db.opIndexes c <;> simp

theorem tableHas_iff (own : List String) (c : String) :
    tableHas own c = true ↔ c ∈ own ∨ c ∈ objectPrototypeNames := by
  unfold tableHas
  simp only [Bool.or_eq_true, contains_iff_aux]

/-- What a call that does not get to the op collection leaves: the adapter as
it was. -/
theorem run_not_reaching (db : Adapter) (call : OpCall) (ho : db.closed = false)
    (hr : call.reaches = false) : call.run db = db := by
  cases call with
  | writeOp c d opData =>
    show (writeOp db c d opData).db = db
    cases hn : isNullish (assocGet opData "v")
    · have hv : isValidCName c = false := by
        have h' : (!isNullish (assocGet opData "v") && isValidCName c) = false := hr
        simpa [hn] using h'
      exact writeOp_db_of_check db c d opData "Invalid collection name"
        (by simp [_check, ho, hv])
    · unfold writeOp
      rw [if_pos hn]
  | getVersion c d =>
    have hv : isValidCName c = false := hr
    unfold OpCall.run getVersion
    simp [_check, ho, hv]
  | getOps c d start endV =>
    have hv : isValidCName c = false := hr
    unfold OpCall.run getOps
    simp [_check, ho, hv]

/-- What a call that gets to the op collection adds: after what
`_opCollection` does, calls on the op collection or on the collection. -/
theorem run_reaching (db : Adapter) (call : OpCall) (ho : db.closed = false)
    (hr : call.reaches = true) :
    isValidCName call.cName = true
    ∧ (call.run db).closed = false
    ∧ (call.run db).opIndexes = (_opCollection db call.cName).1.opIndexes
    ∧ ∃ acc, (call.run db).mongo.log = (_opCollection db call.cName).1.mongo.log ++ acc
        ∧ ∀ a ∈ acc, a.collection = some (getOplogCollectionName call.cName)
            ∨ a.collection = some call.cName := by
  cases call with
  | writeOp c d opData =>
    have hr' : (!isNullish (assocGet opData "v") && isValidCName c) = true := hr
    simp only [Bool.and_eq_true, Bool.not_eq_true'] at hr'
    obtain ⟨hn, hv⟩ := hr'
    have hsnd := opCollection_snd db c
    have hclosed := opCollection_closed db c
    refine ⟨hv, ?_, ?_, ?_⟩
    · show (writeOp db c d opData).db.closed = false
      rw [writeOp_closed]; exact ho
    · show (writeOp db c d opData).db.opIndexes = (_opCollection db c).1.opIndexes
      unfold writeOp
      rw [if_neg (by simp [hn]), check_open_valid db c ho hv]
      rcases hoc : _opCollection db c with ⟨db1, coll⟩
      simp only
      split <;> rfl
    · show ∃ acc, (writeOp db c d opData).db.mongo.log = (_opCollection db c).1.mongo.log ++ acc
        ∧ ∀ a ∈ acc, a.collection = some (getOplogCollectionName c) ∨ a.collection = some c
      unfold writeOp
      rw [if_neg (by simp [hn]), check_open_valid db c ho hv]
      rcases hoc : _opCollection db c with ⟨db1, coll⟩
      rw [hoc] at hsnd
      simp only at hsnd
      subst hsnd
      simp only
      refine ⟨[.save (getOplogCollectionName c) (opRow d opData)], ?_, ?_⟩
      · split <;> rfl
      · intro a ha
        rw [List.mem_singleton] at ha
        rw [ha]
        exact Or.inl rfl
  | getVersion c d =>
    have hv : isValidCName c = true := hr
    have hsnd := opCollection_snd db c
    refine ⟨hv, ?_, ?_, ?_⟩
    · show (getVersion db c d).db.closed = false
      rw [getVersion_closed]; exact ho
    · show (getVersion db c d).db.opIndexes = (_opCollection db c).1.opIndexes
      unfold getVersion
      rw [check_open_valid db c ho hv]
      rcases hoc : _opCollection db c with ⟨db1, coll⟩
      simp only
      split
      · rfl
      · split <;> rfl
    · show ∃ acc, (getVersion db c d).db.mongo.log = (_opCollection db c).1.mongo.log ++ acc
        ∧ ∀ a ∈ acc, a.collection = some (getOplogCollectionName c) ∨ a.collection = some c
      unfold getVersion
      rw [check_open_valid db c ho hv]
      rcases hoc : _opCollection db c with ⟨db1, coll⟩
      rw [hoc] at hsnd
      simp only at hsnd
      subst hsnd
      simp only
      split
      · refine ⟨[.findOne (getOplogCollectionName c) (.obj [("name", .str d)])
          (.obj [("sort", .obj [("v", .num (-1))])])], rfl, ?_⟩
        intro a ha
        rw [List.mem_singleton] at ha
        rw [ha]
        exact Or.inl rfl
      · split
        · refine ⟨[.findOne (getOplogCollectionName c) (.obj [("name", .str d)])
            (.obj [("sort", .obj [("v", .num (-1))])]),
            .findOne c (.obj [("_id", .str d)]) (.obj [("_v", .num 1)])], ?_, ?_⟩
          · simp [Mongo.logged]
          · intro a ha
            simp only [List.mem_cons, List.mem_singleton, List.mem_nil_iff, or_false] at ha
            rcases ha with e | e
            · rw [e]; exact Or.inl rfl
            · rw [e]; exact Or.inr rfl
        · refine ⟨[.findOne (getOplogCollectionName c) (.obj [("name", .str d)])
            (.obj [("sort", .obj [("v", .num (-1))])])], rfl, ?_⟩
          intro a ha
          rw [List.mem_singleton] at ha
          rw [ha]
          exact Or.inl rfl
  | getOps c d start endV =>
    have hv : isValidCName c = true := hr
    have hsnd := opCollection_snd db c
    refine ⟨hv, ?_, ?_, ?_⟩
    · show (getOps db c d start endV).db.closed = false
      have hclosed := opCollection_closed db c
      unfold getOps
      rw [check_open_valid db c ho hv]
      rcases hoc : _opCollection db c with ⟨db1, coll⟩
      rw [hoc] at hclosed
      simp only at hclosed ⊢
      rw [hclosed]; exact ho
    · show (getOps db c d start endV).db.opIndexes = (_opCollection db c).1.opIndexes
      unfold getOps
      rw [check_open_valid db c ho hv]
    · show ∃ acc, (getOps db c d start endV).db.mongo.log = (_opCollection db c).1.mongo.log ++ acc
        ∧ ∀ a ∈ acc, a.collection = some (getOplogCollectionName c) ∨ a.collection = some c
      unfold getOps
      rw [check_open_valid db c ho hv]
      rcases hoc : _opCollection db c with ⟨db1, coll⟩
      rw [hoc] at hsnd
      simp only at hsnd
      subst hsnd
      simp only
      refine ⟨[.find (getOplogCollectionName c)
        (.obj [("name", .str d), ("v",
          if isNullish endV then .obj [("$gte", .num start)]
          else .obj [("$gte", .num start), ("$lt", endV)])])
        (.obj [("sort", .obj [("v", .num 1)])])], rfl, ?_⟩
      intro a ha
      rw [List.mem_singleton] at ha
      rw [ha]
      exact Or.inl rfl

theorem indexedFirst_append (l1 l2 : List Access) (h1 : IndexedFirst l1)
    (h2 : ∀ (pre : List Access) (a : Access) (post : List Access) (c : String),
      l2 = pre ++ a :: post → a.collection = some (getOplogCollectionName c) →
      c ∉ objectPrototypeNames → Access.ensureIndex (getOplogCollectionName c) ∈ l1 ++ pre) :
    IndexedFirst (l1 ++ l2) := by
  intro pre a post c heq hcoll hproto
  rcases List.append_eq_append_iff.mp heq with ⟨t, hpre, hl2⟩ | ⟨t, hl1, hrest⟩
  · rw [hpre]
    exact h2 t a post c hl2 hcoll hproto
  · cases t with
    | nil =>
      simp only [List.append_nil, List.nil_append] at hl1 hrest
      have := h2 [] a post c (by rw [← hrest]; rfl) hcoll hproto
      rw [List.append_nil, hl1] at this
      exact this
    | cons b t' =>
      simp only [List.cons_append, List.cons.injEq] at hrest
      rw [← hrest.1] at hl1
      exact h1 pre a t' c hl1 hcoll hproto

theorem ensureIndex_injective (c x : String)
    (h : Access.ensureIndex (getOplogCollectionName c)
      = Access.ensureIndex (getOplogCollectionName x)) : c = x := by
  injection h with h'
  exact oplogName_injective _ _ h'

theorem count_accesses (acc : List Access) (e : Access) (hnone : e.collection = none)
    (hacc : ∀ a ∈ acc, ∃ x, a.collection = some x) : acc.count e = 0 := by
  rw [List.count_eq_zero]
  intro hm
  obtain ⟨x, hx⟩ := hacc e hm
  rw [hnone] at hx
  cases hx

/-- A call keeps the state of the index requests. -/
theorem indexInv_step (db : Adapter) (done : List OpCall) (call : OpCall)
    (hinv : IndexInv db done) : IndexInv (call.run db) (done ++ [call]) := by
  obtain ⟨ho, hmem, hcount, hfirst⟩ := hinv
  cases hr : call.reaches
  · rw [run_not_reaching db call ho hr]
    refine ⟨ho, ?_, hcount, hfirst⟩
    intro c
    rw [hmem c]
    constructor
    · rintro ⟨hp, x, hx, hn, hxr⟩
      exact ⟨hp, x, List.mem_append_left _ hx, hn, hxr⟩
    · rintro ⟨hp, x, hx, hn, hxr⟩
      rcases List.mem_append.mp hx with e | e
      · exact ⟨hp, x, e, hn, hxr⟩
      · rw [List.mem_singleton] at e
        rw [e, hr] at hxr
        cases hxr
  · obtain ⟨hv, hclosed, hidx, acc, hlog, hacc⟩ := run_reaching db call ho hr
    rw [opCollection_opIndexes] at hidx
    rw [opCollection_log] at hlog
    have hacc' : ∀ a ∈ acc, ∃ x, a.collection = some x := by
      intro a ha
      rcases hacc a ha with e | e
      · exact ⟨_, e⟩
      · exact ⟨_, e⟩
    have hself : ∀ a ∈ acc, ∀ x, a.collection = some (getOplogCollectionName x) →
        x = call.cName := by
      intro a ha x hx
      rcases hacc a ha with e | e
      · rw [e] at hx
        injection hx with hx'
        exact (oplogName_injective _ _ hx').symm
      · rw [e] at hx
        injection hx with hx'
        exact absurd hx' (valid_ne_oplogName _ _ hv)
    cases ht : tableHas db.opIndexes call.cName
    · -- the index is requested now
      have hnot : call.cName ∉ db.opIndexes ∧ call.cName ∉ objectPrototypeNames := by
        constructor
        · intro h
          have := (tableHas_iff db.opIndexes call.cName).mpr (Or.inl h)
          rw [ht] at this
          cases this
        · intro h
          have := (tableHas_iff db.opIndexes call.cName).mpr (Or.inr h)
          rw [ht] at this
          cases this
      simp only [ht, Bool.false_eq_true, if_false] at hidx hlog
      refine ⟨hclosed, ?_, ?_, ?_⟩
      · intro c
        rw [hidx, List.mem_append, List.mem_singleton, hmem c]
        constructor
        · rintro (⟨hp, x, hx, hn, hxr⟩ | e)
          · exact ⟨hp, x, List.mem_append_left _ hx, hn, hxr⟩
          · rw [e]
            exact ⟨hnot.2, call, by simp, rfl, hr⟩
        · rintro ⟨hp, x, hx, hn, hxr⟩
          rcases List.mem_append.mp hx with e | e
          · exact Or.inl ⟨hp, x, e, hn, hxr⟩
          · rw [List.mem_singleton] at e
            rw [e] at hn
            exact Or.inr hn.symm
      · intro c
        rw [hlog, hidx, List.count_append, List.count_append, hcount c,
          count_accesses acc (.ensureIndex (getOplogCollectionName c)) rfl hacc',
          List.count_singleton]
        by_cases hc : c = call.cName
        · subst hc
          simp [hnot.1]
        · have hne : ¬ (Access.ensureIndex (getOplogCollectionName call.cName)
              = Access.ensureIndex (getOplogCollectionName c)) :=
            fun e => hc (ensureIndex_injective _ _ e).symm
          simp [hne, hc]
      · rw [hlog, List.append_assoc]
        apply indexedFirst_append _ _ hfirst
        intro pre a post c heq hcoll hproto
        cases pre with
        | nil =>
          simp only [List.nil_append, List.singleton_append, List.cons.injEq] at heq
          rw [← heq.1] at hcoll
          cases hcoll
        | cons b pre' =>
          simp only [List.singleton_append, List.cons_append, List.cons.injEq] at heq
          have ha : a ∈ acc := by
            have h2 : acc = pre' ++ a :: post := by simpa using heq.2
            rw [h2]
            simp
          have hc := hself a ha c hcoll
          rw [hc, ← heq.1]
          exact List.mem_append_right _ (List.mem_cons_self _ _)
    · -- the index was requested before, or the name is one of `Object.prototype`
      have hhas := (tableHas_iff db.opIndexes call.cName).mp ht
      simp only [ht, if_true, List.append_nil] at hidx hlog
      refine ⟨hclosed, ?_, ?_, ?_⟩
      · intro c
        rw [hidx, hmem c]
        constructor
        · rintro ⟨hp, x, hx, hn, hxr⟩
          exact ⟨hp, x, List.mem_append_left _ hx, hn, hxr⟩
        · rintro ⟨hp, x, hx, hn, hxr⟩
          rcases List.mem_append.mp hx with e | e
          · exact ⟨hp, x, e, hn, hxr⟩
          · rw [List.mem_singleton] at e
            rw [e] at hn
            rcases hhas with h | h
            · rw [← hn]
              exact (hmem _).mp h
            · rw [hn] at h
              exact absurd h hp
      · intro c
        rw [hlog, hidx, List.count_append, hcount c,
          count_accesses acc (.ensureIndex (getOplogCollectionName c)) rfl hacc']
        rfl
      · rw [hlog]
        apply indexedFirst_append _ _ hfirst
        intro pre a post c heq hcoll hproto
        have ha : a ∈ acc := by
          rw [heq]
          simp
        have hc := hself a ha c hcoll
        apply List.mem_append_left
        have hin : c ∈ db.opIndexes := by
          rcases hhas with h | h
          · rw [hc]; exact h
          · rw [← hc] at h
            exact absurd h hproto
        have hone := hcount c
        rw [if_pos hin] at hone
        exact List.count_pos_iff.mp (by omega)

theorem indexInv_run (calls : List OpCall) (db : Adapter) (done : List OpCall)
    (hinv : IndexInv db done) : IndexInv (runCalls db calls) (done ++ calls) := by
  induction calls generalizing db done with
  | nil => simpa [runCalls] using hinv
  | cons call rest ih =>
    have := ih (call.run db) (done ++ [call]) (indexInv_step db done call hinv)
    rw [List.append_assoc] at this
    exact this

theorem indexInv_new (mongo : Mongo) (options : Option Options) (hlog : mongo.log = []) :
    IndexInv (LiveDbMongo mongo options) [] := by
  refine ⟨rfl, ?_, ?_, ?_⟩
  · intro c
    constructor
    · intro h
      cases h
    · rintro ⟨_, x, hx, _⟩
      cases hx
  · intro c
    show mongo.log.count _ = if c ∈ ([] : List String) then 1 else 0
    rw [hlog]
    rfl
  · intro pre a post c heq
    have h : mongo.log = pre ++ a :: post := heq
    rw [hlog] at h
    cases pre <;> cases h

theorem opCollection_indexFault (db : Adapter) (c : String) (e : Option String) :
    (_opCollection (withIndexFault db e) c).2 = (_opCollection db c).2
    ∧ (_opCollection (withIndexFault db e) c).1.mongo.colls = (_opCollection db c).1.mongo.colls
    ∧ (_opCollection (withIndexFault db e) c).1.mongo.fault = (_opCollection db c).1.mongo.fault
    ∧ (_opCollection (withIndexFault db e) c).1.mongo.log = (_opCollection db c).1.mongo.log
    ∧ (_opCollection (withIndexFault db e) c).1.opIndexes = (_opCollection db c).1.opIndexes := by
  unfold _opCollection withIndexFault
  simp only
  cases tableHas db.opIndexes c <;> simp [Mongo.logged]

/-- What the driver reports for the index does not change what `writeOp`
passes to its callback or stores. -/
theorem writeOp_indexFault (db : Adapter) (c d : String) (opData : Row) (e : Option String) :
    (writeOp (withIndexFault db e) c d opData).out = (writeOp db c d opData).out
    ∧ (writeOp (withIndexFault db e) c d opData).db.mongo.colls
        = (writeOp db c d opData).db.mongo.colls := by
  obtain ⟨h2, hcolls, hfault, hlog, hidx⟩ := opCollection_indexFault db c e
  have hrows : ∀ x, (_opCollection (withIndexFault db e) c).1.mongo.rows x
      = (_opCollection db c).1.mongo.rows x := fun x => by
    unfold Mongo.rows
    rw [hcolls]
  unfold writeOp
  split
  · exact ⟨rfl, rfl⟩
  · have hc : _check (withIndexFault db e) c = _check db c := rfl
    rw [hc]
    cases _check db c with
    | some err => exact ⟨rfl, rfl⟩
    | none =>
      simp only [fault_logged, rows_logged, colls_logged, hfault, h2, hrows, hcolls]
      cases (_opCollection db c).1.mongo.fault with
      | some err => exact ⟨rfl, hcolls⟩
      | none => exact ⟨rfl, rfl⟩

theorem getVersion_indexFault (db : Adapter) (c d : String) (e : Option String) :
    (getVersion (withIndexFault db e) c d).out = (getVersion db c d).out := by
  obtain ⟨h2, hcolls, hfault, hlog, hidx⟩ := opCollection_indexFault db c e
  have hrows : ∀ x, (_opCollection (withIndexFault db e) c).1.mongo.rows x
      = (_opCollection db c).1.mongo.rows x := fun x => by
    unfold Mongo.rows
    rw [hcolls]
  unfold getVersion
  have hc : _check (withIndexFault db e) c = _check db c := rfl
  rw [hc]
  cases _check db c with
  | some err => rfl
  | none =>
    simp only [fault_logged, rows_logged, hfault, h2, hrows]
    cases (_opCollection db c).1.mongo.fault with
    | some err => rfl
    | none =>
      simp only
      cases findLastOp ((_opCollection db c).1.mongo.rows (_opCollection db c).2) d with
      | some data => rfl
      | none => rfl

theorem getOps_indexFault (db : Adapter) (c d : String) (start : Int) (endV : JVal)
    (e : Option String) :
    (getOps (withIndexFault db e) c d start endV).out = (getOps db c d start endV).out := by
  obtain ⟨h2, hcolls, hfault, hlog, hidx⟩ := opCollection_indexFault db c e
  have hrows : ∀ x, (_opCollection (withIndexFault db e) c).1.mongo.rows x
      = (_opCollection db c).1.mongo.rows x := fun x => by
    unfold Mongo.rows
    rw [hcolls]
  unfold getOps
  have hc : _check (withIndexFault db e) c = _check db c := rfl
  rw [hc]
  cases _check db c with
  | some err => rfl
  | none =>
    simp only [fault_logged, rows_logged, hfault, h2, hrows]

end LiveDbMongo

open JS JS.JVal RemoteDoc
namespace RemoteDoc

theorem defined_iff (v : JVal) : defined v = true ↔ v ≠ .undef := by
  unfold defined
  simp

theorem defined_undef : defined .undef = false := rfl

theorem defined_of_ne (v : JVal) (h : v ≠ .undef) : defined v = true :=
  (defined_iff v).mpr h

theorem jsSlice_to_end {α : Type} (xs : List α) (n : Nat) (hn : n ≤ xs.length) :
    jsSlice xs (n : Int) (xs.length : Int) = xs.drop n := by
  have h := jsSlice_nat xs n (xs.length - n) hn
  have e : (n : Int) + ((xs.length - n : Nat) : Int) = (xs.length : Int) := by omega
  rw [e] at h
  rw [h]
  apply List.take_of_length_le
  simp

theorem string_mk_append (a b : List Char) : String.mk a ++ String.mk b = String.mk (a ++ b) :=
  rfl

theorem modelGet_parent (r : Remote) (P : Path) (last : Segment) :
    modelGet r (jsSlice (.key r.collectionName :: .key r.doc.id :: (P ++ [last])) 0 (-1))
      = some (lookup P r.doc.collectionData) := by
  rw [jsSlice_dropLast]
  have : (Segment.key r.collectionName :: Segment.key r.doc.id :: (P ++ [last])).dropLast
      = .key r.collectionName :: .key r.doc.id :: P := by
    rw [show Segment.key r.collectionName :: Segment.key r.doc.id :: (P ++ [last])
      = (Segment.key r.collectionName :: Segment.key r.doc.id :: P) ++ [last] by simp]
    exact List.dropLast_concat
  rw [this]
  rfl

theorem parent_path (a b : Segment) (P : Path) (last : Segment) :
    jsSlice (a :: b :: (P ++ [last])) 0 (-1) = a :: b :: P := by
  rw [jsSlice_dropLast]
  rw [show a :: b :: (P ++ [last]) = (a :: b :: P) ++ [last] by simp]
  exact List.dropLast_concat

theorem last_segment (a b : Segment) (P : Path) (last : Segment) :
    (a :: b :: (P ++ [last])).getLast (List.cons_ne_nil _ _) = last := by
  simp

/-- The event of the `StringInsertOp` branch when the value in the model is
the text `s` with `t` put in at `i`. -/
theorem onStringInsertOp_aux (r : Remote) (P : Path) (i : Nat) (s t : String)
    (hi : i ≤ s.length)
    (hcur : lookup P r.doc.collectionData
      = .str (String.mk (s.data.take i ++ t.data ++ s.data.drop i))) :
    onStringInsertOp r (.key r.collectionName :: .key r.doc.id :: (P ++ [.idx i]))
        (.num i) (.str t)
      = .value [.change (.key r.collectionName :: .key r.doc.id :: P)
          (.str (String.mk (s.data.take i ++ t.data ++ s.data.drop i))) (.str s)
          (mergePass r.pass
            [("$type", .str "stringInsert"), ("index", .num i), ("text", .str t)])] := by
  have hi' : i ≤ s.data.length := hi
  have hlen : (s.data.take i).length = i := by
    rw [List.length_take]
    exact min_eq_left hi'
  have hl2 : (s.data.take i ++ t.data).length = i + t.data.length := by
    rw [List.length_append, hlen]
  have h1 : jsSlice (s.data.take i ++ t.data ++ s.data.drop i) 0 (i : Int) = s.data.take i := by
    rw [jsSlice_zero_nat, List.append_assoc, List.take_left' hlen]
  have h2 : jsSlice (s.data.take i ++ t.data ++ s.data.drop i)
      ((i : Int) + ((t.data.length : Nat) : Int))
      ((s.data.take i ++ t.data ++ s.data.drop i).length : Int) = s.data.drop i := by
    have e : (i : Int) + ((t.data.length : Nat) : Int) = ((i + t.data.length : Nat) : Int) := by
      push_cast; rfl
    rw [e, jsSlice_to_end _ _ (by rw [List.length_append, hl2]; omega)]
    exact List.drop_left' hl2
  have hs1 : sliceVal (.str (String.mk (s.data.take i ++ t.data ++ s.data.drop i))) 0
      (some (toInteger (.num i))) = some (.str (String.mk (s.data.take i))) := by
    show some (JVal.str (String.mk (jsSlice _ 0 (i : Int)))) = _
    rw [h1]
  have hs2 : sliceVal (.str (String.mk (s.data.take i ++ t.data ++ s.data.drop i)))
      (toInteger (jsPlus (.num i) (.num t.length))) none
        = some (.str (String.mk (s.data.drop i))) := by
    show some (JVal.str (String.mk (jsSlice (s.data.take i ++ t.data ++ s.data.drop i)
      ((i : Int) + ((t.data.length : Nat) : Int))
      ((s.data.take i ++ t.data ++ s.data.drop i).length : Int)))) = _
    rw [h2]
  unfold onStringInsertOp
  simp only [parent_path]
  rw [show modelGet r (.key r.collectionName :: .key r.doc.id :: P)
    = some (lookup P r.doc.collectionData) from rfl, hcur]
  simp only [hs1, show lengthOf (.str t) = some (.num t.length) from rfl, hs2]
  simp only [jsToString, string_mk_append, List.take_append_drop]

/-- The event of the `StringRemoveOp` branch when the value in the model is
the text `s` without the `t` it held at `i`. -/
theorem onStringRemoveOp_aux (r : Remote) (P : Path) (i : Nat) (s t : String)
    (hi : i ≤ s.length) (hat : (s.data.drop i).take t.length = t.data)
    (hcur : lookup P r.doc.collectionData
      = .str (String.mk (s.data.take i ++ s.data.drop (i + t.length)))) :
    onStringRemoveOp r (.key r.collectionName :: .key r.doc.id :: (P ++ [.idx i]))
        (.num i) (.str t)
      = .value [.change (.key r.collectionName :: .key r.doc.id :: P)
          (.str (String.mk (s.data.take i ++ s.data.drop (i + t.length)))) (.str s)
          (mergePass r.pass
            [("$type", .str "stringRemove"), ("index", .num i),
             ("howMany", .num t.length)])] := by
  have hi' : i ≤ s.data.length := hi
  have hlen : (s.data.take i).length = i := by
    rw [List.length_take]
    exact min_eq_left hi'
  have h1 : jsSlice (s.data.take i ++ s.data.drop (i + t.length)) 0 (i : Int)
      = s.data.take i := by
    rw [jsSlice_zero_nat, List.take_left' hlen]
  have h2 : jsSlice (s.data.take i ++ s.data.drop (i + t.length)) (i : Int)
      ((s.data.take i ++ s.data.drop (i + t.length)).length : Int)
        = s.data.drop (i + t.length) := by
    rw [jsSlice_to_end _ _ (by rw [List.length_append, hlen]; omega)]
    exact List.drop_left' hlen
  have hs1 : sliceVal (.str (String.mk (s.data.take i ++ s.data.drop (i + t.length)))) 0
      (some (toInteger (.num i))) = some (.str (String.mk (s.data.take i))) := by
    show some (JVal.str (String.mk (jsSlice _ 0 (i : Int)))) = _
    rw [h1]
  have hs2 : sliceVal (.str (String.mk (s.data.take i ++ s.data.drop (i + t.length))))
      (toInteger (.num i)) none = some (.str (String.mk (s.data.drop (i + t.length)))) := by
    show some (JVal.str (String.mk (jsSlice (s.data.take i ++ s.data.drop (i + t.length))
      (i : Int) ((s.data.take i ++ s.data.drop (i + t.length)).length : Int)))) = _
    rw [h2]
  have hs : s.data.take i ++ t.data ++ s.data.drop (i + t.length) = s.data := by
    rw [← hat, List.append_assoc]
    have : List.drop (i + t.length) s.data = List.drop t.length (List.drop i s.data) := by
      rw [List.drop_drop, Nat.add_comm]
    rw [this, List.take_append_drop, List.take_append_drop]
  unfold onStringRemoveOp
  simp only [parent_path, show lengthOf (.str t) = some (.num t.length) from rfl]
  rw [show modelGet r (.key r.collectionName :: .key r.doc.id :: P)
    = some (lookup P r.doc.collectionData) from rfl, hcur]
  simp only [hs1, hs2]
  have hstr : String.mk (s.data.take i) ++ t ++ String.mk (s.data.drop (i + t.length)) = s := by
    apply String.ext
    rw [String.data_append, String.data_append]
    exact hs
  simp only [jsToString, hstr]

theorem onStringInsertOp_length (r : Remote) (segments : Path) (index text : JVal)
    (events : List Event) (h : onStringInsertOp r segments index text = .value events) :
    events.length = 1 := by
  unfold onStringInsertOp at h
  simp only at h
  split at h
  · cases h
  · split at h
    · split at h
      · cases h; rfl
      · cases h
    · cases h

theorem onStringRemoveOp_length (r : Remote) (segments : Path) (index text : JVal)
    (events : List Event) (h : onStringRemoveOp r segments index text = .value events) :
    events.length = 1 := by
  unfold onStringRemoveOp at h
  split at h
  · cases h
  · simp only at h
    split at h
    · cases h
    · split at h
      · cases h; rfl
      · cases h

theorem onOp_length (r : Remote) (op : List Component) (events : List Event)
    (h : _onOp r op = .value events) : events.length ≤ 1 := by
  unfold _onOp at h
  split at h
  · cases h
  · simp only at h
    split at h
    · cases h; simp
    · split at h
      · cases h; simp
      · split at h
        · cases h; simp
        · split at h
          · cases h; simp
          · split at h
            · cases h; simp
            · split at h
              · exact le_of_eq (onStringInsertOp_length _ _ _ _ _ h)
              · split at h
                · exact le_of_eq (onStringRemoveOp_length _ _ _ _ _ h)
                · split at h
                  · cases h; simp
                  · cases h; simp

theorem nullIfUndef_of_ne (v : JVal) (h : v ≠ .undef) : nullIfUndef v = v := by
  cases v <;> first | rfl | exact absurd rfl h

/-- The op `set` submits on a typed document at a path whose ancestors are
there, the empty path included. -/
theorem set_submits_aux (env : ShareEnv) (d : State) (P : Path) (value : JVal)
    (ht : d.typed = true) (hanc : AncestorsTruthy P d.snapshot) :
    set env d P value =
      ⟨afterSubmit env d (.list [replaceOp P (lookup P d.snapshot) value]),
        [.submitOp (.list [replaceOp P (lookup P d.snapshot) value]) true],
        .val (lookup P d.snapshot)⟩ := by
  by_cases hne : P = []
  · subst hne
    have hanc' : AncestorsTruthy [] (ensureCreated env d).1.snapshot := by
      intro j hj; simp at hj
    unfold set
    rw [if_neg (by simp [ht]), createImplied_node env d [] hanc', ensureCreated_typed env d ht]
    simp [isArrayIndex, submitOp, afterSubmit, replaceOp, ObjectReplaceOp, castSegments]
  · exact set_replaces_aux env d P value ht hne hanc

theorem jsSlice_nat_any {α : Type} (L : List α) (i c : Nat) :
    jsSlice L (i : Int) ((i : Int) + (c : Int)) = (L.drop i).take c := by
  by_cases hi : i ≤ L.length
  · exact jsSlice_nat L i c hi
  · unfold jsSlice
    have h1 : ¬ ((i : Int) < 0) := by omega
    have h2 : ¬ ((i : Int) + (c : Int) < 0) := by omega
    have h3 : min (i : Int) (L.length : Int) = (L.length : Int) := by omega
    have h4 : min ((i : Int) + (c : Int)) (L.length : Int) = (L.length : Int) := by omega
    simp only [h1, h2, if_false, h3, h4, Int.toNat_ofNat, sub_self, Int.toNat_zero,
      List.take_zero]
    rw [List.drop_eq_nil_of_le (by omega)]
    simp

theorem getProp_last (L : List JVal) :
    getProp (.arr L) (.idx ((L.length : Int) - 1)) = L.getLast?.getD .undef := by
  cases L with
  | nil => rfl
  | cons a t =>
    have h0 : (0 : Int) ≤ ((a :: t).length : Int) - 1 := by
      simp only [List.length_cons]; omega
    have hn : (((a :: t).length : Int) - 1).toNat = (a :: t).length - 1 := by
      simp only [List.length_cons]; omega
    simp only [getProp, h0, if_true, hn]
    rw [List.getLast?_eq_getElem?]

theorem getProp_first (L : List JVal) :
    getProp (.arr L) (.idx 0) = L.head?.getD .undef := by
  cases L <;> simp [getProp]

/-- What `_createImplied` returns: the node at the path when every ancestor
is truthy, and an implied op otherwise. -/
theorem createImplied_cases (env : ShareEnv) (d : State) (P : Path) :
    (AncestorsTruthy P (ensureCreated env d).1.snapshot
      ∧ _createImplied env d P
        = ((ensureCreated env d).1, (ensureCreated env d).2,
            .node (lookup P (ensureCreated env d).1.snapshot)))
    ∨ (¬ AncestorsTruthy P (ensureCreated env d).1.snapshot
      ∧ ∃ o, _createImplied env d P
        = ((ensureCreated env d).1, (ensureCreated env d).2, .implied o)) := by
  by_cases hanc : AncestorsTruthy P (ensureCreated env d).1.snapshot
  · exact Or.inl ⟨hanc, createImplied_node env d P hanc⟩
  · right
    refine ⟨hanc, ?_⟩
    have hex : ∃ j, j < P.length
        ∧ truthy (lookup (P.take j) (ensureCreated env d).1.snapshot) = false := by
      by_contra hno
      apply hanc
      intro j hj
      cases ht : truthy (lookup (P.take j) (ensureCreated env d).1.snapshot)
      · exact absurd ⟨j, hj, ht⟩ hno
      · rfl
    classical
    have hk := Nat.find_spec hex
    obtain ⟨o, ho, _⟩ := createImplied_implied env d P (Nat.find hex) hk.1 hk.2 (by
      intro j hj
      have hmin := Nat.find_min hex hj
      cases ht : truthy (lookup (P.take j) (ensureCreated env d).1.snapshot)
      · exact absurd ⟨by omega, ht⟩ hmin
      · rfl)
    exact ⟨o, ho⟩

/-- When the value at the path is `undefined` or `null`, `stringRemove` does
no more than the opening of `_createImplied` does. -/
theorem stringRemove_no_op_aux (env : ShareEnv) (d : State) (P : Path) (index howMany : Int)
    (habs : isNullish (lookup P (ensureCreated env d).1.snapshot) = true) :
    (stringRemove env d P index howMany).doc = (ensureCreated env d).1
    ∧ (stringRemove env d P index howMany).calls = (ensureCreated env d).2 := by
  rcases createImplied_cases env d P with ⟨_, h⟩ | ⟨_, o, h⟩
  · unfold stringRemove
    rw [h]
    simp [habs]
  · unfold stringRemove
    rw [h]
    exact ⟨rfl, rfl⟩

theorem charAt_lt (s : String) (i : Nat) (h : i < s.data.length) :
    charAt s (i : Int) = String.singleton (s.data[i]) := by
  unfold charAt
  have h0 : ¬ ((i : Int) < 0) := by omega
  rw [if_neg h0, Int.toNat_ofNat, List.getElem?_eq_getElem h]

theorem charAt_ge (s : String) (i : Nat) (h : s.data.length ≤ i) : charAt s (i : Int) = "" := by
  unfold charAt
  have h0 : ¬ ((i : Int) < 0) := by omega
  rw [if_neg h0, Int.toNat_ofNat, List.getElem?_eq_none h]

theorem singleton_ne_empty (c : Char) : String.singleton c ≠ "" := by
  intro h
  have := congrArg String.data h
  simp [String.singleton] at this

theorem singleton_injective (c d : Char) (h : String.singleton c = String.singleton d) :
    c = d := by
  have := congrArg String.data h
  simpa [String.singleton] using this

/-- Where the texts have the same characters at a position, both have one
there. -/
theorem charAt_eq_cases (p v : String) (i : Nat) (h : charAt p (i : Int) = charAt v (i : Int)) :
    (p.data.length ≤ i ∧ v.data.length ≤ i)
    ∨ (∃ (hp : i < p.data.length) (hv : i < v.data.length), p.data[i] = v.data[i]) := by
  by_cases hp : i < p.data.length
  · by_cases hv : i < v.data.length
    · right
      rw [charAt_lt p i hp, charAt_lt v i hv] at h
      exact ⟨hp, hv, singleton_injective _ _ h⟩
    · rw [charAt_lt p i hp, charAt_ge v i (by omega)] at h
      exact absurd h (singleton_ne_empty _)
  · by_cases hv : i < v.data.length
    · rw [charAt_ge p i (by omega), charAt_lt v i hv] at h
      exact absurd h.symm (singleton_ne_empty _)
    · left; omega

theorem scanStart_spec (p v : String) (hne : p ≠ v) :
    ∀ (fuel start : Nat), p.data.take start = v.data.take start →
      start ≤ min p.data.length v.data.length →
      min p.data.length v.data.length < start + fuel →
      ∃ s, scanStart p v fuel start = some s ∧ start ≤ s
        ∧ s ≤ min p.data.length v.data.length ∧ p.data.take s = v.data.take s
        ∧ charAt p (s : Int) ≠ charAt v (s : Int)
  | 0, start, _, hle, hfuel => by omega
  | fuel + 1, start, htake, hle, hfuel => by
    unfold scanStart
    by_cases heq : charAt p (start : Int) = charAt v (start : Int)
    · rw [if_pos heq]
      rcases charAt_eq_cases p v start heq with ⟨h1, h2⟩ | ⟨hp, hv, hc⟩
      · exfalso
        apply hne
        apply String.ext
        rw [← List.take_of_length_le h1, ← List.take_of_length_le h2]
        exact htake
      · have htake' : p.data.take (start + 1) = v.data.take (start + 1) := by
          rw [List.take_succ, List.take_succ, htake, List.getElem?_eq_getElem hp,
            List.getElem?_eq_getElem hv, hc]
        obtain ⟨s, hs, h1, h2, h3, h4⟩ :=
          scanStart_spec p v hne fuel (start + 1) htake' (by omega) (by omega)
        exact ⟨s, hs, by omega, h2, h3, h4⟩
    · rw [if_neg heq]
      exact ⟨start, rfl, le_refl _, hle, htake, heq⟩

theorem scanStart_mono (p v : String) :
    ∀ (fuel fuel' start s : Nat), scanStart p v fuel start = some s → fuel ≤ fuel' →
      scanStart p v fuel' start = some s
  | 0, _, _, _, h, _ => by simp [scanStart] at h
  | fuel + 1, 0, _, _, _, hle => by omega
  | fuel + 1, fuel' + 1, start, s, h, hle => by
    unfold scanStart at h ⊢
    split
    · next heq =>
      rw [if_pos heq] at h
      exact scanStart_mono p v fuel fuel' (start + 1) s h (by omega)
    · next heq =>
      rw [if_neg heq] at h
      exact h

theorem charAt_back (s : String) (e : Nat) (h : e < s.data.length) :
    charAt s ((s.length : Int) - 1 - e) = String.singleton (s.data[s.data.length - 1 - e]) := by
  have hl : s.length = s.data.length := rfl
  have hi : ((s.length : Int) - 1 - e) = ((s.data.length - 1 - e : Nat) : Int) := by
    rw [hl]; omega
  rw [hi, charAt_lt s _ (by omega)]

theorem drop_back (l : List Char) (e : Nat) (h : e < l.length) :
    l.drop (l.length - (e + 1)) = l[l.length - 1 - e] :: l.drop (l.length - e) := by
  have h1 : l.length - (e + 1) < l.length := by omega
  rw [List.drop_eq_getElem_cons h1]
  have h2 : l.length - (e + 1) = l.length - 1 - e := by omega
  have h3 : l.length - (e + 1) + 1 = l.length - e := by omega
  simp only [h2] at h3 ⊢
  rw [h3]

theorem scanEnd_spec (p v : String) (start : Nat) :
    ∀ (fuel e : Nat), p.data.drop (p.data.length - e) = v.data.drop (v.data.length - e) →
      e + start ≤ min p.data.length v.data.length →
      min p.data.length v.data.length < e + start + fuel →
      ∃ e', scanEnd p v start fuel e = some e' ∧ e ≤ e'
        ∧ e' + start ≤ min p.data.length v.data.length
        ∧ p.data.drop (p.data.length - e') = v.data.drop (v.data.length - e')
  | 0, e, _, hle, hfuel => by omega
  | fuel + 1, e, hdrop, hle, hfuel => by
    unfold scanEnd
    split
    · next hc =>
      obtain ⟨hch, h1, h2⟩ := hc
      have h1' : e + start < p.data.length := h1
      have h2' : e + start < v.data.length := h2
      rw [charAt_back p e (by omega), charAt_back v e (by omega)] at hch
      have hcc := singleton_injective _ _ hch
      have hdrop' : p.data.drop (p.data.length - (e + 1))
          = v.data.drop (v.data.length - (e + 1)) := by
        rw [drop_back p.data e (by omega), drop_back v.data e (by omega), hcc, hdrop]
      obtain ⟨e', he', ha, hb, hc'⟩ :=
        scanEnd_spec p v start fuel (e + 1) hdrop' (by omega) (by omega)
      exact ⟨e', he', by omega, hb, hc'⟩
    · exact ⟨e, rfl, le_refl _, hle, hdrop⟩

theorem scanEnd_mono (p v : String) (start : Nat) :
    ∀ (fuel fuel' e s : Nat), scanEnd p v start fuel e = some s → fuel ≤ fuel' →
      scanEnd p v start fuel' e = some s
  | 0, _, _, _, h, _ => by simp [scanEnd] at h
  | fuel + 1, 0, _, _, _, hle => by omega
  | fuel + 1, fuel' + 1, e, s, h, hle => by
    unfold scanEnd at h ⊢
    split
    · next hc =>
      rw [if_pos hc] at h
      exact scanEnd_mono p v start fuel fuel' (e + 1) s h (by omega)
    · next hc =>
      rw [if_neg hc] at h
      exact h

/-- Both loops of `onTextInput` end for texts that differ, with the same
result for every number of tests allowed above the length of the shorter
text. -/
theorem scans_aux (p v : String) (hne : p ≠ v) :
    ∃ start e : Nat,
      (∀ fuel, min p.data.length v.data.length < fuel →
        scanStart p v fuel 0 = some start ∧ scanEnd p v start fuel 0 = some e)
      ∧ start + e ≤ min p.data.length v.data.length
      ∧ p.data.take start = v.data.take start
      ∧ p.data.drop (p.data.length - e) = v.data.drop (v.data.length - e)
      ∧ charAt p (start : Int) ≠ charAt v (start : Int) := by
  obtain ⟨start, hs, _, hsle, htake, hmis⟩ :=
    scanStart_spec p v hne (min p.data.length v.data.length + 1) 0 rfl (by omega) (by omega)
  obtain ⟨e, he, _, hele, hdrop⟩ :=
    scanEnd_spec p v start (min p.data.length v.data.length + 1) 0
      (by rw [Nat.sub_zero, Nat.sub_zero, List.drop_length, List.drop_length]) (by omega)
      (by omega)
  refine ⟨start, e, ?_, by omega, htake, hdrop, hmis⟩
  intro fuel hfuel
  exact ⟨scanStart_mono p v _ fuel 0 start hs (by omega),
    scanEnd_mono p v start _ fuel 0 e he (by omega)⟩

/-- The text between the common beginning and the common end of the new
text. -/
theorem inserted_slice (l : List Char) (a e : Nat) (h : a + e ≤ l.length) :
    jsSlice l (a : Int) ((l.length : Int) - e) = (l.drop a).take (l.length - e - a) := by
  have hc : ((l.length : Int) - e) = (a : Int) + ((l.length - e - a : Nat) : Int) := by omega
  rw [hc, jsSlice_nat l a _ (by omega)]

/-- Taking the part between the common beginning and end out of the old text
and putting that of the new text in gives the new text. -/
theorem splice_aux (p v : String) (segments : Path) (a e : Nat)
    (hp : a + e ≤ p.data.length) (hv : a + e ≤ v.data.length)
    (htake : p.data.take a = v.data.take a)
    (hdrop : p.data.drop (p.data.length - e) = v.data.drop (v.data.length - e)) :
    applyTextCalls p
      ((if p.length ≠ a + e then
          [TextCall._stringRemove segments a ((p.length : Int) - a - e)]
        else [])
        ++ (if v.length ≠ a + e then
          [TextCall._stringInsert segments a
            (String.mk (jsSlice v.data a ((v.length : Int) - e)))]
        else [])) = v := by
  have hpl : p.length = p.data.length := rfl
  have hvl : v.length = v.data.length := rfl
  have hT : applyTextCalls p
      (if p.length ≠ a + e then
          [TextCall._stringRemove segments a ((p.length : Int) - a - e)]
        else []) = String.mk (v.data.take a ++ v.data.drop (v.data.length - e)) := by
    by_cases hc : p.length = a + e
    · rw [if_neg (by simpa using hc)]
      show p = _
      apply String.ext
      show p.data = v.data.take a ++ v.data.drop (v.data.length - e)
      rw [← htake, ← hdrop]
      have : p.data.length - e = a := by omega
      rw [this, List.take_append_drop]
    · rw [if_pos hc]
      show onStringRemove (some p) (a : Int) ((p.length : Int) - a - e) = _
      unfold onStringRemove
      simp only [Option.getD_some]
      have h1 : (a : Int) + ((p.length : Int) - a - e) = ((p.data.length - e : Nat) : Int) := by
        rw [hpl]; omega
      rw [h1, jsSlice_zero_nat, jsSlice_to_end p.data _ (by omega), string_mk_append, htake,
        hdrop]
  have hfold : ∀ (t : String) (xs ys : List TextCall),
      applyTextCalls t (xs ++ ys) = applyTextCalls (applyTextCalls t xs) ys := by
    intro t xs ys
    unfold applyTextCalls
    rw [List.foldl_append]
  rw [hfold, hT]
  have hAlen : (v.data.take a).length = a := by
    rw [List.length_take]; omega
  by_cases hc : v.length = a + e
  · rw [if_neg (by simpa using hc)]
    show String.mk _ = v
    apply String.ext
    show v.data.take a ++ v.data.drop (v.data.length - e) = v.data
    have : v.data.length - e = a := by omega
    rw [this, List.take_append_drop]
  · rw [if_pos hc]
    show onStringInsert (some (String.mk (v.data.take a ++ v.data.drop (v.data.length - e))))
      (a : Int) (String.mk (jsSlice v.data a ((v.length : Int) - e))) = v
    unfold onStringInsert
    simp only [Option.getD_some]
    rw [jsSlice_zero_nat, jsSlice_to_end _ a (by simp; omega), hvl, inserted_slice v.data a e hv]
    rw [List.take_left' hAlen, List.drop_left' hAlen]
    apply String.ext
    simp only [String.data_append]
    show v.data.take a ++ (v.data.drop a).take (v.data.length - e - a)
      ++ v.data.drop (v.data.length - e) = v.data
    have h3 : v.data.drop (v.data.length - e)
        = (v.data.drop a).drop (v.data.length - e - a) := by
      rw [List.drop_drop]
      congr 1
      omega
    rw [h3, List.append_assoc, List.take_append_drop, List.take_append_drop]

end RemoteDoc

open JS JS.JVal
namespace JS

theorem memberGet_memberSet_same (ms : List (String × HVal)) (k : String) (v : HVal) :
    memberGet (memberSet ms k v) k = v := by
  induction ms with
  | nil => simp [memberSet, memberGet]
  | cons hd tl ih =>
    obtain ⟨k0, w⟩ := hd
    by_cases h : k0 = k
    · simp [memberSet, memberGet, h]
    · simp [memberSet, memberGet, h, ih]

theorem memberGet_memberSet_ne (ms : List (String × HVal)) (k k' : String) (v : HVal)
    (hne : k' ≠ k) : memberGet (memberSet ms k v) k' = memberGet ms k' := by
  induction ms with
  | nil =>
    have : ¬ (k = k') := fun e => hne e.symm
    simp [memberSet, memberGet, this]
  | cons hd tl ih =>
    obtain ⟨k0, w⟩ := hd
    by_cases h : k0 = k
    · subst h
      have : ¬ (k0 = k') := fun e => hne e.symm
      simp [memberSet, memberGet, this]
    · by_cases h' : k0 = k'
      · subst h'
        simp [memberSet, memberGet, h]
      · simp [memberSet, memberGet, h, h', ih]

theorem alloc_length (h : Heap) (c : Cell) : (h.alloc c).1.length = h.length + 1 := by
  simp [Heap.alloc]

theorem alloc_address (h : Heap) (c : Cell) : (h.alloc c).2 = h.length := rfl

theorem alloc_getElem?_lt (h : Heap) (c : Cell) (a : Nat) (ha : a < h.length) :
    (h.alloc c).1[a]? = h[a]? := by
  simp [Heap.alloc, List.getElem?_append_left ha]

theorem alloc_getElem?_new (h : Heap) (c : Cell) : (h.alloc c).1[h.length]? = some c := by
  simp [Heap.alloc]

theorem setProp_length (h : Heap) (a : Nat) (s : Segment) (v : HVal) :
    (h.setProp a s v).length = h.length := by
  unfold Heap.setProp
  split <;> simp

theorem setProp_getElem?_ne (h : Heap) (a b : Nat) (s : Segment) (v : HVal) (hne : b ≠ a) :
    (h.setProp a s v)[b]? = h[b]? := by
  unfold Heap.setProp
  split
  · rw [List.getElem?_set_ne (fun e => hne e.symm)]
  · rfl

theorem setProp_getElem?_same (h : Heap) (a : Nat) (s : Segment) (v : HVal) (c : Cell)
    (hc : h[a]? = some c) : (h.setProp a s v)[a]? = some (c.set s v) := by
  unfold Heap.setProp
  rw [hc]
  have ha : a < h.length := by
    rcases Nat.lt_or_ge a h.length with h1 | h1
    · exact h1
    · rw [List.getElem?_eq_none h1] at hc; cases hc
  simp [List.getElem?_set_self ha]

/-- Reading a value out of the store gives the same in a store that holds the
same objects below the length of a closed one. -/
theorem read_frame (h h' : Heap) (hc : h.Closed)
    (hagree : ∀ a, a < h.length → h'[a]? = h[a]?) :
    ∀ (depth : Nat) (x : HVal), (∀ a, x = .ref a → a < h.length) →
      h'.read depth x = h.read depth x
  | _, .data v, _ => by cases ‹Nat› <;> rfl
  | 0, .ref a, _ => rfl
  | depth + 1, .ref a, hx => by
    have ha : a < h.length := hx a rfl
    have hcell : h[a]? = some h[a] := List.getElem?_eq_getElem ha
    have hmem : h[a] ∈ h := List.getElem_mem ha
    unfold Heap.read
    rw [hagree a ha, hcell]
    cases hk : h[a] with
    | mapping ms =>
      simp only
      congr 1
      apply List.map_congr_left
      intro kv hkv
      congr 1
      apply read_frame h h' hc hagree depth kv.2
      intro b hb
      apply hc h[a] hmem b
      rw [hk]
      simp only [Cell.refs, List.mem_filterMap]
      exact ⟨kv, hkv, by rw [hb]; rfl⟩
    | array xs =>
      simp only
      congr 1
      apply List.map_congr_left
      intro x hxm
      apply read_frame h h' hc hagree depth x
      intro b hb
      apply hc h[a] hmem b
      rw [hk]
      simp only [Cell.refs, List.mem_filterMap]
      exact ⟨x, hxm, by rw [hb]; rfl⟩

theorem memberGet_ref_mem (ms : List (String × HVal)) (k : String) (b : Nat)
    (h : memberGet ms k = .ref b) : b ∈ (Cell.mapping ms).refs := by
  induction ms with
  | nil => simp [memberGet] at h
  | cons hd tl ih =>
    obtain ⟨k0, w⟩ := hd
    simp only [Cell.refs, List.mem_filterMap] at ih ⊢
    by_cases hk : k0 = k
    · simp only [memberGet, hk, if_true] at h
      exact ⟨(k0, w), List.mem_cons_self _ _, by rw [h]; rfl⟩
    · simp only [memberGet, hk, if_false] at h
      obtain ⟨kv, hkv, hb⟩ := ih h
      exact ⟨kv, List.mem_cons_of_mem _ hkv, hb⟩

/-- In a closed store a property read on a value of the store gives a value of
the store. -/
theorem getProp_closed (h : Heap) (hc : h.Closed) (x : HVal) (s : Segment) (b : Nat)
    (hx : h.getProp x s = .ref b) : b < h.length := by
  cases x with
  | data v => simp [Heap.getProp] at hx
  | ref a =>
    unfold Heap.getProp at hx
    simp only at hx
    cases hcell : h[a]? with
    | none => rw [hcell] at hx; simp at hx
    | some c =>
      rw [hcell] at hx
      simp only at hx
      have hmem : c ∈ h := List.getElem?_mem hcell
      apply hc c hmem b
      cases c with
      | mapping ms => exact memberGet_ref_mem ms _ b hx
      | array xs =>
        cases s with
        | key k => simp [Cell.get] at hx
        | idx n =>
          simp only [Cell.get] at hx
          split at hx
          · cases hget : xs[n.toNat]? with
            | none => rw [hget] at hx; simp at hx
            | some y =>
              rw [hget] at hx
              simp only [Option.getD_some] at hx
              simp only [Cell.refs, List.mem_filterMap]
              exact ⟨y, List.getElem?_mem hget, by rw [hx]; rfl⟩
          · simp at hx

/-- A property read gives the same in a store that holds the same objects
below the length of the first. -/
theorem getProp_frame (h h' : Heap) (hagree : ∀ a, a < h.length → h'[a]? = h[a]?) (x : HVal)
    (s : Segment) (hx : ∀ a, x = .ref a → a < h.length) : h'.getProp x s = h.getProp x s := by
  cases x with
  | data v => rfl
  | ref a =>
    unfold Heap.getProp
    simp only
    rw [hagree a (hx a rfl)]

end JS

open JS JS.JVal RemoteDoc
namespace RemoteDoc

/-- The loop of `_createImplied` on a snapshot in the store writes to new
objects only: the objects below an address `n` that the store already held,
and that the implied op so far does not refer to, stay as they were, and the
containers of the implied op it returns are at `n` or above. -/
theorem heapLoop_frame (segments : Path) (n : Nat) :
    ∀ (rest : List Segment) (i : Int) (h : Heap) (parent : HVal) (key : Segment) (node : HVal)
      (op : Option OnHeap.ImpliedOp),
      n ≤ h.length → (∀ o, op = some o → n ≤ o.value ∧ n ≤ o.root) →
      n ≤ (OnHeap.createImpliedLoop segments rest i h parent key node op).1.length
      ∧ (∀ a, a < n →
          (OnHeap.createImpliedLoop segments rest i h parent key node op).1[a]? = h[a]?)
      ∧ (∀ o, (OnHeap.createImpliedLoop segments rest i h parent key node op).2 = .implied o →
          n ≤ o.value ∧ n ≤ o.root)
  | [], i, h, parent, key, node, op, hn, hop => by
    cases op with
    | none =>
      refine ⟨hn, fun _ _ => rfl, ?_⟩
      intro o ho
      simp [OnHeap.createImpliedLoop] at ho
    | some o' =>
      refine ⟨hn, fun _ _ => rfl, ?_⟩
      intro o ho
      simp only [OnHeap.createImpliedLoop, Prod.mk.injEq, OnHeap.Created.implied.injEq] at ho
      rw [← ho]
      exact hop o' rfl
  | nextKey :: rest, i, h, parent, key, node, op, hn, hop => by
    rw [OnHeap.createImpliedLoop]
    cases ht : node.truthy with
    | true =>
      simp only [Bool.not_true, Bool.false_eq_true, if_false]
      exact heapLoop_frame segments n rest _ h _ _ _ op hn hop
    | false =>
      simp only [Bool.not_false, if_true]
      cases op with
      | some o' =>
        obtain ⟨hv, hr⟩ := hop o' rfl
        simp only
        have hlen : n ≤ (Heap.setProp (h.alloc (if isArrayIndex (some nextKey) = true
            then Cell.array [] else Cell.mapping [])).1 o'.value key
            (.ref (h.alloc (if isArrayIndex (some nextKey) = true
              then Cell.array [] else Cell.mapping [])).2)).length := by
          rw [setProp_length, alloc_length]; omega
        obtain ⟨h1, h2, h3⟩ := heapLoop_frame segments n rest (i + 1) _
          (.ref (h.alloc (if isArrayIndex (some nextKey) = true
            then Cell.array [] else Cell.mapping [])).2) nextKey
          (Heap.getProp (Heap.setProp (h.alloc (if isArrayIndex (some nextKey) = true
            then Cell.array [] else Cell.mapping [])).1 o'.value key
            (.ref (h.alloc (if isArrayIndex (some nextKey) = true
              then Cell.array [] else Cell.mapping [])).2))
            (.ref (h.alloc (if isArrayIndex (some nextKey) = true
              then Cell.array [] else Cell.mapping [])).2) nextKey)
          (some { o' with value := (h.alloc (if isArrayIndex (some nextKey) = true
            then Cell.array [] else Cell.mapping [])).2 }) hlen (by
            intro o ho
            cases ho
            exact ⟨by rw [alloc_address]; exact hn, hr⟩)
        refine ⟨h1, ?_, h3⟩
        intro a ha
        rw [h2 a ha, setProp_getElem?_ne _ _ _ _ _ (by omega), alloc_getElem?_lt _ _ _ (by omega)]
      | none =>
        simp only
        have hlen : n ≤ (h.alloc (if isArrayIndex (some nextKey) = true
            then Cell.array [] else Cell.mapping [])).1.length := by
          rw [alloc_length]; omega
        obtain ⟨h1, h2, h3⟩ := heapLoop_frame segments n rest (i + 1) _
          (.ref (h.alloc (if isArrayIndex (some nextKey) = true
            then Cell.array [] else Cell.mapping [])).2) nextKey
          (Heap.getProp (h.alloc (if isArrayIndex (some nextKey) = true
            then Cell.array [] else Cell.mapping [])).1
            (.ref (h.alloc (if isArrayIndex (some nextKey) = true
              then Cell.array [] else Cell.mapping [])).2) nextKey)
          (some (if Heap.isArray (h.alloc (if isArrayIndex (some nextKey) = true
              then Cell.array [] else Cell.mapping [])).1 parent = true then
            { list := true, pre := jsSlice segments 0 (i - 2), key := key,
              root := (h.alloc (if isArrayIndex (some nextKey) = true
                then Cell.array [] else Cell.mapping [])).2,
              value := (h.alloc (if isArrayIndex (some nextKey) = true
                then Cell.array [] else Cell.mapping [])).2 }
          else
            { list := false, pre := jsSlice segments 0 (i - 1), key := key,
              root := (h.alloc (if isArrayIndex (some nextKey) = true
                then Cell.array [] else Cell.mapping [])).2,
              value := (h.alloc (if isArrayIndex (some nextKey) = true
                then Cell.array [] else Cell.mapping [])).2 })) hlen (by
            intro o ho
            cases ho
            constructor
            · rw [apply_ite OnHeap.ImpliedOp.value]
              simp only [ite_self, alloc_address]
              exact hn
            · rw [apply_ite OnHeap.ImpliedOp.root]
              simp only [ite_self, alloc_address]
              exact hn)
        refine ⟨h1, ?_, h3⟩
        intro a ha
        rw [h2 a ha, alloc_getElem?_lt _ _ _ (by omega)]

/-- Once the loop has an implied op, it returns an implied op. -/
theorem heapLoop_some_implied (segments : Path) :
    ∀ (rest : List Segment) (i : Int) (h : Heap) (parent : HVal) (key : Segment) (node : HVal)
      (o : OnHeap.ImpliedOp),
      ∃ o', (OnHeap.createImpliedLoop segments rest i h parent key node (some o)).2
        = .implied o'
  | [], _, _, _, _, _, o => ⟨o, rfl⟩
  | nextKey :: rest, i, h, parent, key, node, o => by
    rw [OnHeap.createImpliedLoop]
    cases ht : node.truthy with
    | true =>
      simp only [Bool.not_true, Bool.false_eq_true, if_false]
      exact heapLoop_some_implied segments rest _ h _ _ _ o
    | false =>
      simp only [Bool.not_false, if_true]
      exact heapLoop_some_implied segments rest _ _ _ _ _ _

theorem hval_isNullish_of_truthy (v : HVal) (h : v.truthy = true) : v.isNullish = false := by
  cases v with
  | data x => exact isNullish_of_truthy h
  | ref a => rfl

theorem heapLookup_cons_of_truthy (h : Heap) (s : Segment) (rest : Path) (v : HVal)
    (ht : v.truthy = true) :
    OnHeap.lookup h (s :: rest) v = OnHeap.lookup h rest (h.getProp v s) := by
  simp [OnHeap.lookup, hval_isNullish_of_truthy v ht]

theorem heapAncestors_head (h : Heap) (s : Segment) (rest : Path) (v : HVal)
    (ha : OnHeap.AncestorsTruthy h (s :: rest) v) : v.truthy = true := by
  have := ha 0 (by simp)
  simpa [OnHeap.lookup] using this

theorem heapAncestors_tail (h : Heap) (s : Segment) (rest : Path) (v : HVal)
    (ha : OnHeap.AncestorsTruthy h (s :: rest) v) :
    OnHeap.AncestorsTruthy h rest (h.getProp v s) := by
  intro j hj
  have := ha (j + 1) (by simpa using hj)
  rw [List.take_succ_cons, heapLookup_cons_of_truthy h s _ v (heapAncestors_head h s rest v ha)]
    at this
  exact this

theorem heapAncestors_cons (h : Heap) (s : Segment) (rest : Path) (v : HVal)
    (ht : v.truthy = true) (ha : OnHeap.AncestorsTruthy h rest (h.getProp v s)) :
    OnHeap.AncestorsTruthy h (s :: rest) v := by
  intro j hj
  cases j with
  | zero => simpa [OnHeap.lookup] using ht
  | succ j =>
    rw [List.take_succ_cons, heapLookup_cons_of_truthy h s _ v ht]
    exact ha j (by simpa using hj)

/-- With every ancestor truthy the loop returns the node at the path and
leaves the store as it is. -/
theorem heapLoop_truthy (segments : Path) :
    ∀ (rest : List Segment) (i : Int) (h : Heap) (parent : HVal) (key : Segment) (node : HVal),
      OnHeap.AncestorsTruthy h rest node →
      OnHeap.createImpliedLoop segments rest i h parent key node none
        = (h, .node (OnHeap.lookup h rest node))
  | [], _, _, _, _, _, _ => by simp [OnHeap.createImpliedLoop, OnHeap.lookup]
  | s :: rest, i, h, parent, key, node, ha => by
    rw [OnHeap.createImpliedLoop]
    have ht := heapAncestors_head h s rest node ha
    simp only [ht, Bool.not_true, Bool.false_eq_true, if_false]
    rw [heapLoop_truthy segments rest _ h _ _ _ (heapAncestors_tail h s rest node ha),
      heapLookup_cons_of_truthy h s rest node ht]

/-- With an ancestor that is falsy the loop returns an implied op. -/
theorem heapLoop_falsy (segments : Path) :
    ∀ (rest : List Segment) (i : Int) (h : Heap) (parent : HVal) (key : Segment) (node : HVal),
      ¬ OnHeap.AncestorsTruthy h rest node →
      ∃ o, (OnHeap.createImpliedLoop segments rest i h parent key node none).2 = .implied o
  | [], _, _, _, _, _, hno => by
    exfalso
    apply hno
    intro j hj
    simp at hj
  | s :: rest, i, h, parent, key, node, hno => by
    rw [OnHeap.createImpliedLoop]
    cases ht : node.truthy with
    | true =>
      simp only [Bool.not_true, Bool.false_eq_true, if_false]
      apply heapLoop_falsy segments rest _ h _ _ _
      intro ha
      exact hno (heapAncestors_cons h s rest node ht ha)
    | false =>
      simp only [Bool.not_false, if_true]
      exact heapLoop_some_implied segments rest _ _ _ _ _ _

end RemoteDoc

open JS JS.JVal
namespace LiveDbMongo

theorem digitChar_toNat (k : Nat) (h : k < 10) : (Nat.digitChar k).toNat - 48 = k := by
  interval_cases k <;> rfl

theorem foldl_toDigitsCore (fuel n : Nat) (ds : List Char) (h : n < fuel) :
    (Nat.toDigitsCore 10 fuel n ds).foldl (fun a c => 10 * a + (c.toNat - 48)) 0
      = ds.foldl (fun a c => 10 * a + (c.toNat - 48)) n := by
  induction fuel generalizing n ds with
  | zero => omega
  | succ f ih =>
    unfold Nat.toDigitsCore
    simp only
    split
    · next h0 =>
      simp only [List.foldl_cons, Nat.mul_zero, Nat.zero_add]
      rw [digitChar_toNat _ (Nat.mod_lt _ (by decide))]
      congr 1
      omega
    · next h0 =>
      rw [ih _ _ (by omega)]
      simp only [List.foldl_cons]
      rw [digitChar_toNat _ (Nat.mod_lt _ (by decide))]
      congr 1
      omega

theorem natRepr_injective (m n : Nat) (h : toString m = toString n) : m = n := by
  have h1 : (Nat.repr m).data = (Nat.repr n).data := congrArg String.data h
  unfold Nat.repr Nat.toDigits at h1
  simp only [List.asString] at h1
  have hm := foldl_toDigitsCore (m + 1) m [] (by omega)
  have hn := foldl_toDigitsCore (n + 1) n [] (by omega)
  rw [h1] at hm
  rw [hm] at hn
  simpa using hn

theorem digitChar_ne_minus (k : Nat) : Nat.digitChar k ≠ '-' := by
  unfold Nat.digitChar
  repeat (apply ite_ne_aux _ _ _ _ (by decide))
  decide

theorem toDigitsCore_no_minus (fuel n : Nat) (ds : List Char) (h : '-' ∉ ds) :
    '-' ∉ Nat.toDigitsCore 10 fuel n ds := by
  induction fuel generalizing n ds with
  | zero => simpa [Nat.toDigitsCore] using h
  | succ f ih =>
    unfold Nat.toDigitsCore
    have hcons : '-' ∉ Nat.digitChar (n % 10) :: ds := by
      intro hm
      rcases List.mem_cons.mp hm with e | e
      · exact digitChar_ne_minus _ e.symm
      · exact h e
    simp only
    split
    · exact hcons
    · exact ih _ _ hcons

theorem natRepr_no_minus (n : Nat) : '-' ∉ (toString n).data := by
  show '-' ∉ (Nat.repr n).data
  unfold Nat.repr Nat.toDigits
  simp only [List.asString]
  exact toDigitsCore_no_minus _ _ _ (by simp)

theorem intToString_injective (m n : Int) (h : toString m = toString n) : m = n := by
  cases m with
  | ofNat a =>
    cases n with
    | ofNat b =>
      have : a = b := natRepr_injective a b h
      rw [this]
    | negSucc b =>
      exfalso
      have h1 : (toString a).data = ("-" ++ toString (b + 1)).data := congrArg String.data h
      apply natRepr_no_minus a
      rw [h1, String.data_append]
      simp
  | negSucc a =>
    cases n with
    | ofNat b =>
      exfalso
      have h1 : ("-" ++ toString (a + 1)).data = (toString b).data := congrArg String.data h
      apply natRepr_no_minus b
      rw [← h1, String.data_append]
      simp
    | negSucc b =>
      have h1 : ("-" ++ toString (a + 1)).data = ("-" ++ toString (b + 1)).data :=
        congrArg String.data h
      rw [String.data_append, String.data_append] at h1
      have h2 := List.append_cancel_left h1
      have h3 : a + 1 = b + 1 := natRepr_injective _ _ (String.ext h2)
      have : a = b := by omega
      rw [this]

/-- The key `writeOp` derives is injective on documents and numeric
versions. -/
theorem opKey_injective (d d' : String) (n n' : Int)
    (h : d ++ " v" ++ toString n = d' ++ " v" ++ toString n') : d = d' ∧ n = n' := by
  by_cases hd : d = d'
  · subst hd
    refine ⟨rfl, ?_⟩
    have hdata := congrArg String.data h
    simp only [String.data_append] at hdata
    exact intToString_injective _ _ (String.ext (List.append_cancel_left hdata))
  · exact absurd h (opKey_ne d d' n n' hd)

theorem check_none (db : Adapter) (c : String) (h : _check db c = none) :
    db.closed = false ∧ isValidCName c = true := by
  unfold _check at h
  cases hc : db.closed <;> cases hv : isValidCName c <;> simp [hc, hv] at h ⊢

/-- Whatever the state of the adapter, `writeOp` leaves the rows of a
collection as they were or saves its row in the op collection. -/
theorem writeOp_rows_any (db : Adapter) (c d : String) (op : Row) (x : String) :
    (writeOp db c d op).db.mongo.rows x = db.mongo.rows x
    ∨ (writeOp db c d op).db.mongo.rows x
        = upsertById (db.mongo.rows x) (assocGet (opRow d op) "_id") (opRow d op) := by
  cases hck : _check db c with
  | some e => left; rw [writeOp_db_of_check db c d op e hck]
  | none =>
    obtain ⟨ho, hv⟩ := check_none db c hck
    cases hnn : isNullish (assocGet op "v") with
    | true =>
      left
      unfold writeOp
      rw [if_pos hnn]
    | false =>
      cases hf : db.mongo.fault with
      | none =>
        rw [writeOp_rows db c d op ho hv hf hnn x]
        by_cases hx : x = getOplogCollectionName c
        · right; rw [if_pos hx, hx]
        · left; rw [if_neg hx]
      | some e =>
        left
        have hfault := opCollection_fault db c
        have hrows := opCollection_rows db c
        unfold writeOp
        rw [if_neg (by simp [hnn]), hck]
        rcases hoc : _opCollection db c with ⟨db1, coll⟩
        rw [hoc] at hfault hrows
        simp only at hfault hrows
        simp only [fault_logged, rows_logged, hfault, hf]
        exact hrows x

theorem setMember_keys_nodup (kvs : Row) (k : String) (v : JVal)
    (h : (kvs.map Prod.fst).Nodup) : ((setMember kvs k v).map Prod.fst).Nodup := by
  unfold setMember
  split
  · exact h
  · exact assocSet_keys_nodup kvs k v h

theorem assocSet_no_proto (kvs : Row) (k : String) (v : JVal) (hk : k ≠ "__proto__")
    (h : "__proto__" ∉ kvs.map Prod.fst) : "__proto__" ∉ (assocSet kvs k v).map Prod.fst := by
  rw [mem_assocSet_keys]
  rintro (h1 | h1)
  · exact h h1
  · exact hk h1.symm

theorem setMember_no_proto (kvs : Row) (k : String) (v : JVal)
    (h : "__proto__" ∉ kvs.map Prod.fst) : "__proto__" ∉ (setMember kvs k v).map Prod.fst := by
  unfold setMember
  split
  · exact h
  · next hk => exact assocSet_no_proto kvs k v hk h

theorem foldl_setMember_nodup (kvs : Row) :
    ∀ acc : Row, (acc.map Prod.fst).Nodup → "__proto__" ∉ acc.map Prod.fst →
      ((kvs.foldl (fun out kv => setMember out kv.1 kv.2) acc).map Prod.fst).Nodup
      ∧ "__proto__" ∉ (kvs.foldl (fun out kv => setMember out kv.1 kv.2) acc).map Prod.fst := by
  induction kvs with
  | nil => intro acc h hp; exact ⟨h, hp⟩
  | cons kv rest ih =>
    intro acc h hp
    rw [List.foldl_cons]
    exact ih _ (setMember_keys_nodup acc kv.1 kv.2 h) (setMember_no_proto acc kv.1 kv.2 hp)

theorem shallowClone_nodup (kvs : Row) : ((shallowClone kvs).map Prod.fst).Nodup :=
  (foldl_setMember_nodup kvs [] List.nodup_nil (by simp)).1

/-- The clone has no own member named `__proto__`. -/
theorem shallowClone_no_proto (kvs : Row) : "__proto__" ∉ (shallowClone kvs).map Prod.fst :=
  (foldl_setMember_nodup kvs [] List.nodup_nil (by simp)).2

theorem indexed_keys_nodup {α : Type} (xs : List α) (f : α → JVal) :
    ((((List.range xs.length).zip xs).map fun p => (toString p.1, f p.2)).map Prod.fst).Nodup := by
  have hkeys : (((List.range xs.length).zip xs).map fun p => (toString p.1, f p.2)).map Prod.fst
      = (List.range xs.length).map fun i => toString i := by
    rw [List.map_map]
    have : ((List.range xs.length).zip xs).map Prod.fst = List.range xs.length :=
      List.map_fst_zip _ _ (by simp)
    conv_rhs => rw [← this]
    rw [List.map_map]
    rfl
  rw [hkeys]
  exact List.Nodup.map (fun a b h => natRepr_injective a b h) (List.nodup_range _)

theorem natRepr_ne_proto (n : Nat) : toString n ≠ "__proto__" := by
  intro h
  have hno : '_' ∉ (toString n).data := by
    show '_' ∉ (Nat.repr n).data
    unfold Nat.repr Nat.toDigits
    simp only [List.asString]
    exact toDigitsCore_no_underscore _ _ _ (by simp)
  rw [h] at hno
  exact hno (by decide)

theorem indexed_keys_no_proto {α : Type} (xs : List α) (f : α → JVal) (ns : List Nat) :
    "__proto__" ∉ ((ns.zip xs).map fun p => (toString p.1, f p.2)).map Prod.fst := by
  intro hm
  obtain ⟨kv, hkv, hk⟩ := List.mem_map.mp hm
  obtain ⟨p, _, hp⟩ := List.mem_map.mp hkv
  rw [← hp] at hk
  exact natRepr_ne_proto p.1 hk

theorem shallowCloneVal_nodup (v : JVal) : ((shallowCloneVal v).map Prod.fst).Nodup := by
  cases v with
  | obj kvs => exact shallowClone_nodup kvs
  | arr xs => exact indexed_keys_nodup xs (fun x => x)
  | str s => exact indexed_keys_nodup s.data (fun c => .str (String.mk [c]))
  | undef => exact List.nodup_nil
  | null => exact List.nodup_nil
  | bool b => exact List.nodup_nil
  | num n => exact List.nodup_nil

theorem shallowCloneVal_no_proto (v : JVal) :
    "__proto__" ∉ (shallowCloneVal v).map Prod.fst := by
  cases v with
  | obj kvs => exact shallowClone_no_proto kvs
  | arr xs => exact indexed_keys_no_proto xs (fun x => x) _
  | str s => exact indexed_keys_no_proto s.data (fun c => .str (String.mk [c])) _
  | undef => simp [shallowCloneVal]
  | null => simp [shallowCloneVal]
  | bool b => simp [shallowCloneVal]
  | num n => simp [shallowCloneVal]

theorem assocSet_get_self (kvs : Row) (k : String) (v : JVal) (h : assocGet kvs k = v)
    (hv : v ≠ .undef) : assocSet kvs k v = kvs := by
  induction kvs with
  | nil => exact absurd h.symm hv
  | cons hd tl ih =>
    obtain ⟨k0, w⟩ := hd
    by_cases hk : k0 = k
    · subst hk
      simp only [assocGet, if_true] at h
      simp [assocSet, h]
    · simp only [assocGet, hk, if_false] at h
      simp [assocSet, hk, ih h]

theorem isOperatorKey_query : isOperatorKey "$query" = false := by decide

theorem isOperatorKey_proto : isOperatorKey "__proto__" = true := by decide

/-- The queries the steps of `normalizeQuery` go through have each member name
once and none named `__proto__`, and such a mapping as `$query`. -/
theorem normalize_step_wf (q : Row) (k : String) (v : JVal)
    (hq : (q.map Prod.fst).Nodup ∧ "__proto__" ∉ q.map Prod.fst
      ∧ ∃ F, assocGet q "$query" = .obj F ∧ (F.map Prod.fst).Nodup
          ∧ "__proto__" ∉ F.map Prod.fst) :
    ((if isOperatorKey k then setMember q k v else setInFilter q k v).map Prod.fst).Nodup
      ∧ "__proto__" ∉ (if isOperatorKey k then setMember q k v
          else setInFilter q k v).map Prod.fst
      ∧ ∃ F, assocGet (if isOperatorKey k then setMember q k v else setInFilter q k v) "$query"
          = .obj F ∧ (F.map Prod.fst).Nodup ∧ "__proto__" ∉ F.map Prod.fst := by
  obtain ⟨hnd, hnp, F, hF, hFnd, hFnp⟩ := hq
  cases hop : isOperatorKey k with
  | true =>
    simp only [if_true]
    have hne : "$query" ≠ k := by
      intro e
      rw [← e, isOperatorKey_query] at hop
      cases hop
    exact ⟨setMember_keys_nodup q k v hnd, setMember_no_proto q k v hnp, F,
      by rw [assocGet_setMember_ne _ _ _ _ hne]; exact hF, hFnd, hFnp⟩
  | false =>
    simp only [Bool.false_eq_true, if_false]
    have hkp : k ≠ "__proto__" := by
      intro e
      rw [e, isOperatorKey_proto] at hop
      cases hop
    unfold setInFilter
    rw [hF]
    exact ⟨assocSet_keys_nodup q _ _ hnd, assocSet_no_proto q _ _ (by decide) hnp, _,
      assocGet_assocSet_same _ _ _, assocSet_keys_nodup F k v hFnd,
      assocSet_no_proto F k v hkp hFnp⟩

theorem normalize_fold_wf (input : Row) (ks : List String) :
    ∀ q : Row, ((q.map Prod.fst).Nodup ∧ "__proto__" ∉ q.map Prod.fst
        ∧ ∃ F, assocGet q "$query" = .obj F ∧ (F.map Prod.fst).Nodup
            ∧ "__proto__" ∉ F.map Prod.fst) →
      ((ks.foldl
          (fun query key =>
            if isOperatorKey key then setMember query key (assocGet input key)
            else setInFilter query key (assocGet input key)) q).map Prod.fst).Nodup
      ∧ "__proto__" ∉ (ks.foldl
          (fun query key =>
            if isOperatorKey key then setMember query key (assocGet input key)
            else setInFilter query key (assocGet input key)) q).map Prod.fst
      ∧ ∃ F, assocGet (ks.foldl
          (fun query key =>
            if isOperatorKey key then setMember query key (assocGet input key)
            else setInFilter query key (assocGet input key)) q) "$query" = .obj F
          ∧ (F.map Prod.fst).Nodup ∧ "__proto__" ∉ F.map Prod.fst := by
  induction ks with
  | nil => intro q hq; exact hq
  | cons k rest ih =>
    intro q hq
    rw [List.foldl_cons]
    exact ih _ (normalize_step_wf q k _ hq)

theorem addType_normal (q : Row)
    (hq : (q.map Prod.fst).Nodup ∧ "__proto__" ∉ q.map Prod.fst
      ∧ ∃ F, assocGet q "$query" = .obj F ∧ (F.map Prod.fst).Nodup
          ∧ "__proto__" ∉ F.map Prod.fst) :
    ((if !truthy (getProp (assocGet q "$query") (.key "_type")) then
        setInFilter q "_type" (.obj [("$ne", .null)])
      else q).map Prod.fst).Nodup
    ∧ "__proto__" ∉ (if !truthy (getProp (assocGet q "$query") (.key "_type")) then
        setInFilter q "_type" (.obj [("$ne", .null)])
      else q).map Prod.fst
    ∧ ∃ F, assocGet (if !truthy (getProp (assocGet q "$query") (.key "_type")) then
        setInFilter q "_type" (.obj [("$ne", .null)])
      else q) "$query" = .obj F ∧ (F.map Prod.fst).Nodup ∧ "__proto__" ∉ F.map Prod.fst
        ∧ truthy (assocGet F "_type") = true := by
  obtain ⟨hnd, hnp, F, hF, hFnd, hFnp⟩ := hq
  rw [hF]
  cases ht : truthy (getProp (.obj F) (.key "_type")) with
  | true =>
    simp only [Bool.not_true, Bool.false_eq_true, if_false]
    exact ⟨hnd, hnp, F, hF, hFnd, hFnp, ht⟩
  | false =>
    simp only [Bool.not_false, if_true]
    unfold setInFilter
    rw [hF]
    exact ⟨assocSet_keys_nodup _ _ _ hnd, assocSet_no_proto _ _ _ (by decide) hnp, _,
      assocGet_assocSet_same _ _ _, assocSet_keys_nodup F _ _ hFnd,
      assocSet_no_proto F _ _ (by decide) hFnp, by rw [assocGet_assocSet_same]; rfl⟩

/-- The query `normalizeQuery` returns has each member name once and none named
`__proto__`, and its `$query` is such a mapping, with a truthy `_type`. -/
theorem normalizeQuery_normal (input : Row) :
    ((normalizeQuery input).map Prod.fst).Nodup
    ∧ "__proto__" ∉ (normalizeQuery input).map Prod.fst
    ∧ ∃ F, assocGet (normalizeQuery input) "$query" = .obj F ∧ (F.map Prod.fst).Nodup
        ∧ "__proto__" ∉ F.map Prod.fst ∧ truthy (assocGet F "_type") = true := by
  have hbase : ((if truthy (assocGet input "$query") then
        assocSet (shallowClone input) "$query"
          (.obj (shallowCloneVal (assocGet (shallowClone input) "$query")))
      else
        (input.map Prod.fst).foldl
          (fun query key =>
            if isOperatorKey key then setMember query key (assocGet input key)
            else setInFilter query key (assocGet input key))
          [("$query", .obj [])]).map Prod.fst).Nodup
      ∧ "__proto__" ∉ (if truthy (assocGet input "$query") then
        assocSet (shallowClone input) "$query"
          (.obj (shallowCloneVal (assocGet (shallowClone input) "$query")))
      else
        (input.map Prod.fst).foldl
          (fun query key =>
            if isOperatorKey key then setMember query key (assocGet input key)
            else setInFilter query key (assocGet input key))
          [("$query", .obj [])]).map Prod.fst
      ∧ ∃ F, assocGet (if truthy (assocGet input "$query") then
        assocSet (shallowClone input) "$query"
          (.obj (shallowCloneVal (assocGet (shallowClone input) "$query")))
      else
        (input.map Prod.fst).foldl
          (fun query key =>
            if isOperatorKey key then setMember query key (assocGet input key)
            else setInFilter query key (assocGet input key))
          [("$query", .obj [])]) "$query" = .obj F ∧ (F.map Prod.fst).Nodup
          ∧ "__proto__" ∉ F.map Prod.fst := by
    split
    · exact ⟨assocSet_keys_nodup _ _ _ (shallowClone_nodup input),
        assocSet_no_proto _ _ _ (by decide) (shallowClone_no_proto input), _,
        assocGet_assocSet_same _ _ _, shallowCloneVal_nodup _, shallowCloneVal_no_proto _⟩
    · exact normalize_fold_wf input _ _
        ⟨by simp, by decide, [], rfl, List.nodup_nil, by simp⟩
  unfold normalizeQuery
  exact addType_normal _ hbase

/-- On a query of the form it returns, `normalizeQuery` returns the query. -/
theorem normalizeQuery_of_normal (N F : Row) (hnd : (N.map Prod.fst).Nodup)
    (hnp : "__proto__" ∉ N.map Prod.fst)
    (hF : assocGet N "$query" = .obj F) (hFnd : (F.map Prod.fst).Nodup)
    (hFnp : "__proto__" ∉ F.map Prod.fst)
    (ht : truthy (assocGet F "_type") = true) : normalizeQuery N = N := by
  unfold normalizeQuery
  have h1 : truthy (JVal.obj F) = true := rfl
  have h2 : shallowCloneVal (.obj F) = F := shallowClone_eq F hFnd hFnp
  have h3 : assocSet N "$query" (.obj F) = N := assocSet_get_self N _ _ hF (by simp)
  have h4 : truthy (getProp (.obj F) (.key "_type")) = true := ht
  simp only [h1, if_true, shallowClone_eq N hnd hnp, hF, h2, h3, h4, Bool.not_true,
    Bool.false_eq_true, if_false]

theorem heapSetMember_length (h : Heap) (out : Nat) (key : Segment) (v : HVal) :
    (OnHeap.setMember h out key v).length = h.length := by
  unfold OnHeap.setMember
  split
  · rfl
  · exact setProp_length _ _ _ _

theorem heapSetMember_ne (h : Heap) (out b : Nat) (key : Segment) (v : HVal) (hb : b ≠ out) :
    (OnHeap.setMember h out key v)[b]? = h[b]? := by
  unfold OnHeap.setMember
  split
  · rfl
  · exact setProp_getElem?_ne _ _ _ _ _ hb

theorem heapSetMember_same (h : Heap) (out : Nat) (key : Segment) (v : HVal)
    (ms : List (String × HVal)) (hc : h[out]? = some (.mapping ms)) :
    ∃ ms', (OnHeap.setMember h out key v)[out]? = some (.mapping ms')
      ∧ ∀ k, k ≠ key.name → memberGet ms' k = memberGet ms k := by
  unfold OnHeap.setMember
  split
  · exact ⟨ms, hc, fun _ _ => rfl⟩
  · refine ⟨memberSet ms key.name v, ?_, ?_⟩
    · rw [setProp_getElem?_same _ _ _ _ _ hc]
      rfl
    · intro k hk
      exact memberGet_memberSet_ne _ _ _ _ hk

theorem fold_setMember_frame (out : Nat) (f : Heap → Segment → HVal) :
    ∀ (ks : List Segment) (h : Heap),
      (ks.foldl (fun h2 key => OnHeap.setMember h2 out key (f h2 key)) h).length = h.length
      ∧ (∀ b, b ≠ out →
          (ks.foldl (fun h2 key => OnHeap.setMember h2 out key (f h2 key)) h)[b]? = h[b]?)
      ∧ (∀ ms, h[out]? = some (.mapping ms) →
          ∃ ms', (ks.foldl (fun h2 key => OnHeap.setMember h2 out key (f h2 key)) h)[out]?
            = some (.mapping ms')) := by
  intro ks
  induction ks with
  | nil => intro h; exact ⟨rfl, fun _ _ => rfl, fun ms hms => ⟨ms, hms⟩⟩
  | cons k rest ih =>
    intro h
    rw [List.foldl_cons]
    obtain ⟨h1, h2, h3⟩ := ih (OnHeap.setMember h out k (f h k))
    refine ⟨by rw [h1, heapSetMember_length], ?_, ?_⟩
    · intro b hb
      rw [h2 b hb, heapSetMember_ne _ _ _ _ _ hb]
    · intro ms hms
      obtain ⟨ms', hms', _⟩ := heapSetMember_same h out k (f h k) ms hms
      exact h3 _ hms'

/-- The clone `shallowClone` makes is a new mapping, and the objects the store
held stay as they were. -/
theorem heapShallowClone_frame (h : Heap) (object : HVal) :
    (OnHeap.shallowClone h object).2 = h.length
    ∧ (OnHeap.shallowClone h object).1.length = h.length + 1
    ∧ (∀ a, a < h.length → (OnHeap.shallowClone h object).1[a]? = h[a]?)
    ∧ ∃ ms, (OnHeap.shallowClone h object).1[h.length]? = some (.mapping ms) := by
  cases object with
  | data v =>
    exact ⟨rfl, alloc_length _ _, fun a ha => alloc_getElem?_lt _ _ _ ha, _,
      alloc_getElem?_new h _⟩
  | ref x =>
    unfold OnHeap.shallowClone
    obtain ⟨h1, h2, h3⟩ := fold_setMember_frame (h.alloc (.mapping [])).2
      (fun h2 key => h2.getProp (.ref x) key) (h.keys x) (h.alloc (.mapping [])).1
    refine ⟨rfl, by rw [h1, alloc_length], ?_, ?_⟩
    · intro a ha
      rw [h2 a (by rw [alloc_address]; omega), alloc_getElem?_lt _ _ _ ha]
    · exact h3 [] (alloc_getElem?_new h _)

theorem getProp_ref_mapping (h : Heap) (a : Nat) (ms : List (String × HVal)) (k : String)
    (hc : h[a]? = some (.mapping ms)) : h.getProp (.ref a) (.key k) = memberGet ms k := by
  unfold Heap.getProp
  simp only [hc]
  rfl

theorem isOperatorKey_ne_query (k : String) (h : isOperatorKey k = true) : "$query" ≠ k := by
  intro e
  rw [← e, isOperatorKey_query] at h
  cases h

/-- A write `query.$query[key] = value` where `$query` refers to an object at
or above `n` leaves the objects below `n` and the query object as they
were. -/
theorem heapSetInFilter_frame (h : Heap) (n query filter : Nat) (key : Segment) (value : HVal)
    (ms : List (String × HVal)) (hc : h[query]? = some (.mapping ms))
    (hm : memberGet ms "$query" = .ref filter) (hf : n ≤ filter) :
    (OnHeap.setInFilter h query key value).length = h.length
    ∧ (∀ a, a < n → (OnHeap.setInFilter h query key value)[a]? = h[a]?)
    ∧ (query ≠ filter → (OnHeap.setInFilter h query key value)[query]? = some (.mapping ms)) := by
  unfold OnHeap.setInFilter
  rw [getProp_ref_mapping h query ms "$query" hc, hm]
  refine ⟨setProp_length _ _ _ _, ?_, ?_⟩
  · intro a ha
    exact setProp_getElem?_ne _ _ _ _ _ (by omega)
  · intro hne
    rw [setProp_getElem?_ne _ _ _ _ _ hne, hc]

theorem flat_fold_frame (inputQuery : Nat) (n query filter : Nat) (hq : n ≤ query)
    (hf : n ≤ filter) (hne : query ≠ filter) :
    ∀ (ks : List Segment) (h : Heap) (ms : List (String × HVal)),
      h[query]? = some (.mapping ms) → memberGet ms "$query" = .ref filter →
      (ks.foldl
          (fun h2 key =>
            if isOperatorKey key.name then
                OnHeap.setMember h2 query key (h2.getProp (.ref inputQuery) key)
            else OnHeap.setInFilter h2 query key (h2.getProp (.ref inputQuery) key)) h).length
        = h.length
      ∧ (∀ a, a < n →
          (ks.foldl
            (fun h2 key =>
              if isOperatorKey key.name then
                OnHeap.setMember h2 query key (h2.getProp (.ref inputQuery) key)
              else OnHeap.setInFilter h2 query key (h2.getProp (.ref inputQuery) key)) h)[a]?
            = h[a]?)
      ∧ ∃ ms', (ks.foldl
            (fun h2 key =>
              if isOperatorKey key.name then
                OnHeap.setMember h2 query key (h2.getProp (.ref inputQuery) key)
              else OnHeap.setInFilter h2 query key (h2.getProp (.ref inputQuery) key)) h)[query]?
            = some (.mapping ms')
          ∧ memberGet ms' "$query" = .ref filter := by
  intro ks
  induction ks with
  | nil => intro h ms hc hm; exact ⟨rfl, fun _ _ => rfl, ms, hc, hm⟩
  | cons k rest ih =>
    intro h ms hc hm
    rw [List.foldl_cons]
    cases hop : isOperatorKey k.name with
    | true =>
      simp only [if_true]
      obtain ⟨ms1, hc1, hm1⟩ := heapSetMember_same h query k (h.getProp (.ref inputQuery) k)
        ms hc
      obtain ⟨h1, h2, h3⟩ := ih (OnHeap.setMember h query k (h.getProp (.ref inputQuery) k))
        ms1 hc1 (by rw [hm1 _ (isOperatorKey_ne_query _ hop)]; exact hm)
      refine ⟨by rw [h1, heapSetMember_length], ?_, h3⟩
      intro a ha
      rw [h2 a ha, heapSetMember_ne _ _ _ _ _ (by omega)]
    | false =>
      simp only [Bool.false_eq_true, if_false]
      obtain ⟨g1, g2, g3⟩ := heapSetInFilter_frame h n query filter k
        (h.getProp (.ref inputQuery) k) ms hc hm hf
      obtain ⟨h1, h2, h3⟩ := ih (OnHeap.setInFilter h query k (h.getProp (.ref inputQuery) k)) ms
        (g3 hne) hm
      refine ⟨by rw [h1, g1], ?_, h3⟩
      intro a ha
      rw [h2 a ha, g2 a ha]

/-- The object `query` that the first statement of `normalizeQuery` makes is
a new mapping whose `$query` refers to a new object, and the objects the
store held stay as they were. -/
theorem boxQuery_frame (h : Heap) (inputQuery : Nat) :
    h.length ≤ (OnHeap.boxQuery h inputQuery).2
    ∧ h.length ≤ (OnHeap.boxQuery h inputQuery).1.length
    ∧ (∀ a, a < h.length → (OnHeap.boxQuery h inputQuery).1[a]? = h[a]?)
    ∧ ∃ ms filter, (OnHeap.boxQuery h inputQuery).1[(OnHeap.boxQuery h inputQuery).2]?
          = some (.mapping ms)
        ∧ memberGet ms "$query" = .ref filter ∧ h.length ≤ filter := by
  unfold OnHeap.boxQuery
  split
  · obtain ⟨a1, a2, a3, ms1, a4⟩ := heapShallowClone_frame h (.ref inputQuery)
    obtain ⟨b1, b2, b3, ms2, b4⟩ := heapShallowClone_frame (OnHeap.shallowClone h (.ref inputQuery)).1
      ((OnHeap.shallowClone h (.ref inputQuery)).1.getProp (.ref (OnHeap.shallowClone h (.ref inputQuery)).2)
        (.key "$query"))
    simp only
    refine ⟨by rw [a1], by rw [setProp_length, b2, a2]; omega, ?_, ?_⟩
    · intro a ha
      rw [setProp_getElem?_ne _ _ _ _ _ (by rw [a1]; omega), b3 a (by rw [a2]; omega), a3 a ha]
    · have hcell : (OnHeap.shallowClone (OnHeap.shallowClone h (.ref inputQuery)).1
          ((OnHeap.shallowClone h (.ref inputQuery)).1.getProp
            (.ref (OnHeap.shallowClone h (.ref inputQuery)).2) (.key "$query"))).1[
              (OnHeap.shallowClone h (.ref inputQuery)).2]? = some (.mapping ms1) := by
        rw [b3 _ (by rw [a1, a2]; omega), a1, a4]
      refine ⟨_, (OnHeap.shallowClone (OnHeap.shallowClone h (.ref inputQuery)).1
          ((OnHeap.shallowClone h (.ref inputQuery)).1.getProp
            (.ref (OnHeap.shallowClone h (.ref inputQuery)).2) (.key "$query"))).2,
        setProp_getElem?_same _ _ _ _ _ hcell, ?_, ?_⟩
      · exact memberGet_memberSet_same _ _ _
      · rw [b1, a2]; omega
  · simp only
    have hcell : ((h.alloc (.mapping [])).1.alloc
        (.mapping [("$query", .ref (h.alloc (.mapping [])).2)])).1[
          ((h.alloc (.mapping [])).1.alloc
            (.mapping [("$query", .ref (h.alloc (.mapping [])).2)])).2]?
        = some (.mapping [("$query", .ref (h.alloc (.mapping [])).2)]) := by
      rw [alloc_address]
      exact alloc_getElem?_new _ _
    obtain ⟨h1, h2, ms', h3, h4⟩ := flat_fold_frame inputQuery h.length
      ((h.alloc (.mapping [])).1.alloc
        (.mapping [("$query", .ref (h.alloc (.mapping [])).2)])).2
      (h.alloc (.mapping [])).2
      (by rw [alloc_address, alloc_length]; omega) (by rw [alloc_address])
      (by rw [alloc_address, alloc_address, alloc_length]; omega)
      (h.keys inputQuery) _ _ hcell rfl
    refine ⟨by rw [alloc_address, alloc_length]; omega,
      by rw [h1, alloc_length, alloc_length]; omega, ?_, ms', _, h3, h4,
      by rw [alloc_address]⟩
    intro a ha
    rw [h2 a ha, alloc_getElem?_lt _ _ _ (by rw [alloc_length]; omega),
      alloc_getElem?_lt _ _ _ ha]

/-- The object `normalizeQuery` returns is a new one, and the objects the
store held before the call stay as they were. -/
theorem heapNormalizeQuery_frame (h : Heap) (inputQuery : Nat) :
    h.length ≤ (OnHeap.normalizeQuery h inputQuery).2
    ∧ h.length ≤ (OnHeap.normalizeQuery h inputQuery).1.length
    ∧ (∀ a, a < h.length → (OnHeap.normalizeQuery h inputQuery).1[a]? = h[a]?) := by
  obtain ⟨a1, a2, a3, ms, filter, a4, a5, a6⟩ := boxQuery_frame h inputQuery
  unfold OnHeap.normalizeQuery
  simp only
  split
  · have hlt : (OnHeap.boxQuery h inputQuery).2 < (OnHeap.boxQuery h inputQuery).1.length := by
      rcases Nat.lt_or_ge (OnHeap.boxQuery h inputQuery).2
        (OnHeap.boxQuery h inputQuery).1.length with h1 | h1
      · exact h1
      · rw [List.getElem?_eq_none h1] at a4; cases a4
    obtain ⟨g1, g2, _⟩ := heapSetInFilter_frame
      ((OnHeap.boxQuery h inputQuery).1.alloc (.mapping [("$ne", .data .null)])).1 h.length
      (OnHeap.boxQuery h inputQuery).2 filter (.key "_type")
      (.ref ((OnHeap.boxQuery h inputQuery).1.alloc (.mapping [("$ne", .data .null)])).2) ms
      (by rw [alloc_getElem?_lt _ _ _ hlt]; exact a4) a5 a6
    refine ⟨a1, by rw [g1, alloc_length]; omega, ?_⟩
    intro a ha
    rw [g2 a ha, alloc_getElem?_lt _ _ _ (by omega), a3 a ha]
  · exact ⟨a1, a2, a3⟩

end LiveDbMongo

/-! ## The claims: C1 to C10 -/

namespace RemoteDoc

open JS JS.JVal

/-- C1: when an array `L` is at `P` and `count ≥ 1`, `from + count ≤ |L|`,
`to + count ≤ |L|`, `move` submits one op made of `count` copies of the
ListMove that takes index `from` to `to + count - 1` (when `from < to`) or
index `from + count - 1` to `to` (otherwise); applied in order to `L`, they
give the list obtained by removing the block and re-inserting it at `to`. -/
theorem move_is_block_splice (env : ShareEnv) (d : State) (P : Path) (L : List JVal)
    (f t c : Nat) (ht : d.typed = true) (harr : lookup P d.snapshot = .arr L)
    (hc : 1 ≤ c) (hf : f + c ≤ L.length) (htc : t + c ≤ L.length) :
    (move env d P f t c).calls = [.submitOp (.list (moveOps P f t c)) true]
    ∧ moveOps P f t c
        = List.replicate c
            (.listMove (P ++ [.idx (if (f : Int) < t then (f : Int) else f + c - 1)])
              (.num (if (f : Int) < t then (t : Int) + c - 1 else t)))
    ∧ applyListOp L (moveOps P f t c) = blockSplice L f t c := by
  refine ⟨?_, ?_, move_ops_eq_block P L f t c hc hf htc⟩
  · unfold move
    rw [arrayApply_array env d P _ _ L ht harr]
  · simp [moveOps, ListMoveOp, castSegments]

/-- Witness for C1: the block `[1, 2]` of `[0, 1, 2, 3, 4]` moved from index 1
to index 2. -/
theorem move_is_block_splice_witness :
    (1 ≤ 2 ∧ 1 + 2 ≤ [num 0, num 1, num 2, num 3, num 4].length
      ∧ 2 + 2 ≤ [num 0, num 1, num 2, num 3, num 4].length)
    ∧ applyListOp [num 0, num 1, num 2, num 3, num 4]
        (moveOps [.key "items"] ((1 : Nat) : Int) ((2 : Nat) : Int) ((2 : Nat) : Int))
      = blockSplice [num 0, num 1, num 2, num 3, num 4] 1 2 2 :=
  ⟨by decide,
   (move_is_block_splice sampleEnv
      (sampleDoc (.obj [("items", .arr [num 0, num 1, num 2, num 3, num 4])]))
      [.key "items"] [num 0, num 1, num 2, num 3, num 4] 1 2 2 rfl (by decide)
      (by decide) (by decide) (by decide)).2.2⟩

end RemoteDoc

namespace LiveDbMongo

open JS JS.JVal RemoteDoc

/-- Counterexample for C2: a mapping snapshot that has a member named `_data`
is decoded as the value of that member, not as the mapping that was encoded. -/
theorem castToSnapshot_castToDoc_reserved_member :
    (castToSnapshot (some (castToDoc "doc"
        { data := .obj [("_data", .num 1)], type := .str "json0", v := .num 3,
          m := .null }))).map Snapshot.data = some (.num 1)
    ∧ (castToSnapshot (some (castToDoc "doc"
        { data := .obj [("_data", .num 1)], type := .str "json0", v := .num 3,
          m := .null }))).map Snapshot.data ≠ some (.obj [("_data", .num 1)]) := by
  decide

/-- C2 (amended): for every document name and snapshot record whose data is a
mapping (each member name once) with none of the reserved members `_data`,
`_type`, `_v`, `_m`, `_id` and no member named `__proto__`, or is an array, or
is a scalar other than `undefined`, `castToSnapshot (castToDoc docName
record)` returns a record with the original data, `v`, `m` and document
name. -/
theorem castToSnapshot_castToDoc_data (docName : String) (r : SnapshotData)
    (h : (∃ kvs, r.data = .obj kvs ∧ (kvs.map Prod.fst).Nodup
            ∧ (∀ k ∈ ["_data", "_type", "_v", "_m", "_id"], k ∉ kvs.map Prod.fst)
            ∧ "__proto__" ∉ kvs.map Prod.fst)
         ∨ ((∀ kvs, r.data ≠ .obj kvs) ∧ r.data ≠ .undef)) :
    ∃ s, castToSnapshot (some (castToDoc docName r)) = some s
      ∧ s.data = r.data ∧ s.v = r.v ∧ s.m = r.m ∧ s.docName = .str docName := by
  rcases h with ⟨kvs, hd, hnd, hres, hp⟩ | ⟨hno, hu⟩
  · refine ⟨_, castToSnapshot_castToDoc_obj docName r kvs hd hnd
      (hres _ (by simp)) (hres _ (by simp)) (hres _ (by simp)) (hres _ (by simp))
      (hres _ (by simp)) hp, ?_, rfl, rfl, rfl⟩
    exact hd.symm
  · exact ⟨_, castToSnapshot_castToDoc_boxed docName r hno hu, rfl, rfl, rfl, rfl⟩

/-- Witness for C2 (amended): the mapping `{x: 1}` at version 3. -/
theorem castToSnapshot_castToDoc_data_witness :
    ∃ s, castToSnapshot (some (castToDoc "doc"
          { data := .obj [("x", .num 1)], type := .str "json0", v := .num 3, m := .null }))
        = some s
      ∧ s.data = .obj [("x", .num 1)] ∧ s.v = .num 3 ∧ s.m = .null
      ∧ s.docName = .str "doc" :=
  castToSnapshot_castToDoc_data "doc"
    { data := .obj [("x", .num 1)], type := .str "json0", v := .num 3, m := .null }
    (Or.inl ⟨[("x", .num 1)], rfl, by decide, by decide, by decide⟩)

end LiveDbMongo

namespace RemoteDoc

open JS JS.JVal

/-- Counterexample for C3: in the snapshot `{a: 0}` every proper ancestor of
the path `a.b` exists (the root is a mapping and `a` holds `0`), yet
`set(['a','b'], 1)` submits an `ObjectInsert` at `['a']` that replaces the
`0`, not an `ObjectReplace` at `['a','b']`. -/
theorem set_zero_ancestor_not_replace :
    (∀ j, j < 2 →
        lookup (List.take j [Segment.key "a", Segment.key "b"])
          (.obj [("a", .num 0)]) ≠ .undef
        ∧ lookup (List.take j [Segment.key "a", Segment.key "b"])
          (.obj [("a", .num 0)]) ≠ .null)
    ∧ (set sampleEnv (sampleDoc (.obj [("a", .num 0)])) [.key "a", .key "b"] (.num 1)).calls
        = [.submitOp (.bare (.objectInsert [.key "a"] (.obj [("b", .num 1)]))) true]
    ∧ (set sampleEnv (sampleDoc (.obj [("a", .num 0)])) [.key "a", .key "b"] (.num 1)).calls
        ≠ [.submitOp (.list [replaceOp [.key "a", .key "b"]
            (lookup [.key "a", .key "b"] (.obj [("a", .num 0)])) (.num 1)]) true] := by
  decide

/-- C3 (amended): for every typed document and non-empty path `P` all of whose
proper ancestors hold truthy values (so none is `undefined`, `null`, `false`,
`0` or the empty string), `set(P, value)` submits exactly one single-component
op, `ListReplace{p: P, ld: previous, li: value}` when the final segment is an
array index and `ObjectReplace{p: P, od: previous, oi: value}` otherwise, an
undefined value being sent as null; `previous` is the value found at `P`
before the call, and `set` returns it. -/
theorem set_replaces (env : ShareEnv) (d : State) (P : Path) (value : JVal)
    (ht : d.typed = true) (hne : P ≠ []) (hanc : AncestorsTruthy P d.snapshot) :
    (set env d P value).calls
        = [.submitOp (.list [replaceOp P (lookup P d.snapshot) value]) true]
    ∧ (set env d P value).ret = .val (lookup P d.snapshot)
    ∧ (isArrayIndex P.getLast? = true →
        replaceOp P (lookup P d.snapshot) value
          = .listReplace P (lookup P d.snapshot) (nullIfUndef value))
    ∧ (isArrayIndex P.getLast? = false →
        replaceOp P (lookup P d.snapshot) value
          = .objectReplace P (lookup P d.snapshot) (nullIfUndef value)) := by
  rw [set_replaces_aux env d P value ht hne hanc]
  refine ⟨rfl, rfl, ?_, ?_⟩
  · intro h; simp [replaceOp, h]
  · intro h; simp [replaceOp, h]

/-- Witness for C3 (amended): `set(['a','b'], 1)` on `{a: {b: 7}}`. -/
theorem set_replaces_witness :
    (set sampleEnv (sampleDoc (.obj [("a", .obj [("b", .num 7)])]))
        [.key "a", .key "b"] (.num 1)).calls
      = [.submitOp (.list [.objectReplace [.key "a", .key "b"] (.num 7) (.num 1)]) true]
    ∧ (set sampleEnv (sampleDoc (.obj [("a", .obj [("b", .num 7)])]))
        [.key "a", .key "b"] (.num 1)).ret = .val (.num 7) :=
  ⟨(set_replaces sampleEnv (sampleDoc (.obj [("a", .obj [("b", .num 7)])]))
      [.key "a", .key "b"] (.num 1) rfl (by decide) (by decide)).1,
   (set_replaces sampleEnv (sampleDoc (.obj [("a", .obj [("b", .num 7)])]))
      [.key "a", .key "b"] (.num 1) rfl (by decide) (by decide)).2.1⟩

end RemoteDoc

namespace RemoteDoc

open JS JS.JVal

/-- Counterexample for C4: in the snapshot `{a: 0}` the shortest prefix of
`a.b.c` at which nothing is found is `a.b` (the root and `a` resolve to
values that are neither `undefined` nor `null`), yet `set(['a','b','c'], 1)`
locates its insert op at `['a']`, where the `0` is, and not at `['a','b']`. -/
theorem set_zero_ancestor_insert_location :
    isNullish (lookup [] (.obj [("a", .num 0)])) = false
    ∧ isNullish (lookup [.key "a"] (.obj [("a", .num 0)])) = false
    ∧ isNullish (lookup [.key "a", .key "b"] (.obj [("a", .num 0)])) = true
    ∧ (set sampleEnv (sampleDoc (.obj [("a", .num 0)]))
          [.key "a", .key "b", .key "c"] (.num 1)).calls
        = [.submitOp
            (.bare (.objectInsert [.key "a"] (.obj [("b", .obj [("c", .num 1)])]))) true]
    ∧ (set sampleEnv (sampleDoc (.obj [("a", .num 0)]))
          [.key "a", .key "b", .key "c"] (.num 1)).calls
        ≠ [.submitOp
            (.bare (impliedInsert [.key "a", .key "b", .key "c"] (.obj [("a", .num 0)]) 2
              (.num 1))) true] := by
  decide

/-- C4 (amended): for every document and path `P` in which some proper
ancestor holds a falsy value (`undefined`, `null`, `false`, `0` or the empty
string), with `P[0..k)` the shortest such prefix, `set(P, value)` submits
exactly one insert op located at `P[0..k)`, a `ListInsert` when the container
holding that prefix is an array and an `ObjectInsert` otherwise, whose
inserted value is the chain of fresh containers for `P[k..n]` with `value`
stored in the innermost one; looking up `P[k..n]` in the inserted value
yields `value`, and `set` returns `undefined`. The snapshot is the one read
after the implicit creation of an untyped document. -/
theorem set_missing_ancestor (env : ShareEnv) (d : State) (P : Path) (value : JVal)
    (k : Nat) (hk : k < P.length)
    (hmiss : truthy (lookup (P.take k) (ensureCreated env d).1.snapshot) = false)
    (hshort : ∀ j, j < k → truthy (lookup (P.take j) (ensureCreated env d).1.snapshot) = true) :
    (set env d P value).calls
        = (ensureCreated env d).2 ++
          [.submitOp (.bare (impliedInsert P (ensureCreated env d).1.snapshot k value)) true]
    ∧ (set env d P value).ret = .val .undef
    ∧ ((0 < k ∧ isArray (lookup (P.take (k - 1)) (ensureCreated env d).1.snapshot) = true) →
        impliedInsert P (ensureCreated env d).1.snapshot k value
          = .listInsert (P.take k) (impliedChain (P.drop k) value))
    ∧ (¬ (0 < k ∧ isArray (lookup (P.take (k - 1)) (ensureCreated env d).1.snapshot) = true) →
        impliedInsert P (ensureCreated env d).1.snapshot k value
          = .objectInsert (P.take k) (impliedChain (P.drop k) value))
    ∧ lookup (P.drop k) (impliedChain (P.drop k) value) = value := by
  rw [set_implied_aux env d P value k hk hmiss hshort]
  refine ⟨rfl, rfl, ?_, ?_, lookup_impliedChain _ _⟩
  · intro h; unfold impliedInsert; rw [if_pos h]
  · intro h; unfold impliedInsert; rw [if_neg h]

/-- Witness for C4 (amended): `set(['a', 2, 'c'], 1)` on the empty mapping. -/
theorem set_missing_ancestor_witness :
    (set sampleEnv (sampleDoc (.obj [])) [.key "a", .idx 2, .key "c"] (.num 1)).calls
      = [.submitOp
          (.bare (.objectInsert [.key "a"]
            (.arr [.undef, .undef, .obj [("c", .num 1)]]))) true]
    ∧ (set sampleEnv (sampleDoc (.obj [])) [.key "a", .idx 2, .key "c"] (.num 1)).ret
      = .val .undef :=
  ⟨(set_missing_ancestor sampleEnv (sampleDoc (.obj [])) [.key "a", .idx 2, .key "c"]
      (.num 1) 1 (by decide) (by decide) (by decide)).1,
   (set_missing_ancestor sampleEnv (sampleDoc (.obj [])) [.key "a", .idx 2, .key "c"]
      (.num 1) 1 (by decide) (by decide) (by decide)).2.1⟩

/-- Counterexample for C5: the kind of the insert op does not follow the final
segment when an ancestor is missing. On the empty mapping the value at `a.0`
is absent and the final segment `0` is an array index, yet
`increment(['a', 0], 5)` submits an `ObjectInsert` (at `['a']`, of the array
`[5]`); on `{a: []}` the value at `a.0.b` is absent and the final segment `b`
is not an array index, yet `increment(['a', 0, 'b'], 5)` submits a
`ListInsert` (at `['a', 0]`, of the mapping `{b: 5}`). -/
theorem increment_implied_not_list_insert :
    (isNullish (lookup [.key "a", .idx 0] (.obj [])) = true
      ∧ isArrayIndex (List.getLast? [Segment.key "a", Segment.idx 0]) = true
      ∧ (increment sampleEnv (sampleDoc (.obj [])) [.key "a", .idx 0] 5).calls
          = [.submitOp (.bare (.objectInsert [.key "a"] (.arr [.num 5]))) true])
    ∧ (isNullish (lookup [.key "a", .idx 0, .key "b"] (.obj [("a", .arr [])])) = true
      ∧ isArrayIndex (List.getLast? [Segment.key "a", Segment.idx 0, Segment.key "b"]) = false
      ∧ (increment sampleEnv (sampleDoc (.obj [("a", .arr [])]))
            [.key "a", .idx 0, .key "b"] 5).calls
          = [.submitOp
              (.bare (.listInsert [.key "a", .idx 0] (.obj [("b", .num 5)]))) true]) := by
  decide

/-- C5 (amended): for every document, path `P` and number `delta`, on the
snapshot read after the implicit creation of an untyped document:
if a proper ancestor of `P` holds a falsy value, `increment` submits only the
implied insert op of `set` (located at the shortest such prefix, `ListInsert`
when the container holding it is an array, else `ObjectInsert`) with `delta`
stored at the rest of `P`, and returns `delta`; if the ancestors are there and
the value at `P` is `undefined` or `null`, it submits only
`ListInsert{p: P, li: delta}` when the final segment is an array index and
`ObjectInsert{p: P, oi: delta}` otherwise, and returns `delta`; in both cases
no `Increment` is submitted. If a value `previous` is present at `P`, it
submits exactly `[Increment{p: P, na: delta}]` and returns
`previous + delta`. -/
theorem increment_cases (env : ShareEnv) (d : State) (P : Path) (delta : Int) :
    (∀ k, k < P.length →
        truthy (lookup (P.take k) (ensureCreated env d).1.snapshot) = false →
        (∀ j, j < k → truthy (lookup (P.take j) (ensureCreated env d).1.snapshot) = true) →
        (increment env d P delta).calls
            = (ensureCreated env d).2 ++
              [.submitOp
                (.bare (impliedInsert P (ensureCreated env d).1.snapshot k (.num delta))) true]
        ∧ (increment env d P delta).ret = .val (.num delta)
        ∧ (impliedInsert P (ensureCreated env d).1.snapshot k (.num delta)).isInsert = true
        ∧ (impliedInsert P (ensureCreated env d).1.snapshot k (.num delta)).p = P.take k
        ∧ lookup (P.drop k) (impliedChain (P.drop k) (.num delta)) = .num delta)
    ∧ (AncestorsTruthy P (ensureCreated env d).1.snapshot →
        isNullish (lookup P (ensureCreated env d).1.snapshot) = true →
        (increment env d P delta).calls
            = (ensureCreated env d).2 ++ [.submitOp (.list [insertOp P (.num delta)]) true]
        ∧ (increment env d P delta).ret = .val (.num delta)
        ∧ insertOp P (.num delta)
            = (if isArrayIndex P.getLast? = true then .listInsert P (.num delta)
               else .objectInsert P (.num delta)))
    ∧ (isNullish (lookup P (ensureCreated env d).1.snapshot) = false →
        (increment env d P delta).calls
            = (ensureCreated env d).2 ++
              [.submitOp (.list [.increment P (.num delta)]) true]
        ∧ (increment env d P delta).ret
            = .val (jsAdd (lookup P (ensureCreated env d).1.snapshot) delta)
        ∧ ∀ m, lookup P (ensureCreated env d).1.snapshot = .num m →
            (increment env d P delta).ret = .val (.num (m + delta))) := by
  refine ⟨?_, ?_, ?_⟩
  · intro k hk hmiss hshort
    rw [increment_implied_aux env d P delta k hk hmiss hshort]
    refine ⟨rfl, rfl, ?_, ?_, lookup_impliedChain _ _⟩
    · unfold impliedInsert; split <;> rfl
    · unfold impliedInsert; split <;> rfl
  · intro hanc habs
    rw [increment_absent_aux env d P delta hanc habs]
    refine ⟨rfl, rfl, ?_⟩
    simp [insertOp, nullIfUndef]
  · intro hpres
    rw [increment_present_aux env d P delta hpres]
    refine ⟨rfl, rfl, ?_⟩
    intro m hm
    simp [hm, jsAdd]

/-- Witness for C5 (amended): `increment(['count'], 5)` where `count` is
absent, and where `count` is `2`. -/
theorem increment_cases_witness :
    ((increment sampleEnv (sampleDoc (.obj [])) [.key "count"] 5).calls
        = [.submitOp (.list [.objectInsert [.key "count"] (.num 5)]) true]
      ∧ (increment sampleEnv (sampleDoc (.obj [])) [.key "count"] 5).ret = .val (.num 5))
    ∧ ((increment sampleEnv (sampleDoc (.obj [("count", .num 2)])) [.key "count"] 5).calls
        = [.submitOp (.list [.increment [.key "count"] (.num 5)]) true]
      ∧ (increment sampleEnv (sampleDoc (.obj [("count", .num 2)])) [.key "count"] 5).ret
        = .val (.num 7)) :=
  ⟨⟨((increment_cases sampleEnv (sampleDoc (.obj [])) [.key "count"] 5).2.1
        (by decide) (by decide)).1,
    ((increment_cases sampleEnv (sampleDoc (.obj [])) [.key "count"] 5).2.1
        (by decide) (by decide)).2.1⟩,
   ⟨((increment_cases sampleEnv (sampleDoc (.obj [("count", .num 2)])) [.key "count"] 5).2.2
        (by decide)).1,
    ((increment_cases sampleEnv (sampleDoc (.obj [("count", .num 2)])) [.key "count"] 5).2.2
        (by decide)).2.2 2 (by decide)⟩⟩

end RemoteDoc

namespace RemoteDoc

open JS JS.JVal

/-- Counterexample for C6: with the string `'x'` at `count`,
`increment(['count'], 5)` hands `[Increment{p: ['count'], na: 5}]` to the
share document and calls back with no error of its own. -/
theorem increment_on_string_submits_increment :
    lookup [.key "count"] (.obj [("count", .str "x")]) = .str "x"
    ∧ (increment sampleEnv (sampleDoc (.obj [("count", .str "x")])) [.key "count"] 5).calls
        = [.submitOp (.list [.increment [.key "count"] (.num 5)]) true]
    ∧ (increment sampleEnv (sampleDoc (.obj [("count", .str "x")])) [.key "count"] 5).ret
        = .val (.str "x5") := by
  decide

/-- C6 (amended): for every document and path `P` at which a non-numeric value
(neither `undefined` nor `null`) is present, `increment(P, delta)` makes no
type check of its own: it submits exactly `[Increment{p: P, na: delta}]` with
the completion callback, never calls back with an error, and returns
`previous + delta`; a rejection can only come from the share document. -/
theorem increment_non_numeric (env : ShareEnv) (d : State) (P : Path) (delta : Int)
    (hpres : isNullish (lookup P (ensureCreated env d).1.snapshot) = false)
    (_hnum : ∀ m, lookup P (ensureCreated env d).1.snapshot ≠ .num m) :
    (increment env d P delta).calls
        = (ensureCreated env d).2 ++ [.submitOp (.list [.increment P (.num delta)]) true]
    ∧ (∀ e, Call.callback e ∉ (increment env d P delta).calls)
    ∧ (increment env d P delta).ret
        = .val (jsAdd (lookup P (ensureCreated env d).1.snapshot) delta) := by
  rw [increment_present_aux env d P delta hpres]
  refine ⟨rfl, ?_, rfl⟩
  intro e he
  simp only [List.mem_append, List.mem_singleton, reduceCtorEq, or_false] at he
  unfold ensureCreated shareCreate at he
  split at he <;> simp at he

/-- Witness for C6 (amended): the string `'x'` at `count`. -/
theorem increment_non_numeric_witness :
    (increment sampleEnv (sampleDoc (.obj [("count", .str "x")])) [.key "count"] 5).calls
      = [.submitOp (.list [.increment [.key "count"] (.num 5)]) true] :=
  (increment_non_numeric sampleEnv (sampleDoc (.obj [("count", .str "x")])) [.key "count"] 5
    (by decide)
    (fun m h => by
      have e : lookup [.key "count"]
          (ensureCreated sampleEnv (sampleDoc (.obj [("count", .str "x")]))).1.snapshot
          = .str "x" := by decide
      rw [e] at h
      cases h)).1

/-- C7: for every document and non-empty path `P`: if nothing exists at `P`
(lookup gives `undefined`), `del(P)` submits no op, creates nothing, leaves the
document state as it is, calls the callback without error and returns
`undefined`; otherwise it submits exactly `[ObjectDelete{p: P, od: previous}]`
and returns the previous value. -/
theorem del_nonempty (env : ShareEnv) (d : State) (P : Path) (hne : P ≠ []) :
    (lookup P d.snapshot = .undef →
        del env d P = ⟨d, [.callback none], .val .undef⟩)
    ∧ (lookup P d.snapshot ≠ .undef →
        (del env d P).calls
            = [.submitOp (.list [.objectDelete P (lookup P d.snapshot)]) true]
        ∧ (del env d P).ret = .val (lookup P d.snapshot)) := by
  refine ⟨fun h => del_absent_aux env d P hne h, fun h => ?_⟩
  rw [del_present_aux env d P hne h]
  exact ⟨rfl, rfl⟩

/-- Witness for C7: deleting the absent `b` and the present `a` of `{a: 1}`. -/
theorem del_nonempty_witness :
    del sampleEnv (sampleDoc (.obj [("a", .num 1)])) [.key "b"]
        = ⟨sampleDoc (.obj [("a", .num 1)]), [.callback none], .val .undef⟩
    ∧ (del sampleEnv (sampleDoc (.obj [("a", .num 1)])) [.key "a"]).calls
        = [.submitOp (.list [.objectDelete [.key "a"] (.num 1)]) true] :=
  ⟨(del_nonempty sampleEnv (sampleDoc (.obj [("a", .num 1)])) [.key "b"] (by decide)).1
      (by decide),
   ((del_nonempty sampleEnv (sampleDoc (.obj [("a", .num 1)])) [.key "a"] (by decide)).2
      (by decide)).1⟩

/-- C8: for each of `push`, `unshift`, `insert`, `pop`, `shift`, `remove` and
`move` on a typed document: when the value resolved at `P` is neither
`undefined` nor `null` and is not an array, the call passes a `TypeError` to
the completion callback, submits no op and leaves the document state as it
is; when the resolved value is an array, the call submits its op and no
`TypeError` is raised. -/
theorem arrayCall_type_check (env : ShareEnv) (d : State) (P : Path) (call : ArrayCall)
    (ht : d.typed = true) :
    (isNullish (lookup P d.snapshot) = false → isArray (lookup P d.snapshot) = false →
        call.run env d P =
          ⟨d, [.callback (some ⟨call.fnName ++ " on non-array", P, lookup P d.snapshot⟩)],
            .ofCallback⟩)
    ∧ (∀ xs, lookup P d.snapshot = .arr xs →
        (∃ op, (call.run env d P).calls = [.submitOp (.list op) true])
        ∧ ∀ e, Call.callback (some e) ∉ (call.run env d P).calls) := by
  constructor
  · intro hpres hna
    cases call <;>
      simp only [ArrayCall.run, ArrayCall.fnName, push, unshift, insert, pop, shift, remove,
        move] <;>
      exact arrayApply_nonarray env d P _ _ ht hpres hna
  · intro xs harr
    cases call <;>
      simp only [ArrayCall.run, push, unshift, insert, pop, shift, remove, move] <;>
      rw [arrayApply_array env d P _ _ xs ht harr] <;>
      exact ⟨⟨_, rfl⟩, fun e he => by simp at he⟩

/-- Witness for C8: `push` on a string and on an array. -/
theorem arrayCall_type_check_witness :
    ArrayCall.run sampleEnv (sampleDoc (.obj [("a", .str "x")])) [.key "a"] (.push (.num 1))
        = ⟨sampleDoc (.obj [("a", .str "x")]),
            [.callback (some ⟨"push on non-array", [.key "a"], .str "x"⟩)], .ofCallback⟩
    ∧ ∀ e, Call.callback (some e) ∉
        (ArrayCall.run sampleEnv (sampleDoc (.obj [("a", .arr [])])) [.key "a"]
          (.push (.num 1))).calls :=
  ⟨(arrayCall_type_check sampleEnv (sampleDoc (.obj [("a", .str "x")])) [.key "a"]
      (.push (.num 1)) rfl).1 (by decide) (by decide),
   ((arrayCall_type_check sampleEnv (sampleDoc (.obj [("a", .arr [])])) [.key "a"]
      (.push (.num 1)) rfl).2 [] (by decide)).2⟩

end RemoteDoc

namespace RemoteDoc

open JS JS.JVal

/-- C9: for every path `P`, index `i` and sequence of values,
`createInsertOp(P, i, values)` returns one `ListInsert` per value, the `k`-th
with path `P ++ [i + k]` and the `k`-th value as `li` (an undefined value
stored as null); applied in order as list insertions to a list `L` with
`i ≤ |L|` they give `L[0..i) ++ values ++ L[i..)`, the values as stored. A
non-array `values` yields the single component
`ListInsert{p: P ++ [i], li: values}`. `insert` submits this op. -/
theorem createInsertOp_components (P : Path) (i : Int) (vs : List JVal) :
    (createInsertOp P i (.arr vs)).length = vs.length
    ∧ (∀ (k : Nat) (v : JVal), vs[k]? = some v →
        (createInsertOp P i (.arr vs))[k]?
          = some (Op.listInsert (P ++ [.idx (i + k)]) (nullIfUndef v)))
    ∧ (∀ (L : List JVal) (j : Nat), i = j → j ≤ L.length →
        applyListOp L (createInsertOp P i (.arr vs))
          = L.take j ++ vs.map nullIfUndef ++ L.drop j)
    ∧ (∀ values, (∀ ws, values ≠ .arr ws) →
        createInsertOp P i values = [.listInsert (P ++ [.idx i]) (nullIfUndef values)])
    ∧ (∀ (env : ShareEnv) (d : State) (L : List JVal) (values : JVal), d.typed = true →
        lookup P d.snapshot = .arr L →
        (insert env d P i values).calls
          = [.submitOp (.list (createInsertOp P i values)) true]) := by
  refine ⟨createInsertLoop_length P vs i, ?_, ?_, ?_, ?_⟩
  · intro k v h
    exact createInsertLoop_getElem? P vs i k v h
  · intro L j hij hj
    subst hij
    exact applyListOp_createInsertLoop P vs L j hj
  · intro values hna
    cases values <;> simp_all [createInsertOp, ListInsertOp, castSegments]
  · intro env d L values ht harr
    unfold insert
    rw [arrayApply_array env d P _ _ L ht harr]

/-- Witness for C9: inserting `['x', undefined]` at index 1 of `[0, 1]`. -/
theorem createInsertOp_components_witness :
    createInsertOp [.key "a"] 1 (.arr [.str "x", .undef])
        = [.listInsert [.key "a", .idx 1] (.str "x"), .listInsert [.key "a", .idx 2] .null]
    ∧ applyListOp [num 0, num 1] (createInsertOp [.key "a"] 1 (.arr [.str "x", .undef]))
        = [num 0, .str "x", .null, num 1] :=
  ⟨by decide,
   (createInsertOp_components [.key "a"] 1 [.str "x", .undef]).2.2.1 [num 0, num 1] 1
      (by decide) (by decide)⟩

/-- Counterexample for C10: removing one element at index 0 from the array
`[undefined, 1]` submits a `ListRemove` whose `ld` is `null`, while the
element of the array at that index is `undefined`. -/
theorem remove_undefined_element_ld_null :
    lookup [.key "a"] (.obj [("a", .arr [.undef, .num 1])]) = .arr [.undef, .num 1]
    ∧ (remove sampleEnv (sampleDoc (.obj [("a", .arr [.undef, .num 1])])) [.key "a"] 0 1).calls
        = [.submitOp (.list [.listRemove [.key "a", .idx 0] .null]) true]
    ∧ (remove sampleEnv (sampleDoc (.obj [("a", .arr [.undef, .num 1])])) [.key "a"] 0 1).calls
        ≠ [.submitOp (.list [.listRemove [.key "a", .idx 0]
            (([JVal.undef, JVal.num 1][0]?).getD .undef)]) true] := by
  decide

/-- C10 (amended): for every array `L` at `P` of a typed document and all
`index ≤ |L|` and `count`, `remove(P, index, count)` returns the slice
`L[index .. min(index + count, |L|))` and submits one `ListRemove` per
returned element, each at path `P ++ [index]`, the `k`-th carrying as `ld` the
element `L[index + k]` with an undefined element sent as null; when the
components are applied in order, `L[index + k]` is the element at position
`index` of the list at the moment the `k`-th is applied, and the final list is
`L` without the returned slice. -/
theorem remove_components (env : ShareEnv) (d : State) (P : Path) (L : List JVal)
    (i c : Nat) (ht : d.typed = true) (harr : lookup P d.snapshot = .arr L)
    (hi : i ≤ L.length) :
    (remove env d P i c).ret = .val (.arr ((L.drop i).take c))
    ∧ (remove env d P i c).calls
        = [.submitOp (.list (removeOps P i ((L.drop i).take c))) true]
    ∧ removeOps P i ((L.drop i).take c)
        = ((L.drop i).take c).map (fun v => Op.listRemove (P ++ [.idx i]) (nullIfUndef v))
    ∧ (∀ (k : Nat) (v : JVal), ((L.drop i).take c)[k]? = some v →
        L[i + k]? = some v
        ∧ (applyListOp L ((removeOps P i ((L.drop i).take c)).take k))[i]? = some v)
    ∧ applyListOp L (removeOps P i ((L.drop i).take c)) = L.take i ++ L.drop (i + c) := by
  have hops : removeOps P i ((L.drop i).take c)
      = ((L.drop i).take c).map fun v => Op.listRemove (P ++ [.idx i]) (nullIfUndef v) := by
    simp [removeOps, ListRemoveOp, castSegments]
  have hlen : ((L.drop i).take c).length = min c (L.length - i) := by simp
  refine ⟨?_, ?_, hops, ?_, ?_⟩
  · unfold remove
    rw [arrayApply_array env d P _ _ L ht harr, jsSlice_nat L i c hi]
  · unfold remove
    rw [arrayApply_array env d P _ _ L ht harr, jsSlice_nat L i c hi]
  · intro k v hk
    have hkc : k < min c (L.length - i) := by
      rw [← hlen]
      by_contra hcon
      rw [List.getElem?_eq_none (by omega)] at hk
      cases hk
    have hLk : L[i + k]? = some v := by
      rw [List.getElem?_take_of_lt (by omega), List.getElem?_drop] at hk
      exact hk
    refine ⟨hLk, ?_⟩
    rw [hops, ← List.map_take,
      applyListOp_removes P i nullIfUndef _ L (by simp; omega)]
    have hl : (L.take i).length = i := by simp; omega
    rw [List.getElem?_append_right (by omega), hl, Nat.sub_self, List.getElem?_drop]
    have hk2 : (List.take k (List.take c (List.drop i L))).length = k := by
      simp; omega
    rw [hk2]
    simpa using hLk
  · rw [hops, applyListOp_removes P i nullIfUndef _ L (by rw [hlen]; omega), hlen]
    by_cases hc : c ≤ L.length - i
    · rw [min_eq_left hc]
    · rw [min_eq_right (by omega)]
      rw [List.drop_eq_nil_of_le (by omega), List.drop_eq_nil_of_le (by omega)]

/-- Witness for C10 (amended): removing two elements at index 1 of
`[0, 1, 2, 3]`. -/
theorem remove_components_witness :
    (remove sampleEnv (sampleDoc (.obj [("a", .arr [num 0, num 1, num 2, num 3])]))
        [.key "a"] ((1 : Nat) : Int) ((2 : Nat) : Int)).ret = .val (.arr [num 1, num 2])
    ∧ applyListOp [num 0, num 1, num 2, num 3]
        (removeOps [.key "a"] ((1 : Nat) : Int) [num 1, num 2]) = [num 0, num 3] :=
  ⟨(remove_components sampleEnv
      (sampleDoc (.obj [("a", .arr [num 0, num 1, num 2, num 3])])) [.key "a"]
      [num 0, num 1, num 2, num 3] 1 2 rfl (by decide) (by decide)).1,
   (remove_components sampleEnv
      (sampleDoc (.obj [("a", .arr [num 0, num 1, num 2, num 3])])) [.key "a"]
      [num 0, num 1, num 2, num 3] 1 2 rfl (by decide) (by decide)).2.2.2.2⟩

end RemoteDoc

/-! ## The claims: C11 to C20 -/

open JS JS.JVal RemoteDoc
namespace RemoteDoc

/-- Counterexample for C11: inserting `'a'` at index 0 of `items` on a fresh
untyped document hands a create and three ops to the share document, not one
operation, and the op with path `['items', 0]` and `li: 'a'` is the last of
them, not the first. -/
theorem insert_fresh_not_one_operation :
    (insert json0Env { id := "doc", typed := false, snapshot := .undef, collectionData := .undef }
        [.key "items"] 0 (.str "a")).calls
      = [.create .undef false,
         .submitOp (.bare (.objectInsert [] (.obj []))) false,
         .submitOp (.list [.objectInsert [.key "items"] (.arr [])]) false,
         .submitOp (.list [.listInsert [.key "items", .idx 0] (.str "a")]) true]
    ∧ (insert json0Env { id := "doc", typed := false, snapshot := .undef, collectionData := .undef }
        [.key "items"] 0 (.str "a")).calls
      ≠ [.create .undef false,
         .submitOp (.list [.listInsert [.key "items", .idx 0] (.str "a")]) true] := by
  decide

/-- C11 (amended): inserting `'a'` at index 0 of `items` on a fresh untyped
document auto-creates the document and the array: it calls `create('json0')`
and, when the share document applies the implied inserts, submits three ops
in order, the implied `ObjectInsert{p: [], oi: {}}`,
`[ObjectInsert{p: ['items'], oi: []}]` and
`[ListInsert{p: ['items', 0], li: 'a'}]`, the last one with the completion
callback. Versions and the op log are kept by the share document, which
this module only calls. -/
theorem insert_fresh_document (env : ShareEnv) (d : State) (ht : d.typed = false)
    (h0 : truthy (env.create .undef) = false)
    (h1 : isNullish (lookup [.key "items"]
        (env.apply (env.create .undef) (.bare (.objectInsert [] (.obj []))))) = true)
    (h2 : ∃ xs, lookup [.key "items"]
        (env.apply (env.apply (env.create .undef) (.bare (.objectInsert [] (.obj []))))
          (.list [.objectInsert [.key "items"] (.arr [])])) = .arr xs) :
    (insert env d [.key "items"] 0 (.str "a")).calls =
      [.create .undef false,
       .submitOp (.bare (.objectInsert [] (.obj []))) false,
       .submitOp (.list [.objectInsert [.key "items"] (.arr [])]) false,
       .submitOp (.list [.listInsert [.key "items", .idx 0] (.str "a")]) true] := by
  rw [insert_fresh_aux env d "items" 0 (.str "a") ht h0 h1 h2]
  rfl

/-- Witness for C11 (amended): the json0 share document and a document that
was never created. -/
theorem insert_fresh_document_witness :
    (insert json0Env { id := "doc", typed := false, snapshot := .undef, collectionData := .undef }
        [.key "items"] 0 (.str "a")).calls =
      [.create .undef false,
       .submitOp (.bare (.objectInsert [] (.obj []))) false,
       .submitOp (.list [.objectInsert [.key "items"] (.arr [])]) false,
       .submitOp (.list [.listInsert [.key "items", .idx 0] (.str "a")]) true] :=
  insert_fresh_document json0Env
    { id := "doc", typed := false, snapshot := .undef, collectionData := .undef }
    rfl (by decide) (by decide) ⟨[], by decide⟩

/-- Counterexample for C12: on the empty mapping the ancestor `a` of `a.b` is
missing; `set` submits the implied insert op, `stringRemove(['a','b'], 0, 1)`
submits nothing. -/
theorem stringRemove_missing_ancestor_submits_nothing :
    truthy (lookup [.key "a"] (.obj [])) = false
    ∧ (set sampleEnv (sampleDoc (.obj [])) [.key "a", .key "b"] (.str "x")).calls
        = [.submitOp (.bare (.objectInsert [.key "a"] (.obj [("b", .str "x")]))) true]
    ∧ (stringRemove sampleEnv (sampleDoc (.obj [])) [.key "a", .key "b"] 0 1).calls = [] := by
  decide

/-- C12 (amended): when an ancestor of `P` holds a falsy value,
`stringInsert(P, index, text)` submits exactly the implied insert op that
`set(P, text)` submits, and `stringRemove(P, index, count)` submits nothing
and returns `undefined`; when a string `s` is present at `P`, `stringInsert`
submits exactly `[StringInsert{p: P ++ [index], si: text}]` and `stringRemove`
exactly `[StringRemove{p: P ++ [index], sd: r}]` with
`r = s.slice(index, index + count)`. The snapshot is the one read after the
implicit creation of an untyped document. -/
theorem string_ops_cases (env : ShareEnv) (d : State) (P : Path) (index count : Int)
    (text : JVal) :
    (∀ k, k < P.length →
        truthy (lookup (P.take k) (ensureCreated env d).1.snapshot) = false →
        (∀ j, j < k → truthy (lookup (P.take j) (ensureCreated env d).1.snapshot) = true) →
        (stringInsert env d P index text).calls
            = (ensureCreated env d).2 ++
              [.submitOp (.bare (impliedInsert P (ensureCreated env d).1.snapshot k text)) true]
        ∧ (stringInsert env d P index text).calls = (set env d P text).calls
        ∧ (stringRemove env d P index count).calls = (ensureCreated env d).2
        ∧ (stringRemove env d P index count).ret = .val .undef)
    ∧ (∀ s, lookup P (ensureCreated env d).1.snapshot = .str s →
        (stringInsert env d P index text).calls
            = (ensureCreated env d).2 ++
              [.submitOp (.list [.stringInsert (P ++ [.idx index]) text]) true]
        ∧ (stringRemove env d P index count).calls
            = (ensureCreated env d).2 ++
              [.submitOp (.list [.stringRemove (P ++ [.idx index])
                (.str (String.mk (jsSlice s.data index (index + count))))]) true]) := by
  refine ⟨?_, ?_⟩
  · intro k hk hmiss hshort
    rw [stringInsert_implied_aux env d P index text k hk hmiss hshort,
      stringRemove_implied_aux env d P index count k hk hmiss hshort,
      set_implied_aux env d P text k hk hmiss hshort]
    exact ⟨rfl, rfl, rfl, rfl⟩
  · intro s hs
    have hpres : isNullish (lookup P (ensureCreated env d).1.snapshot) = false := by
      rw [hs]; rfl
    rw [stringInsert_present_aux env d P index text hpres,
      stringRemove_present_aux env d P index count _ hpres (by rw [hs]; rfl)]
    exact ⟨rfl, rfl⟩

/-- Witness for C12 (amended): `stringInsert` into a missing `a.b`, and
`stringRemove` of `'el'` from `'hello'`. -/
theorem string_ops_cases_witness :
    (stringInsert sampleEnv (sampleDoc (.obj [])) [.key "a", .key "b"] 0 (.str "x")).calls
        = [.submitOp (.bare (.objectInsert [.key "a"] (.obj [("b", .str "x")]))) true]
    ∧ (stringRemove sampleEnv (sampleDoc (.obj [("a", .str "hello")])) [.key "a"] 1 2).calls
        = [.submitOp (.list [.stringRemove [.key "a", .idx 1] (.str "el")]) true] :=
  ⟨((string_ops_cases sampleEnv (sampleDoc (.obj [])) [.key "a", .key "b"] 0 1 (.str "x")).1
      1 (by decide) (by decide) (by decide)).1,
   ((string_ops_cases sampleEnv (sampleDoc (.obj [("a", .str "hello")])) [.key "a"] 1 2
      (.str "x")).2 "hello" (by decide)).2⟩

end RemoteDoc

open JS JS.JVal
namespace LiveDbMongo

/-- C13: on an open adapter over a store that answers, for a valid collection
name and any document name, when the logged ops of the document carry safe
integers as `v` (integers of size below `2^53`, which a JavaScript number
holds exactly and whose sum with 1 it gives exactly): if at least one op is
logged, `getVersion` passes the greatest logged `v` plus 1; otherwise the `_v`
of the snapshot row if there is one; otherwise 0. -/
theorem getVersion_cases (db : Adapter) (cName docName : String)
    (hopen : db.closed = false) (hvalid : isValidCName cName = true)
    (hanswers : db.mongo.fault = none)
    (hsafe : SafeVersions db.mongo cName docName) :
    (loggedOps db.mongo cName docName ≠ [] →
      ∃ r n, r ∈ loggedOps db.mongo cName docName ∧ assocGet r "v" = .num n
        ∧ (∀ x ∈ loggedOps db.mongo cName docName, ∀ k, assocGet x "v" = .num k → k ≤ n)
        ∧ (getVersion db cName docName).out = .ok (.num (n + 1)))
    ∧ (loggedOps db.mongo cName docName = [] →
        ∀ row, snapshotRow db.mongo cName docName = some row →
          (getVersion db cName docName).out = .ok (assocGet row "_v"))
    ∧ (loggedOps db.mongo cName docName = [] → snapshotRow db.mongo cName docName = none →
        (getVersion db cName docName).out = .ok (.num 0)) := by
  rw [getVersion_out db cName docName hopen hvalid hanswers]
  refine ⟨?_, ?_, ?_⟩
  · intro hne
    obtain ⟨r, hr, hmem, hmax⟩ := findLastOp_some _ docName hne
    obtain ⟨n, hv, _⟩ := safe_num r (hsafe r hmem)
    refine ⟨r, n, hmem, hv, ?_, ?_⟩
    · intro x hx k hk
      have h := hmax x hx
      simp only [vOf, hv, hk, numOf, vLt, decide_eq_false_iff_not, not_lt] at h
      exact h
    · rw [hr]
      simp only [hv, RemoteDoc.jsAdd]
  · intro hnil row hrow
    rw [findLastOp_nil _ docName hnil]
    unfold snapshotRow at hrow
    simp only [hrow]
  · intro hnil hrow
    rw [findLastOp_nil _ docName hnil]
    unfold snapshotRow at hrow
    simp only [hrow]

/-- Witness for C13: `fred`, with ops 0 and 1 logged, is at the greatest
logged `v` plus 1; `ann`, with a snapshot row at version 7 and no ops, is at
version 7; `bob`, with neither, is at version 0. -/
theorem getVersion_cases_witness :
    (∃ r n, r ∈ loggedOps sampleAdapter.mongo "users" "fred" ∧ assocGet r "v" = .num n
        ∧ (∀ x ∈ loggedOps sampleAdapter.mongo "users" "fred", ∀ k,
            assocGet x "v" = .num k → k ≤ n)
        ∧ (getVersion sampleAdapter "users" "fred").out = .ok (.num (n + 1)))
    ∧ (getVersion
        (LiveDbMongo
          { emptyStore with colls := [("users", [[("_v", .num 7), ("_id", .str "ann")]])] } none)
        "users" "ann").out = .ok (.num 7)
    ∧ (getVersion sampleAdapter "users" "bob").out = .ok (.num 0) :=
  ⟨(getVersion_cases sampleAdapter "users" "fred" rfl (by decide) rfl (by decide)).1
      (by decide),
   (getVersion_cases
      (LiveDbMongo
        { emptyStore with colls := [("users", [[("_v", .num 7), ("_id", .str "ann")]])] } none)
      "users" "ann" rfl (by decide) rfl (by decide)).2.1
      (by decide) [("_v", .num 7), ("_id", .str "ann")] (by decide),
   (getVersion_cases sampleAdapter "users" "bob" rfl (by decide) rfl (by decide)).2.2
      (by decide) (by decide)⟩

/-- Counterexample for C14: in a store whose op collection holds a row of the
document `fred` under the key of another document (`_id` is `ann v0`),
`getVersion` passes 6 for `fred`; a `writeOp` for `ann` at version 0 saves
under that key and replaces the row, and `getVersion` then passes 0 for
`fred`: an operation on another document changed it, and it decreased. -/
theorem getVersion_falls_in_misfiled_log :
    (getVersion
        (LiveDbMongo
          { emptyStore with
            colls := [("users_ops",
              [[("_id", .str "ann v0"), ("name", .str "fred"), ("v", .num 5)]])] } none)
        "users" "fred").out = .ok (.num 6)
    ∧ (getVersion
        (writeOp
          (LiveDbMongo
            { emptyStore with
              colls := [("users_ops",
                [[("_id", .str "ann v0"), ("name", .str "fred"), ("v", .num 5)]])] } none)
          "users" "ann" [("op", .arr []), ("v", .num 0)]).db
        "users" "fred").out = .ok (.num 0) := by
  decide

/-- C14 (amended): on an open adapter over a store that answers, whose op
collection for a valid collection name holds rows keyed as `writeOp` keys
them (`_id` is `name + ' v' + v`) with safe integers as `v`, let `getVersion`
pass the safe integer `n` for a document. After `writeOp` commits an op with
`v = n` for the document, `getVersion` passes `n + 1`. A `writeOp` with a safe
integer as `v`, or a `writeSnapshot`, for another document or collection
leaves it at `n`. After any sequence of such uses that keeps the versions below
`2^53`, each commit made at the then current version, `getVersion` passes `n`
plus the number of commits, so it never decreases along the sequence. -/
theorem getVersion_advances (db : Adapter) (cName docName : String) (n : Int)
    (hopen : db.closed = false) (hvalid : isValidCName cName = true)
    (hanswers : db.mongo.fault = none) (hkeyed : OpLogKeyed db.mongo cName)
    (hcur : (getVersion db cName docName).out = .ok (.num n))
    (hsafe : isSafeInteger n = true) :
    (∀ opData, (opData.map Prod.fst).Nodup → assocGet opData "v" = .num n →
        (writeOp db cName docName opData).out = .ok ()
        ∧ (getVersion (writeOp db cName docName opData).db cName docName).out
            = .ok (.num (n + 1)))
    ∧ (∀ c d opData, ¬ (c = cName ∧ d = docName) →
        (vOf opData).map isSafeInteger = some true →
        (getVersion (writeOp db c d opData).db cName docName).out = .ok (.num n))
    ∧ (∀ c d data, ¬ (c = cName ∧ d = docName) →
        (getVersion (writeSnapshot db c d data).db cName docName).out = .ok (.num n))
    ∧ (∀ steps more, (∀ s ∈ steps ++ more, s.Admitted cName docName) →
        n + commits (steps ++ more) < 2 ^ 53 →
        (getVersion (runSteps cName docName db steps) cName docName).out
            = .ok (.num (n + commits steps))
        ∧ (getVersion (runSteps cName docName db (steps ++ more)) cName docName).out
            = .ok (.num (n + commits steps + commits more))) := by
  have hlow : -(2 ^ 53 : Int) < n := ((isSafeInteger_iff n).mp hsafe).1
  refine ⟨?_, ?_, ?_, ?_⟩
  · intro opData hnd hv
    refine ⟨writeOp_out db cName docName opData hopen hvalid hanswers (by rw [hv]; rfl), ?_⟩
    exact writeOp_advances_aux db cName docName n opData hopen hvalid hanswers
      (fun r hr => safe_isSome _ (hkeyed r (List.mem_of_mem_filter hr)).2) hcur hnd hv
  · intro c d opData hne hnum
    rw [getVersion_out_congr db _ cName docName hopen (by rw [writeOp_closed]; exact hopen)
      hvalid hanswers (by rw [writeOp_fault]; exact hanswers)
      (writeOp_loggedOps_other db cName docName c d opData hopen hanswers hkeyed hne
        (safe_isSome _ hnum))
      (writeOp_snapshotRow db cName docName c d opData hopen hvalid hanswers)]
    exact hcur
  · intro c d data hne
    rw [getVersion_out_congr db _ cName docName hopen
      (by rw [writeSnapshot_closed]; exact hopen) hvalid hanswers
      (by rw [writeSnapshot_fault]; exact hanswers)
      (loggedOps_congr _ _ cName docName
        (writeSnapshot_loggedOps db cName c d data hopen hanswers))
      (writeSnapshot_snapshotRow_other db cName docName c d data hopen hanswers hne)]
    exact hcur
  · intro steps more hs hbound
    have hsplit : commits (steps ++ more) = commits steps + commits more := by
      simp only [commits, List.filter_append, List.length_append]
    rw [hsplit] at hbound
    push_cast at hbound
    refine ⟨runSteps_version_aux steps db cName docName n hvalid hopen hanswers hkeyed hcur
      hlow (by omega) (fun s h => hs s (List.mem_append_left _ h)), ?_⟩
    rw [runSteps_version_aux (steps ++ more) db cName docName n hvalid hopen hanswers hkeyed
      hcur hlow (by rw [hsplit]; push_cast; omega) hs]
    rw [hsplit]
    push_cast
    rw [add_assoc]

/-- Witness for C14 (amended): `fred` in `users` of the sample store is at
version 2. Committing an op with `v = 2` moves it to 3; ops and snapshots of
other documents leave it at 2; two commits among other uses move it to 4. -/
theorem getVersion_advances_witness :
    (getVersion sampleAdapter "users" "fred").out = .ok (.num 2)
    ∧ (getVersion (writeOp sampleAdapter "users" "fred"
          [("op", .arr []), ("v", .num 2)]).db "users" "fred").out = .ok (.num 3)
    ∧ (getVersion (writeOp sampleAdapter "users" "ann"
          [("op", .arr []), ("v", .num 5)]).db "users" "fred").out = .ok (.num 2)
    ∧ (getVersion (writeSnapshot sampleAdapter "notes" "fred"
          { data := .obj [], type := .str "json0", v := .num 9, m := .null }).db
          "users" "fred").out = .ok (.num 2)
    ∧ (getVersion (runSteps "users" "fred" sampleAdapter
          ([.commit [("op", .arr [])], .otherOp "notes" "fred" [("v", .num 0)]]
            ++ [.commit [("op", .arr [])]])) "users" "fred").out = .ok (.num (2 + 1 + 1)) :=
  ⟨by decide,
   ((getVersion_advances sampleAdapter "users" "fred" 2 rfl (by decide) rfl (by decide)
      (by decide) (by decide)).1 [("op", .arr []), ("v", .num 2)] (by decide) (by decide)).2,
   (getVersion_advances sampleAdapter "users" "fred" 2 rfl (by decide) rfl (by decide)
      (by decide) (by decide)).2.1 "users" "ann" [("op", .arr []), ("v", .num 5)] (by decide)
      (by decide),
   (getVersion_advances sampleAdapter "users" "fred" 2 rfl (by decide) rfl (by decide)
      (by decide) (by decide)).2.2.1 "notes" "fred"
      { data := .obj [], type := .str "json0", v := .num 9, m := .null } (by decide),
   ((getVersion_advances sampleAdapter "users" "fred" 2 rfl (by decide) rfl (by decide)
      (by decide) (by decide)).2.2.2
      [.commit [("op", .arr [])], .otherOp "notes" "fred" [("v", .num 0)]]
      [.commit [("op", .arr [])]] (by decide) (by decide)).2⟩

/-- C15: on an open adapter over a store that answers, for a valid collection
name, every document name and version `v`: after `writeSnapshot` of the
tombstone `{type: null, v: v, data: undefined}` the snapshot row of the
document is `{_data: null, _type: null, _v: v, _m: m, _id: docName}`;
`getVersion` then passes `v` when no op is logged for the document, and the
greatest logged `v` plus 1 when ops (with numbers as `v`) are logged; and it
passes the same for every snapshot written with that `v`, whatever its type
and data. -/
theorem tombstone_keeps_version (db : Adapter) (cName docName : String) (v : Int) (m : JVal)
    (hopen : db.closed = false) (hvalid : isValidCName cName = true)
    (hanswers : db.mongo.fault = none)
    (hnum : ∀ r ∈ loggedOps db.mongo cName docName, (vOf r).isSome = true) :
    snapshotRow
        (writeSnapshot db cName docName
          { data := .undef, type := .null, v := .num v, m := m }).db.mongo cName docName
      = some [("_data", .null), ("_type", .null), ("_v", .num v), ("_m", m),
          ("_id", .str docName)]
    ∧ (loggedOps db.mongo cName docName = [] →
        (getVersion (writeSnapshot db cName docName
          { data := .undef, type := .null, v := .num v, m := m }).db cName docName).out
          = .ok (.num v))
    ∧ (loggedOps db.mongo cName docName ≠ [] →
        ∃ r n, r ∈ loggedOps db.mongo cName docName ∧ assocGet r "v" = .num n
          ∧ (∀ x ∈ loggedOps db.mongo cName docName, ∀ k, assocGet x "v" = .num k → k ≤ n)
          ∧ (getVersion (writeSnapshot db cName docName
              { data := .undef, type := .null, v := .num v, m := m }).db cName docName).out
              = .ok (.num (n + 1)))
    ∧ (∀ data : SnapshotData, data.v = .num v →
        (getVersion (writeSnapshot db cName docName data).db cName docName).out
          = (getVersion (writeSnapshot db cName docName
              { data := .undef, type := .null, v := .num v, m := m }).db cName docName).out) := by
  have hsnap : ∀ data : SnapshotData,
      snapshotRow (writeSnapshot db cName docName data).db.mongo cName docName
        = some (castToDoc docName data) := by
    intro data
    unfold snapshotRow
    rw [writeSnapshot_rows db cName docName data hopen hvalid hanswers, if_pos rfl]
    exact findById_upsertById_same _ _ _ (castToDoc_id docName data)
  have hlog : ∀ data : SnapshotData,
      loggedOps (writeSnapshot db cName docName data).db.mongo cName docName
        = loggedOps db.mongo cName docName := fun data =>
    loggedOps_congr _ _ cName docName
      (writeSnapshot_loggedOps db cName cName docName data hopen hanswers)
  have hout : ∀ data : SnapshotData,
      (getVersion (writeSnapshot db cName docName data).db cName docName).out =
        match findLastOp (db.mongo.rows (getOplogCollectionName cName)) docName with
        | some row => .ok (RemoteDoc.jsAdd (assocGet row "v") 1)
        | none => .ok data.v := by
    intro data
    rw [getVersion_out _ cName docName (by rw [writeSnapshot_closed]; exact hopen) hvalid
      (by rw [writeSnapshot_fault]; exact hanswers)]
    have h1 := hsnap data
    unfold snapshotRow at h1
    rw [h1, writeSnapshot_loggedOps db cName cName docName data hopen hanswers]
    cases findLastOp (db.mongo.rows (getOplogCollectionName cName)) docName with
    | some row => rfl
    | none => simp only [castToDoc_v]
  refine ⟨hsnap _, ?_, ?_, ?_⟩
  · intro hnil
    rw [hout, findLastOp_nil _ docName hnil]
  · intro hne
    obtain ⟨r, hr, hmem, hmax⟩ := findLastOp_some _ docName hne
    have hsome := hnum r hmem
    cases hv : assocGet r "v" with
    | num n =>
      refine ⟨r, n, hmem, hv, ?_, ?_⟩
      · intro x hx k hk
        have h := hmax x hx
        simp only [vOf, hv, hk, numOf, vLt, decide_eq_false_iff_not, not_lt] at h
        exact h
      · rw [hout, hr]
        simp only [hv, RemoteDoc.jsAdd]
    | _ => simp [vOf, hv, numOf] at hsome
  · intro data hdv
    rw [hout, hout, hdv]

/-- Witness for C15: `ann` has no logged ops; after the tombstone at version 7
is written `getVersion` passes 7, as it does after a live snapshot at
version 7. -/
theorem tombstone_keeps_version_witness :
    (getVersion (writeSnapshot sampleAdapter "users" "ann"
        { data := .undef, type := .null, v := .num 7, m := .null }).db "users" "ann").out
      = .ok (.num 7)
    ∧ (getVersion (writeSnapshot sampleAdapter "users" "ann"
        { data := .obj [("x", .num 1)], type := .str "json0", v := .num 7, m := .null }).db
        "users" "ann").out
      = (getVersion (writeSnapshot sampleAdapter "users" "ann"
        { data := .undef, type := .null, v := .num 7, m := .null }).db "users" "ann").out :=
  ⟨(tombstone_keeps_version sampleAdapter "users" "ann" 7 .null rfl (by decide) rfl
      (by decide)).2.1 (by decide),
   (tombstone_keeps_version sampleAdapter "users" "ann" 7 .null rfl (by decide) rfl
      (by decide)).2.2.2
      { data := .obj [("x", .num 1)], type := .str "json0", v := .num 7, m := .null } rfl⟩

/-- C16: on an open adapter over a store that answers, whose op collection
honours its unique index on `name` and `v`, for a valid collection name, any
document name, any `start` and an `end` that is null, undefined or a number:
`getOps` passes the rows `found`, each stripped of `_id` and `name` and with
every other member as stored, where `found` holds exactly the logged ops of
the document whose `v` is a number `n` with `start <= n`, and `n < end` when
`end` is a number, in strictly ascending order of `v`. -/
theorem getOps_range (db : Adapter) (cName docName : String) (start : Int) (endV : JVal)
    (hopen : db.closed = false) (hvalid : isValidCName cName = true)
    (hanswers : db.mongo.fault = none)
    (hend : isNullish endV = true ∨ ∃ e, endV = .num e)
    (hunique : OpIndexUnique db.mongo cName) :
    ∃ found : List Row,
      (getOps db cName docName start endV).out = .ok (found.map stripOp)
      ∧ (∃ p : Row → Bool,
          (∀ r, p r = true ↔
            ∃ n, assocGet r "v" = .num n ∧ start ≤ n ∧ ∀ e, endV = .num e → n < e)
          ∧ found.Perm ((loggedOps db.mongo cName docName).filter p))
      ∧ found.Pairwise (fun a b =>
          ∃ x y, assocGet a "v" = .num x ∧ assocGet b "v" = .num y ∧ x < y)
      ∧ ∀ r ∈ found,
          stripOp r = r.filter (fun kv => kv.1 ≠ "_id" ∧ kv.1 ≠ "name")
          ∧ assocGet (stripOp r) "_id" = .undef ∧ assocGet (stripOp r) "name" = .undef
          ∧ ∀ k, k ≠ "_id" → k ≠ "name" → assocGet (stripOp r) k = assocGet r k := by
  refine ⟨sortByV ((db.mongo.rows (getOplogCollectionName cName)).filter
    (opInRange docName start endV)), getOps_out db cName docName start endV hopen hvalid
      hanswers, ?_, ?_, ?_⟩
  · refine ⟨vInRange start endV, vInRange_iff start endV hend, ?_⟩
    unfold loggedOps
    rw [← filter_opInRange]
    exact sortByV_perm _
  · have hperm := sortByV_perm ((db.mongo.rows (getOplogCollectionName cName)).filter
      (opInRange docName start endV))
    apply strict_of_sorted _ (sortByV_sorted _)
    · intro r hr
      have hm := hperm.mem_iff.mp hr
      have hin := (List.mem_filter.mp hm).2
      unfold opInRange at hin
      simp only [Bool.and_eq_true] at hin
      exact vInRange_num start endV r hin.2
    · have hd := loggedOps_distinct db.mongo cName docName hunique
      unfold loggedOps at hd
      have hf := List.Pairwise.filter (vInRange start endV) hd
      rw [← filter_opInRange] at hf
      exact (hperm.pairwise_iff (fun h => Ne.symm h)).mpr hf
  · intro r _
    refine ⟨?_, stripOp_id r, stripOp_name r, fun k h1 h2 => stripOp_get r k h1 h2⟩
    unfold stripOp assocDel
    rw [List.filter_filter]
    apply List.filter_congr
    intro kv _
    simp only [ne_eq, decide_not, Bool.and_comm, Bool.decide_and]

/-- Witness for C16: the ops of `fred` from version 1 on, with no upper
bound, in the sample store. -/
theorem getOps_range_witness :
    ∃ found : List Row,
      (getOps sampleAdapter "users" "fred" 1 .undef).out = .ok (found.map stripOp)
      ∧ (∃ p : Row → Bool,
          (∀ r, p r = true ↔
            ∃ n, assocGet r "v" = .num n ∧ (1 : Int) ≤ n ∧ ∀ e, JVal.undef = .num e → n < e)
          ∧ found.Perm ((loggedOps sampleAdapter.mongo "users" "fred").filter p))
      ∧ found.Pairwise (fun a b =>
          ∃ x y, assocGet a "v" = .num x ∧ assocGet b "v" = .num y ∧ x < y)
      ∧ ∀ r ∈ found,
          stripOp r = r.filter (fun kv => kv.1 ≠ "_id" ∧ kv.1 ≠ "name")
          ∧ assocGet (stripOp r) "_id" = .undef ∧ assocGet (stripOp r) "name" = .undef
          ∧ ∀ k, k ≠ "_id" → k ≠ "name" → assocGet (stripOp r) k = assocGet r k :=
  getOps_range sampleAdapter "users" "fred" 1 .undef rfl (by decide) rfl (Or.inl rfl)
    (by decide)

/-- C17: for every adapter, collection name, document name and op data,
`writeOp` performed twice with the same arguments leaves the collections as
one `writeOp` leaves them. A successful `writeOp` under a key `docName + ' v'
+ v` that a row of the op collection already has keeps the number of rows and
puts the new row in its place. On a store whose op rows are keyed that way, no
two under one key, after any sequence of `writeOp` calls `getOps` passes ops
no two of which carry the same `v`. -/
theorem writeOp_idempotent_overwrite (db : Adapter) (cName docName : String) (opData : Row) :
    (writeOp (writeOp db cName docName opData).db cName docName opData).db.mongo.colls
        = (writeOp db cName docName opData).db.mongo.colls
    ∧ (db.closed = false → isValidCName cName = true → db.mongo.fault = none →
        isNullish (assocGet opData "v") = false →
        (∃ r ∈ db.mongo.rows (getOplogCollectionName cName),
          assocGet r "_id"
            = .str (docName ++ " v" ++ RemoteDoc.jsToString (assocGet opData "v"))) →
        ((writeOp db cName docName opData).db.mongo.rows (getOplogCollectionName cName)).length
            = (db.mongo.rows (getOplogCollectionName cName)).length
        ∧ findById
            ((writeOp db cName docName opData).db.mongo.rows (getOplogCollectionName cName))
            (.str (docName ++ " v" ++ RemoteDoc.jsToString (assocGet opData "v")))
            = some (opRow docName opData))
    ∧ (db.closed = false → isValidCName cName = true → db.mongo.fault = none →
        OpLogUniqueKeys db.mongo cName →
        ∀ ws : List (String × String × Row), (∀ w ∈ ws, (w.2.2.map Prod.fst).Nodup) →
        ∀ (d : String) (start : Int) (endV : JVal),
          ∃ ops, (getOps (writeOps db ws) cName d start endV).out = .ok ops
            ∧ ops.Pairwise fun a b => assocGet a "v" ≠ assocGet b "v") := by
  refine ⟨writeOp_twice_aux db cName docName opData, ?_, ?_⟩
  · intro ho hv hf hnn hocc
    rw [writeOp_rows db cName docName opData ho hv hf hnn, if_pos rfl, opRow_id]
    exact ⟨upsertById_length_of_mem _ _ _ hocc,
      findById_upsertById_same _ _ _ (opRow_id docName opData)⟩
  · intro ho hv hf hk ws hnd d start endV
    obtain ⟨ho1, hf1, hk1⟩ := writeOps_keeps_unique ws db cName ho hf hk hnd
    exact getOps_distinct_aux _ cName d start endV ho1 hv hf1 (unique_of_keys _ cName hk1)

/-- Witness for C17: in the sample store the key `fred v1` is taken. Writing
an op for `fred` at `v = 1` keeps the two rows of the op collection and
replaces the row under that key; after writing it twice, `getOps` passes ops
that differ in `v`. -/
theorem writeOp_idempotent_overwrite_witness :
    (((writeOp sampleAdapter "users" "fred" [("op", .arr []), ("v", .num 1)]).db.mongo.rows
          (getOplogCollectionName "users")).length = 2
      ∧ findById
          ((writeOp sampleAdapter "users" "fred" [("op", .arr []), ("v", .num 1)]).db.mongo.rows
            (getOplogCollectionName "users"))
          (.str "fred v1")
          = some [("op", .arr []), ("v", .num 1), ("_id", .str "fred v1"),
              ("name", .str "fred")])
    ∧ ∃ ops, (getOps
          (writeOps sampleAdapter
            [("users", "fred", [("op", .arr []), ("v", .num 1)]),
             ("users", "fred", [("op", .arr []), ("v", .num 1)])])
          "users" "fred" 0 .null).out = .ok ops
        ∧ ops.Pairwise fun a b => assocGet a "v" ≠ assocGet b "v" :=
  ⟨(writeOp_idempotent_overwrite sampleAdapter "users" "fred"
      [("op", .arr []), ("v", .num 1)]).2.1 rfl (by decide) rfl (by decide)
      ⟨[("op", .arr [.obj [("p", .arr [.str "name"]), ("oi", .str "Fred")]]), ("v", .num 1),
          ("_id", .str "fred v1"), ("name", .str "fred")], by decide, by decide⟩,
   (writeOp_idempotent_overwrite sampleAdapter "users" "fred"
      [("op", .arr []), ("v", .num 1)]).2.2 rfl (by decide) rfl (by decide)
      [("users", "fred", [("op", .arr []), ("v", .num 1)]),
       ("users", "fred", [("op", .arr []), ("v", .num 1)])] (by decide) "fred" 0 .null⟩

/-- Counterexample for C18: with the invalid collection name `users_ops` and
op data that has no `v`, `writeOp` throws the assertion error before it makes
the check, so no error is passed to the callback. -/
theorem writeOp_invalid_name_without_v_throws :
    _check sampleAdapter "users_ops" = some "Invalid collection name"
    ∧ (writeOp sampleAdapter "users_ops" "fred" [("op", .arr [])]).out = .threw "AssertionError"
    ∧ (writeOp sampleAdapter "users_ops" "fred" [("op", .arr [])]).out
        ≠ .error "Invalid collection name" := by
  decide

/-- C18 (amended): on an open adapter, `_check cName` reports `Invalid
collection name` if and only if `cName` ends with `_ops` or equals `system`;
in that case `getSnapshot`, `getSnapshotProjected`, `writeSnapshot`,
`getVersion`, `getOps`, `queryDocProjected`, and `queryProjected` called with
options and a callback, pass that error to the callback and leave the adapter
and the log of store calls as they were, and so does `writeOp` when
`opData.v` is neither null nor undefined. When it is, `writeOp` throws the
assertion error instead, also without a store call. -/
theorem invalid_name_rejected (driver : Driver) (db : Adapter) (cName : String)
    (hopen : db.closed = false) :
    (_check db cName = some "Invalid collection name"
      ↔ (∃ p : String, cName = p ++ "_ops") ∨ cName = "system")
    ∧ (_check db cName = some "Invalid collection name" →
        (∀ docName, getSnapshot db cName docName = ⟨db, .error "Invalid collection name"⟩)
        ∧ (∀ docName fields,
            getSnapshotProjected db cName docName fields
              = ⟨db, .error "Invalid collection name"⟩)
        ∧ (∀ docName data,
            writeSnapshot db cName docName data = ⟨db, .error "Invalid collection name"⟩)
        ∧ (∀ docName opData, isNullish (assocGet opData "v") = false →
            writeOp db cName docName opData = ⟨db, .error "Invalid collection name"⟩)
        ∧ (∀ docName opData, isNullish (assocGet opData "v") = true →
            writeOp db cName docName opData = ⟨db, .threw "AssertionError"⟩)
        ∧ (∀ docName, getVersion db cName docName = ⟨db, .error "Invalid collection name"⟩)
        ∧ (∀ docName start endV,
            getOps db cName docName start endV = ⟨db, .error "Invalid collection name"⟩)
        ∧ (∀ fields inputQuery mode,
            queryProjected driver db cName fields inputQuery (.given mode)
              = ⟨db, .error "Invalid collection name"⟩)
        ∧ (∀ docName fields inputQuery,
            queryDocProjected driver db cName docName fields inputQuery
              = ⟨db, .error "Invalid collection name"⟩)) := by
  refine ⟨?_, ?_⟩
  · rw [← isValidCName_iff]
    unfold _check
    rw [hopen]
    cases isValidCName cName <;> simp
  · intro h
    refine ⟨?_, ?_, ?_, ?_, ?_, ?_, ?_, ?_, ?_⟩
    · intro docName
      unfold getSnapshot
      rw [h]
    · intro docName fields
      unfold getSnapshotProjected
      rw [h]
    · intro docName data
      unfold writeSnapshot
      rw [h]
    · intro docName opData hv
      unfold writeOp
      rw [if_neg (by simp [hv]), h]
    · intro docName opData hv
      unfold writeOp
      rw [if_pos hv]
    · intro docName
      unfold getVersion
      rw [h]
    · intro docName start endV
      unfold getOps
      rw [h]
    · intro fields inputQuery mode
      unfold queryProjected
      rw [h]
    · intro docName fields inputQuery
      unfold queryDocProjected
      rw [h]

/-- Witness for C18 (amended): the name `users_ops` on the adapter over the
sample store. -/
theorem invalid_name_rejected_witness :
    _check sampleAdapter "users_ops" = some "Invalid collection name"
    ∧ getVersion sampleAdapter "users_ops" "fred"
        = ⟨sampleAdapter, .error "Invalid collection name"⟩
    ∧ writeOp sampleAdapter "users_ops" "fred" [("v", .num 2)]
        = ⟨sampleAdapter, .error "Invalid collection name"⟩ :=
  ⟨(invalid_name_rejected ⟨fun _ _ => .num 0, fun rows _ _ _ => rows, fun _ _ _ => none⟩
      sampleAdapter "users_ops" rfl).1.mpr (Or.inl ⟨"users", by decide⟩),
   ((invalid_name_rejected ⟨fun _ _ => .num 0, fun rows _ _ _ => rows, fun _ _ _ => none⟩
      sampleAdapter "users_ops" rfl).2 (by decide)).2.2.2.2.2.1 "fred",
   ((invalid_name_rejected ⟨fun _ _ => .num 0, fun rows _ _ _ => rows, fun _ _ _ => none⟩
      sampleAdapter "users_ops" rfl).2 (by decide)).2.2.2.1 "fred" [("v", .num 2)]
      (by decide)⟩

/-- C19 (the code departs from the claim): on an open adapter over a store
that answers, when the request map holds an invalid collection name, the
iterator of `bulkGetSnapshot` returns the error text for that name without
calling its callback, so the completion callback is never called, neither with
`Invalid collection name` nor with results. -/
theorem bulkGetSnapshot_invalid_name_never_calls_back (db : Adapter)
    (requests : List (String × JVal)) (hopen : db.closed = false)
    (hanswers : db.mongo.fault = none)
    (hbad : ∃ c ∈ requests.map Prod.fst, isValidCName c = false) :
    (bulkGetSnapshot db requests).out = .never := by
  obtain ⟨c, hc, hv⟩ := hbad
  obtain ⟨_, hreports⟩ :=
    getSnapshots_reports requests (requests.map Prod.fst) (db.mongo, [], []) hanswers
  have hnever : asyncEach ((requests.map Prod.fst).foldl (getSnapshots requests)
      (db.mongo, [], [])).2.2 = .never := by
    rw [hreports]
    apply asyncEach_never
    · intro r hr
      rw [List.nil_append] at hr
      obtain ⟨x, _, hx⟩ := List.mem_map.mp hr
      rw [← hx]
      cases isValidCName x
      · exact Or.inr rfl
      · exact Or.inl rfl
    · rw [List.nil_append]
      exact List.mem_map.mpr ⟨c, hc, by rw [hv]; rfl⟩
  unfold bulkGetSnapshot
  rw [hopen]
  simp only [Bool.false_eq_true, if_false]
  rw [hnever]

/-- Witness for C19: the request map `{users_ops: ['fred'], users: ['fred']}`
on the adapter over the sample store. -/
theorem bulkGetSnapshot_invalid_name_never_calls_back_witness :
    (bulkGetSnapshot sampleAdapter
      [("users_ops", .arr [.str "fred"]), ("users", .arr [.str "fred"])]).out = .never :=
  bulkGetSnapshot_invalid_name_never_calls_back sampleAdapter
    [("users_ops", .arr [.str "fred"]), ("users", .arr [.str "fred"])] rfl rfl
    ⟨"users_ops", by decide, by decide⟩

/-- Counterexample for C20: the flat query `{_type: null}` has the member
`_type`, which is no operator, but the filter of the result holds
`{$ne: null}` for it, not the input value `null`. -/
theorem normalizeQuery_falsy_type_replaced :
    normalizeQuery [("_type", .null)]
      = [("$query", .obj [("_type", .obj [("$ne", .null)])])]
    ∧ getProp (assocGet (normalizeQuery [("_type", .null)]) "$query") (.key "_type")
        ≠ .null := by
  decide

/-- C20 (amended): for every flat input query (each member name once, none
of them `$query`) none of whose member names is the name of a member of
`Object.prototype`, `normalizeQuery` returns `{$query: F, ...}` such that
every input member whose name is a meta operator or a cursor operator is at
the top level with its input value and not in `F`; every other input member
is in `F` with its input value and not at the top level, except a `_type`
whose value is falsy; `F._type` is `{$ne: null}` when the input has no truthy
`_type`; and the result has no further members at the top level or in `F`
except `_type` in `F`. -/
theorem normalizeQuery_partition (inputQuery : Row)
    (hnd : (inputQuery.map Prod.fst).Nodup) (hflat : "$query" ∉ inputQuery.map Prod.fst)
    (hown : ∀ k ∈ inputQuery.map Prod.fst, k ∉ objectPrototypeNames) :
    ∃ F, assocGet (normalizeQuery inputQuery) "$query" = .obj F
      ∧ (∀ k v, (k, v) ∈ inputQuery →
          (k ∈ metaOperators ∨ k ∈ cursorOperators.map Prod.fst) →
          (k, v) ∈ normalizeQuery inputQuery ∧ assocGet (normalizeQuery inputQuery) k = v
            ∧ k ∉ F.map Prod.fst)
      ∧ (∀ k v, (k, v) ∈ inputQuery →
          ¬ (k ∈ metaOperators ∨ k ∈ cursorOperators.map Prod.fst) →
          (k ≠ "_type" ∨ truthy v = true) →
          (k, v) ∈ F ∧ assocGet F k = v ∧ k ∉ (normalizeQuery inputQuery).map Prod.fst)
      ∧ (truthy (assocGet inputQuery "_type") = false →
          assocGet F "_type" = .obj [("$ne", .null)])
      ∧ (∀ k ∈ (normalizeQuery inputQuery).map Prod.fst,
          k = "$query" ∨ k ∈ inputQuery.map Prod.fst)
      ∧ (∀ k ∈ F.map Prod.fst, k = "_type" ∨ k ∈ inputQuery.map Prod.fst) := by
  have hp : "__proto__" ∉ inputQuery.map Prod.fst := fun h => hown _ h (by decide)
  have hclosed := normalizeQuery_flat inputQuery hnd hflat hp
  have hF0nd : ((inputQuery.filter fun kv => !isOperatorKey kv.1).map Prod.fst).Nodup :=
    hnd.sublist ((List.filter_sublist _).map _)
  have hOnd : ((inputQuery.filter fun kv => isOperatorKey kv.1).map Prod.fst).Nodup :=
    hnd.sublist ((List.filter_sublist _).map _)
  have hF0keys : ∀ k ∈ (inputQuery.filter fun kv => !isOperatorKey kv.1).map Prod.fst,
      k ∈ inputQuery.map Prod.fst ∧ isOperatorKey k = false := by
    intro k hk
    obtain ⟨kv, hkv, rfl⟩ := List.mem_map.mp hk
    have := List.mem_filter.mp hkv
    exact ⟨List.mem_map.mpr ⟨kv, this.1, rfl⟩, by simpa using this.2⟩
  have hOkeys : ∀ k ∈ (inputQuery.filter fun kv => isOperatorKey kv.1).map Prod.fst,
      k ∈ inputQuery.map Prod.fst ∧ isOperatorKey k = true := by
    intro k hk
    obtain ⟨kv, hkv, rfl⟩ := List.mem_map.mp hk
    have := List.mem_filter.mp hkv
    exact ⟨List.mem_map.mpr ⟨kv, this.1, rfl⟩, this.2⟩
  have htype0 : assocGet (inputQuery.filter fun kv => !isOperatorKey kv.1) "_type"
      = assocGet inputQuery "_type" := by
    apply assocGet_filter
    intro v
    show (!isOperatorKey "_type") = true
    decide
  have hFkeys : ∀ F, F = (if truthy (assocGet
        (inputQuery.filter fun kv => !isOperatorKey kv.1) "_type") then
          inputQuery.filter fun kv => !isOperatorKey kv.1
        else assocSet (inputQuery.filter fun kv => !isOperatorKey kv.1) "_type"
          (.obj [("$ne", .null)])) →
      ∀ k ∈ F.map Prod.fst, k = "_type"
        ∨ k ∈ (inputQuery.filter fun kv => !isOperatorKey kv.1).map Prod.fst := by
    intro F hFdef k hk
    rw [hFdef] at hk
    split at hk
    · exact Or.inr hk
    · rw [assocSet_keys] at hk
      split at hk
      · exact Or.inr hk
      · rcases List.mem_append.mp hk with e | e
        · exact Or.inr e
        · exact Or.inl (List.mem_singleton.mp e)
  obtain ⟨F, hFdef⟩ : ∃ F : Row, F = (if truthy (assocGet
        (inputQuery.filter fun kv => !isOperatorKey kv.1) "_type") then
          inputQuery.filter fun kv => !isOperatorKey kv.1
        else assocSet (inputQuery.filter fun kv => !isOperatorKey kv.1) "_type"
          (.obj [("$ne", .null)])) := ⟨_, rfl⟩
  rw [← hFdef] at hclosed
  refine ⟨F, by rw [hclosed]; simp [assocGet], ?_, ?_, ?_, ?_, ?_⟩
  · intro k v hkv hop
    have hopk : isOperatorKey k = true :=
      (isOperatorKey_iff k).mpr (hop.elim Or.inl fun h => Or.inr (Or.inl h))
    have hmemO : (k, v) ∈ inputQuery.filter fun kv => isOperatorKey kv.1 :=
      List.mem_filter.mpr ⟨hkv, hopk⟩
    have hkq : ¬ ("$query" = k) := by
      intro e
      apply hflat
      rw [e]
      exact List.mem_map.mpr ⟨(k, v), hkv, rfl⟩
    refine ⟨by rw [hclosed]; exact List.mem_cons_of_mem _ hmemO, ?_, ?_⟩
    · rw [hclosed]
      simp only [assocGet, hkq, if_false]
      exact assocGet_of_mem _ k v hOnd hmemO
    · intro hk
      rcases hFkeys F hFdef k hk with e | e
      · rw [e] at hopk
        revert hopk
        decide
      · have := (hF0keys k e).2
        rw [hopk] at this
        cases this
  · intro k v hkv hnop hcase
    have hopk : isOperatorKey k = false := by
      cases h : isOperatorKey k
      · rfl
      · rcases (isOperatorKey_iff k).mp h with e | e | e
        · exact absurd (Or.inl e) hnop
        · exact absurd (Or.inr e) hnop
        · exact absurd e (hown k (List.mem_map.mpr ⟨(k, v), hkv, rfl⟩))
    have hmemF : (k, v) ∈ inputQuery.filter fun kv => !isOperatorKey kv.1 :=
      List.mem_filter.mpr ⟨hkv, by simp [hopk]⟩
    have hget0 : assocGet (inputQuery.filter fun kv => !isOperatorKey kv.1) k = v :=
      assocGet_of_mem _ k v hF0nd hmemF
    have hkq : ¬ ("$query" = k) := by
      intro e
      apply hflat
      rw [e]
      exact List.mem_map.mpr ⟨(k, v), hkv, rfl⟩
    refine ⟨?_, ?_, ?_⟩
    · rw [hFdef]
      split
      · exact hmemF
      · next hfalsy =>
        have hkt : k ≠ "_type" := by
          rcases hcase with h | h
          · exact h
          · intro e
            rw [e] at hget0
            rw [hget0] at hfalsy
            exact hfalsy h
        exact mem_assocSet_of_ne _ k "_type" v _ hkt hmemF
    · rw [hFdef]
      split
      · exact hget0
      · next hfalsy =>
        have hkt : k ≠ "_type" := by
          rcases hcase with h | h
          · exact h
          · intro e
            rw [e] at hget0
            rw [hget0] at hfalsy
            exact hfalsy h
        rw [assocGet_assocSet_ne _ _ _ _ hkt]
        exact hget0
    · rw [hclosed]
      simp only [List.map_cons, List.mem_cons, not_or]
      refine ⟨fun e => hkq e.symm, ?_⟩
      intro hk
      have := (hOkeys k hk).2
      rw [hopk] at this
      cases this
  · intro hfalsy
    rw [hFdef, htype0, hfalsy]
    simp only [Bool.false_eq_true, if_false]
    exact assocGet_assocSet_same _ _ _
  · intro k hk
    rw [hclosed] at hk
    simp only [List.map_cons, List.mem_cons] at hk
    rcases hk with e | e
    · exact Or.inl e
    · exact Or.inr (hOkeys k e).1
  · intro k hk
    rcases hFkeys F hFdef k hk with e | e
    · exact Or.inl e
    · exact Or.inr (hF0keys k e).1

/-- Witness for C20 (amended): the flat query `{name: 'Fred', $limit: 3}`. -/
theorem normalizeQuery_partition_witness :
    ∃ F, assocGet (normalizeQuery [("name", .str "Fred"), ("$limit", .num 3)]) "$query" = .obj F
      ∧ assocGet (normalizeQuery [("name", .str "Fred"), ("$limit", .num 3)]) "$limit" = .num 3
      ∧ "$limit" ∉ F.map Prod.fst
      ∧ assocGet F "name" = .str "Fred"
      ∧ "name" ∉ (normalizeQuery [("name", .str "Fred"), ("$limit", .num 3)]).map Prod.fst
      ∧ assocGet F "_type" = .obj [("$ne", .null)] := by
  obtain ⟨F, hF, hops, hrest, htype, _, _⟩ :=
    normalizeQuery_partition [("name", .str "Fred"), ("$limit", .num 3)] (by decide) (by decide)
      (by decide)
  have h1 := hops "$limit" (.num 3) (by decide) (Or.inr (by decide))
  have h2 := hrest "name" (.str "Fred") (by decide) (by decide) (Or.inl (by decide))
  exact ⟨F, hF, h1.2.1, h1.2.2, h2.2.1, h2.2.2, htype (by decide)⟩

end LiveDbMongo

/-! ## The claims: C21 to C30 -/

open JS JS.JVal
namespace LiveDbMongo

/-- Counterexample for C21: the filter of the query `{$query: {_type: null}}`
constrains `_type` to `null`, but the filter `normalizeQuery` returns holds
`{$ne: null}` for `_type`, not the caller's `null`. -/
theorem normalizeQuery_null_type_overwritten :
    callerType [("$query", .obj [("_type", .null)])] = .null
    ∧ normalizeQuery [("$query", .obj [("_type", .null)])]
        = [("$query", .obj [("_type", .obj [("$ne", .null)])])]
    ∧ getProp (assocGet (normalizeQuery [("$query", .obj [("_type", .null)])]) "$query")
        (.key "_type") ≠ .null := by
  decide

/-- C21 (amended): for every input query (each member name once, in the query
and in a mapping given as `$query`, and no member of that mapping named
`__proto__`), the filter `normalizeQuery` returns carries the `_type` of the
caller's filter unchanged when that `_type` is truthy, and carries
`_type: {$ne: null}` when the caller's filter has no `_type` or a falsy one
(`null`, `undefined`, `false`, 0 or the empty text). -/
theorem normalizeQuery_type_constraint (inputQuery : Row)
    (hnd : (inputQuery.map Prod.fst).Nodup)
    (hnd2 : ∀ kvs, assocGet inputQuery "$query" = .obj kvs →
      (kvs.map Prod.fst).Nodup ∧ "__proto__" ∉ kvs.map Prod.fst) :
    ∃ F, assocGet (normalizeQuery inputQuery) "$query" = .obj F
      ∧ (truthy (callerType inputQuery) = true → assocGet F "_type" = callerType inputQuery)
      ∧ (truthy (callerType inputQuery) = false →
          assocGet F "_type" = .obj [("$ne", .null)]) := by
  obtain ⟨F, hF, ht⟩ :=
    normalizeQuery_type_aux inputQuery hnd (fun kvs h => (hnd2 kvs h).1)
  refine ⟨F, hF, ?_, ?_⟩
  · intro h
    rw [ht, h]
    rfl
  · intro h
    rw [ht, h]
    rfl

/-- Witness for C21 (amended): a flat query that constrains `_type` keeps its
constraint, and a query in `$query` form without `_type` gets
`{$ne: null}`. -/
theorem normalizeQuery_type_constraint_witness :
    (∃ F, assocGet (normalizeQuery [("_type", .str "json0"), ("$limit", .num 3)]) "$query"
        = .obj F ∧ assocGet F "_type" = .str "json0")
    ∧ (∃ F, assocGet (normalizeQuery [("$query", .obj [("name", .str "Fred")])]) "$query"
        = .obj F ∧ assocGet F "_type" = .obj [("$ne", .null)]) := by
  obtain ⟨F1, h1, t1, _⟩ := normalizeQuery_type_constraint
    [("_type", .str "json0"), ("$limit", .num 3)] (by decide)
    (by
      intro kvs h
      have h' : JVal.undef = .obj kvs := h
      cases h')
  obtain ⟨F2, h2, _, t2⟩ := normalizeQuery_type_constraint
    [("$query", .obj [("name", .str "Fred")])] (by decide)
    (by
      intro kvs h
      have e : kvs = [("name", .str "Fred")] := by
        have h' : JVal.obj [("name", .str "Fred")] = .obj kvs := h
        cases h'
        rfl
      rw [e]
      decide)
  exact ⟨⟨F1, h1, t1 (by decide)⟩, ⟨F2, h2, t2 (by decide)⟩⟩

/-- C22 (the code departs from the claim): the query
`{hasOwnProperty: 1, $limit: 10}` has an own `$limit` member, but
`queryNeedsPollMode` calls its member `hasOwnProperty`, which is no function,
and throws instead of returning `true`. -/
theorem queryNeedsPollMode_own_hasOwnProperty_throws :
    "$limit" ∈ ([("hasOwnProperty", .num 1), ("$limit", .num 10)] : Row).map Prod.fst
    ∧ queryNeedsPollMode .null [("hasOwnProperty", .num 1), ("$limit", .num 10)]
        = .threw "TypeError"
    ∧ queryNeedsPollMode .null [("hasOwnProperty", .num 1), ("$limit", .num 10)]
        ≠ .value true := by
  decide

/-- For every query object that has no own member named `hasOwnProperty`, and
any index argument, `queryNeedsPollMode` returns a boolean that is `true` if
and only if the query has an own `$orderby`, `$limit`, `$skip` or `$count`
member. -/
theorem queryNeedsPollMode_iff (index : JVal) (query : Row)
    (hown : "hasOwnProperty" ∉ query.map Prod.fst) :
    ∃ b, queryNeedsPollMode index query = .value b
      ∧ (b = true ↔
          "$orderby" ∈ query.map Prod.fst ∨ "$limit" ∈ query.map Prod.fst
            ∨ "$skip" ∈ query.map Prod.fst ∨ "$count" ∈ query.map Prod.fst) := by
  unfold queryNeedsPollMode
  have h : (query.map Prod.fst).contains "hasOwnProperty" = false := by
    cases hc : (query.map Prod.fst).contains "hasOwnProperty"
    · rfl
    · exact absurd ((contains_iff_aux _ _).mp hc) hown
  rw [h]
  refine ⟨_, rfl, ?_⟩
  simp only [Bool.or_eq_true, contains_iff_aux]
  tauto

/-- The query `{$orderby: {x: 1}, $limit: 10}` needs poll mode and
`{status: 'open'}` does not. -/
theorem queryNeedsPollMode_iff_witness :
    queryNeedsPollMode (.str "index")
        [("$orderby", .obj [("x", .num 1)]), ("$limit", .num 10)] = .value true
    ∧ queryNeedsPollMode (.str "index") [("status", .str "open")] = .value false := by
  obtain ⟨b1, h1, hb1⟩ := queryNeedsPollMode_iff (.str "index")
    [("$orderby", .obj [("x", .num 1)]), ("$limit", .num 10)] (by decide)
  obtain ⟨b2, h2, hb2⟩ := queryNeedsPollMode_iff (.str "index")
    [("status", .str "open")] (by decide)
  have e1 : b1 = true := hb1.mpr (Or.inl (by decide))
  have e2 : b2 = false := by
    cases hb : b2
    · rfl
    · exact absurd (hb2.mp hb) (by decide)
  rw [h1, h2, e1, e2]
  exact ⟨rfl, rfl⟩

/-- C23: for a query whose `$query` is a mapping `F`, as every query that
`normalizeQuery` returns is, `checkQuery` returns `Illegal $where query` if
and only if `allowWhereQuery` is falsy and `F.$where` is neither null nor
undefined, and nothing otherwise; the constructor sets `allowWhereQuery` to
`false` when it is given no options or options without a truthy
`allowWhereQuery`, and to a truthy value otherwise; and when the check of the
collection name passes and `checkQuery` returns that error, `queryProjected`
and `queryDocProjected` pass it to the callback and leave the adapter and the
log of store calls as they were. -/
theorem checkQuery_where (driver : Driver) (db : Adapter) :
    (∀ query F, assocGet query "$query" = .obj F →
        (checkQuery db query = some "Illegal $where query"
          ↔ truthy db.allowWhereQuery = false ∧ isNullish (assocGet F "$where") = false)
        ∧ (checkQuery db query ≠ some "Illegal $where query" → checkQuery db query = none))
    ∧ (∀ inputQuery, ∃ F, assocGet (normalizeQuery inputQuery) "$query" = .obj F)
    ∧ (∀ mongo, (LiveDbMongo mongo none).allowWhereQuery = .bool false)
    ∧ (∀ mongo options, truthy options.allowWhereQuery = false →
        (LiveDbMongo mongo (some options)).allowWhereQuery = .bool false)
    ∧ (∀ mongo options,
        (LiveDbMongo mongo options).allowWhereQuery = .bool false
          ∨ truthy (LiveDbMongo mongo options).allowWhereQuery = true)
    ∧ (∀ cName fields inputQuery opts, _check db cName = none →
        checkQuery db (normalizeQuery inputQuery) = some "Illegal $where query" →
        queryProjected driver db cName fields inputQuery opts
          = ⟨db, .error "Illegal $where query"⟩)
    ∧ (∀ cName docName fields inputQuery, _check db cName = none →
        checkQuery db (normalizeQuery inputQuery) = some "Illegal $where query" →
        queryDocProjected driver db cName docName fields inputQuery
          = ⟨db, .error "Illegal $where query"⟩) := by
  refine ⟨?_, normalizeQuery_filter_obj, ?_, ?_, ?_, ?_, ?_⟩
  · intro query F hF
    unfold checkQuery
    rw [hF]
    simp only [getProp, Segment.name]
    by_cases h1 : truthy db.allowWhereQuery = true <;>
      by_cases h2 : isNullish (assocGet F "$where") = true <;> simp [h1, h2]
  · intro mongo
    rfl
  · intro mongo options h
    simp [LiveDbMongo, h]
  · intro mongo options
    cases options with
    | none => exact Or.inl rfl
    | some o =>
      cases h : truthy o.allowWhereQuery
      · left; simp [LiveDbMongo, h]
      · right; simp [LiveDbMongo, h]
  · intro cName fields inputQuery opts hc hq
    unfold queryProjected
    rw [hc]
    simp only [hq]
  · intro cName docName fields inputQuery hc hq
    unfold queryDocProjected
    rw [hc]
    simp only [hq]

/-- Witness for C23: the query `{$where: 'this.a > 1'}` on an adapter made
without options. -/
theorem checkQuery_where_witness :
    checkQuery sampleAdapter (normalizeQuery [("$where", .str "this.a > 1")])
        = some "Illegal $where query"
    ∧ queryProjected sampleDriver sampleAdapter "users" none [("$where", .str "this.a > 1")]
        (.given .undef) = ⟨sampleAdapter, .error "Illegal $where query"⟩
    ∧ queryDocProjected sampleDriver sampleAdapter "users" "fred" none
        [("$where", .str "this.a > 1")] = ⟨sampleAdapter, .error "Illegal $where query"⟩ :=
  ⟨((checkQuery_where sampleDriver sampleAdapter).1
      (normalizeQuery [("$where", .str "this.a > 1")])
      [("$where", .str "this.a > 1"), ("_type", .obj [("$ne", .null)])] (by decide)).1.mpr
      ⟨by decide, by decide⟩,
   (checkQuery_where sampleDriver sampleAdapter).2.2.2.2.2.1 "users" none
      [("$where", .str "this.a > 1")] (.given .undef) (by decide) (by decide),
   (checkQuery_where sampleDriver sampleAdapter).2.2.2.2.2.2 "users" "fred" none
      [("$where", .str "this.a > 1")] (by decide) (by decide)⟩

/-- C27 (the code departs from the claim): on a closed adapter,
`queryProjected` called with the callback in the place of the options makes
the check before it takes the callback from there, so it throws a type error
and passes no error to the callback. -/
theorem queryProjected_closed_older_form_throws :
    (close sampleAdapter).db.closed = true
    ∧ (queryProjected sampleDriver (close sampleAdapter).db "users" none
        [("name", .str "Fred")] .callbackOnly).out
        = .threw "TypeError: undefined is not a function"
    ∧ (queryProjected sampleDriver (close sampleAdapter).db "users" none
        [("name", .str "Fred")] .callbackOnly).out ≠ .error "db already closed" := by
  decide

/-- What a closed adapter does: `close` leaves the adapter closed; on a closed
adapter `_check` returns `db already closed` for every collection name, valid or not,
and `getSnapshot`, `getSnapshotProjected`, `bulkGetSnapshot`, `writeSnapshot`,
`writeOp` with a `v` that is neither null nor undefined, `getVersion`,
`getOps`, `queryDocProjected`, `queryProjected` called with options and a
callback, and `close` pass that error to the callback and leave the adapter,
still closed, and the log of store calls as they were. `writeOp` with a null
or undefined `v` throws its assertion error, and `queryProjected` called with
the callback in the place of the options throws a type error, both also
without a store call. -/
theorem closed_adapter_rejects (driver : Driver) (db : Adapter) (hclosed : db.closed = true) :
    (∀ db0 : Adapter, (close db0).db.closed = true)
    ∧ (∀ cName, _check db cName = some "db already closed")
    ∧ (∀ cName docName, getSnapshot db cName docName = ⟨db, .error "db already closed"⟩)
    ∧ (∀ cName docName fields,
        getSnapshotProjected db cName docName fields = ⟨db, .error "db already closed"⟩)
    ∧ (∀ requests, bulkGetSnapshot db requests = ⟨db, .error "db already closed"⟩)
    ∧ (∀ cName docName data,
        writeSnapshot db cName docName data = ⟨db, .error "db already closed"⟩)
    ∧ (∀ cName docName opData, isNullish (assocGet opData "v") = false →
        writeOp db cName docName opData = ⟨db, .error "db already closed"⟩)
    ∧ (∀ cName docName opData, isNullish (assocGet opData "v") = true →
        writeOp db cName docName opData = ⟨db, .threw "AssertionError"⟩)
    ∧ (∀ cName docName, getVersion db cName docName = ⟨db, .error "db already closed"⟩)
    ∧ (∀ cName docName start endV,
        getOps db cName docName start endV = ⟨db, .error "db already closed"⟩)
    ∧ (∀ cName fields inputQuery mode,
        queryProjected driver db cName fields inputQuery (.given mode)
          = ⟨db, .error "db already closed"⟩)
    ∧ (∀ cName fields inputQuery,
        queryProjected driver db cName fields inputQuery .callbackOnly
          = ⟨db, .threw "TypeError: undefined is not a function"⟩)
    ∧ (∀ cName docName fields inputQuery,
        queryDocProjected driver db cName docName fields inputQuery
          = ⟨db, .error "db already closed"⟩)
    ∧ close db = ⟨db, .error "db already closed"⟩ := by
  have hcheck : ∀ cName, _check db cName = some "db already closed" := by
    intro cName
    unfold _check
    rw [hclosed]
    rfl
  refine ⟨?_, hcheck, ?_, ?_, ?_, ?_, ?_, ?_, ?_, ?_, ?_, ?_, ?_, ?_⟩
  · intro db0
    unfold close
    split <;> simp_all
  · intro cName docName
    unfold getSnapshot
    rw [hcheck]
  · intro cName docName fields
    unfold getSnapshotProjected
    rw [hcheck]
  · intro requests
    unfold bulkGetSnapshot
    rw [hclosed]
    rfl
  · intro cName docName data
    unfold writeSnapshot
    rw [hcheck]
  · intro cName docName opData hv
    unfold writeOp
    rw [if_neg (by simp [hv]), hcheck]
  · intro cName docName opData hv
    unfold writeOp
    rw [if_pos hv]
  · intro cName docName
    unfold getVersion
    rw [hcheck]
  · intro cName docName start endV
    unfold getOps
    rw [hcheck]
  · intro cName fields inputQuery mode
    unfold queryProjected
    rw [hcheck]
  · intro cName fields inputQuery
    unfold queryProjected
    rw [hcheck]
  · intro cName docName fields inputQuery
    unfold queryDocProjected
    rw [hcheck]
  · unfold close
    rw [hclosed]
    rfl

/-- The adapter over the sample store after `close`. -/
theorem closed_adapter_rejects_witness :
    getVersion (close sampleAdapter).db "users" "fred"
        = ⟨(close sampleAdapter).db, .error "db already closed"⟩
    ∧ _check (close sampleAdapter).db "users_ops" = some "db already closed"
    ∧ close (close sampleAdapter).db = ⟨(close sampleAdapter).db, .error "db already closed"⟩ :=
  ⟨(closed_adapter_rejects sampleDriver (close sampleAdapter).db (by decide)).2.2.2.2.2.2.2.2.1
      "users" "fred",
   (closed_adapter_rejects sampleDriver (close sampleAdapter).db (by decide)).2.1 "users_ops",
   (closed_adapter_rejects sampleDriver (close sampleAdapter).db
      (by decide)).2.2.2.2.2.2.2.2.2.2.2.2.2⟩

/-- C29: for every collection name `c`, `getOplogCollectionName c` is
`c ++ '_ops'`, which `isValidCName` rejects; so with that name `getSnapshot`,
`getSnapshotProjected`, `writeSnapshot`, `queryProjected` and
`queryDocProjected` fail the check and leave the adapter and the log of store
calls as they were, and every call `bulkGetSnapshot` makes on the store is on
a collection other than an op collection. -/
theorem oplog_names_rejected (driver : Driver) (db : Adapter) (c : String) :
    getOplogCollectionName c = c ++ "_ops"
    ∧ isValidCName (getOplogCollectionName c) = false
    ∧ (∀ docName, ∃ e, getSnapshot db (getOplogCollectionName c) docName = ⟨db, .error e⟩)
    ∧ (∀ docName fields, ∃ e,
        getSnapshotProjected db (getOplogCollectionName c) docName fields = ⟨db, .error e⟩)
    ∧ (∀ docName data, ∃ e,
        writeSnapshot db (getOplogCollectionName c) docName data = ⟨db, .error e⟩)
    ∧ (∀ fields inputQuery mode, ∃ e,
        queryProjected driver db (getOplogCollectionName c) fields inputQuery (.given mode)
          = ⟨db, .error e⟩)
    ∧ (∀ fields inputQuery,
        (queryProjected driver db (getOplogCollectionName c) fields inputQuery
          .callbackOnly).db = db)
    ∧ (∀ docName fields inputQuery, ∃ e,
        queryDocProjected driver db (getOplogCollectionName c) docName fields inputQuery
          = ⟨db, .error e⟩)
    ∧ (∀ requests, ∃ added,
        (bulkGetSnapshot db requests).db.mongo.log = db.mongo.log ++ added
        ∧ ∀ a ∈ added, a.collection ≠ some (getOplogCollectionName c)) := by
  obtain ⟨e, he⟩ := check_oplog db c
  refine ⟨rfl, isValidCName_oplog c, ?_, ?_, ?_, ?_, ?_, ?_, ?_⟩
  · intro docName
    exact ⟨e, by unfold getSnapshot; rw [he]⟩
  · intro docName fields
    exact ⟨e, by unfold getSnapshotProjected; rw [he]⟩
  · intro docName data
    exact ⟨e, by unfold writeSnapshot; rw [he]⟩
  · intro fields inputQuery mode
    exact ⟨e, by unfold queryProjected; rw [he]⟩
  · intro fields inputQuery
    unfold queryProjected
    rw [he]
  · intro docName fields inputQuery
    exact ⟨e, by unfold queryDocProjected; rw [he]⟩
  · intro requests
    unfold bulkGetSnapshot
    cases hcl : db.closed
    · obtain ⟨added, hlog, hall⟩ :=
        getSnapshots_log requests (requests.map Prod.fst) (db.mongo, [], [])
      refine ⟨added, ?_, ?_⟩
      · simpa using hlog
      · intro a ha hcoll
        obtain ⟨x, hx, hv⟩ := hall a ha
        rw [hcoll] at hx
        cases hx
        rw [isValidCName_oplog] at hv
        cases hv
    · exact ⟨[], by simp, fun a h => by cases h⟩

/-- C30 (the code departs from the claim): the mapping with the one member
`__proto__: 5`, as `JSON.parse('{"__proto__": 5}')` gives it, has none of the
members `_data`, `_type`, `_v`, `_m`, `_id`, but `shallowClone` assigns it by
`out['__proto__'] = 5`, which makes no member: the encoded row holds the four
reserved members only, and `castToSnapshot (castToDoc docName record)` has the
empty mapping as data, not the data of the record. -/
theorem castToSnapshot_castToDoc_drops_proto_member :
    (∀ k ∈ ["_data", "_type", "_v", "_m", "_id"],
        k ∉ ([("__proto__", JVal.num 5)] : Row).map Prod.fst)
    ∧ castToDoc "fred"
        { data := .obj [("__proto__", .num 5)], type := .str "json0", v := .num 1, m := .null }
      = [("_type", .str "json0"), ("_v", .num 1), ("_m", .null), ("_id", .str "fred")]
    ∧ castToSnapshot (some (castToDoc "fred"
        { data := .obj [("__proto__", .num 5)], type := .str "json0", v := .num 1,
          m := .null }))
      = some { data := .obj [], type := .str "json0", v := .num 1, docName := .str "fred",
               m := .null }
    ∧ castToSnapshot (some (castToDoc "fred"
        { data := .obj [("__proto__", .num 5)], type := .str "json0", v := .num 1,
          m := .null }))
      ≠ some { data := .obj [("__proto__", .num 5)], type := .str "json0", v := .num 1,
               docName := .str "fred", m := .null } := by
  decide

/-- The round trip for data without a member named `__proto__`: when the data
is a mapping (each member name once, none of them `__proto__`) with none of
the members `_data`, `_type`, `_v`, `_m`, `_id`, the encoded row holds the
members of the mapping followed by `_type`, `_v`, `_m` and `_id`; when the
data is no mapping, the row holds `_data` (null for undefined data) followed
by these four; in both cases, for data other than `undefined`,
`castToSnapshot (castToDoc docName record)` is
`{data, type: type || null, v, docName, m}`. The row of such a mapping has the
names of its members and the four reserved names, and no others. -/
theorem castToSnapshot_castToDoc_record (docName : String) (r : SnapshotData) :
    (∀ kvs, r.data = .obj kvs → (kvs.map Prod.fst).Nodup → "__proto__" ∉ kvs.map Prod.fst →
        (∀ k ∈ ["_data", "_type", "_v", "_m", "_id"], k ∉ kvs.map Prod.fst) →
        castToDoc docName r
            = kvs ++ [("_type", if truthy r.type then r.type else .null), ("_v", r.v),
                ("_m", r.m), ("_id", .str docName)]
        ∧ castToSnapshot (some (castToDoc docName r))
            = some { data := r.data, type := if truthy r.type then r.type else .null,
                     v := r.v, docName := .str docName, m := r.m })
    ∧ ((∀ kvs, r.data ≠ .obj kvs) →
        castToDoc docName r
            = [("_data", if r.data = .undef then .null else r.data),
                ("_type", if truthy r.type then r.type else .null), ("_v", r.v),
                ("_m", r.m), ("_id", .str docName)]
        ∧ (r.data ≠ .undef →
            castToSnapshot (some (castToDoc docName r))
              = some { data := r.data, type := if truthy r.type then r.type else .null,
                       v := r.v, docName := .str docName, m := r.m }))
    ∧ (∀ kvs, r.data = .obj kvs → (kvs.map Prod.fst).Nodup → "__proto__" ∉ kvs.map Prod.fst →
        ∀ k, k ∈ (castToDoc docName r).map Prod.fst
          ↔ k ∈ kvs.map Prod.fst ∨ k ∈ ["_type", "_v", "_m", "_id"]) := by
  refine ⟨?_, ?_, ?_⟩
  · intro kvs hd hnd hp hres
    refine ⟨castToDoc_obj docName r kvs hd hnd (hres _ (by simp)) (hres _ (by simp))
      (hres _ (by simp)) (hres _ (by simp)) hp, ?_⟩
    rw [castToSnapshot_castToDoc_obj docName r kvs hd hnd (hres _ (by simp))
      (hres _ (by simp)) (hres _ (by simp)) (hres _ (by simp)) (hres _ (by simp)) hp, hd]
  · intro hno
    exact ⟨castToDoc_boxed docName r hno,
      fun hu => castToSnapshot_castToDoc_boxed docName r hno hu⟩
  · intro kvs hd hnd hp k
    exact castToDoc_keys docName r kvs hd hnd hp k

/-- The round trip of a mapping, and of an array in a record with a falsy
type. -/
theorem castToSnapshot_castToDoc_record_witness :
    castToSnapshot (some (castToDoc "fred"
        { data := .obj [("name", .str "Fred")], type := .str "json0", v := .num 2,
          m := .null }))
      = some { data := .obj [("name", .str "Fred")], type := .str "json0", v := .num 2,
               docName := .str "fred", m := .null }
    ∧ castToSnapshot (some (castToDoc "list"
        { data := .arr [.num 1], type := .undef, v := .num 0, m := .undef }))
      = some { data := .arr [.num 1], type := .null, v := .num 0, docName := .str "list",
               m := .undef } :=
  ⟨((castToSnapshot_castToDoc_record "fred"
      { data := .obj [("name", .str "Fred")], type := .str "json0", v := .num 2,
        m := .null }).1 [("name", .str "Fred")] rfl (by decide) (by decide) (by decide)).2,
   ((castToSnapshot_castToDoc_record "list"
      { data := .arr [.num 1], type := .undef, v := .num 0, m := .undef }).2.1
      (by intro kvs h; cases h)).2 (by decide)⟩

/-- C28 (the code departs from the claim): `constructor` is a valid
collection name, but `opIndexes['constructor']` finds the member every object
inherits, so `getVersion` reads the op collection `constructor_ops` without
the index ever being requested. -/
theorem index_not_requested_for_inherited_name :
    isValidCName "constructor" = true
    ∧ (getVersion (LiveDbMongo emptyStore none) "constructor" "doc").db.mongo.log
        = [.findOne "constructor_ops" (.obj [("name", .str "doc")])
            (.obj [("sort", .obj [("v", .num (-1))])]),
           .findOne "constructor" (.obj [("_id", .str "doc")]) (.obj [("_v", .num 1)])]
    ∧ Access.ensureIndex "constructor_ops"
        ∉ (getVersion (LiveDbMongo emptyStore none) "constructor" "doc").db.mongo.log := by
  decide

/-- Index requests for other names: for every sequence of `writeOp`,
`getVersion` and `getOps` calls on an adapter newly made over a handle on
which no call was made yet, and every collection name that is not the name of
a member of `Object.prototype`: the index of its op collection is requested exactly once
if a call got to the op collection with that name (the name is valid and, for
`writeOp`, `v` is neither null nor undefined) and never otherwise, and every
call on the op collection comes after the request; for a name of a member of
`Object.prototype` the index is never requested. Whatever the driver reports
for the index, the calls pass the same to their callbacks and store the
same. -/
theorem index_requested_once (mongo : Mongo) (options : Option Options)
    (calls : List OpCall) (hnew : mongo.log = []) :
    (∀ c, c ∉ objectPrototypeNames →
        (∃ call ∈ calls, call.cName = c ∧ call.reaches = true) →
        (runCalls (LiveDbMongo mongo options) calls).mongo.log.count
          (.ensureIndex (getOplogCollectionName c)) = 1)
    ∧ (∀ c, (c ∈ objectPrototypeNames
          ∨ ¬ ∃ call ∈ calls, call.cName = c ∧ call.reaches = true) →
        (runCalls (LiveDbMongo mongo options) calls).mongo.log.count
          (.ensureIndex (getOplogCollectionName c)) = 0)
    ∧ (∀ (pre : List Access) (a : Access) (post : List Access) (c : String),
        (runCalls (LiveDbMongo mongo options) calls).mongo.log = pre ++ a :: post →
        a.collection = some (getOplogCollectionName c) → c ∉ objectPrototypeNames →
        Access.ensureIndex (getOplogCollectionName c) ∈ pre)
    ∧ (∀ (db : Adapter) (c d : String) (opData : Row) (e : Option String),
        (writeOp (withIndexFault db e) c d opData).out
            = (writeOp (withIndexFault db none) c d opData).out
        ∧ (writeOp (withIndexFault db e) c d opData).db.mongo.colls
            = (writeOp (withIndexFault db none) c d opData).db.mongo.colls)
    ∧ (∀ (db : Adapter) (c d : String) (e : Option String),
        (getVersion (withIndexFault db e) c d).out
          = (getVersion (withIndexFault db none) c d).out)
    ∧ (∀ (db : Adapter) (c d : String) (start : Int) (endV : JVal) (e : Option String),
        (getOps (withIndexFault db e) c d start endV).out
          = (getOps (withIndexFault db none) c d start endV).out) := by
  obtain ⟨_, hmem, hcount, hfirst⟩ :=
    indexInv_run calls (LiveDbMongo mongo options) [] (indexInv_new mongo options hnew)
  simp only [List.nil_append] at hmem
  refine ⟨?_, ?_, hfirst, ?_, ?_, ?_⟩
  · intro c hp hex
    rw [hcount c, if_pos ((hmem c).mpr ⟨hp, hex⟩)]
  · intro c h
    rw [hcount c, if_neg]
    intro hin
    obtain ⟨hp, hex⟩ := (hmem c).mp hin
    rcases h with h | h
    · exact hp h
    · exact h hex
  · intro db c d opData e
    have h1 := writeOp_indexFault db c d opData e
    have h2 := writeOp_indexFault db c d opData none
    exact ⟨h1.1.trans h2.1.symm, h1.2.trans h2.2.symm⟩
  · intro db c d e
    exact (getVersion_indexFault db c d e).trans (getVersion_indexFault db c d none).symm
  · intro db c d start endV e
    exact (getOps_indexFault db c d start endV e).trans
      (getOps_indexFault db c d start endV none).symm

/-- Three calls for the collection `users` on a new adapter over an empty
store whose driver fails to create indexes; the index of `users_ops` is
requested once. -/
theorem index_requested_once_witness :
    (runCalls (LiveDbMongo { emptyStore with indexFault := some "no index" } none)
        [.getVersion "users" "fred", .writeOp "users" "fred" [("v", .num 0)],
         .getOps "users" "fred" 0 .null]).mongo.log.count
      (.ensureIndex (getOplogCollectionName "users")) = 1 :=
  (index_requested_once { emptyStore with indexFault := some "no index" } none
    [.getVersion "users" "fred", .writeOp "users" "fred" [("v", .num 0)],
     .getOps "users" "fred" 0 .null] rfl).1 "users" (by decide)
    ⟨.getVersion "users" "fred", by decide, rfl, by decide⟩

end LiveDbMongo

open JS JS.JVal RemoteDoc
namespace RemoteDoc

/-- Counterexample for C24: the component `{p: ['text', 0], si: 'x', na: 1}`
has no `oi`, `od`, `li`, `ld` or `lm` and a defined `na`, but `_onOp` tests
`si` before `na`, so on the snapshot `{text: 'xa'}` it emits the text change
at `['notes', 'doc', 'text']`, not a `change` at `['notes', 'doc', 'text', 0]`
with the value there and any previous value. -/
theorem onOp_text_before_increment :
    _onOp (sampleRemote (.obj [("text", .str "xa")]))
        [{ p := [.key "text", .idx 0], si := .str "x", na := .num 1 }]
      = .value [.change [.key "notes", .key "doc", .key "text"] (.str "xa") (.str "a")
          [("$remote", .bool true), ("$type", .str "stringInsert"), ("index", .num 0),
            ("text", .str "x")]]
    ∧ ∀ previous, _onOp (sampleRemote (.obj [("text", .str "xa")]))
        [{ p := [.key "text", .idx 0], si := .str "x", na := .num 1 }]
      ≠ .value [.change [.key "notes", .key "doc", .key "text", .idx 0]
          (lookup [.key "text", .idx 0] (.obj [("text", .str "xa")])) previous
          [("$remote", .bool true)]] := by
  have h : _onOp (sampleRemote (.obj [("text", .str "xa")]))
        [{ p := [.key "text", .idx 0], si := .str "x", na := .num 1 }]
      = .value [.change [.key "notes", .key "doc", .key "text"] (.str "xa") (.str "a")
          [("$remote", .bool true), ("$type", .str "stringInsert"), ("index", .num 0),
            ("text", .str "x")]] := by
    decide
  refine ⟨h, ?_⟩
  intro previous e
  rw [h] at e
  simp at e

/-- C24 (amended): for a remote op whose first component `c` has path `p`,
with `E = [collectionName, id] ++ p`, `_onOp` emits exactly one event:
`change` at `E` with `(c.oi, c.od)` if `c.oi` or `c.od` is defined; else
`change` at `E` with `(c.li, c.ld)` if both are defined; else `insert` at the
parent of `E` with the last segment and `[c.li]` if `c.li` is defined; else
`remove` there with the last segment and `[c.ld]` if `c.ld` is defined; else
`move` there with the last segment, `c.lm` and 1 if `c.lm` is defined; else,
if `c.si` and `c.sd` are undefined and `c.na` is defined, `change` at `E` with
`v`, the value at `p` in the snapshot, and a previous value, which is the
number `v - c.na` when `v`, `c.na` and their difference are safe integers; and
a component with none of these fields emits nothing. -/
theorem onOp_event (r : Remote) (c : Component) (rest : List Component) :
    ((c.oi ≠ .undef ∨ c.od ≠ .undef) →
        _onOp r (c :: rest)
          = .value [.change (.key r.collectionName :: .key r.doc.id :: c.p) c.oi c.od r.pass])
    ∧ (c.oi = .undef → c.od = .undef → c.li ≠ .undef → c.ld ≠ .undef →
        _onOp r (c :: rest)
          = .value [.change (.key r.collectionName :: .key r.doc.id :: c.p) c.li c.ld r.pass])
    ∧ (c.oi = .undef → c.od = .undef → c.li ≠ .undef → c.ld = .undef →
        _onOp r (c :: rest)
          = .value [.insert (Segment.key r.collectionName :: .key r.doc.id :: c.p).dropLast
              ((Segment.key r.collectionName :: .key r.doc.id :: c.p).getLast
                (List.cons_ne_nil _ _)) [c.li] r.pass])
    ∧ (c.oi = .undef → c.od = .undef → c.li = .undef → c.ld ≠ .undef →
        _onOp r (c :: rest)
          = .value [.remove (Segment.key r.collectionName :: .key r.doc.id :: c.p).dropLast
              ((Segment.key r.collectionName :: .key r.doc.id :: c.p).getLast
                (List.cons_ne_nil _ _)) [c.ld] r.pass])
    ∧ (c.oi = .undef → c.od = .undef → c.li = .undef → c.ld = .undef → c.lm ≠ .undef →
        _onOp r (c :: rest)
          = .value [.move (Segment.key r.collectionName :: .key r.doc.id :: c.p).dropLast
              ((Segment.key r.collectionName :: .key r.doc.id :: c.p).getLast
                (List.cons_ne_nil _ _)) c.lm 1 r.pass])
    ∧ (c.oi = .undef → c.od = .undef → c.li = .undef → c.ld = .undef → c.lm = .undef →
        c.si = .undef → c.sd = .undef → c.na ≠ .undef →
        (∃ previous, _onOp r (c :: rest)
            = .value [.change (.key r.collectionName :: .key r.doc.id :: c.p)
                (lookup c.p r.doc.snapshot) previous r.pass])
        ∧ ∀ v delta, lookup c.p r.doc.snapshot = .num v → c.na = .num delta →
            isSafeInteger v = true → isSafeInteger delta = true →
            isSafeInteger (v - delta) = true →
            _onOp r (c :: rest)
              = .value [.change (.key r.collectionName :: .key r.doc.id :: c.p)
                  (.num v) (.num (v - delta)) r.pass])
    ∧ (c.oi = .undef → c.od = .undef → c.li = .undef → c.ld = .undef → c.lm = .undef →
        c.si = .undef → c.sd = .undef → c.na = .undef →
        _onOp r (c :: rest) = .value []) := by
  refine ⟨?_, ?_, ?_, ?_, ?_, ?_, ?_⟩
  · intro h
    have hd : (defined c.oi || defined c.od) = true := by
      rcases h with h | h
      · rw [defined_of_ne _ h]; rfl
      · rw [defined_of_ne _ h]; simp
    unfold _onOp
    simp only [hd, if_true]
  · intro h1 h2 h3 h4
    unfold _onOp
    simp only [h1, h2, defined_undef, defined_of_ne _ h3, defined_of_ne _ h4, Bool.or_self,
      Bool.false_eq_true, if_false, Bool.and_self, if_true]
  · intro h1 h2 h3 h4
    unfold _onOp
    simp only [h1, h2, h4, defined_undef, defined_of_ne _ h3, Bool.or_self,
      Bool.false_eq_true, if_false, Bool.and_false, if_true, jsSlice_dropLast]
  · intro h1 h2 h3 h4
    unfold _onOp
    simp only [h1, h2, h3, defined_undef, defined_of_ne _ h4, Bool.or_self,
      Bool.false_eq_true, if_false, Bool.false_and, if_true, jsSlice_dropLast]
  · intro h1 h2 h3 h4 h5
    unfold _onOp
    simp only [h1, h2, h3, h4, defined_undef, defined_of_ne _ h5, Bool.or_self,
      Bool.false_eq_true, if_false, Bool.and_self, if_true, jsSlice_dropLast]
  · intro h1 h2 h3 h4 h5 h6 h7 h8
    have hev : _onOp r (c :: rest)
        = .value [.change (.key r.collectionName :: .key r.doc.id :: c.p)
            (lookup c.p r.doc.snapshot) (jsSub (lookup c.p r.doc.snapshot) c.na) r.pass] := by
      unfold _onOp
      simp only [h1, h2, h3, h4, h5, h6, h7, defined_undef, defined_of_ne _ h8, Bool.or_self,
        Bool.false_eq_true, if_false, Bool.and_self, if_true, get]
    refine ⟨⟨_, hev⟩, ?_⟩
    intro v delta hv hdelta _ _ _
    rw [hev, hv, hdelta]
    rfl
  · intro h1 h2 h3 h4 h5 h6 h7 h8
    unfold _onOp
    simp only [h1, h2, h3, h4, h5, h6, h7, h8, defined_undef, Bool.or_self,
      Bool.false_eq_true, if_false, Bool.and_self]

/-- Witness for C24 (amended): a remote list insert at `items.1` and a remote increment
of `count` by 2 on the snapshot `{items: ['a', 'b'], count: 5}`. -/
theorem onOp_event_witness :
    _onOp (sampleRemote (.obj [("items", .arr [.str "a", .str "b"]), ("count", .num 5)]))
        [{ p := [.key "items", .idx 1], li := .str "b" }]
      = .value [.insert [.key "notes", .key "doc", .key "items"] (.idx 1) [.str "b"]
          [("$remote", .bool true)]]
    ∧ _onOp (sampleRemote (.obj [("items", .arr [.str "a", .str "b"]), ("count", .num 5)]))
        [{ p := [.key "count"], na := .num 2 }]
      = .value [.change [.key "notes", .key "doc", .key "count"] (.num 5) (.num 3)
          [("$remote", .bool true)]] :=
  ⟨(onOp_event (sampleRemote (.obj [("items", .arr [.str "a", .str "b"]), ("count", .num 5)]))
      { p := [.key "items", .idx 1], li := .str "b" } []).2.2.1 rfl rfl (by decide) rfl,
   ((onOp_event (sampleRemote (.obj [("items", .arr [.str "a", .str "b"]), ("count", .num 5)]))
      { p := [.key "count"], na := .num 2 } []).2.2.2.2.2.1 rfl rfl rfl rfl rfl rfl rfl
      (by decide)).2 5 2 (by decide) rfl (by decide) (by decide) (by decide)⟩

/-- C25: for every text `s`, index `i <= |s|` and text `t`: when the value in
the model at `P` is `s` with `t` put in at `i`, the `StringInsertOp` branch of
`_onOp`, for a component with path `P ++ [i]` and `si = t`, emits `change` at
`[collectionName, id] ++ P` with that value as the new value, `s` as the
previous one, and the pass data `$type: 'stringInsert'`, `index: i`,
`text: t`; when `s` holds `t` at `i` and the value in the model is `s` without
these `|t|` characters, the `StringRemoveOp` branch, for `sd = t`, emits
`change` with `s` as the previous value and the pass data
`$type: 'stringRemove'`, `index: i`, `howMany: |t|`. Splicing the previous
text as `onStringInsert` and `onStringRemove` of textDiff.js do gives the new
value back. -/
theorem onOp_text_previous (r : Remote) (P : Path) (i : Nat) (s t : String)
    (rest : List Component) (hi : i ≤ s.length) :
    (∀ c : Component, c.p = P ++ [.idx i] → c.oi = .undef → c.od = .undef → c.li = .undef →
        c.ld = .undef → c.lm = .undef → c.si = .str t →
        lookup P r.doc.collectionData
          = .str (String.mk (s.data.take i ++ t.data ++ s.data.drop i)) →
        _onOp r (c :: rest)
          = .value [.change (.key r.collectionName :: .key r.doc.id :: P)
              (.str (String.mk (s.data.take i ++ t.data ++ s.data.drop i))) (.str s)
              (mergePass r.pass
                [("$type", .str "stringInsert"), ("index", .num i), ("text", .str t)])])
    ∧ (∀ c : Component, c.p = P ++ [.idx i] → c.oi = .undef → c.od = .undef →
        c.li = .undef → c.ld = .undef → c.lm = .undef → c.si = .undef → c.sd = .str t →
        (s.data.drop i).take t.length = t.data →
        lookup P r.doc.collectionData
          = .str (String.mk (s.data.take i ++ s.data.drop (i + t.length))) →
        _onOp r (c :: rest)
          = .value [.change (.key r.collectionName :: .key r.doc.id :: P)
              (.str (String.mk (s.data.take i ++ s.data.drop (i + t.length)))) (.str s)
              (mergePass r.pass
                [("$type", .str "stringRemove"), ("index", .num i),
                 ("howMany", .num t.length)])])
    ∧ onStringInsert (some s) i t = String.mk (s.data.take i ++ t.data ++ s.data.drop i)
    ∧ onStringRemove (some s) i t.length
        = String.mk (s.data.take i ++ s.data.drop (i + t.length)) := by
  have hi' : i ≤ s.data.length := hi
  refine ⟨?_, ?_, ?_, ?_⟩
  · intro c hp h1 h2 h3 h4 h5 h6 hcur
    have := onStringInsertOp_aux r P i s t hi hcur
    unfold _onOp
    simp only [h1, h2, h3, h4, h5, h6, hp, defined_undef, Bool.or_self, Bool.false_eq_true,
      if_false, Bool.and_self, defined_of_ne (.str t) (by simp), if_true, last_segment, segVal]
    exact this
  · intro c hp h1 h2 h3 h4 h5 h6 h7 hat hcur
    have := onStringRemoveOp_aux r P i s t hi hat hcur
    unfold _onOp
    simp only [h1, h2, h3, h4, h5, h6, h7, hp, defined_undef, Bool.or_self,
      Bool.false_eq_true, if_false, Bool.and_self, defined_of_ne (.str t) (by simp), if_true,
      last_segment, segVal]
    exact this
  · unfold onStringInsert
    simp only [Option.getD_some]
    rw [jsSlice_zero_nat, jsSlice_to_end _ _ hi']
    apply String.ext
    rw [String.data_append, String.data_append]
  · unfold onStringRemove
    simp only [Option.getD_some]
    rw [jsSlice_zero_nat]
    by_cases hle : i + t.length ≤ s.data.length
    · have e : (i : Int) + (t.length : Int) = ((i + t.length : Nat) : Int) := by push_cast; rfl
      rw [e, jsSlice_to_end _ _ hle]
      rfl
    · have hdrop : s.data.drop (i + t.length) = [] := List.drop_of_length_le (by omega)
      have hsl : jsSlice s.data ((i : Int) + (t.length : Int)) (s.data.length : Int) = [] := by
        unfold jsSlice
        have h1 : ¬ ((i : Int) + (t.length : Int) < 0) := by omega
        have h2 : ¬ ((s.data.length : Int) < 0) := by omega
        simp only [h1, h2, if_false]
        have h3 : min ((i : Int) + (t.length : Int)) (s.data.length : Int) = s.data.length := by
          omega
        rw [h3]
        simp
      rw [hsl, hdrop]
      rfl

/-- Witness for C25: `'lo'` put into `'help'` at 3 gives `'hellop'`, and
`'ll'` taken out of `'hello'` at 2 gives `'heo'`. -/
theorem onOp_text_previous_witness :
    _onOp (RemoteDoc [] "notes" "doc" true (.obj [("text", .str "hellop")]))
        [{ p := [.key "text", .idx 3], si := .str "lo" }]
      = .value [.change [.key "notes", .key "doc", .key "text"] (.str "hellop") (.str "help")
          [("$remote", .bool true), ("$type", .str "stringInsert"), ("index", .num 3),
            ("text", .str "lo")]]
    ∧ _onOp (RemoteDoc [] "notes" "doc" true (.obj [("text", .str "heo")]))
        [{ p := [.key "text", .idx 2], sd := .str "ll" }]
      = .value [.change [.key "notes", .key "doc", .key "text"] (.str "heo") (.str "hello")
          [("$remote", .bool true), ("$type", .str "stringRemove"), ("index", .num 2),
            ("howMany", .num 2)]] :=
  ⟨(onOp_text_previous (RemoteDoc [] "notes" "doc" true (.obj [("text", .str "hellop")]))
      [.key "text"] 3 "help" "lo" [] (by decide)).1
      { p := [.key "text", .idx 3], si := .str "lo" } rfl rfl rfl rfl rfl rfl rfl (by decide),
   (onOp_text_previous (RemoteDoc [] "notes" "doc" true (.obj [("text", .str "heo")]))
      [.key "text"] 2 "hello" "ll" [] (by decide)).2.1
      { p := [.key "text", .idx 2], sd := .str "ll" } rfl rfl rfl rfl rfl rfl rfl rfl
      (by decide) (by decide)⟩

/-- C26: for every RemoteDoc, a notification delivered with `isLocal` true
emits no event: the `op` and `del` handlers leave the RemoteDoc as it is, and
the `create` handler only sets `createdLocally`. With `isLocal` false the
`del` handler emits `change` at `[collectionName, id]` with `undefined` and
the previous snapshot it is given, and the `create` handler emits `change`
there with the snapshot, in which the id was set, and `undefined`. -/
theorem local_notifications_silent (r : Remote) :
    (∀ op, onShareOp r op true = (r, .value []))
    ∧ (∀ previous, onShareDel r true previous = (r, []))
    ∧ onShareCreate r true = ({ r with createdLocally := true }, [])
    ∧ (∀ previous, (onShareDel r false previous).2
        = [.change [.key r.collectionName, .key r.doc.id] .undef previous r.pass])
    ∧ (onShareCreate r false).2
        = [.change [.key r.collectionName, .key r.doc.id]
            (_updateCollectionData r.doc).snapshot .undef r.pass] := by
  refine ⟨fun _ => rfl, fun _ => rfl, rfl, fun _ => rfl, rfl⟩

end RemoteDoc

/-! ## The claims: C31 to C40 -/

open JS JS.JVal
namespace LiveDbMongo

/-- C31: the key `writeOp` derives, `docName + ' v' + v`, is injective on
document names and natural-number versions below `2^53`, the natural numbers
a JavaScript number tells apart and prints in decimal digits: equal keys, and
so equal `_id` members of the rows `writeOp` saves, come from the same
document name and the same version; and a `writeOp` for another document or
version, in whatever state of the adapter, leaves the row found under the key
of `(d1, v1)` in every collection as it was. -/
theorem writeOp_key_injective (d1 d2 : String) (v1 v2 : Nat)
    (_hv1 : v1 < 2 ^ 53) (_hv2 : v2 < 2 ^ 53) :
    (d1 ++ " v" ++ RemoteDoc.jsToString (.num v1) = d2 ++ " v" ++ RemoteDoc.jsToString (.num v2)
        → d1 = d2 ∧ v1 = v2)
    ∧ (∀ op1 op2 : Row, assocGet op1 "v" = .num v1 → assocGet op2 "v" = .num v2 →
        assocGet (opRow d1 op1) "_id" = assocGet (opRow d2 op2) "_id" → d1 = d2 ∧ v1 = v2)
    ∧ (∀ (db : Adapter) (c x : String) (op2 : Row), assocGet op2 "v" = .num v2 →
        (d1 ≠ d2 ∨ v1 ≠ v2) →
        findById ((writeOp db c d2 op2).db.mongo.rows x)
            (.str (d1 ++ " v" ++ RemoteDoc.jsToString (.num v1)))
          = findById (db.mongo.rows x)
              (.str (d1 ++ " v" ++ RemoteDoc.jsToString (.num v1)))) := by
  have key : d1 ++ " v" ++ RemoteDoc.jsToString (.num v1)
      = d2 ++ " v" ++ RemoteDoc.jsToString (.num v2) → d1 = d2 ∧ v1 = v2 := by
    intro h
    simp only [RemoteDoc.jsToString] at h
    obtain ⟨hd, hv⟩ := opKey_injective _ _ _ _ h
    exact ⟨hd, by exact_mod_cast hv⟩
  refine ⟨key, ?_, ?_⟩
  · intro op1 op2 h1 h2 h
    rw [opRow_id, opRow_id, h1, h2] at h
    exact key (JVal.str.inj h)
  · intro db c x op2 h2 hne
    rcases writeOp_rows_any db c d2 op2 x with h | h
    · rw [h]
    · rw [h]
      apply findById_upsertById_other _ _ _ _ rfl
      rw [opRow_id, h2]
      intro heq
      obtain ⟨hd, hv⟩ := key (JVal.str.inj heq)
      rcases hne with hne | hne
      · exact hne hd
      · exact hne hv

/-- Witness for C31: the documents `a v1` at version 2 and `a` at version 12
have the keys `a v1 v2` and `a v12`, and after the op of the first was
written, writing the op of the second leaves it in place. -/
theorem writeOp_key_injective_witness :
    assocGet (opRow "a v1" [("v", .num 2)]) "_id" = .str "a v1 v2"
    ∧ assocGet (opRow "a" [("v", .num 12)]) "_id" = .str "a v12"
    ∧ findById
        ((writeOp (writeOp sampleAdapter "users" "a v1" [("v", .num 2)]).db "users" "a"
          [("v", .num 12)]).db.mongo.rows "users_ops") (.str "a v1 v2")
      = some (opRow "a v1" [("v", .num 2)]) :=
  ⟨by decide, by decide,
    ((writeOp_key_injective "a v1" "a" 2 12 (by decide) (by decide)).2.2
      (writeOp sampleAdapter "users" "a v1" [("v", .num 2)]).db "users" "users_ops"
      [("v", .num 12)] rfl (Or.inl (by decide))).trans (by decide)⟩

/-- C32 (the code departs from the claim): for the query
`{$query: {"__proto__": {a: 1}}}`, as `JSON.parse` gives it, `shallowClone`
copies the filter by `out['__proto__'] = {a: 1}`, which makes no member of the
copy but gives it the prototype `{a: 1}`: the filter `normalizeQuery` returns
has `_type` as its only own member, and neither `__proto__` nor `a`. It holds
`a` by inheritance only, which a mapping given by its own members does not
show; the loop `for (var key in object)` of a second call finds `a` there and
makes it an own member of the next copy. -/
theorem normalizeQuery_proto_member_not_copied :
    normalizeQuery [("$query", .obj [("__proto__", .obj [("a", .num 1)])])]
      = [("$query", .obj [("_type", .obj [("$ne", .null)])])]
    ∧ shallowClone [("__proto__", .obj [("a", .num 1)])] = []
    ∧ (∀ F, assocGet
          (normalizeQuery [("$query", .obj [("__proto__", .obj [("a", .num 1)])])]) "$query"
          = .obj F → "__proto__" ∉ F.map Prod.fst ∧ "a" ∉ F.map Prod.fst) := by
  have h : normalizeQuery [("$query", .obj [("__proto__", .obj [("a", .num 1)])])]
      = [("$query", .obj [("_type", .obj [("$ne", .null)])])] := by
    decide
  refine ⟨h, by decide, ?_⟩
  intro F hF
  rw [h] at hF
  have e : F = [("_type", .obj [("$ne", .null)])] := by
    have hF' : JVal.obj [("_type", .obj [("$ne", .null)])] = .obj F := hF
    cases hF'
    rfl
  rw [e]
  decide

/-- Queries without a member named `__proto__`, in the query and in a mapping
given as `$query`: `normalizeQuery (normalizeQuery q)` is `normalizeQuery q`.
And for every query object in the store, the object `normalizeQuery` returns
is a new one and every object the store held before the call is as it was,
so, in a store without dangling references, `q` and `q.$query` have the
members and values (read to any depth) they had before: the filter on `_type`
is written to a copy. -/
theorem normalizeQuery_idempotent_copy (q : Row) :
    ("__proto__" ∉ q.map Prod.fst →
      (∀ kvs, assocGet q "$query" = .obj kvs → "__proto__" ∉ kvs.map Prod.fst) →
      normalizeQuery (normalizeQuery q) = normalizeQuery q)
    ∧ (∀ (h : Heap) (inputQuery : Nat),
        h.length ≤ (OnHeap.normalizeQuery h inputQuery).2
        ∧ (∀ a, a < h.length → (OnHeap.normalizeQuery h inputQuery).1[a]? = h[a]?)
        ∧ (h.Closed → inputQuery < h.length →
            (OnHeap.normalizeQuery h inputQuery).1.getProp (.ref inputQuery) (.key "$query")
              = h.getProp (.ref inputQuery) (.key "$query")
            ∧ ∀ depth,
              (OnHeap.normalizeQuery h inputQuery).1.read depth (.ref inputQuery)
                = h.read depth (.ref inputQuery)
              ∧ (OnHeap.normalizeQuery h inputQuery).1.read depth
                  (h.getProp (.ref inputQuery) (.key "$query"))
                = h.read depth (h.getProp (.ref inputQuery) (.key "$query")))) := by
  constructor
  · intro _ _
    obtain ⟨hnd, hnp, F, hF, hFnd, hFnp, ht⟩ := normalizeQuery_normal q
    exact normalizeQuery_of_normal (normalizeQuery q) F hnd hnp hF hFnd hFnp ht
  · intro h inputQuery
    obtain ⟨h1, _, h3⟩ := heapNormalizeQuery_frame h inputQuery
    refine ⟨h1, h3, ?_⟩
    intro hc hin
    have hin' : ∀ a, HVal.ref inputQuery = .ref a → a < h.length := by
      intro a ha
      cases ha
      exact hin
    refine ⟨getProp_frame h _ h3 (.ref inputQuery) _ hin', ?_⟩
    intro depth
    exact ⟨read_frame h _ hc h3 depth (.ref inputQuery) hin',
      read_frame h _ hc h3 depth _ (fun b hb => getProp_closed h hc (.ref inputQuery) _ b hb)⟩

/-- For the query `{$query: {a: 1}, $orderby: {a: 1}}` in a store,
`normalizeQuery` makes three new objects, the query it returns reads as the
value `normalizeQuery` gives for the value of the input, and the two objects
of the input read as before. -/
theorem normalizeQuery_idempotent_copy_witness :
    (OnHeap.normalizeQuery
        [Cell.mapping [("$query", .ref 1), ("$orderby", .data (.obj [("a", .num 1)]))],
          Cell.mapping [("a", .data (.num 1))]] 0).1
      = [Cell.mapping [("$query", .ref 1), ("$orderby", .data (.obj [("a", .num 1)]))],
          Cell.mapping [("a", .data (.num 1))],
          Cell.mapping [("$query", .ref 3), ("$orderby", .data (.obj [("a", .num 1)]))],
          Cell.mapping [("a", .data (.num 1)), ("_type", .ref 4)],
          Cell.mapping [("$ne", .data .null)]]
    ∧ Heap.read (OnHeap.normalizeQuery
        [Cell.mapping [("$query", .ref 1), ("$orderby", .data (.obj [("a", .num 1)]))],
          Cell.mapping [("a", .data (.num 1))]] 0).1 3 (.ref 2)
      = .obj (normalizeQuery [("$query", .obj [("a", .num 1)]), ("$orderby", .obj [("a", .num 1)])])
    ∧ Heap.read (OnHeap.normalizeQuery
        [Cell.mapping [("$query", .ref 1), ("$orderby", .data (.obj [("a", .num 1)]))],
          Cell.mapping [("a", .data (.num 1))]] 0).1 2 (.ref 0)
      = .obj [("$query", .obj [("a", .num 1)]), ("$orderby", .obj [("a", .num 1)])]
    ∧ normalizeQuery (normalizeQuery [("a", .num 1), ("$limit", .num 5)])
      = normalizeQuery [("a", .num 1), ("$limit", .num 5)] :=
  ⟨by decide, by decide,
    (((normalizeQuery_idempotent_copy []).2
      [Cell.mapping [("$query", .ref 1), ("$orderby", .data (.obj [("a", .num 1)]))],
        Cell.mapping [("a", .data (.num 1))]] 0).2.2 (by decide) (by decide)).2 2
      |>.1.trans (by decide),
    (normalizeQuery_idempotent_copy [("a", .num 1), ("$limit", .num 5)]).1 (by decide)
      (by
        intro kvs h
        have h' : JVal.undef = .obj kvs := h
        cases h')⟩

/-- C33 does not hold: `checkQuery` looks at the member `$where` of the filter
only. On an adapter with `allowWhereQuery` false that accepts the collection
name and has no polling handle, for every expression `w` that is neither null
nor undefined: the query `{$where: w}` is refused, but the query
`{$or: [{$where: w}]}` passes the check, and `queryProjected` hands the store
a `find` and `queryDocProjected` a `findOne` whose filter holds `$where`
inside `$or`; and for `{$query: {a: 1}, $where: w}` the query handed to `find`
has `$where` next to `$query`. -/
theorem nested_where_reaches_store (driver : Driver) (db : Adapter) (cName docName : String)
    (fields : Option Row) (w : JVal) (hcheck : _check db cName = none)
    (hdefault : db.allowWhereQuery = .bool false) (hpoll : db.mongoPoll = none)
    (hw : isNullish w = false) :
    checkQuery db (normalizeQuery [("$where", w)]) = some "Illegal $where query"
    ∧ checkQuery db (normalizeQuery [("$or", .arr [.obj [("$where", w)]])]) = none
    ∧ (queryProjected driver db cName fields [("$or", .arr [.obj [("$where", w)]])]
          (.given .undef)).db.mongo.log
        = db.mongo.log ++
          [.find cName
            (.obj [("$query", .obj [("$or", .arr [.obj [("$where", w)]]),
              ("_type", .obj [("$ne", .null)])])])
            (.obj (projectionOf fields))]
    ∧ mentionsWhere
        (.obj [("$query", .obj [("$or", .arr [.obj [("$where", w)]]),
          ("_type", .obj [("$ne", .null)])])]) = true
    ∧ (queryDocProjected driver db cName docName fields
          [("$or", .arr [.obj [("$where", w)]])]).db.mongo.log
        = db.mongo.log ++
          [.findOne cName
            (.obj [("$query", .obj [("$or", .arr [.obj [("$where", w)]]),
              ("_type", .obj [("$ne", .null)]), ("_id", .str docName)])])
            (.obj (projectionOf fields))]
    ∧ (queryProjected driver db cName fields
          [("$query", .obj [("a", .num 1)]), ("$where", w)] (.given .undef)).db.mongo.log
        = db.mongo.log ++
          [.find cName
            (.obj [("$query", .obj [("a", .num 1), ("_type", .obj [("$ne", .null)])]),
              ("$where", w)])
            (.obj (projectionOf fields))]
    ∧ mentionsWhere
        (.obj [("$query", .obj [("a", .num 1), ("_type", .obj [("$ne", .null)])]),
          ("$where", w)]) = true := by
  have hn1 : normalizeQuery [("$or", .arr [.obj [("$where", w)]])]
      = [("$query", .obj [("$or", .arr [.obj [("$where", w)]]),
          ("_type", .obj [("$ne", .null)])])] := rfl
  have hn2 : normalizeQuery [("$query", .obj [("a", .num 1)]), ("$where", w)]
      = [("$query", .obj [("a", .num 1), ("_type", .obj [("$ne", .null)])]),
          ("$where", w)] := rfl
  have hc1 : checkQuery db [("$query", .obj [("$or", .arr [.obj [("$where", w)]]),
      ("_type", .obj [("$ne", .null)])])] = none := by
    simp [checkQuery, getProp, assocGet, Segment.name, isNullish]
  have hc2 : checkQuery db [("$query", .obj [("a", .num 1), ("_type", .obj [("$ne", .null)])]),
      ("$where", w)] = none := by
    simp [checkQuery, getProp, assocGet, Segment.name, isNullish]
  have hq : ∀ (q : Row), truthy (assocGet q "$count") = false →
      extractCursorMethods q = ([], q) →
      (_query driver db.mongo cName q fields).1.log
        = db.mongo.log ++ [.find cName (.obj q) (.obj (projectionOf fields))] := by
    intro q h1 h2
    unfold _query
    rw [h1]
    simp only [Bool.false_eq_true, if_false, h2]
    cases hf : (db.mongo.logged (.find cName (.obj q) (.obj (projectionOf fields)))).fault with
    | some e => rfl
    | none => rfl
  have hn0 : normalizeQuery [("$where", w)]
      = [("$query", .obj [("$where", w), ("_type", .obj [("$ne", .null)])])] := rfl
  refine ⟨by simp [hn0, checkQuery, getProp, assocGet, Segment.name, hdefault, hw, truthy],
    by rw [hn1, hc1], ?_,
    by simp [mentionsWhere, mentionsWhereList, mentionsWhereMembers], ?_, ?_,
    by simp [mentionsWhere, mentionsWhereList, mentionsWhereMembers]⟩
  · unfold queryProjected
    rw [hcheck]
    simp only [hn1, hc1]
    have hmode : (JVal.undef = JVal.str "poll") = False := by simp
    simp only [hmode, if_false]
    exact hq _ rfl rfl
  · unfold queryDocProjected
    rw [hcheck]
    simp only [hn1, hc1, hpoll]
    rfl
  · unfold queryProjected
    rw [hcheck]
    simp only [hn2, hc2]
    have hmode : (JVal.undef = JVal.str "poll") = False := by simp
    simp only [hmode, if_false]
    exact hq _ rfl rfl

/-- Witness for C33: on the sample adapter, made without options, the query
`{$or: [{$where: 'sleep(1000)'}]}` is handed to the store as it is, with the
filter on `_type` added. -/
theorem nested_where_reaches_store_witness :
    (queryProjected sampleDriver sampleAdapter "users" none
        [("$or", .arr [.obj [("$where", .str "sleep(1000)")]])] (.given .undef)).db.mongo.log
      = [.find "users"
          (.obj [("$query", .obj [("$or", .arr [.obj [("$where", .str "sleep(1000)")]]),
            ("_type", .obj [("$ne", .null)])])])
          (.obj [])]
    ∧ mentionsWhere
        (.obj [("$query", .obj [("$or", .arr [.obj [("$where", .str "sleep(1000)")]]),
          ("_type", .obj [("$ne", .null)])])]) = true :=
  have h := nested_where_reaches_store sampleDriver sampleAdapter "users" "fred" none
    (.str "sleep(1000)") (by decide) (by decide) (by decide) (by decide)
  ⟨h.2.2.1, h.2.2.2.1⟩

end LiveDbMongo

open JS JS.JVal RemoteDoc
namespace RemoteDoc

/-- Counterexample for C34: on the snapshot `{items: ['a', 'b']}`,
`set(['items', 2], 'c')` submits the `ListReplaceOp` with path `['items', 2]`,
`li = 'c'` and an undefined `ld`, and `_onOp`, fed this op, emits `insert` at
`['notes', 'doc', 'items']` with the index 2 and `['c']`, not `change` at
`['notes', 'doc', 'items', 2]`. -/
theorem set_at_array_end_seen_as_insert :
    (set sampleEnv (sampleDoc (.obj [("items", .arr [.str "a", .str "b"])]))
        [.key "items", .idx 2] (.str "c")).calls
      = [.submitOp (.list [.listReplace [.key "items", .idx 2] .undef (.str "c")]) true]
    ∧ _onOp (sampleRemote (.obj [("items", .arr [.str "a", .str "b"])]))
        [(Op.listReplace [.key "items", .idx 2] .undef (.str "c")).component]
      = .value [.insert [.key "notes", .key "doc", .key "items"] (.idx 2) [.str "c"]
          [("$remote", .bool true)]]
    ∧ _onOp (sampleRemote (.obj [("items", .arr [.str "a", .str "b"])]))
        [(Op.listReplace [.key "items", .idx 2] .undef (.str "c")).component]
      ≠ .value [.change [.key "notes", .key "doc", .key "items", .idx 2] (.str "c") .undef
          [("$remote", .bool true)]] := by
  decide

/-- C34 (amended): for every typed document, every path `P` all of whose
proper ancestors hold truthy values and every defined value, `set(P, value)`
submits one op of one component, and `_onOp` of any RemoteDoc, fed that op,
emits exactly one event: when `P` ends in an array index at which nothing is
stored (the value at `P` is `undefined`), `insert` at
`[collectionName, id] ++ P` without its last segment, with that segment and
`[value]`; in every other case `change` at `[collectionName, id] ++ P` with
`value` and the value at `P` before the set. -/
theorem set_seen_remotely (env : ShareEnv) (d : State) (P : Path) (value : JVal)
    (r : Remote) (ht : d.typed = true) (hanc : AncestorsTruthy P d.snapshot)
    (hval : value ≠ .undef) :
    ∃ c : Op, (set env d P value).calls = [.submitOp (.list [c]) true]
      ∧ ((isArrayIndex P.getLast? = true ∧ lookup P d.snapshot = .undef) →
          _onOp r [c.component]
            = .value [.insert (.key r.collectionName :: .key r.doc.id :: P.dropLast)
                (segOr P.getLast?) [value] r.pass])
      ∧ (¬ (isArrayIndex P.getLast? = true ∧ lookup P d.snapshot = .undef) →
          _onOp r [c.component]
            = .value [.change (.key r.collectionName :: .key r.doc.id :: P) value
                (lookup P d.snapshot) r.pass]) := by
  refine ⟨replaceOp P (lookup P d.snapshot) value, ?_, ?_, ?_⟩
  · rw [set_submits_aux env d P value ht hanc]
  · rintro ⟨hidx, hprev⟩
    have hne : P ≠ [] := by
      intro h; subst h; simp [isArrayIndex] at hidx
    have hlast : P.getLast? = some (P.getLast hne) := List.getLast?_eq_getLast _ _
    have hE : (Segment.key r.collectionName :: Segment.key r.doc.id :: P).getLast
        (List.cons_ne_nil _ _) = P.getLast hne := by
      rw [List.getLast_cons (List.cons_ne_nil _ _), List.getLast_cons hne]
    have hD : (Segment.key r.collectionName :: Segment.key r.doc.id :: P).dropLast
        = .key r.collectionName :: .key r.doc.id :: P.dropLast := by
      cases P with
      | nil => exact absurd rfl hne
      | cons a t => rfl
    unfold replaceOp
    rw [if_pos hidx, hprev, nullIfUndef_of_ne value hval]
    unfold _onOp
    simp only [Op.component, defined_undef, defined_of_ne _ hval, Bool.or_self,
      Bool.false_eq_true, if_false, Bool.and_false, if_true, jsSlice_dropLast, hE, hD, hlast,
      segOr]
  · intro hcase
    unfold replaceOp
    rw [nullIfUndef_of_ne value hval]
    by_cases hidx : isArrayIndex P.getLast? = true
    · have hprev : lookup P d.snapshot ≠ .undef := fun h => hcase ⟨hidx, h⟩
      rw [if_pos hidx]
      unfold _onOp
      simp only [Op.component, defined_undef, defined_of_ne _ hval, defined_of_ne _ hprev,
        Bool.or_self, Bool.false_eq_true, if_false, Bool.and_self, if_true]
    · rw [if_neg hidx]
      unfold _onOp
      simp only [Op.component, defined_of_ne _ hval, Bool.true_or, if_true]

/-- Witness for C34 (amended): on `{items: ['a', 'b'], title: 'x'}`, a set of
`title` and a set of `items.1` are seen as `change`, a set of `items.2` as
`insert`. -/
theorem set_seen_remotely_witness :
    (∃ c : Op,
      (set sampleEnv (sampleDoc (.obj [("items", .arr [.str "a", .str "b"]), ("title", .str "x")]))
          [.key "title"] (.str "y")).calls = [.submitOp (.list [c]) true]
      ∧ _onOp (sampleRemote .null) [c.component]
        = .value [.change [.key "notes", .key "doc", .key "title"] (.str "y") (.str "x")
            [("$remote", .bool true)]])
    ∧ (∃ c : Op,
      (set sampleEnv (sampleDoc (.obj [("items", .arr [.str "a", .str "b"]), ("title", .str "x")]))
          [.key "items", .idx 2] (.str "c")).calls = [.submitOp (.list [c]) true]
      ∧ _onOp (sampleRemote .null) [c.component]
        = .value [.insert [.key "notes", .key "doc", .key "items"] (.idx 2) [.str "c"]
            [("$remote", .bool true)]]) := by
  obtain ⟨c1, h1, _, h1c⟩ := set_seen_remotely sampleEnv
    (sampleDoc (.obj [("items", .arr [.str "a", .str "b"]), ("title", .str "x")]))
    [.key "title"] (.str "y") (sampleRemote .null) rfl (by decide) (by decide)
  obtain ⟨c2, h2, h2i, _⟩ := set_seen_remotely sampleEnv
    (sampleDoc (.obj [("items", .arr [.str "a", .str "b"]), ("title", .str "x")]))
    [.key "items", .idx 2] (.str "c") (sampleRemote .null) rfl (by decide) (by decide)
  exact ⟨⟨c1, h1, h1c (by decide)⟩, ⟨c2, h2, h2i (by decide)⟩⟩

/-- C35: `_onOp` reads the first component of the op only: two ops with the
same first component give the same outcome for the same RemoteDoc, whatever
their later components are, and the events emitted are at most one. So of the
components `insert` builds for several values, `remove` for several elements
and `move` for a count above 1, only the first is seen: one `insert` with the
first value, one `remove` with the first element, one `move` with a count of
1. -/
theorem onOp_first_component_only (r : Remote) (c : Component) (rest rest' : List Component) :
    _onOp r (c :: rest) = _onOp r (c :: rest')
    ∧ (∀ events, _onOp r (c :: rest) = .value events → events.length ≤ 1)
    ∧ (∀ (P : Path) (i : Int) (v : JVal) (vs : List JVal),
        _onOp r ((createInsertOp P i (.arr (v :: vs))).map Op.component)
          = .value [.insert (.key r.collectionName :: .key r.doc.id :: P) (.idx i)
              [nullIfUndef v] r.pass])
    ∧ (∀ (P : Path) (i : Int) (v : JVal) (vs : List JVal),
        _onOp r ((removeOps P i (v :: vs)).map Op.component)
          = .value [.remove (.key r.collectionName :: .key r.doc.id :: P) (.idx i)
              [nullIfUndef v] r.pass])
    ∧ (∀ (P : Path) (i j : Int) (n : Nat),
        _onOp r ((moveOps P i j ((n : Int) + 1)).map Op.component)
          = .value [.move (.key r.collectionName :: .key r.doc.id :: P)
              (.idx (if i < j then i else i + ((n : Int) + 1) - 1))
              (.num (if i < j then j + ((n : Int) + 1) - 1 else j)) 1 r.pass]) := by
  have hnull : ∀ v : JVal, defined (nullIfUndef v) = true := by
    intro v; cases v <;> rfl
  refine ⟨rfl, fun events h => onOp_length r _ events h, ?_, ?_, ?_⟩
  · intro P i v vs
    simp only [createInsertOp, createInsertLoop, ListInsertOp, castSegments, List.map_cons,
      Op.component]
    unfold _onOp
    simp only [defined_undef, hnull, Bool.or_self, Bool.false_eq_true, if_false,
      Bool.and_false, if_true, parent_path, last_segment]
  · intro P i v vs
    simp only [removeOps, ListRemoveOp, castSegments, List.map_cons, Op.component]
    unfold _onOp
    simp only [defined_undef, hnull, Bool.or_self, Bool.false_eq_true, if_false,
      Bool.false_and, if_true, parent_path, last_segment]
  · intro P i j n
    have hn : (((n : Int) + 1).toNat) = n + 1 := by omega
    simp only [moveOps, hn, List.replicate_succ, ListMoveOp, castSegments, List.map_cons,
      Op.component]
    unfold _onOp
    have hd : ∀ k : Int, defined (.num k) = true := fun _ => rfl
    simp only [defined_undef, hd, Bool.or_self, Bool.false_eq_true, if_false,
      Bool.and_self, if_true, parent_path, last_segment]

/-- Witness for C35: the op `insert` builds for the values `'x'` and `'y'` at
`items.0` emits one `insert` event, with `['x']`. -/
theorem onOp_first_component_only_witness :
    _onOp (sampleRemote .null)
        ((createInsertOp [.key "items"] 0 (.arr [.str "x", .str "y"])).map Op.component)
      = .value [.insert [.key "notes", .key "doc", .key "items"] (.idx 0) [.str "x"]
          [("$remote", .bool true)]] :=
  (onOp_first_component_only (sampleRemote .null) { p := [] } [] []).2.2.1
    [.key "items"] 0 (.str "x") [.str "y"]

/-- C36: for every typed document with an array `L` at `P`, `pop(P)` submits
exactly one op of one `ListRemove` component at `P ++ [|L| - 1]` and
`shift(P)` one at `P ++ [0]`, each with the element of `L` at that index as
`ld`, held as `ListRemoveOp` stores it (an element that is `undefined` as
`null`, as for the empty array), and each returns that element. For the empty
array `pop` addresses the index -1 and `shift` the index 0, both with
`ld = null`, and both return `undefined`. -/
theorem pop_shift_components (env : ShareEnv) (d : State) (P : Path) (L : List JVal)
    (ht : d.typed = true) (harr : lookup P d.snapshot = .arr L) :
    (pop env d P).calls
      = [.submitOp (.list [.listRemove (P ++ [.idx ((L.length : Int) - 1)])
          (nullIfUndef (L.getLast?.getD .undef))]) true]
    ∧ (pop env d P).ret = .val (L.getLast?.getD .undef)
    ∧ (shift env d P).calls
      = [.submitOp (.list [.listRemove (P ++ [.idx 0]) (nullIfUndef (L.head?.getD .undef))])
          true]
    ∧ (shift env d P).ret = .val (L.head?.getD .undef)
    ∧ (∀ x, L.getLast? = some x → x ≠ .undef →
        (pop env d P).calls
          = [.submitOp (.list [.listRemove (P ++ [.idx ((L.length : Int) - 1)]) x]) true])
    ∧ (∀ x, L.head? = some x → x ≠ .undef →
        (shift env d P).calls = [.submitOp (.list [.listRemove (P ++ [.idx 0]) x]) true])
    ∧ (L = [] →
        (pop env d P).calls = [.submitOp (.list [.listRemove (P ++ [.idx (-1)]) .null]) true]
        ∧ (pop env d P).ret = .val .undef
        ∧ (shift env d P).calls
          = [.submitOp (.list [.listRemove (P ++ [.idx 0]) .null]) true]
        ∧ (shift env d P).ret = .val .undef) := by
  have hpop : (pop env d P).calls
        = [.submitOp (.list [.listRemove (P ++ [.idx ((L.length : Int) - 1)])
            (nullIfUndef (L.getLast?.getD .undef))]) true]
      ∧ (pop env d P).ret = .val (L.getLast?.getD .undef) := by
    unfold pop
    rw [arrayApply_array env d P _ _ L ht harr]
    simp [getProp_last, ListRemoveOp, castSegments]
  have hshift : (shift env d P).calls
        = [.submitOp (.list [.listRemove (P ++ [.idx 0]) (nullIfUndef (L.head?.getD .undef))])
            true]
      ∧ (shift env d P).ret = .val (L.head?.getD .undef) := by
    unfold shift
    rw [arrayApply_array env d P _ _ L ht harr]
    simp [getProp_first, ListRemoveOp, castSegments]
  refine ⟨hpop.1, hpop.2, hshift.1, hshift.2, ?_, ?_, ?_⟩
  · intro x hx hdef
    rw [hpop.1, hx]
    simp only [Option.getD_some, nullIfUndef_of_ne x hdef]
  · intro x hx hdef
    rw [hshift.1, hx]
    simp only [Option.getD_some, nullIfUndef_of_ne x hdef]
  · intro hL
    subst hL
    exact ⟨hpop.1, hpop.2, hshift.1, hshift.2⟩

/-- Witness for C36: `pop` and `shift` on `{items: ['a', 'b', 'c']}`. -/
theorem pop_shift_components_witness :
    (pop sampleEnv (sampleDoc (.obj [("items", .arr [.str "a", .str "b", .str "c"])]))
        [.key "items"]).calls
      = [.submitOp (.list [.listRemove [.key "items", .idx 2] (.str "c")]) true]
    ∧ (pop sampleEnv (sampleDoc (.obj [("items", .arr [.str "a", .str "b", .str "c"])]))
        [.key "items"]).ret = .val (.str "c")
    ∧ (shift sampleEnv (sampleDoc (.obj [("items", .arr [.str "a", .str "b", .str "c"])]))
        [.key "items"]).calls
      = [.submitOp (.list [.listRemove [.key "items", .idx 0] (.str "a")]) true]
    ∧ (shift sampleEnv (sampleDoc (.obj [("items", .arr [.str "a", .str "b", .str "c"])]))
        [.key "items"]).ret = .val (.str "a") :=
  have h := pop_shift_components sampleEnv
    (sampleDoc (.obj [("items", .arr [.str "a", .str "b", .str "c"])])) [.key "items"]
    [.str "a", .str "b", .str "c"] rfl (by decide)
  ⟨h.1, h.2.1, h.2.2.1, h.2.2.2.1⟩

/-- Counterexample for C38: on a document that was never created, whose
snapshot is `undefined`, `stringRemove(['text'], 0, 1)` finds no value at the
path, and still calls `shareDoc.create('json0')`, after which the document has
a type and the snapshot `null`. -/
theorem stringRemove_creates_untyped_document :
    isNullish (lookup [.key "text"] .undef) = true
    ∧ (stringRemove json0Env
        { id := "doc", typed := false, snapshot := .undef, collectionData := .undef }
        [.key "text"] 0 1).calls = [.create .undef false]
    ∧ (stringRemove json0Env
        { id := "doc", typed := false, snapshot := .undef, collectionData := .undef }
        [.key "text"] 0 1).doc.snapshot = .null
    ∧ (stringRemove json0Env
        { id := "doc", typed := false, snapshot := .undef, collectionData := .undef }
        [.key "text"] 0 1).doc.typed = true := by
  decide

/-- C38 (amended): for every typed document with a text `s` at `P` and all
`index`, `count` that are not negative, `stringRemove(P, index, count)`
submits exactly one op, of the one component `StringRemove` with path
`P ++ [index]` and `sd = r`, where `r` is the part of `s` from `index` up to
`index + count` or the end of `s`, so of at most `count` characters, and
returns `s`. On a typed document where the value at `P` is `undefined` or
`null`, also for want of an ancestor, it makes no call on the share document
and leaves the document as it was. On a document without a type it calls
`shareDoc.create('json0')`, which gives the document its type and its first
snapshot, and when the value at `P` in that snapshot is `undefined` or `null`
it makes no other call. -/
theorem stringRemove_submits_present_part (env : ShareEnv) (d : State) (P : Path) :
    (∀ (s : String) (index count : Nat), d.typed = true → lookup P d.snapshot = .str s →
        (stringRemove env d P index count).calls
          = [.submitOp (.list [.stringRemove (P ++ [.idx index])
              (.str (String.mk ((s.data.drop index).take count)))]) true]
        ∧ (stringRemove env d P index count).ret = .val (.str s)
        ∧ (String.mk ((s.data.drop index).take count)).length ≤ count
        ∧ (s.data.drop index).take count
            = (s.data.take (min (index + count) s.length)).drop index)
    ∧ (∀ (index count : Int), d.typed = true → isNullish (lookup P d.snapshot) = true →
        (stringRemove env d P index count).doc = d
        ∧ (stringRemove env d P index count).calls = [])
    ∧ (∀ (index count : Int), d.typed = false →
        isNullish (lookup P (env.create .undef)) = true →
        (stringRemove env d P index count).doc
          = { d with typed := true, snapshot := env.create .undef }
        ∧ (stringRemove env d P index count).calls = [.create .undef false]) := by
  refine ⟨?_, ?_, ?_⟩
  · intro s index count ht hs
    have he := ensureCreated_typed env d ht
    have hpres : isNullish (lookup P (ensureCreated env d).1.snapshot) = false := by
      rw [he, hs]; rfl
    have hslice : sliceOf (lookup P (ensureCreated env d).1.snapshot) index count
        = some (.str (String.mk ((s.data.drop index).take count))) := by
      rw [he, hs]
      show some (JVal.str (String.mk (jsSlice s.data (index : Int) ((index : Int) + count))))
        = _
      rw [jsSlice_nat_any]
    rw [stringRemove_present_aux env d P index count _ hpres hslice, he]
    refine ⟨rfl, by rw [hs], ?_, ?_⟩
    · show ((s.data.drop index).take count).length ≤ count
      exact List.length_take_le _ _
    · have hl : s.length = s.data.length := rfl
      rw [hl, List.drop_take]
      by_cases hc : index + count ≤ s.data.length
      · rw [Nat.min_eq_left hc]
        congr 1
        omega
      · rw [Nat.min_eq_right (by omega)]
        rw [List.take_of_length_le (by simp; omega), List.take_of_length_le (by simp)]
  · intro index count ht habs
    have he := ensureCreated_typed env d ht
    have h := stringRemove_no_op_aux env d P index count (by rw [he]; exact habs)
    rw [he] at h
    exact h
  · intro index count ht habs
    have he := ensureCreated_untyped env d ht
    have h := stringRemove_no_op_aux env d P index count (by rw [he]; exact habs)
    rw [he] at h
    exact h

/-- Witness for C38 (amended): on `{text: 'hello'}`, removing 10 characters
at 3 submits `sd = 'lo'`, and removing at the missing `title.sub` does
nothing. -/
theorem stringRemove_submits_present_part_witness :
    (stringRemove sampleEnv (sampleDoc (.obj [("text", .str "hello")])) [.key "text"] 3 10).calls
      = [.submitOp (.list [.stringRemove [.key "text", .idx 3] (.str "lo")]) true]
    ∧ (stringRemove sampleEnv (sampleDoc (.obj [("text", .str "hello")]))
        [.key "title", .key "sub"] 0 1).calls = [] :=
  ⟨((stringRemove_submits_present_part sampleEnv (sampleDoc (.obj [("text", .str "hello")]))
      [.key "text"]).1 "hello" 3 10 rfl (by decide)).1,
   ((stringRemove_submits_present_part sampleEnv (sampleDoc (.obj [("text", .str "hello")]))
      [.key "title", .key "sub"]).2.1 0 1 rfl (by decide)).2⟩

/-- Counterexample for C37: in the snapshot `{a: 0}` no ancestor of the path
`['a', 'b']` is missing, and the value found at the path is `undefined`; but
`_createImplied` takes the `0` at `a` for a missing node, fabricates a
container and returns an implied op that inserts it at `['a']`. -/
theorem createImplied_zero_ancestor_builds_op :
    lookup [.key "a"] (.obj [("a", .num 0)]) = .num 0
    ∧ (OnHeap._createImplied (fun h => (h, .data .null))
        [Cell.mapping [("a", .data (.num 0))]] true (.ref 0) [.key "a", .key "b"]).2.2
      = .implied { list := false, pre := [.key "a"], key := .key "a", root := 1, value := 1 }
    ∧ (_createImplied sampleEnv (sampleDoc (.obj [("a", .num 0)])) [.key "a", .key "b"]).2.2
      ≠ .node .undef := by
  decide

/-- C37 (amended): for every typed document whose snapshot is in the store,
and every path `P`, `_createImplied` leaves `shareDoc.snapshot` and every
object the store held before the call as they were: it writes to containers it
has made itself only, which are new objects, the ones the implied op it
returns refers to among them; so, in a store without dangling references, no
object of before the call refers to a fabricated container, and the snapshot
reads as before to any depth. When it returns a node it has made no object at
all. It returns the value found at `P` (`undefined` when the final key is
absent), and builds no op, exactly when every proper ancestor of `P` holds a
truthy value; otherwise it returns an implied op. -/
theorem createImplied_leaves_snapshot (create : Heap → Heap × HVal) (h : Heap)
    (snapshot : HVal) (P : Path) :
    (OnHeap._createImplied create h true snapshot P).2.1 = snapshot
    ∧ h.length ≤ (OnHeap._createImplied create h true snapshot P).1.length
    ∧ (∀ a, a < h.length → (OnHeap._createImplied create h true snapshot P).1[a]? = h[a]?)
    ∧ (∀ o, (OnHeap._createImplied create h true snapshot P).2.2 = .implied o →
        h.length ≤ o.root ∧ h.length ≤ o.value)
    ∧ (h.Closed → ∀ a c, a < h.length →
        (OnHeap._createImplied create h true snapshot P).1[a]? = some c →
        ∀ b ∈ c.refs, b < h.length)
    ∧ (h.Closed → (∀ a, snapshot = .ref a → a < h.length) → ∀ depth,
        (OnHeap._createImplied create h true snapshot P).1.read depth snapshot
          = h.read depth snapshot)
    ∧ (∀ v, (OnHeap._createImplied create h true snapshot P).2.2 = .node v →
        (OnHeap._createImplied create h true snapshot P).1 = h)
    ∧ (OnHeap.AncestorsTruthy h P snapshot →
        OnHeap._createImplied create h true snapshot P
          = (h, snapshot, .node (OnHeap.lookup h P snapshot)))
    ∧ (¬ OnHeap.AncestorsTruthy h P snapshot →
        ∃ o, (OnHeap._createImplied create h true snapshot P).2.2 = .implied o) := by
  have hdef : OnHeap._createImplied create h true snapshot P
      = ((OnHeap.createImpliedLoop P P 1 h (.data (.obj [])) (.key "snapshot") snapshot none).1,
          snapshot,
          (OnHeap.createImpliedLoop P P 1 h (.data (.obj [])) (.key "snapshot") snapshot none).2) :=
    rfl
  obtain ⟨h1, h2, h3⟩ := heapLoop_frame P h.length P 1 h (.data (.obj [])) (.key "snapshot")
    snapshot none (le_refl _) (by intro o ho; cases ho)
  have hnode : ∀ v,
      (OnHeap.createImpliedLoop P P 1 h (.data (.obj [])) (.key "snapshot") snapshot none).2
        = .node v →
      (OnHeap.createImpliedLoop P P 1 h (.data (.obj [])) (.key "snapshot") snapshot none).1
        = h := by
    intro v hv
    by_cases ha : OnHeap.AncestorsTruthy h P snapshot
    · rw [heapLoop_truthy P P 1 h _ _ snapshot ha]
    · obtain ⟨o, ho⟩ := heapLoop_falsy P P 1 h (.data (.obj [])) (.key "snapshot") snapshot ha
      rw [ho] at hv
      cases hv
  rw [hdef]
  refine ⟨rfl, h1, h2, fun o ho => ⟨(h3 o ho).2, (h3 o ho).1⟩, ?_, ?_, hnode, ?_, ?_⟩
  · intro hc a c ha hcell b hb
    rw [h2 a ha] at hcell
    exact hc c (List.getElem?_mem hcell) b hb
  · intro hc hs depth
    exact read_frame h _ hc h2 depth snapshot hs
  · intro ha
    rw [heapLoop_truthy P P 1 h _ _ snapshot ha]
  · intro ha
    exact heapLoop_falsy P P 1 h _ _ snapshot ha

/-- Witness for C37 (amended): in a store that holds `{a: {}}`, the path
`['a', 'b', 'c']` has the falsy ancestor `a.b`: the call makes one container,
at the next address, and leaves the two objects of the snapshot as they
were, and its implied op is the one the call returns on the snapshot as a
value; the path `['a', 'b']` has truthy ancestors, and the call returns
`undefined` and the store as it was. -/
theorem createImplied_leaves_snapshot_witness :
    (OnHeap._createImplied (fun h => (h, .data .null))
        [Cell.mapping [("a", .ref 1)], Cell.mapping []] true (.ref 0)
        [.key "a", .key "b", .key "c"]).1
      = [Cell.mapping [("a", .ref 1)], Cell.mapping [], Cell.mapping []]
    ∧ (OnHeap._createImplied (fun h => (h, .data .null))
        [Cell.mapping [("a", .ref 1)], Cell.mapping []] true (.ref 0)
        [.key "a", .key "b", .key "c"]).2.2
      = .implied
          { list := false, pre := [.key "a", .key "b"], key := .key "b", root := 2, value := 2 }
    ∧ (_createImplied sampleEnv (sampleDoc (.obj [("a", .obj [])]))
        [.key "a", .key "b", .key "c"]).2.2
      = .implied
          { list := false, pre := [.key "a", .key "b"], key := .key "b", frames := [],
            value := .obj [] }
    ∧ OnHeap._createImplied (fun h => (h, .data .null))
        [Cell.mapping [("a", .ref 1)], Cell.mapping []] true (.ref 0) [.key "a", .key "b"]
      = ([Cell.mapping [("a", .ref 1)], Cell.mapping []], .ref 0, .node (.data .undef)) :=
  ⟨by decide, by decide, by decide,
    (createImplied_leaves_snapshot (fun h => (h, .data .null))
      [Cell.mapping [("a", .ref 1)], Cell.mapping []] (.ref 0)
      [.key "a", .key "b"]).2.2.2.2.2.2.2.1 (by decide)⟩

/-- C39: for all texts `previous` and `value`, `onTextInput`, with more tests
allowed to each loop than the shorter text has characters, returns, having
made no call when the texts are equal, and otherwise at most one
`_stringRemove(start, howMany)`, made only for a `howMany` above 0, followed
by at most one `_stringInsert(start, inserted)`, made only for a text
`inserted` that is not empty, where `start + end` is at most the length of
either text; and taking `howMany` characters out of `previous` at `start` and
then putting `inserted` in at `start` gives exactly `value`. -/
theorem onTextInput_single_splice (previous value : String) (segments : Path) (fuel : Nat)
    (hfuel : min previous.length value.length < fuel) :
    ∃ calls, onTextInput fuel (some previous) segments value = some calls
      ∧ (previous = value → calls = [])
      ∧ (∃ start e : Nat, start + e ≤ previous.length ∧ start + e ≤ value.length
          ∧ calls
            = (if previous.length ≠ start + e then
                [TextCall._stringRemove segments start ((previous.length : Int) - start - e)]
              else [])
              ++ (if value.length ≠ start + e then
                [TextCall._stringInsert segments start
                  (String.mk ((value.data.drop start).take (value.length - e - start)))]
              else []))
      ∧ (∀ segs index howMany, TextCall._stringRemove segs index howMany ∈ calls → 0 < howMany)
      ∧ (∀ segs index text, TextCall._stringInsert segs index text ∈ calls → text ≠ "")
      ∧ applyTextCalls previous calls = value := by
  have hpl : previous.length = previous.data.length := rfl
  have hvl : value.length = value.data.length := rfl
  by_cases heq : previous = value
  · refine ⟨[], ?_, fun _ => rfl, ⟨previous.length, 0, by omega, by rw [heq]; omega, ?_⟩, ?_, ?_,
      ?_⟩
    · unfold onTextInput
      simp [heq]
    · rw [if_neg (by simp), if_neg (by rw [heq]; simp)]
      rfl
    · intro _ _ _ h; cases h
    · intro _ _ _ h; cases h
    · exact heq
  · obtain ⟨start, e, hscan, hle, htake, hdrop, _⟩ := scans_aux previous value heq
    obtain ⟨hs, he⟩ := hscan fuel hfuel
    have hp : start + e ≤ previous.data.length := by omega
    have hv : start + e ≤ value.data.length := by omega
    have hcalls : onTextInput fuel (some previous) segments value
        = some ((if previous.length ≠ start + e then
              [TextCall._stringRemove segments start ((previous.length : Int) - start - e)]
            else [])
            ++ (if value.length ≠ start + e then
              [TextCall._stringInsert segments start
                (String.mk (jsSlice value.data start ((value.length : Int) - e)))]
            else [])) := by
      unfold onTextInput
      simp only [Option.getD_some, if_neg heq, hs, he]
    have hins : jsSlice value.data (start : Int) ((value.length : Int) - e)
        = (value.data.drop start).take (value.length - e - start) :=
      inserted_slice value.data start e hv
    refine ⟨_, hcalls, fun h => absurd h heq, ⟨start, e, hp, hv, by rw [hins]⟩, ?_, ?_, ?_⟩
    · intro segs index howMany hm
      rcases List.mem_append.mp hm with h | h
      · split at h
        · next hc =>
          rw [List.mem_singleton] at h
          cases h
          have : previous.length ≠ start + e := hc
          omega
        · cases h
      · split at h
        · rw [List.mem_singleton] at h; cases h
        · cases h
    · intro segs index text hm
      rcases List.mem_append.mp hm with h | h
      · split at h
        · rw [List.mem_singleton] at h; cases h
        · cases h
      · split at h
        · next hc =>
          rw [List.mem_singleton] at h
          cases h
          intro hempty
          have hlen : (jsSlice value.data (start : Int) ((value.length : Int) - e)).length
              = 0 := congrArg String.length hempty
          rw [hins, List.length_take, List.length_drop] at hlen
          have hc' : value.length ≠ start + e := hc
          omega
        · cases h
    · exact splice_aux previous value segments start e hp hv htake hdrop

/-- Witness for C39: from `'hello world'` to `'hello there'` the calls are
`_stringRemove(6, 5)` and `_stringInsert(6, 'there')`. -/
theorem onTextInput_single_splice_witness :
    onTextInput 12 (some "hello world") [.key "text"] "hello there"
      = some [._stringRemove [.key "text"] 6 5, ._stringInsert [.key "text"] 6 "there"]
    ∧ applyTextCalls "hello world"
        [._stringRemove [.key "text"] 6 5, ._stringInsert [.key "text"] 6 "there"]
      = "hello there" := by
  obtain ⟨calls, h, _, _, _, _, happ⟩ :=
    onTextInput_single_splice "hello world" "hello there" [.key "text"] 12 (by decide)
  have hd : onTextInput 12 (some "hello world") [.key "text"] "hello there"
      = some [._stringRemove [.key "text"] 6 5, ._stringInsert [.key "text"] 6 "there"] := by
    decide
  have hc : calls
      = [._stringRemove [.key "text"] 6 5, ._stringInsert [.key "text"] 6 "there"] :=
    Option.some.inj (h.symm.trans hd)
  rw [hc] at happ
  exact ⟨hd, happ⟩

/-- C40: for all texts `previous` and `value` that differ, both loops of
`onTextInput` end, with the same `start` and `end` whenever more tests are
allowed than the shorter text has characters; `previous` and `value` have the
same first `start` and the same last `end` characters and differ at `start`;
`start + end` is at most the length of either text, so `howMany` is not
negative and the slice `inserted` has `|value| - end - start` characters; and
`onTextInput` returns. -/
theorem onTextInput_loops_end (previous value : String) (hne : previous ≠ value) :
    ∃ start e : Nat,
      (∀ fuel, min previous.length value.length < fuel →
        scanStart previous value fuel 0 = some start
        ∧ scanEnd previous value start fuel 0 = some e)
      ∧ start + e ≤ min previous.length value.length
      ∧ previous.data.take start = value.data.take start
      ∧ previous.data.drop (previous.length - e) = value.data.drop (value.length - e)
      ∧ charAt previous start ≠ charAt value start
      ∧ 0 ≤ (previous.length : Int) - start - e
      ∧ (jsSlice value.data start ((value.length : Int) - e)).length + e + start = value.length
      ∧ (∀ segments fuel, min previous.length value.length < fuel →
          ∃ calls, onTextInput fuel (some previous) segments value = some calls) := by
  have hpl : previous.length = previous.data.length := rfl
  have hvl : value.length = value.data.length := rfl
  obtain ⟨start, e, hscan, hle, htake, hdrop, hmis⟩ := scans_aux previous value hne
  have hv : start + e ≤ value.data.length := by omega
  refine ⟨start, e, hscan, hle, htake, hdrop, hmis, by omega, ?_, ?_⟩
  · rw [hvl, inserted_slice value.data start e hv, List.length_take, List.length_drop]
    omega
  · intro segments fuel hfuel
    obtain ⟨hs, he⟩ := hscan fuel hfuel
    unfold onTextInput
    simp only [Option.getD_some, if_neg hne, hs, he]
    exact ⟨_, rfl⟩

/-- Witness for C40: for `'hello world'` and `'hello there'` the loops end with
`start = 6` and `end = 0`. -/
theorem onTextInput_loops_end_witness :
    "hello world" ≠ "hello there"
    ∧ scanStart "hello world" "hello there" 12 0 = some 6
    ∧ scanEnd "hello world" "hello there" 6 12 0 = some 0
    ∧ ∃ start e : Nat,
        scanStart "hello world" "hello there" 12 0 = some start
        ∧ scanEnd "hello world" "hello there" start 12 0 = some e
        ∧ start + e ≤ 11 := by
  obtain ⟨start, e, hscan, hle, _⟩ :=
    onTextInput_loops_end "hello world" "hello there" (by decide)
  exact ⟨by decide, by decide, by decide, start, e, (hscan 12 (by decide)).1,
    (hscan 12 (by decide)).2, hle⟩

end RemoteDoc
